import Mathlib

/-!
# ProxyBusObject: property cache, PropertiesChanged dispatch, match-rule bookkeeping

A shallow embedding of `alljoyn_core/src/ProxyBusObject.cc`.

* `CachedProps` (the per-interface property cache) is embedded function by
  function: `Get`, `GetAll`, `IsValidMessageSerial`, `IsCacheable`, `Set`,
  `SetAll`, `PropertiesChanged`, `Enable`.
* `ProxyBusObject::Internal` is a record of the fields the embedded member
  functions read or write; member functions become state-passing functions.
* Locks are dropped: every embedded function is one atomic step. A wait on a
  condition variable is a step that can only complete once the event it waits
  for has been delivered (see `Sys.waitAddMatchDone`).
* `uint32_t` values are natural numbers with explicit reduction modulo `2^32`.
-/

namespace ajn

/-! ## Collaborator types (declared outside `ProxyBusObject.cc`) -/

/-- Modelled from the spec: the status codes of `Status.h` that the embedded
functions return or compare against. -/
inductive QStatus where
  | ER_OK
  | ER_FAIL
  | ER_BUS_BAD_SIGNATURE
  | ER_BUS_OBJECT_NO_SUCH_INTERFACE
  | ER_BUS_NO_SUCH_PROPERTY
  | ER_DEADLOCK
  | ER_BUS_ENDPOINT_CLOSING
  | ER_BUS_BLOCKING_CALL_NOT_ALLOWED
  | ER_BUS_SECURITY_NOT_ENABLED
  | ER_BUS_NO_SUCH_INTERFACE
  | ER_BUS_INTERFACE_NO_SUCH_MEMBER
  | ER_BUS_REPLY_IS_ERROR_MESSAGE
  | ER_PERMISSION_DENIED
  | ER_BUS_IFACE_ALREADY_EXISTS
  | ER_BUS_STOPPING
  | ER_ALERTED_THREAD
  | ER_BUS_METHOD_CALL_ABORTED
  | ER_TIMEOUT
  | ER_BUS_OBJ_NOT_FOUND
  | ER_BUS_OBJ_ALREADY_EXISTS
  | ER_BUS_BAD_CHILD_PATH
  | other (code : Nat)
  deriving DecidableEq, Repr

/-- Modelled from the spec: a marshaled argument value (`MsgArg`), the
"marshaling format for argument values" the core consumes. Only the shapes
that `ProxyBusObject.cc` builds or takes apart are distinguished. -/
inductive MsgArg where
  | invalid : MsgArg
  | str (s : String) : MsgArg
  | uint32 (n : Nat) : MsgArg
  | uint16 (n : Nat) : MsgArg
  | variant (v : MsgArg) : MsgArg
  | dictEntry (key : MsgArg) (val : MsgArg) : MsgArg
  | array (elems : List MsgArg) : MsgArg
  deriving Repr

namespace MsgArg

/-- Modelled from the spec: `arg.Get("s", &str)`. -/
def getS : MsgArg → Option String
  | str s => some s
  | _ => none

/-- Modelled from the spec: `arg.Get("v", &inner)`, the value inside a variant. -/
def getV : MsgArg → Option MsgArg
  | variant v => some v
  | _ => none

/-- Modelled from the spec: `arg.Get("{sv}", &prop, &val)`; `val` is the value
inside the variant of the dictionary entry. -/
def getSV : MsgArg → Option (String × MsgArg)
  | dictEntry (str k) (variant v) => some (k, v)
  | _ => none

/-- Modelled from the spec: `arg.Get("a{sv}", &nelem, &elems)`: the argument is
an array all of whose elements are `{sv}` dictionary entries. -/
def getASV : MsgArg → Option (List MsgArg)
  | array elems => if elems.all (fun e => e.getSV.isSome) then some elems else none
  | _ => none

/-- Modelled from the spec: `arg.Get("as", &nelem, &elems)`: the argument is an
array all of whose elements are strings. -/
def getAS : MsgArg → Option (List MsgArg)
  | array elems => if elems.all (fun e => e.getS.isSome) then some elems else none
  | _ => none

/-- Modelled from the spec: the pointer `inner` after `it->second.Get("v", &inner)`
in `CachedProps::GetAll`; when the stored value is not a variant the call fails
and the source leaves `inner` unset, which is rendered as `invalid` here. -/
def inner (a : MsgArg) : MsgArg :=
  match a.getV with
  | some v => v
  | none => invalid

end MsgArg

/-- Modelled from the spec: `InterfaceDescription::Property`, reduced to the
fields read by the property cache. -/
structure Property where
  name : String
  cacheable : Bool
  deriving DecidableEq, Repr

/-- Modelled from the spec: the security policy of an interface
(`InterfaceSecurityPolicy`). -/
inductive InterfaceSecurityPolicy where
  | AJ_IFC_SECURITY_INHERIT
  | AJ_IFC_SECURITY_REQUIRED
  | AJ_IFC_SECURITY_OFF
  deriving DecidableEq, Repr

/-- Modelled from the spec: `InterfaceDescription::Member`. The pointer `iface`
of the source is rendered by the two things read through it: the name and the
security policy of the interface that declares the member. -/
structure Member where
  name : String
  ifaceName : String
  ifaceSecPolicy : InterfaceSecurityPolicy := InterfaceSecurityPolicy.AJ_IFC_SECURITY_INHERIT
  signature : String := ""
  deriving DecidableEq, Repr

/-- Modelled from the spec: the interface descriptor (name and property
metadata). In the source the properties are held in a map keyed by name. -/
structure InterfaceDescription where
  name : String
  properties : List Property
  members : List Member := []
  secPolicy : InterfaceSecurityPolicy := InterfaceSecurityPolicy.AJ_IFC_SECURITY_INHERIT
  deriving DecidableEq, Repr

namespace InterfaceDescription

/-- Modelled from the spec: `GetProperties()` without an output array returns the
number of properties. -/
def GetProperties (d : InterfaceDescription) : Nat := d.properties.length

/-- Modelled from the spec: `GetProperty(name)`, the property of that name or NULL. -/
def GetProperty (d : InterfaceDescription) (propname : String) : Option Property :=
  d.properties.find? (fun p => decide (p.name = propname))

/-- Modelled from the spec: `HasProperty(name)`. -/
def HasProperty (d : InterfaceDescription) (propname : String) : Bool :=
  (d.GetProperty propname).isSome

/-- Modelled from the spec: `HasCacheableProperties()`. -/
def HasCacheableProperties (d : InterfaceDescription) : Bool :=
  d.properties.any (fun p => p.cacheable)

/-- Modelled from the spec: `GetMember(name)`, the member of that name or NULL. -/
def GetMember (d : InterfaceDescription) (memberName : String) : Option Member :=
  d.members.find? (fun m => decide (m.name = memberName))

/-- Modelled from the spec: `GetSecurityPolicy()`. -/
def GetSecurityPolicy (d : InterfaceDescription) : InterfaceSecurityPolicy := d.secPolicy

/-- The property names of a descriptor. -/
def propertyNames (d : InterfaceDescription) : List String :=
  d.properties.map (fun p => p.name)

/-- A descriptor is well formed when no two properties share a name (the
source keeps them in a `std::map` keyed by name). -/
def WellFormed (d : InterfaceDescription) : Prop := d.propertyNames.Nodup

end InterfaceDescription

/-! ## `std::map<std::string, T>` as a key-ordered association list -/

/-- Lexicographic comparison of code sequences (the order of `std::string`). -/
def ltCodes : List Nat → List Nat → Bool
  | [], [] => false
  | [], _ :: _ => true
  | _ :: _, [] => false
  | a :: as, b :: bs => if a < b then true else if a = b then ltCodes as bs else false

/-- Codes of a string. -/
def codes (s : String) : List Nat := s.toList.map Char.toNat

/-- The key order of `std::map<std::string, _>`: `a < b`. -/
def keyLess (a b : String) : Bool := ltCodes (codes a) (codes b)

/-- A `std::map<std::string, V>`: entries in the order of iteration. -/
abbrev StrMap (V : Type) := List (String × V)

namespace StrMap

variable {V : Type}

/-- The expression `m.find(k)`: the mapped value, or `none` for `end()`. -/
def find : StrMap V → String → Option V
  | [], _ => none
  | (k', v) :: rest, k => if k' = k then some v else find rest k

/-- The statement `m[k] = v`: overwrite the slot of `k`, or create it at its
place in key order. -/
def assign : StrMap V → String → V → StrMap V
  | [], k, v => [(k, v)]
  | (k', v') :: rest, k, v =>
    if keyLess k k' then (k, v) :: (k', v') :: rest
    else if k' = k then (k, v) :: rest
    else (k', v') :: assign rest k v

/-- The statement `m.erase(k)`. -/
def erase : StrMap V → String → StrMap V
  | [], _ => []
  | (k', v') :: rest, k => if k' = k then erase rest k else (k', v') :: erase rest k

/-- The statement `m.insert(make_pair(k, v))`: no effect when `k` is present. -/
def insert (m : StrMap V) (k : String) (v : V) : StrMap V :=
  match m.find k with
  | some _ => m
  | none => m.assign k v

/-- The keys in iteration order. -/
def keys (m : StrMap V) : List String := m.map Prod.fst

/-- Keys strictly increasing: the representation invariant of a `std::map`. -/
def Ordered (m : StrMap V) : Prop := m.keys.Pairwise (fun a b => keyLess a b = true)

end StrMap

/-! ## `CachedProps` -/

/-- The value map `CachedProps::ValueMap`. -/
abbrev ValueMap := StrMap MsgArg

/-- The data members of `class CachedProps` (the mutex apart). -/
structure CachedProps where
  values : ValueMap
  description : InterfaceDescription
  isFullyCacheable : Bool
  numProperties : Nat
  lastMessageSerial : Nat
  enabled : Bool

namespace CachedProps

/-- The loop of the constructor: `isFullyCacheable` stays true unless a
property with `cacheable == false` is met. -/
def ctorLoop : List Property → Bool
  | [] => true
  | p :: rest => if p.cacheable = false then false else ctorLoop rest

/-- The constructor `CachedProps(const InterfaceDescription* intf)`. -/
def ctor (intf : InterfaceDescription) : CachedProps :=
  let numProperties := intf.GetProperties
  { values := []
    description := intf
    isFullyCacheable := if numProperties > 0 then ctorLoop intf.properties else false
    numProperties := numProperties
    lastMessageSerial := 0
    enabled := false }

/-- Subtraction of `uint32_t` values. -/
def u32sub (a b : Nat) : Nat := (a + 2 ^ 32 - b % 2 ^ 32) % 2 ^ 32

/-- The function `CachedProps::Get`: the cached value, `none` for `found == false`. -/
def Get (c : CachedProps) (propname : String) : Option MsgArg :=
  c.values.find propname

/-- The function `CachedProps::GetAll`: the `a{sv}` dictionary on a hit. -/
def GetAll (c : CachedProps) : Option MsgArg :=
  if !c.isFullyCacheable || c.numProperties == 0 then none
  else if c.values.length == c.numProperties then
    some (MsgArg.array (c.values.map (fun kv =>
      MsgArg.dictEntry (MsgArg.str kv.1) (MsgArg.variant kv.2.inner))))
  else none

/-- The function `CachedProps::IsValidMessageSerial`. -/
def IsValidMessageSerial (c : CachedProps) (messageSerial : Nat) : Bool :=
  let threshold := (1 <<< 31) % 2 ^ 32
  if messageSerial ≥ c.lastMessageSerial then
    decide (u32sub messageSerial c.lastMessageSerial < threshold)
  else
    decide (u32sub c.lastMessageSerial messageSerial > threshold)

/-- The function `CachedProps::IsCacheable`. -/
def IsCacheable (c : CachedProps) (propname : String) : Bool :=
  match c.description.GetProperty propname with
  | some prop => prop.cacheable
  | none => false

/-- The function `CachedProps::Set`. -/
def Set (c : CachedProps) (propname : String) (val : MsgArg) (messageSerial : Nat) :
    CachedProps :=
  if !c.IsCacheable propname then c
  else if !c.enabled then c
  else if !c.IsValidMessageSerial messageSerial then { c with values := [] }
  else { c with values := c.values.assign propname val, lastMessageSerial := messageSerial }

/-- The loop over `{sv}` entries shared by `SetAll` and `PropertiesChanged`:
`none` is `goto error` (an entry that does not parse). -/
def storeLoop (c : CachedProps) : List MsgArg → ValueMap → Option ValueMap
  | [], vals => some vals
  | e :: rest, vals =>
    match e.getSV with
    | none => none
    | some (prop, val) =>
      storeLoop c rest
        (if c.IsCacheable prop then vals.assign prop (MsgArg.variant val) else vals)

/-- The loop over the invalidated names of `PropertiesChanged`: `none` is
`goto error`. -/
def eraseLoop : List MsgArg → ValueMap → Option ValueMap
  | [], vals => some vals
  | e :: rest, vals =>
    match e.getS with
    | none => none
    | some prop => eraseLoop rest (vals.erase prop)

/-- The function `CachedProps::SetAll`. -/
def SetAll (c : CachedProps) (allValues : MsgArg) (messageSerial : Nat) : CachedProps :=
  if !c.enabled then c
  else
    match allValues.getASV with
    | none => { c with values := [] }
    | some elems =>
      if !c.IsValidMessageSerial messageSerial then { c with values := [] }
      else
        match storeLoop c elems c.values with
        | none => { c with values := [] }
        | some vals => { c with values := vals, lastMessageSerial := messageSerial }

/-- The function `CachedProps::PropertiesChanged`. -/
def PropertiesChanged (c : CachedProps) (changed : List MsgArg) (invalidated : List MsgArg)
    (messageSerial : Nat) : CachedProps :=
  if !c.enabled then c
  else if !c.IsValidMessageSerial messageSerial then { c with values := [] }
  else
    match storeLoop c changed c.values with
    | none => { c with values := [] }
    | some vals =>
      match eraseLoop invalidated vals with
      | none => { c with values := [] }
      | some vals2 => { c with values := vals2, lastMessageSerial := messageSerial }

/-- The function `CachedProps::Enable`. -/
def Enable (c : CachedProps) : CachedProps := { c with enabled := true }

end CachedProps

/-! ## Sequences of cache operations -/

/-- An update offered to a property cache: the reply of a `Get` call
(`CachedProps::Set`), the reply of a `GetAll` call (`CachedProps::SetAll`) or a
`PropertiesChanged` signal. -/
inductive Update where
  | Set (propname : String) (val : MsgArg) (messageSerial : Nat)
  | SetAll (allValues : MsgArg) (messageSerial : Nat)
  | PropertiesChanged (changed : List MsgArg) (invalidated : List MsgArg) (messageSerial : Nat)

namespace Update

/-- The serial number of the message that carries the update. -/
def serial : Update → Nat
  | Set _ _ s => s
  | SetAll _ s => s
  | PropertiesChanged _ _ s => s

/-- The payload parses: a `Get` reply carries a variant, a `GetAll` reply an
`a{sv}` dictionary, a signal `{sv}` entries and string names. -/
def WellFormed : Update → Bool
  | Set _ val _ => val.getV.isSome
  | SetAll allValues _ => allValues.getASV.isSome
  | PropertiesChanged changed invalidated _ =>
    changed.all (fun e => e.getSV.isSome) && invalidated.all (fun e => e.getS.isSome)

/-- The update is the reply of a `GetAll` call or a signal. -/
def isBulk : Update → Bool
  | Set _ _ _ => false
  | _ => true

end Update

/-- The variant carried by the last `{sv}` entry named `p`, if any. -/
def lastEntry (p : String) : List MsgArg → Option MsgArg
  | [] => none
  | e :: rest =>
    match lastEntry p rest with
    | some v => some v
    | none =>
      match e.getSV with
      | some (k, v) => if k = p then some (MsgArg.variant v) else none
      | none => none

/-- The name `p` occurs among the `{sv}` entries. -/
def namedIn (p : String) (entries : List MsgArg) : Bool :=
  entries.any (fun e => decide ((e.getSV.map Prod.fst) = some p))

/-- The name `p` occurs in a list of string arguments. -/
def listedIn (p : String) (names : List MsgArg) : Bool :=
  names.any (fun e => decide (e.getS = some p))

namespace Update

/-- The update invalidates `p`: it is a signal that lists `p` as invalidated. -/
def invalidates (u : Update) (p : String) : Bool :=
  match u with
  | PropertiesChanged _ invalidated _ => listedIn p invalidated
  | _ => false

/-- The value the update sets for `p`, if it sets `p`. -/
def carried (u : Update) (p : String) : Option MsgArg :=
  match u with
  | Set propname val _ => if propname = p then some val else none
  | SetAll allValues _ =>
    match allValues.getASV with
    | some elems => lastEntry p elems
    | none => none
  | PropertiesChanged changed invalidated _ =>
    if listedIn p invalidated then none else lastEntry p changed

end Update

/-- An operation on a property cache. -/
inductive CacheOp where
  | update (u : Update)
  | Enable

namespace CacheOp

/-- The operation is the call `Enable()`. -/
def isEnable : CacheOp → Bool
  | Enable => true
  | update _ => false

end CacheOp

namespace CachedProps

/-- Apply one update with the member function it stands for. -/
def update (c : CachedProps) : Update → CachedProps
  | Update.Set propname val s => c.Set propname val s
  | Update.SetAll allValues s => c.SetAll allValues s
  | Update.PropertiesChanged changed invalidated s => c.PropertiesChanged changed invalidated s

/-- Apply a sequence of updates, first to last. -/
def updates (c : CachedProps) (us : List Update) : CachedProps := us.foldl update c

/-- Apply one operation. -/
def step (c : CachedProps) : CacheOp → CachedProps
  | CacheOp.update u => c.update u
  | CacheOp.Enable => c.Enable

/-- Apply a sequence of operations, first to last. -/
def run (c : CachedProps) (ops : List CacheOp) : CachedProps := ops.foldl step c

/-- Every serial of the sequence passes `IsValidMessageSerial` against the
watermark the cache holds when the update arrives. -/
def validSerials (c : CachedProps) : List Update → Bool
  | [] => true
  | u :: rest => c.IsValidMessageSerial u.serial && validSerials (c.update u) rest

end CachedProps

/-- First alternative if present, else the second. -/
def overlay (a b : Option MsgArg) : Option MsgArg :=
  match a with
  | some v => some v
  | none => b

/-! ## `ProxyBusObject::Internal` and the `PropertiesChanged` signal handler -/

/-- The data members of `struct _PropertiesChangedCB`. A listener is identified
by its address, rendered as a number; `properties` is the set of monitored
names, empty for all properties. -/
structure PropertiesChangedCB where
  listener : Nat
  context : Nat
  properties : List String
  isRegistered : Bool
  numRunning : Int
  deriving DecidableEq, Repr

/-- The constructor of `_PropertiesChangedCB`. -/
def PropertiesChangedCB.ctor (listener : Nat) (properties : List String) (context : Nat) :
    PropertiesChangedCB :=
  { listener := listener, context := context, properties := properties,
    isRegistered := true, numRunning := 0 }

/-- The data members of `class MatchRuleInfo`. -/
structure MatchRuleInfo where
  adding : Bool
  refCount : Nat
  deriving DecidableEq, Repr

/-- Modelled from the spec: the type of a bus message (`AllJoynMessageType`). -/
inductive MessageType where
  | MESSAGE_INVALID
  | MESSAGE_METHOD_CALL
  | MESSAGE_METHOD_RET
  | MESSAGE_ERROR
  | MESSAGE_SIGNAL
  deriving DecidableEq, Repr

/-- Modelled from the spec: the parts of a bus message the proxy reads;
`errorName` is `GetErrorName()`, `none` for NULL. -/
structure Message where
  sender : String
  callSerial : Nat
  args : List MsgArg
  type : MessageType := MessageType.MESSAGE_INVALID
  errorName : Option String := none

/-- Modelled from the spec: `message->GetArgs("sa{sv}as", ...)`, the interface
name, the changed entries and the invalidated names; `none` for a status other
than `ER_OK`. -/
def Message.GetArgs (m : Message) : Option (String × List MsgArg × List MsgArg) :=
  match m.args with
  | [a0, a1, a2] =>
    match a0.getS, a1.getASV, a2.getAS with
    | some ifaceName, some changedProps, some invalidProps =>
      some (ifaceName, changedProps, invalidProps)
    | _, _, _ => none
  | _ => none

/-- The data members of `ProxyBusObject::Internal` that the embedded functions
read or write. Threads are identified by numbers; `handlerThreads` maps a thread
to the listener whose callback it is running, if any. The entries of
`propertiesChangedCBs` are kept in the order of insertion, which is the order
of the multimap among entries of one key. `retiredCBs` holds the callback
records that were erased from the table, with the `isRegistered` flag they were
left with; they can still be referenced by a dispatch in progress. -/
structure Internal where
  path : String := ""
  serviceName : String := ""
  uniqueName : String := ""
  hasProperties : Bool := false
  isSecure : Bool := false
  cacheProperties : Bool := false
  registeredPropChangedHandler : Bool := false
  handlerThreads : List (Nat × Option Nat) := []
  ifaces : StrMap InterfaceDescription := []
  caches : StrMap CachedProps := []
  matchRuleBookKeeping : StrMap MatchRuleInfo := []
  propertiesChangedCBs : List (String × PropertiesChangedCB) := []
  retiredCBs : List PropertiesChangedCB := []

/-- One call of `PropertiesChangedListener::PropertiesChanged`. -/
structure ListenerCall where
  listener : Nat
  ifaceName : String
  changed : MsgArg
  invalidated : MsgArg
  context : Nat

/-- The loop that copies the changed entries whose name the listener monitors
into `changedOutDict`. An entry that does not parse cannot occur after
`GetArgs` succeeded; the loop passes over it. -/
def filterChangedLoop (properties : List String) : List MsgArg → List MsgArg
  | [] => []
  | e :: rest =>
    match e.getSV with
    | some (propName, propValue) =>
      if propName ∈ properties then
        MsgArg.dictEntry (MsgArg.str propName) (MsgArg.variant propValue) ::
          filterChangedLoop properties rest
      else filterChangedLoop properties rest
    | none => filterChangedLoop properties rest

/-- The loop that copies the invalidated names the listener monitors into
`invalidOutArray`. -/
def filterInvalidLoop (properties : List String) : List MsgArg → List String
  | [] => []
  | e :: rest =>
    match e.getS with
    | some propName =>
      if propName ∈ properties then propName :: filterInvalidLoop properties rest
      else filterInvalidLoop properties rest
    | none => filterInvalidLoop properties rest

/-- The loop that copies all invalidated names into `invalidOutArray`. -/
def allInvalidLoop : List MsgArg → List String
  | [] => []
  | e :: rest =>
    match e.getS with
    | some propName => propName :: allInvalidLoop rest
    | none => allInvalidLoop rest

/-- The body of the dispatch loop of `PropertiesChangedHandler` for one
snapshot entry `ctx`: the call made to its listener, if any. -/
def notifyListener (ifaceName : String) (changedProps invalidProps : List MsgArg)
    (ctx : PropertiesChangedCB) : Option ListenerCall :=
  if ctx.isRegistered then
    if ctx.properties.isEmpty then
      let changedOut := MsgArg.array changedProps
      let changedOutDictSize := changedProps.length
      let invalidOutArray := allInvalidLoop invalidProps
      let invalidOutArraySize := invalidOutArray.length
      let invalidOut := MsgArg.array (invalidOutArray.map MsgArg.str)
      if changedOutDictSize > 0 || invalidOutArraySize > 0 then
        some { listener := ctx.listener, ifaceName := ifaceName, changed := changedOut,
               invalidated := invalidOut, context := ctx.context }
      else none
    else
      let changedOutDict := filterChangedLoop ctx.properties changedProps
      let changedOutDictSize := changedOutDict.length
      let changedOut :=
        if changedOutDictSize > 0 then MsgArg.array changedOutDict else MsgArg.array []
      let invalidOutArray := filterInvalidLoop ctx.properties invalidProps
      let invalidOutArraySize := invalidOutArray.length
      let invalidOut :=
        if invalidOutArraySize > 0 then MsgArg.array (invalidOutArray.map MsgArg.str)
        else MsgArg.array []
      if changedOutDictSize > 0 || invalidOutArraySize > 0 then
        some { listener := ctx.listener, ifaceName := ifaceName, changed := changedOut,
               invalidated := invalidOut, context := ctx.context }
      else none
  else none

namespace Internal

/-- The snapshot `handlers`: the registered entries of `propertiesChangedCBs`
under the key `ifaceName`, in the order of the multimap. -/
def snapshot (s : Internal) (ifaceName : String) : List PropertiesChangedCB :=
  (s.propertiesChangedCBs.filter
    (fun kv => decide (kv.1 = ifaceName) && kv.2.isRegistered)).map Prod.snd

/-- The function `ProxyBusObject::Internal::PropertiesChangedHandler`, run by
`thread` for `message`: the state afterwards and the listener calls made, in
order. Listener callbacks are taken not to call back into the proxy. -/
def PropertiesChangedHandler (s : Internal) (thread : Nat) (message : Message) :
    Internal × List ListenerCall :=
  if s.uniqueName ≠ message.sender then (s, [])
  else
    match message.GetArgs with
    | none => (s, [])
    | some (ifaceName, changedProps, invalidProps) =>
      let caches :=
        if s.cacheProperties then
          match s.caches.find ifaceName with
          | some c =>
            s.caches.assign ifaceName
              (c.PropertiesChanged changedProps invalidProps message.callSerial)
          | none => s.caches
        else s.caches
      let handlers := s.snapshot ifaceName
      let calls := handlers.filterMap (notifyListener ifaceName changedProps invalidProps)
      ({ s with caches := caches,
                handlerThreads := s.handlerThreads.filter (fun kv => decide (kv.1 ≠ thread)) },
        calls)

end Internal

/-- What the specification says a listener registered with the property subset
`ctx.properties` receives for a signal: the full lists for the empty subset,
else the entries and names of the subset, and no call when there is nothing to
report. -/
def expectedDelivery (ifaceName : String) (changedProps invalidProps : List MsgArg)
    (ctx : PropertiesChangedCB) : Option ListenerCall :=
  let wanted : String → Bool := fun n => ctx.properties.isEmpty || decide (n ∈ ctx.properties)
  let changedOut := changedProps.filter
    (fun e => match e.getSV with
      | some (n, _) => wanted n
      | none => false)
  let invalidOut := invalidProps.filter
    (fun e => match e.getS with
      | some n => wanted n
      | none => false)
  if changedOut.isEmpty && invalidOut.isEmpty then none
  else
    some { listener := ctx.listener, ifaceName := ifaceName, changed := MsgArg.array changedOut,
           invalidated := MsgArg.array invalidOut, context := ctx.context }

/-! ## Match-rule bookkeeping -/

/-- A call made on the bus attachment by the match-rule bookkeeping. -/
inductive BusCall where
  | RegisterSignalHandler (path : String)
  | AddMatchAsync (rule : String)
  | RemoveMatchNonBlocking (rule : String)
  deriving DecidableEq, Repr

/-- Modelled from the spec: the bus attachment as seen by the bookkeeping;
`AddMatchAsync rule` is the status the call returns, `addMatchReply rule` the
status its completion callback reports. -/
structure BusAttachment where
  AddMatchAsync : String → QStatus
  addMatchReply : String → QStatus
  GetInterface : String → Option InterfaceDescription := fun _ => none
  GetNameOwner : String → String := fun _ => ""

/-- Modelled from the spec: the name of the property-access interface
(`org::freedesktop::DBus::Properties::InterfaceName`). -/
def org.freedesktop.DBus.Properties.InterfaceName : String := "org.freedesktop.DBus.Properties"

/-- The apostrophe. -/
def quote : String := String.singleton (Char.ofNat 39)

/-- The match rule built in `AddPropertiesChangedRule` and
`RemovePropertiesChangedRule`. -/
def propertiesChangedRule (intf : String) : String :=
  "type=" ++ quote ++ "signal" ++ quote ++ ",interface=" ++ quote ++
    "org.freedesktop.DBus.Properties" ++ quote ++ ",member=" ++ quote ++
    "PropertiesChanged" ++ quote ++ ",arg0=" ++ quote ++ intf ++ quote

/-- Apply `f` to the value under `k`, if there is one (`it->second` after a
successful `find`). -/
def StrMap.modify {V : Type} (m : StrMap V) (k : String) (f : V → V) : StrMap V :=
  match m.find k with
  | some v => m.assign k (f v)
  | none => m

namespace Internal

/-- The statements `cit = caches.find(intf); if (cit != caches.end()) cit->second.Enable();`. -/
def enableCache (s : Internal) (intf : String) : Internal :=
  { s with caches := s.caches.modify intf CachedProps.Enable }

/-- The function `ProxyBusObject::Internal::AddMatchCB`; `ifaceName` is the
name held by the callback context, whose `addingRef` refers to the record of
that name. The status is not used. -/
def AddMatchCB (s : Internal) (_status : QStatus) (ifaceName : String) : Internal :=
  ({ s with matchRuleBookKeeping :=
        s.matchRuleBookKeeping.modify ifaceName (fun r => { r with adding := false }) }
    ).enableCache ifaceName

/-- The flag `it->second.adding` of the record of `intf`. -/
def isAdding (s : Internal) (intf : String) : Bool :=
  match s.matchRuleBookKeeping.find intf with
  | some r => r.adding
  | none => false

end Internal

/-- The proxy together with the bus side of the bookkeeping: the calls made on
the bus so far, oldest first, and the interface names whose `AddMatchAsync`
completion callback is still to be delivered. -/
structure Sys where
  pbo : Internal
  calls : List BusCall := []
  pending : List String := []

namespace Sys

/-- The bus delivers the completion callback of `intf`, if one is outstanding. -/
def deliver (bus : BusAttachment) (w : Sys) (intf : String) : Sys :=
  if intf ∈ w.pending then
    { w with
      pbo := w.pbo.AddMatchCB (bus.addMatchReply (propertiesChangedRule intf)) intf
      pending := w.pending.erase intf }
  else w

/-- The loop `while (it->second.adding) addMatchDone.Wait(lock)`: the waiting
thread resumes once the outstanding callback has been delivered; with the flag
set and no callback outstanding it never resumes (`none`). -/
def waitAddMatchDone (bus : BusAttachment) (w : Sys) (intf : String) : Option Sys :=
  if w.pbo.isAdding intf then
    if intf ∈ w.pending then some (w.deliver bus intf) else none
  else some w

/-- The second critical section of `AddPropertiesChangedRule`. -/
def addRuleTail (bus : BusAttachment) (w : Sys) (intf : String) (blocking : Bool) :
    Option Sys :=
  let w1 := if !w.pbo.isAdding intf then { w with pbo := w.pbo.enableCache intf } else w
  if blocking then w1.waitAddMatchDone bus intf else some w1

/-- The function `ProxyBusObject::Internal::AddPropertiesChangedRule`; `none`
when the call does not return: it waits for ever, or the assertion on the
property-access interface made before the signal handler is registered fails. -/
def AddPropertiesChangedRule (bus : BusAttachment) (w : Sys) (intf : String)
    (blocking : Bool) : Option Sys :=
  let callAddMatch := (w.pbo.matchRuleBookKeeping.find intf).isNone
  let book1 :=
    if callAddMatch then
      w.pbo.matchRuleBookKeeping.insert intf { adding := true, refCount := 0 }
    else w.pbo.matchRuleBookKeeping
  let book2 := book1.modify intf (fun r => { r with refCount := (r.refCount + 1) % 2 ^ 32 })
  let registerHandler := !w.pbo.registeredPropChangedHandler
  let pbo1 : Internal :=
    { w.pbo with matchRuleBookKeeping := book2, registeredPropChangedHandler := true }
  let calls1 :=
    if registerHandler then w.calls ++ [BusCall.RegisterSignalHandler w.pbo.path] else w.calls
  if registerHandler &&
      (bus.GetInterface org.freedesktop.DBus.Properties.InterfaceName).isNone then none
  else if callAddMatch then
    let rule := propertiesChangedRule intf
    let calls2 := calls1 ++ [BusCall.AddMatchAsync rule]
    if bus.AddMatchAsync rule ≠ QStatus.ER_OK then
      some
        { pbo := { pbo1 with
            matchRuleBookKeeping := book2.modify intf
              (fun r => { r with refCount := CachedProps.u32sub r.refCount 1 }) }
          calls := calls2
          pending := w.pending }
    else addRuleTail bus { pbo := pbo1, calls := calls2, pending := w.pending ++ [intf] } intf blocking
  else addRuleTail bus { pbo := pbo1, calls := calls1, pending := w.pending } intf blocking

/-- The function `ProxyBusObject::Internal::RemovePropertiesChangedRule`; `none`
when the call never returns. -/
def RemovePropertiesChangedRule (bus : BusAttachment) (w : Sys) (intf : String) : Option Sys :=
  match w.pbo.matchRuleBookKeeping.find intf with
  | none => some w
  | some _ =>
    match w.waitAddMatchDone bus intf with
    | none => none
    | some w1 =>
      match w1.pbo.matchRuleBookKeeping.find intf with
      | none => some w1
      | some r =>
        if CachedProps.u32sub r.refCount 1 == 0 then
          some { w1 with
            pbo := { w1.pbo with matchRuleBookKeeping := w1.pbo.matchRuleBookKeeping.erase intf }
            calls := w1.calls ++ [BusCall.RemoveMatchNonBlocking (propertiesChangedRule intf)] }
        else
          some { w1 with
            pbo := { w1.pbo with
              matchRuleBookKeeping := w1.pbo.matchRuleBookKeeping.assign intf
                { r with refCount := CachedProps.u32sub r.refCount 1 } } }

end Sys

/-- An event of the bookkeeping of one interface: an acquisition, a release, or
the delivery of the outstanding completion callback by the bus. -/
inductive RuleEvent where
  | add (blocking : Bool)
  | remove
  | deliver
  deriving DecidableEq, Repr

namespace RuleEvent

/-- The event is an acquisition. -/
def isAdd : RuleEvent → Bool
  | add _ => true
  | _ => false

/-- The event is a release. -/
def isRemove : RuleEvent → Bool
  | remove => true
  | _ => false

end RuleEvent

namespace Sys

/-- One event on the rule of `intf`. -/
def event (bus : BusAttachment) (intf : String) (w : Sys) : RuleEvent → Option Sys
  | RuleEvent.add blocking => w.AddPropertiesChangedRule bus intf blocking
  | RuleEvent.remove => w.RemovePropertiesChangedRule bus intf
  | RuleEvent.deliver => some (w.deliver bus intf)

/-- A sequence of events, first to last; `none` when a call never returns. -/
def events (bus : BusAttachment) (intf : String) (w : Sys) : List RuleEvent → Option Sys
  | [] => some w
  | e :: rest =>
    match w.event bus intf e with
    | none => none
    | some w1 => events bus intf w1 rest

/-- The record of `intf` in the registry. -/
def record (w : Sys) (intf : String) : Option MatchRuleInfo :=
  w.pbo.matchRuleBookKeeping.find intf

/-- The number of `AddMatchAsync` calls made for the rule of `intf`. -/
def addMatchCalls (w : Sys) (intf : String) : Nat :=
  w.calls.count (BusCall.AddMatchAsync (propertiesChangedRule intf))

/-- The number of `RemoveMatchNonBlocking` calls made for the rule of `intf`. -/
def removeMatchCalls (w : Sys) (intf : String) : Nat :=
  w.calls.count (BusCall.RemoveMatchNonBlocking (propertiesChangedRule intf))

end Sys

/-! ## Method calls -/

/-- Modelled from the spec: the message flag `ALLJOYN_FLAG_NO_REPLY_EXPECTED`. -/
def ALLJOYN_FLAG_NO_REPLY_EXPECTED : Nat := 0x01

/-- Modelled from the spec: the message flag `ALLJOYN_FLAG_ENCRYPTED`. -/
def ALLJOYN_FLAG_ENCRYPTED : Nat := 0x80

/-- The alert code `SYNC_METHOD_ALERTCODE_OK`. -/
def SYNC_METHOD_ALERTCODE_OK : Nat := 0

/-- The alert code `SYNC_METHOD_ALERTCODE_ABORT`. -/
def SYNC_METHOD_ALERTCODE_ABORT : Nat := 1

/-- Modelled from the spec: the well-known error name of a permission-denied
reply (`PermissionMgmtObj::ERROR_PERMISSION_DENIED`). -/
def PermissionMgmtObj.ERROR_PERMISSION_DENIED : String :=
  "org.alljoyn.Bus.Security.Error.PermissionDenied"

/-- Modelled from the spec: the error name of a reply that carries an AllJoyn
status code as its second argument (`org::alljoyn::Bus::ErrorName`). -/
def org.alljoyn.Bus.ErrorName : String := "org.alljoyn.Bus.ErStatus"

/-- Modelled from the spec: what the bus attachment, the local endpoint, the
router and the waiting thread answer in the course of one method call. Each
field is the result of the collaborator call of that name; `handlerInvokedEarly`
says that the reply handler had already been invoked when
`UnregisterReplyHandler` is called, `isExiting` is the flag of the proxy as read
after the send, `waitStatus`, `alertCode` and `reply` are the outcome of
`Event::Wait`, the alert code of the thread and the message stored by
`SyncReplyHandler`; `statusOfCode` and `codeOfStatus` are the numbering of
`Status.h`, `rawUint16` the `v_uint16` field of an argument of another type. -/
structure CallEnv where
  localEndpointValid : Bool := true
  IsReentrantCall : Bool := false
  IsDaemon : Bool := false
  IsPeerSecurityEnabled : Bool := true
  CallMsg : QStatus := QStatus.ER_OK
  SendManifests : QStatus := QStatus.ER_OK
  RegisterReplyHandler : QStatus := QStatus.ER_OK
  PushMessage : QStatus := QStatus.ER_OK
  handlerInvokedEarly : Bool := false
  isExiting : Bool := false
  waitStatus : QStatus := QStatus.ER_OK
  alertCode : Nat := 0
  reply : Message := { sender := "", callSerial := 0, args := [] }
  IsStarted : Bool := true
  localUniqueName : String := ""
  statusOfCode : Nat → QStatus := fun n => QStatus.other n
  codeOfStatus : QStatus → Nat := fun _ => 0
  rawUint16 : MsgArg → Nat := fun _ => 0

/-- A message handed to `PushMessage`. -/
structure SentMessage where
  ifaceName : String
  memberName : String
  flags : Nat
  deriving DecidableEq, Repr

/-- What a method call did to the transport: the messages handed to
`PushMessage`, whether a `RegisterReplyHandler` call succeeded, and whether an
`UnregisterReplyHandler` call removed the registration again. -/
structure CallEffects where
  pushed : List SentMessage := []
  registered : Bool := false
  unregistered : Bool := false
  deriving DecidableEq, Repr

/-- Modelled from the spec: the field `v_uint16` of an argument. -/
def MsgArg.v_uint16 (raw : MsgArg → Nat) : MsgArg → Nat
  | MsgArg.uint16 n => n
  | a => raw a

/-- Modelled from the spec: `replyMsg->ErrorMsg(sender, status, 0)`, the error
message synthesized from a status. -/
def Message.ErrorMsg (env : CallEnv) (sender : String) (status : QStatus) : Message :=
  { sender := sender, callSerial := 0,
    args := [MsgArg.str "", MsgArg.uint16 (env.codeOfStatus status)],
    type := MessageType.MESSAGE_ERROR, errorName := some org.alljoyn.Bus.ErrorName }

/-- Modelled from the spec: `localEndpoint->UnregisterReplyHandler(msg)`: true when
a registration for the message was found and removed, false when there is none
(none was made, or the reply handler has been invoked already). -/
def UnregisterReplyHandler (env : CallEnv) (registered : Bool) : Bool :=
  registered && !env.handlerInvokedEarly

/-- The function `GetReplyErrorStatus`; the result is the value of the in-out
parameter `status`. -/
def GetReplyErrorStatus (env : CallEnv) (reply : Message) (status : QStatus) : QStatus :=
  if QStatus.ER_BUS_REPLY_IS_ERROR_MESSAGE ≠ status then status
  else
    match reply.errorName with
    | none => status
    | some errorName =>
      if errorName = PermissionMgmtObj.ERROR_PERMISSION_DENIED then QStatus.ER_PERMISSION_DENIED
      else if errorName = org.alljoyn.Bus.ErrorName then
        match reply.args.get? 1 with
        | some arg => env.statusOfCode (arg.v_uint16 env.rawUint16)
        | none => status
      else status

/-- The function `AdjustErrorForPermissionDenied`; the result is the value of
the in-out parameter `status`. -/
def AdjustErrorForPermissionDenied (env : CallEnv) (reply : Message) (status : QStatus) :
    QStatus :=
  if QStatus.ER_PERMISSION_DENIED = status then status
  else if QStatus.ER_BUS_REPLY_IS_ERROR_MESSAGE ≠ status then status
  else
    let tmpStatus := GetReplyErrorStatus env reply status
    if QStatus.ER_PERMISSION_DENIED = tmpStatus then tmpStatus else status

namespace Internal

/-- The function `ProxyBusObject::GetInterface`. -/
def GetInterface (s : Internal) (ifaceName : String) : Option InterfaceDescription :=
  s.ifaces.find ifaceName

/-- Modelled from the spec: `ImplementsInterface(iface)`, declared in the header
as `GetInterface(iface) != NULL`. -/
def ImplementsInterface (s : Internal) (ifaceName : String) : Bool :=
  (s.GetInterface ifaceName).isSome

/-- The function `SecurityApplies(obj, ifc)` for the interface of `method`. -/
def SecurityApplies (s : Internal) (method : Member) : Bool :=
  let ifcSec := method.ifaceSecPolicy
  if ifcSec = InterfaceSecurityPolicy.AJ_IFC_SECURITY_REQUIRED then true
  else s.isSecure && decide (ifcSec ≠ InterfaceSecurityPolicy.AJ_IFC_SECURITY_OFF)

/-- The flags of `MethodCallAsync` after the two `flags |= ...` statements. -/
def asyncFlags (s : Internal) (method : Member) (replyHandler : Bool) (flags : Nat) : Nat :=
  let flags1 := if !replyHandler then flags ||| ALLJOYN_FLAG_NO_REPLY_EXPECTED else flags
  if s.SecurityApplies method then flags1 ||| ALLJOYN_FLAG_ENCRYPTED else flags1

/-- The flags of `MethodCall` after the `flags |= ...` statement. -/
def syncFlags (s : Internal) (method : Member) (flags : Nat) : Nat :=
  if s.SecurityApplies method then flags ||| ALLJOYN_FLAG_ENCRYPTED else flags

/-- The function `ProxyBusObject::MethodCallAsync` (member overload);
`replyHandler` says whether the caller passed a reply handler. The proxy is not
modified (the function is `const` and touches no `mutable` member). -/
def MethodCallAsync (env : CallEnv) (s : Internal) (method : Member) (replyHandler : Bool)
    (flags : Nat) : QStatus × CallEffects :=
  if !env.localEndpointValid then (QStatus.ER_BUS_ENDPOINT_CLOSING, {})
  else if !s.ImplementsInterface method.ifaceName then
    (QStatus.ER_BUS_OBJECT_NO_SUCH_INTERFACE, {})
  else
    let flags := s.asyncFlags method replyHandler flags
    if (flags &&& ALLJOYN_FLAG_ENCRYPTED != 0) && !env.IsPeerSecurityEnabled then
      (QStatus.ER_BUS_SECURITY_NOT_ENABLED, {})
    else
      let status := env.CallMsg
      if status = QStatus.ER_OK then
        let status :=
          if flags &&& ALLJOYN_FLAG_NO_REPLY_EXPECTED == 0 then env.RegisterReplyHandler
          else status
        let registered :=
          (flags &&& ALLJOYN_FLAG_NO_REPLY_EXPECTED == 0) && decide (status = QStatus.ER_OK)
        if status = QStatus.ER_OK then
          let msg : SentMessage :=
            { ifaceName := method.ifaceName, memberName := method.name, flags := flags }
          let status := env.PushMessage
          if status ≠ QStatus.ER_OK then
            let unregistered := UnregisterReplyHandler env registered
            if !unregistered then
              (QStatus.ER_OK, { pushed := [msg], registered := registered, unregistered := false })
            else (status, { pushed := [msg], registered := registered, unregistered := true })
          else (status, { pushed := [msg], registered := registered })
        else (status, {})
      else (status, {})

/-- The function `ProxyBusObject::MethodCallAsync` (overload by names). -/
def MethodCallAsyncByName (env : CallEnv) (s : Internal) (ifaceName methodName : String)
    (replyHandler : Bool) (flags : Nat) : QStatus × CallEffects :=
  match s.ifaces.find ifaceName with
  | none => (QStatus.ER_BUS_NO_SUCH_INTERFACE, {})
  | some d =>
    match d.GetMember methodName with
    | none => (QStatus.ER_BUS_INTERFACE_NO_SUCH_MEMBER, {})
    | some member => s.MethodCallAsync env member replyHandler flags

/-- The send of a synchronous call that expects a reply, and the wait for it:
the status after `PushMessage` and, when that succeeded, after `Event::Wait`
(or `ER_BUS_STOPPING` when the proxy is found exiting). -/
def sendAndWait (env : CallEnv) : QStatus :=
  let status := env.PushMessage
  if status = QStatus.ER_OK then
    if !env.isExiting then env.waitStatus else QStatus.ER_BUS_STOPPING
  else status

/-- The part of `ProxyBusObject::MethodCall` (member overload) from the
reentrancy check to the label `MethodCallExit`: the status, the reply message
and the effects on the transport at the label. -/
def methodCallBody (env : CallEnv) (s : Internal) (method : Member) (flags : Nat)
    (replyMsg : Message) : QStatus × Message × CallEffects :=
  if env.IsReentrantCall && !env.IsDaemon then
    (QStatus.ER_BUS_BLOCKING_CALL_NOT_ALLOWED, replyMsg, {})
  else if !s.ImplementsInterface method.ifaceName then
    (QStatus.ER_BUS_OBJECT_NO_SUCH_INTERFACE, replyMsg, {})
  else if (flags &&& ALLJOYN_FLAG_ENCRYPTED != 0) && !env.IsPeerSecurityEnabled then
    (QStatus.ER_BUS_SECURITY_NOT_ENABLED, replyMsg, {})
  else if env.CallMsg ≠ QStatus.ER_OK then (env.CallMsg, replyMsg, {})
  else if env.SendManifests ≠ QStatus.ER_OK then (env.SendManifests, replyMsg, {})
  else
    let msg : SentMessage :=
      { ifaceName := method.ifaceName, memberName := method.name, flags := flags }
    if flags &&& ALLJOYN_FLAG_NO_REPLY_EXPECTED != 0 then
      (env.PushMessage, replyMsg, { pushed := [msg] })
    else if env.RegisterReplyHandler ≠ QStatus.ER_OK then
      (env.RegisterReplyHandler, replyMsg, {})
    else
      let status := sendAndWait env
      if status = QStatus.ER_OK then
        (status, env.reply, { pushed := [msg], registered := true })
      else if status = QStatus.ER_ALERTED_THREAD ∧ SYNC_METHOD_ALERTCODE_ABORT = env.alertCode then
        (QStatus.ER_BUS_METHOD_CALL_ABORTED, replyMsg, { pushed := [msg], registered := true })
      else
        (status, replyMsg,
          { pushed := [msg], registered := true,
            unregistered := UnregisterReplyHandler env true })

/-- The function `ProxyBusObject::MethodCall` (member overload): the status, the
proxy afterwards, the reply message handed back and the effects on the
transport. -/
def MethodCall (env : CallEnv) (s : Internal) (method : Member) (flags : Nat)
    (replyMsg : Message) : QStatus × Internal × Message × CallEffects :=
  if !env.localEndpointValid then (QStatus.ER_BUS_ENDPOINT_CLOSING, s, replyMsg, {})
  else
    let flags := s.syncFlags method flags
    let (status, replyMsg, effects) := methodCallBody env s method flags replyMsg
    let (status, replyMsg) :=
      if status = QStatus.ER_OK then
        if replyMsg.type = MessageType.MESSAGE_ERROR then
          (QStatus.ER_BUS_REPLY_IS_ERROR_MESSAGE, replyMsg)
        else if replyMsg.type = MessageType.MESSAGE_INVALID ∧
            flags &&& ALLJOYN_FLAG_NO_REPLY_EXPECTED = 0 then
          (QStatus.ER_FAIL, replyMsg)
        else (status, replyMsg)
      else
        let sender := if env.IsStarted then env.localUniqueName else ""
        (status, Message.ErrorMsg env sender status)
    let s1 :=
      if status = QStatus.ER_OK ∧ s.uniqueName = "" then { s with uniqueName := replyMsg.sender }
      else s
    let status :=
      if QStatus.ER_OK ≠ status then AdjustErrorForPermissionDenied env replyMsg status
      else status
    (status, s1, replyMsg, effects)

/-- The function `ProxyBusObject::MethodCall` (overload by names). -/
def MethodCallByName (env : CallEnv) (s : Internal) (ifaceName methodName : String)
    (flags : Nat) (replyMsg : Message) : QStatus × Internal × Message × CallEffects :=
  match s.ifaces.find ifaceName with
  | none => (QStatus.ER_BUS_NO_SUCH_INTERFACE, s, replyMsg, {})
  | some d =>
    match d.GetMember methodName with
    | none => (QStatus.ER_BUS_INTERFACE_NO_SUCH_MEMBER, s, replyMsg, {})
    | some member => s.MethodCall env member flags replyMsg

end Internal

/-! ## Listener registration, interface binding, property caching -/

/-- The loop over the entries of `propertiesChangedCBs` under the key `iface`
that looks for the entry of `listener`: the entry found and the table without
it, or `none` when the loop ends without a match. -/
def removeListener (iface : String) (listener : Nat) :
    List (String × PropertiesChangedCB) →
      Option (PropertiesChangedCB × List (String × PropertiesChangedCB))
  | [] => none
  | (k, cb) :: rest =>
    if k = iface ∧ cb.listener = listener then some (cb, rest)
    else
      match removeListener iface listener rest with
      | some (found, rest2) => some (found, (k, cb) :: rest2)
      | none => none

/-- The (interface, listener) pairs of a listener table. -/
def registeredPairs (cbs : List (String × PropertiesChangedCB)) : List (String × Nat) :=
  cbs.map (fun kv => (kv.1, kv.2.listener))

namespace Internal

/-- The constructor `Internal(bus, objPath, service, sessionId, isSecure)`. -/
def ctor (objPath service : String) (isSecure : Bool) : Internal :=
  { path := objPath, serviceName := service,
    uniqueName := if service.front = ':' ∧ service ≠ "" then service else "",
    isSecure := isSecure }

/-- The test of `UnregisterPropertiesChangedListener` on `handlerThreads`: the
calling thread has an entry and the entry is a callback record of `listener`. -/
def threadRunsListener (s : Internal) (thread : Nat) (listener : Nat) : Bool :=
  match s.handlerThreads.find? (fun kv => kv.1 == thread) with
  | some (_, some l) => l == listener
  | _ => false

end Internal

namespace Sys

/-- The function `ProxyBusObject::RegisterPropertiesChangedListener`; `none`
when the call never returns. -/
def RegisterPropertiesChangedListener (bus : BusAttachment) (w : Sys) (iface : String)
    (properties : List String) (listener : Nat) (context : Nat) : Option (QStatus × Sys) :=
  match bus.GetInterface iface with
  | none => some (QStatus.ER_BUS_OBJECT_NO_SUCH_INTERFACE, w)
  | some ifc =>
    if properties.any (fun p => !ifc.HasProperty p) then
      some (QStatus.ER_BUS_NO_SUCH_PROPERTY, w)
    else
      let ctx := PropertiesChangedCB.ctor listener properties context
      match removeListener iface listener w.pbo.propertiesChangedCBs with
      | some (old, rest) =>
        some (QStatus.ER_OK,
          { w with pbo := { w.pbo with
              propertiesChangedCBs := rest ++ [(iface, ctx)]
              retiredCBs := w.pbo.retiredCBs ++ [{ old with isRegistered := false }] } })
      | none =>
        let pbo1 : Internal :=
          { w.pbo with propertiesChangedCBs := w.pbo.propertiesChangedCBs ++ [(iface, ctx)] }
        let pbo2 : Internal :=
          if pbo1.uniqueName = "" then
            { pbo1 with uniqueName := bus.GetNameOwner pbo1.serviceName }
          else pbo1
        match ({ w with pbo := pbo2 } : Sys).AddPropertiesChangedRule bus iface true with
        | some w2 => some (QStatus.ER_OK, w2)
        | none => none

/-- The function `ProxyBusObject::UnregisterPropertiesChangedListener`, called by
`thread`; `none` when the call never returns. The callbacks counted by
`numRunning` run on other threads, which take no step while this call waits. -/
def UnregisterPropertiesChangedListener (bus : BusAttachment) (w : Sys) (thread : Nat)
    (iface : String) (listener : Nat) : Option (QStatus × Sys) :=
  match bus.GetInterface iface with
  | none => some (QStatus.ER_BUS_OBJECT_NO_SUCH_INTERFACE, w)
  | some _ =>
    if w.pbo.threadRunsListener thread listener then some (QStatus.ER_DEADLOCK, w)
    else
      match removeListener iface listener w.pbo.propertiesChangedCBs with
      | none => some (QStatus.ER_OK, w)
      | some (ctx, rest) =>
        if ctx.numRunning > 0 then none
        else
          match ({ w with pbo := { w.pbo with
              propertiesChangedCBs := rest
              retiredCBs := w.pbo.retiredCBs ++ [{ ctx with isRegistered := false }] } }
              : Sys).RemovePropertiesChangedRule bus iface with
          | some w2 => some (QStatus.ER_OK, w2)
          | none => none

/-- The statements of `AddInterface` that follow a successful
`ifaces.insert(item)`: the descriptor is bound and, with caching on and a
cacheable property in the descriptor, a cache is inserted for it. -/
def bindDescriptor (w : Sys) (iface : InterfaceDescription) : Sys :=
  let pbo1 : Internal := { w.pbo with ifaces := w.pbo.ifaces.insert iface.name iface }
  if pbo1.cacheProperties && iface.HasCacheableProperties then
    { w with pbo := { pbo1 with caches := pbo1.caches.insert iface.name (CachedProps.ctor iface) } }
  else { w with pbo := pbo1 }

/-- The block of `AddInterface` guarded by `!internal->hasProperties`, run after
the descriptor is bound; `nested` is the nested call `AddInterface(*propIntf)`.
The result is `none` when the assertion on the property-access interface fails
or the nested call does not return. -/
def bindProperties (bus : BusAttachment)
    (nested : Sys → InterfaceDescription → Option (QStatus × Sys)) (w1 : Sys)
    (iface : InterfaceDescription) : Option Sys :=
  if !w1.pbo.hasProperties then
    match bus.GetInterface org.freedesktop.DBus.Properties.InterfaceName with
    | none => none
    | some propIntf =>
      if iface = propIntf then some { w1 with pbo := { w1.pbo with hasProperties := true } }
      else if iface.GetProperties > 0 then
        match nested w1 propIntf with
        | some (_, w2) => some w2
        | none => none
      else some w1
  else some w1

/-- The function `ProxyBusObject::AddInterface(const InterfaceDescription&)`, with
the depth of the nested call bounded by `fuel`; `none` when the call does not
return (the assertion on the property-access interface fails, or the bound is
reached). -/
def AddInterfaceAux (bus : BusAttachment) : Nat → Sys → InterfaceDescription →
    Option (QStatus × Sys)
  | 0, _, _ => none
  | fuel + 1, w, iface =>
    match w.pbo.ifaces.find iface.name with
    | some _ => some (QStatus.ER_BUS_IFACE_ALREADY_EXISTS, w)
    | none =>
      let addRule := w.pbo.cacheProperties && iface.HasCacheableProperties
      match bindProperties bus (AddInterfaceAux bus fuel) (w.bindDescriptor iface) iface with
      | none => none
      | some w3 =>
        if addRule then
          match w3.AddPropertiesChangedRule bus iface.name false with
          | some w4 => some (QStatus.ER_OK, w4)
          | none => none
        else some (QStatus.ER_OK, w3)

/-- The function `ProxyBusObject::AddInterface(const InterfaceDescription&)`: the
nested call is made on the property-access interface and makes no further
nested call. -/
def AddInterface (bus : BusAttachment) (w : Sys) (iface : InterfaceDescription) :
    Option (QStatus × Sys) :=
  AddInterfaceAux bus 2 w iface

/-- The loop of `EnablePropertyCaching` that creates the caches. -/
def seedCaches : List (String × InterfaceDescription) → StrMap CachedProps → StrMap CachedProps
  | [], caches => caches
  | (name, d) :: rest, caches =>
    if d.HasCacheableProperties then seedCaches rest (caches.insert name (CachedProps.ctor d))
    else seedCaches rest caches

/-- The loop of `EnablePropertyCaching` that adds the match rules. -/
def addRules (bus : BusAttachment) : List String → Sys → Option Sys
  | [], w => some w
  | name :: rest, w =>
    match w.AddPropertiesChangedRule bus name false with
    | some w2 => addRules bus rest w2
    | none => none

/-- The function `ProxyBusObject::EnablePropertyCaching`. -/
def EnablePropertyCaching (bus : BusAttachment) (w : Sys) : Option Sys :=
  if !w.pbo.cacheProperties then
    let ifcNames :=
      (w.pbo.ifaces.filter (fun kv => kv.2.HasCacheableProperties)).map Prod.fst
    let pbo1 : Internal :=
      { w.pbo with cacheProperties := true, caches := seedCaches w.pbo.ifaces w.pbo.caches }
    addRules bus ifcNames { w with pbo := pbo1 }
  else some w

end Sys

/-- A call of the listener API. -/
inductive ListenerOp where
  | register (iface : String) (properties : List String) (listener : Nat) (context : Nat)
  | unregister (thread : Nat) (iface : String) (listener : Nat)

/-- A call of the binding API. -/
inductive BindOp where
  | addInterface (iface : InterfaceDescription)
  | enablePropertyCaching

namespace Sys

/-- Apply a sequence of listener calls, first to last. -/
def listenerOps (bus : BusAttachment) : Sys → List ListenerOp → Option Sys
  | w, [] => some w
  | w, ListenerOp.register iface properties listener context :: rest =>
    match w.RegisterPropertiesChangedListener bus iface properties listener context with
    | some (_, w2) => listenerOps bus w2 rest
    | none => none
  | w, ListenerOp.unregister thread iface listener :: rest =>
    match w.UnregisterPropertiesChangedListener bus thread iface listener with
    | some (_, w2) => listenerOps bus w2 rest
    | none => none

/-- Apply a sequence of binding calls, first to last. -/
def bindOps (bus : BusAttachment) : Sys → List BindOp → Option Sys
  | w, [] => some w
  | w, BindOp.addInterface iface :: rest =>
    match w.AddInterface bus iface with
    | some (_, w2) => bindOps bus w2 rest
    | none => none
  | w, BindOp.enablePropertyCaching :: rest =>
    match w.EnablePropertyCaching bus with
    | some w2 => bindOps bus w2 rest
    | none => none

/-- A freshly constructed proxy: the state set up by the constructor of
`Internal`. The call `AddInterface(org::freedesktop::DBus::Peer::InterfaceName)`
made by the constructors of `ProxyBusObject` is a binding call on this state. -/
def fresh (objPath service : String) (isSecure : Bool) : Sys :=
  { pbo := Internal.ctor objPath service isSecure }

end Sys

/-- The names of the `{sv}` entries of a dictionary, in order. -/
def entryNames (entries : List MsgArg) : List String :=
  entries.filterMap (fun e => e.getSV.map Prod.fst)

/-- The state a freshly constructed cache of `intf` reaches through `ops`. -/
def CachedProps.reached (intf : InterfaceDescription) (ops : List CacheOp) : CachedProps :=
  (CachedProps.ctor intf).run ops

/-! ## Comparison of proxies -/

namespace Internal

/-- The function `ProxyBusObject::Internal::operator==`; `sameObject` is the
outcome of the test `this == &other`. -/
def operatorEq (a b : Internal) (sameObject : Bool) : Bool :=
  sameObject || (decide (a.path = b.path) && decide (a.serviceName = b.serviceName))

/-- The function `ProxyBusObject::Internal::operator<`; strings are compared
with the order of `qcc::String`, the lexicographic order `keyLess`. -/
def operatorLt (a b : Internal) : Bool :=
  keyLess a.path b.path || (decide (a.path = b.path) && keyLess a.serviceName b.serviceName)

end Internal

/-! ## The child tree -/

/-- Modelled from the spec: the name of the peer interface
(`org::freedesktop::DBus::Peer::InterfaceName`). -/
def org.freedesktop.DBus.Peer.InterfaceName : String := "org.freedesktop.DBus.Peer"

namespace Internal

/-- The constructor `Internal(bus, objPath, service, unique, sessionId, isSecure)`. -/
def ctorUnique (objPath service unique : String) (isSecure : Bool) : Internal :=
  { path := objPath, serviceName := service, uniqueName := unique, isSecure := isSecure }

end Internal

namespace Sys

/-- The function `ProxyBusObject::AddInterface(const char* ifaceName)`. -/
def AddInterfaceByName (bus : BusAttachment) (w : Sys) (ifaceName : String) :
    Option (QStatus × Sys) :=
  match bus.GetInterface ifaceName with
  | none => some (QStatus.ER_BUS_NO_SUCH_INTERFACE, w)
  | some iface => w.AddInterface bus iface

end Sys

/-- A `ProxyBusObject`: its `Internal` and, held beside the other members, the
member `children` of that `Internal`, the child proxies by value. A copy of a
proxy shares the `Internal` of the original, so a change made through a pointer
to a child is a change of the child held in the vector. -/
inductive ProxyBusObject where
  | mk (internal : Internal) (children : List ProxyBusObject)

namespace ProxyBusObject

/-- The member `internal`. -/
def internal : ProxyBusObject → Internal
  | mk i _ => i

/-- The member `internal->children`. -/
def children : ProxyBusObject → List ProxyBusObject
  | mk _ c => c

/-- The function `ProxyBusObject::GetPath`. -/
def GetPath (p : ProxyBusObject) : String := p.internal.path

/-- The constructor `ProxyBusObject(bus, service, uniqueName, path, sessionId,
isSecure)`: the constructor of `Internal` followed by
`AddInterface(org::freedesktop::DBus::Peer::InterfaceName)`, whose status is not
looked at; `none` when that call does not return. -/
def ctor (bus : BusAttachment) (service uniqueName path : String) (isSecure : Bool) :
    Option ProxyBusObject :=
  match ({ pbo := Internal.ctorUnique path service uniqueName isSecure } : Sys).AddInterfaceByName
      bus org.freedesktop.DBus.Peer.InterfaceName with
  | none => none
  | some (_, w) => some (mk w.pbo [])

end ProxyBusObject

/-- The scan of `find_first_of`: the position of the first `c` in the rest of
the string, which starts at position `i`. -/
def indexFrom (c : Char) : List Char → Nat → Option Nat
  | [], _ => none
  | x :: rest, i => if x = c then some i else indexFrom c rest (i + 1)

/-- Modelled from the spec: `s.find_first_of(c, pos)` of `qcc::String`, the
position of the first `c` at or after `pos`, `none` for `npos`. A string is its
sequence of characters and positions count characters. -/
def find_first_of (s : List Char) (c : Char) (pos : Nat) : Option Nat :=
  indexFrom c (s.drop pos) pos

/-- Modelled from the spec: `s.substr(0, n)` of `qcc::String`, with `none` for
`npos`. -/
def substr (s : List Char) : Option Nat → List Char
  | none => s
  | some n => s.take n

/-- The expression `(internal->path == "/") ? internal->path : internal->path + "/"`. -/
def pathSlash (path : String) : List Char :=
  if path = "/" then path.data else path.data ++ ['/']

/-- The expression `('/' == inPath[0]) ? inPath : pathSlash + inPath`. -/
def absolutePath (path inPath : String) : List Char :=
  if inPath.data.head? = some '/' then inPath.data else pathSlash path ++ inPath.data

/-- The sanity check of `GetChild` and `RemoveChild`:
`(0 != s.find(pathSlash)) || (s[s.length() - 1] == '/')`. The position
`s.find(p)` of the first occurrence of `p` in `s` is 0 exactly when `s` starts
with `p`. -/
def badChildPath (pathSlash s : List Char) : Bool :=
  !pathSlash.isPrefixOf s || decide (s.getLast? = some '/')

/-- The statement
`idx = ((npos == end) || ((end + 1) == s.size())) ? npos : end + 1`. -/
def nextIdx (s : List Char) : Option Nat → Option Nat
  | none => none
  | some e => if e + 1 = s.length then none else some (e + 1)

/-- The inner loop `while (it != ch.end())` of the three walks: the children
before the first one whose path is `item`, that child, and the children after
it; `none` for `it == ch.end()`. -/
def splitAtChild : List ProxyBusObject → List Char →
    Option (List ProxyBusObject × ProxyBusObject × List ProxyBusObject)
  | [], _ => none
  | n :: rest, item =>
    if n.GetPath.data = item then some ([], n, rest)
    else
      match splitAtChild rest item with
      | none => none
      | some (pre, it, post) => some (n :: pre, it, post)

namespace ProxyBusObject

/-- The loop of `GetChild`, started with `cur` at position `idx`: `some none`
is `return NULL`, `some (some p)` the proxy `cur` points to when the loop ends;
`none` when `fuel` iterations do not end the loop. -/
def getChildLoop (inPathStr : List Char) : Nat → ProxyBusObject → Nat →
    Option (Option ProxyBusObject)
  | 0, _, _ => none
  | fuel + 1, cur, idx =>
    let end_ := find_first_of inPathStr '/' idx
    let item := substr inPathStr end_
    match splitAtChild cur.children item with
    | none => some none
    | some (_, it, _) =>
      match nextIdx inPathStr end_ with
      | none => some (some it)
      | some idx2 => getChildLoop inPathStr fuel it idx2

/-- The function `ProxyBusObject::GetChild`; the inner `none` is NULL. The loop
is given one iteration more than the path has characters. -/
def GetChild (self : ProxyBusObject) (inPath : String) : Option (Option ProxyBusObject) :=
  let pathSlash := pathSlash self.internal.path
  let inPathStr := absolutePath self.internal.path inPath
  if badChildPath pathSlash inPathStr then some none
  else getChildLoop inPathStr (inPathStr.length + 1) self (self.internal.path.length + 1)

/-- The loop of `AddChild`, started with `cur` at position `idx`: the status
returned and the proxy `cur` with the children it has afterwards. The
placeholder `ro` is built from the service name and the unique name of the proxy
`AddChild` was called on; the walk goes on in the copy of `ro` pushed into the
vector, whose `Internal` the pointer `cur = &ro` refers to. -/
def addChildLoop (bus : BusAttachment) (self : Internal) (child : ProxyBusObject)
    (childPath : List Char) : Nat → ProxyBusObject → Nat → Option (QStatus × ProxyBusObject)
  | 0, _, _ => none
  | fuel + 1, cur, idx =>
    let end_ := find_first_of childPath '/' idx
    let item := substr childPath end_
    match splitAtChild cur.children item with
    | some (pre, it, post) =>
      match nextIdx childPath end_ with
      | none => some (QStatus.ER_BUS_OBJ_ALREADY_EXISTS, cur)
      | some idx2 =>
        match addChildLoop bus self child childPath fuel it idx2 with
        | none => none
        | some (status, it2) => some (status, mk cur.internal (pre ++ it2 :: post))
    | none =>
      if childPath = item then some (QStatus.ER_OK, mk cur.internal (cur.children ++ [child]))
      else
        match ctor bus self.serviceName self.uniqueName (String.mk item) false with
        | none => none
        | some ro =>
          match nextIdx childPath end_ with
          | none =>
            some (QStatus.ER_BUS_OBJ_ALREADY_EXISTS, mk cur.internal (cur.children ++ [ro]))
          | some idx2 =>
            match addChildLoop bus self child childPath fuel ro idx2 with
            | none => none
            | some (status, ro2) => some (status, mk cur.internal (cur.children ++ [ro2]))

/-- The function `ProxyBusObject::AddChild`: the status and the proxy
afterwards; `none` when the call does not return a defined result (the read
`childPath[childPath.length() - 1]` of an empty path, or a constructor call
that does not return). -/
def AddChild (bus : BusAttachment) (self child : ProxyBusObject) :
    Option (QStatus × ProxyBusObject) :=
  let path := self.internal.path.data
  let childPath := child.GetPath.data
  if (decide (path.length > 1) && !(path ++ ['/']).isPrefixOf childPath) ||
      (decide (path.length = 1) && decide (childPath.head? ≠ some '/')) then
    some (QStatus.ER_BUS_BAD_CHILD_PATH, self)
  else if childPath = [] then none
  else if childPath.getLast? = some '/' then some (QStatus.ER_BUS_BAD_CHILD_PATH, self)
  else
    addChildLoop bus self.internal child childPath (childPath.length + 1) self (path.length + 1)

/-- The loop of `RemoveChild`, started with `cur` at position `idx`: the status
returned and the proxy `cur` with the children it has afterwards; the loop left
through its condition gives `ER_FAIL`. -/
def removeChildLoop (childPath : List Char) : Nat → ProxyBusObject → Nat →
    Option (QStatus × ProxyBusObject)
  | 0, _, _ => none
  | fuel + 1, cur, idx =>
    let end_ := find_first_of childPath '/' idx
    let item := substr childPath end_
    match splitAtChild cur.children item with
    | some (pre, it, post) =>
      match end_ with
      | none => some (QStatus.ER_OK, mk cur.internal (pre ++ post))
      | some _ =>
        match nextIdx childPath end_ with
        | none => some (QStatus.ER_FAIL, cur)
        | some idx2 =>
          match removeChildLoop childPath fuel it idx2 with
          | none => none
          | some (status, it2) => some (status, mk cur.internal (pre ++ it2 :: post))
    | none => some (QStatus.ER_BUS_OBJ_NOT_FOUND, cur)

/-- The function `ProxyBusObject::RemoveChild`: the status and the proxy
afterwards. -/
def RemoveChild (self : ProxyBusObject) (inPath : String) : Option (QStatus × ProxyBusObject) :=
  let pathSlash := pathSlash self.internal.path
  let childPath := absolutePath self.internal.path inPath
  if badChildPath pathSlash childPath then some (QStatus.ER_BUS_BAD_CHILD_PATH, self)
  else removeChildLoop childPath (childPath.length + 1) self (self.internal.path.length + 1)

end ProxyBusObject

/-- The items of a walk, by scanning: `acc` is the part of the path before the
rest that is scanned. Each `'/'` that is not the last character ends an item,
and the last item is the path up to its end, or up to a final `'/'`. -/
def itemsAux (acc : List Char) : List Char → List (List Char)
  | [] => [acc]
  | c :: rest =>
    if c = '/' then
      if rest = [] then [acc] else acc :: itemsAux (acc ++ [c]) rest
    else itemsAux (acc ++ [c]) rest

/-- The values `item` takes in a walk over the path `s` started at position
`idx`, when every item is found: the prefixes of `s` that end before a `'/'` at
or after `idx`, and `s`. -/
def pathItems (s : List Char) (idx : Nat) : List (List Char) :=
  itemsAux (s.take idx) (s.drop idx)

namespace ProxyBusObject

/-- The child whose path is `item`, as the inner loop finds it. -/
def findChild (ch : List ProxyBusObject) (item : List Char) : Option ProxyBusObject :=
  (splitAtChild ch item).map (fun r => r.2.1)

/-- The walk of `GetChild` along a list of items. -/
def descend : ProxyBusObject → List (List Char) → Option ProxyBusObject
  | cur, [] => some cur
  | cur, item :: rest =>
    match findChild cur.children item with
    | none => none
    | some it => descend it rest

/-- The walk of `RemoveChild` along a list of items: the child found for the
last item is erased. -/
def removeAlong : ProxyBusObject → List (List Char) → QStatus × ProxyBusObject
  | cur, [] => (QStatus.ER_FAIL, cur)
  | cur, [item] =>
    match splitAtChild cur.children item with
    | none => (QStatus.ER_BUS_OBJ_NOT_FOUND, cur)
    | some (pre, _, post) => (QStatus.ER_OK, mk cur.internal (pre ++ post))
  | cur, item :: rest =>
    match splitAtChild cur.children item with
    | none => (QStatus.ER_BUS_OBJ_NOT_FOUND, cur)
    | some (pre, it, post) =>
      ((removeAlong it rest).1, mk cur.internal (pre ++ (removeAlong it rest).2 :: post))

/-- The walk of `AddChild` along a list of items: a placeholder is made for
each item but the last that is not found, and `child` is pushed for the last
item when it is not found. -/
def addAlong (bus : BusAttachment) (self : Internal) (child : ProxyBusObject) :
    ProxyBusObject → List (List Char) → Option (QStatus × ProxyBusObject)
  | cur, [] => some (QStatus.ER_BUS_OBJ_ALREADY_EXISTS, cur)
  | cur, [item] =>
    match splitAtChild cur.children item with
    | some _ => some (QStatus.ER_BUS_OBJ_ALREADY_EXISTS, cur)
    | none => some (QStatus.ER_OK, mk cur.internal (cur.children ++ [child]))
  | cur, item :: rest =>
    match splitAtChild cur.children item with
    | some (pre, it, post) =>
      match addAlong bus self child it rest with
      | none => none
      | some (status, it2) => some (status, mk cur.internal (pre ++ it2 :: post))
    | none =>
      match ctor bus self.serviceName self.uniqueName (String.mk item) false with
      | none => none
      | some ro =>
        match addAlong bus self child ro rest with
        | none => none
        | some (status, ro2) => some (status, mk cur.internal (cur.children ++ [ro2]))

/-- The representation invariant of the child tree: the children of a proxy
that a walk can reach have distinct paths. -/
def Distinct (self : ProxyBusObject) : Prop :=
  ∀ items cur, descend self items = some cur →
    (cur.children.map (fun n => n.GetPath.data)).Nodup

end ProxyBusObject

/-! ## The example scenario of the specification -/

/-- Interface `X` with the cacheable properties `a` and `b`. -/
def scenarioX : InterfaceDescription :=
  { name := "X", properties := [⟨"a", true⟩, ⟨"b", true⟩] }

/-- An `{sv}` entry holding a number. -/
def svEntry (k : String) (n : Nat) : MsgArg :=
  MsgArg.dictEntry (MsgArg.str k) (MsgArg.variant (MsgArg.uint32 n))

/-- The enabled cache of `X` after the `GetAll` reply `{a:1,b:2}` with serial 10. -/
def scenarioAfterGetAll : CachedProps :=
  ((CachedProps.ctor scenarioX).Enable).SetAll (MsgArg.array [svEntry "a" 1, svEntry "b" 2]) 10

/-- The cache after the signal `changed={b:3}` with serial 11. -/
def scenarioAfterSignal : CachedProps :=
  scenarioAfterGetAll.PropertiesChanged [svEntry "b" 3] [] 11

/-- A proxy for the scenario: caching on, interface `X` bound with its cache
enabled and holding `{a:1,b:2}`, and three listener registrations for `X`
(all properties; subset `b`; subset `a`). -/
def scenarioProxy : Internal :=
  { path := "/obj", serviceName := "org.example", uniqueName := ":1.5",
    cacheProperties := true,
    ifaces := [("X", scenarioX)],
    caches := [("X", scenarioAfterGetAll)],
    propertiesChangedCBs :=
      [("X", PropertiesChangedCB.ctor 1 [] 100),
       ("X", PropertiesChangedCB.ctor 2 ["b"] 200),
       ("X", PropertiesChangedCB.ctor 3 ["a"] 300)] }

/-- The signal `changed={b:3}` for `X` with serial 11 from `sender`. -/
def scenarioSignal (sender : String) : Message :=
  { sender := sender, callSerial := 11,
    args := [MsgArg.str "X", MsgArg.array [svEntry "b" 3], MsgArg.array []] }

/-- The property-access interface as registered with the scenario buses. -/
def scenarioPropertiesIntf : InterfaceDescription :=
  { name := org.freedesktop.DBus.Properties.InterfaceName, properties := [],
    members := [{ name := "Get", ifaceName := org.freedesktop.DBus.Properties.InterfaceName },
                { name := "Set", ifaceName := org.freedesktop.DBus.Properties.InterfaceName },
                { name := "GetAll", ifaceName := org.freedesktop.DBus.Properties.InterfaceName },
                { name := "PropertiesChanged",
                  ifaceName := org.freedesktop.DBus.Properties.InterfaceName }] }

/-- The interfaces registered with the scenario buses: `X` and the
property-access interface. -/
def scenarioGetInterface (n : String) : Option InterfaceDescription :=
  if n = "X" then some scenarioX
  else if n = org.freedesktop.DBus.Properties.InterfaceName then some scenarioPropertiesIntf
  else none

/-- A bus with `X` and the property-access interface registered whose
`AddMatchAsync` succeeds. -/
def busOk : BusAttachment :=
  { AddMatchAsync := fun _ => QStatus.ER_OK, addMatchReply := fun _ => QStatus.ER_OK,
    GetInterface := scenarioGetInterface }

/-- The same bus with every `AddMatchAsync` failing. -/
def busFail : BusAttachment :=
  { AddMatchAsync := fun _ => QStatus.ER_FAIL, addMatchReply := fun _ => QStatus.ER_FAIL,
    GetInterface := scenarioGetInterface }

/-- A bus whose `AddMatchAsync` call returns `ER_OK` and whose completion
callback then reports a failure. -/
def busReplyFail : BusAttachment :=
  { AddMatchAsync := fun _ => QStatus.ER_OK, addMatchReply := fun _ => QStatus.ER_FAIL,
    GetInterface := scenarioGetInterface }

/-- A proxy with caching on and a fresh cache for `X`, before any match rule. -/
def scenarioStart : Sys :=
  { pbo :=
      { path := "/obj", serviceName := "org.example", uniqueName := ":1.5",
        cacheProperties := true,
        ifaces := [("X", scenarioX)],
        caches := [("X", CachedProps.ctor scenarioX)] } }

namespace CachedProps

/-- What holds of every cache reached from a freshly constructed one. -/
structure Inv (c : CachedProps) (intf : InterfaceDescription) : Prop where
  descr : c.description = intf
  num : c.numProperties = intf.properties.length
  full : c.isFullyCacheable =
    (if intf.properties.length > 0 then ctorLoop intf.properties else false)
  ordered : StrMap.Ordered c.values
  cacheable : ∀ k ∈ StrMap.keys c.values, c.IsCacheable k = true
  disabled : c.enabled = false → c.values = []

end CachedProps

namespace Sys

/-- The registry holds a record of `intf` with reference count `k`, a
callback is outstanding while the record is being added, and `A`
`AddMatchAsync` and `R` `RemoveMatchNonBlocking` calls have been made. -/
def Held (w : Sys) (intf : String) (k A R : Nat) : Prop :=
  ∃ a, w.record intf = some { adding := a, refCount := k } ∧
    (a = true → intf ∈ w.pending) ∧
    w.addMatchCalls intf = A ∧ w.removeMatchCalls intf = R

/-- The registry holds no record of `intf`. -/
def Free (w : Sys) (intf : String) (A R : Nat) : Prop :=
  w.record intf = none ∧ w.addMatchCalls intf = A ∧ w.removeMatchCalls intf = R

end Sys

/-- The reply is a permission-denied error in the sense of the specification:
its error name is the permission-denied error name, or it is the AllJoyn status
error name and the second argument carries the status `ER_PERMISSION_DENIED`. -/
def isPermissionDenied (env : CallEnv) (reply : Message) : Prop :=
  reply.errorName = some PermissionMgmtObj.ERROR_PERMISSION_DENIED ∨
    (reply.errorName = some org.alljoyn.Bus.ErrorName ∧
      ∃ arg, reply.args.get? 1 = some arg ∧
        env.statusOfCode (arg.v_uint16 env.rawUint16) = QStatus.ER_PERMISSION_DENIED)

/-- A method `Ping` of interface `X`. -/
def scenarioMember : Member := { name := "Ping", ifaceName := "X" }

/-- An error reply with the permission-denied error name. -/
def scenarioDeniedReply : Message :=
  { sender := ":1.5", callSerial := 12, args := [],
    type := MessageType.MESSAGE_ERROR,
    errorName := some PermissionMgmtObj.ERROR_PERMISSION_DENIED }

/-- The scenario proxy while thread 7 runs the callback of listener 2. -/
def scenarioDispatching : Sys :=
  { pbo := { scenarioProxy with
      handlerThreads := [(7, some 2)]
      propertiesChangedCBs :=
        [("X", PropertiesChangedCB.ctor 1 [] 100),
         ("X", { PropertiesChangedCB.ctor 2 ["b"] 200 with numRunning := 1 }),
         ("X", PropertiesChangedCB.ctor 3 ["a"] 300)] } }

namespace Sys

/-- The two states agree outside the match-rule registry, the handler flag and
the caches: the operations of the bookkeeping touch nothing else of the proxy. -/
def SameOutsideRules (w w2 : Sys) : Prop :=
  w2.pbo.path = w.pbo.path ∧ w2.pbo.serviceName = w.pbo.serviceName ∧
    w2.pbo.uniqueName = w.pbo.uniqueName ∧ w2.pbo.hasProperties = w.pbo.hasProperties ∧
    w2.pbo.isSecure = w.pbo.isSecure ∧ w2.pbo.cacheProperties = w.pbo.cacheProperties ∧
    w2.pbo.handlerThreads = w.pbo.handlerThreads ∧ w2.pbo.ifaces = w.pbo.ifaces ∧
    w2.pbo.propertiesChangedCBs = w.pbo.propertiesChangedCBs ∧
    w2.pbo.retiredCBs = w.pbo.retiredCBs

/-- No record of the registry is being added and no listener callback is
running. -/
def Settled (w : Sys) : Prop :=
  (∀ i r, w.record i = some r → r.adding = false) ∧
    (∀ kv ∈ w.pbo.propertiesChangedCBs, kv.2.numRunning = 0)

end Sys

namespace Sys

/-- What holds of every state reached through the binding calls: with the
has-properties flag set the property-access interface is bound, and the
match-rule registry and the caches hold entries for bound names only. -/
structure BindInv (w : Sys) : Prop where
  props : w.pbo.hasProperties = true →
    (w.pbo.ifaces.find org.freedesktop.DBus.Properties.InterfaceName).isSome = true
  records : ∀ n, (w.record n).isSome = true → (w.pbo.ifaces.find n).isSome = true
  caches : ∀ n, (w.pbo.caches.find n).isSome = true → (w.pbo.ifaces.find n).isSome = true

/-- The state `w2` extends `w` by bindings made for the name `k`: every
descriptor bound in `w` is bound in `w2`, the caching flag is the same, and the
records and caches under names other than `k` and the name of the
property-access interface are the same. -/
def Extends (w w2 : Sys) (k : String) : Prop :=
  (∀ n d, w.pbo.ifaces.find n = some d → w2.pbo.ifaces.find n = some d) ∧
    w2.pbo.cacheProperties = w.pbo.cacheProperties ∧
    (∀ n, k ≠ n → org.freedesktop.DBus.Properties.InterfaceName ≠ n →
      w2.record n = w.record n ∧ w2.pbo.caches.find n = w.pbo.caches.find n)

end Sys

/-- A proxy at the path `/foo` that has no children. -/
def scenarioTreeRoot : ProxyBusObject :=
  ProxyBusObject.mk { path := "/foo", serviceName := "org.example.service" } []

/-- A proxy at the path `/foo/bar/baz` that has no children. -/
def scenarioTreeChild : ProxyBusObject :=
  ProxyBusObject.mk { path := "/foo/bar/baz", serviceName := "org.example.service" } []

/-- A proxy at the path `/foo` with the children `/foo/bar` and `/foo/qux`,
the first of which has the child `/foo/bar/baz`. -/
def scenarioTree : ProxyBusObject :=
  ProxyBusObject.mk { path := "/foo", serviceName := "org.example.service" }
    [ProxyBusObject.mk { path := "/foo/bar", serviceName := "org.example.service" }
        [scenarioTreeChild],
      ProxyBusObject.mk { path := "/foo/qux", serviceName := "org.example.service" } []]

/-- The state of a fresh proxy after `AddInterface` for `X` on a scenario bus:
`X` and the property-access interface are bound, caching is off. -/
def scenarioBound : Sys :=
  { pbo := { Internal.ctor "/obj" "org.example" false with
      ifaces := [("X", scenarioX),
        (org.freedesktop.DBus.Properties.InterfaceName, scenarioPropertiesIntf)]
      hasProperties := true } }

/-! # Proofs -/

/-! ### The key order is a strict total order -/

theorem ltCodes_irrefl (a : List Nat) : ltCodes a a = false := by
  induction a with
  | nil => rfl
  | cons x xs ih => simp [ltCodes, ih]

theorem ltCodes_trans : ∀ (a b c : List Nat),
    ltCodes a b = true → ltCodes b c = true → ltCodes a c = true
  | [], [], _, h, _ => by simp [ltCodes] at h
  | [], _ :: _, [], _, h => by simp [ltCodes] at h
  | [], _ :: _, _ :: _, _, _ => by simp [ltCodes]
  | _ :: _, [], _, h, _ => by simp [ltCodes] at h
  | _ :: _, _ :: _, [], _, h => by simp [ltCodes] at h
  | x :: xs, y :: ys, z :: zs, h1, h2 => by
    simp only [ltCodes] at h1 h2 ⊢
    by_cases hxy : x < y
    · by_cases hyz : y < z
      · have : x < z := lt_trans hxy hyz
        simp [this]
      · simp only [hyz, if_false] at h2
        by_cases eyz : y = z
        · subst eyz
          simp [hxy]
        · simp [eyz] at h2
    · simp only [hxy, if_false] at h1
      by_cases exy : x = y
      · subst exy
        simp only [if_true] at h1
        by_cases hxz : x < z
        · simp [hxz]
        · simp only [hxz, if_false] at h2 ⊢
          by_cases exz : x = z
          · subst exz
            simp only [if_true] at h2 ⊢
            exact ltCodes_trans xs ys zs h1 h2
          · simp [exz] at h2
      · simp [exy] at h1

theorem ltCodes_total : ∀ (a b : List Nat),
    ltCodes a b = false → ltCodes b a = false → a = b
  | [], [], _, _ => rfl
  | [], _ :: _, h, _ => by simp [ltCodes] at h
  | _ :: _, [], _, h => by simp [ltCodes] at h
  | x :: xs, y :: ys, h1, h2 => by
    simp only [ltCodes] at h1 h2
    by_cases hxy : x < y
    · simp [hxy] at h1
    · by_cases hyx : y < x
      · simp [hyx] at h2
      · have exy : x = y := by omega
        subst exy
        simp only [lt_irrefl, if_false, if_true] at h1 h2
        rw [ltCodes_total xs ys h1 h2]

theorem charToNat_injective : Function.Injective Char.toNat := by
  intro a b h
  apply Char.ext
  apply UInt32.ext
  exact h

theorem codes_injective : Function.Injective codes := by
  intro a b h
  apply String.ext
  exact (List.map_injective_iff.mpr charToNat_injective) h

theorem keyLess_irrefl (a : String) : keyLess a a = false := ltCodes_irrefl _

theorem keyLess_trans {a b c : String} (h1 : keyLess a b = true) (h2 : keyLess b c = true) :
    keyLess a c = true := ltCodes_trans _ _ _ h1 h2

theorem keyLess_total {a b : String} (h1 : keyLess a b = false) (h2 : keyLess b a = false) :
    a = b := codes_injective (ltCodes_total _ _ h1 h2)

theorem keyLess_ne {a b : String} (h : keyLess a b = true) : a ≠ b := by
  intro e
  subst e
  rw [keyLess_irrefl] at h
  exact Bool.noConfusion h

/-! ### Lookup, assignment and erasure in a `std::map` -/

namespace StrMap

variable {V : Type}

theorem find_assign_same (m : StrMap V) (k : String) (v : V) :
    (m.assign k v).find k = some v := by
  induction m with
  | nil => simp [assign, find]
  | cons hd tl ih =>
    obtain ⟨k', v'⟩ := hd
    simp only [assign]
    split_ifs with h1 h2
    · simp [find]
    · simp [find]
    · simp [find, h2, ih]

theorem find_assign_other (m : StrMap V) (k k2 : String) (v : V) (hne : k ≠ k2) :
    (m.assign k v).find k2 = m.find k2 := by
  induction m with
  | nil => simp [assign, find, hne]
  | cons hd tl ih =>
    obtain ⟨k', v'⟩ := hd
    simp only [assign]
    split_ifs with h1 h2
    · simp [find, hne]
    · subst h2
      simp [find, hne]
    · simp [find, ih]

theorem find_erase_same (m : StrMap V) (k : String) : (m.erase k).find k = none := by
  induction m with
  | nil => simp [erase, find]
  | cons hd tl ih =>
    obtain ⟨k', v'⟩ := hd
    simp only [erase]
    split_ifs with h
    · exact ih
    · simp [find, h, ih]

theorem find_erase_other (m : StrMap V) (k k2 : String) (hne : k ≠ k2) :
    (m.erase k).find k2 = m.find k2 := by
  induction m with
  | nil => simp [erase, find]
  | cons hd tl ih =>
    obtain ⟨k', v'⟩ := hd
    simp only [erase]
    split_ifs with h
    · subst h
      simp [find, hne, ih]
    · simp [find, ih]

theorem find_isSome_iff_mem_keys (m : StrMap V) (k : String) :
    (m.find k).isSome = true ↔ k ∈ m.keys := by
  induction m with
  | nil => simp [find, keys]
  | cons hd tl ih =>
    obtain ⟨k', v'⟩ := hd
    simp only [find, keys, List.map_cons, List.mem_cons]
    split_ifs with h
    · simp [h]
    · have ih2 : (find tl k).isSome = true ↔ k ∈ List.map Prod.fst tl := ih
      rw [ih2]
      constructor
      · intro hm
        exact Or.inr hm
      · rintro (e | hm)
        · exact absurd e.symm h
        · exact hm

theorem find_eq_none_iff (m : StrMap V) (k : String) : m.find k = none ↔ k ∉ m.keys := by
  rw [← find_isSome_iff_mem_keys]
  cases m.find k <;> simp

theorem mem_keys_assign (m : StrMap V) (k x : String) (v : V) :
    x ∈ (m.assign k v).keys ↔ x = k ∨ x ∈ m.keys := by
  rw [← find_isSome_iff_mem_keys, ← find_isSome_iff_mem_keys]
  by_cases h : k = x
  · subst h
    simp [find_assign_same]
  · rw [find_assign_other m k x v h]
    constructor
    · intro hx
      exact Or.inr hx
    · rintro (e | hx)
      · exact absurd e.symm h
      · exact hx

theorem mem_keys_erase (m : StrMap V) (k x : String) :
    x ∈ (m.erase k).keys ↔ x ≠ k ∧ x ∈ m.keys := by
  rw [← find_isSome_iff_mem_keys, ← find_isSome_iff_mem_keys]
  by_cases h : k = x
  · subst h
    simp [find_erase_same]
  · rw [find_erase_other m k x h]
    constructor
    · intro hx
      exact ⟨fun e => h e.symm, hx⟩
    · rintro ⟨_, hx⟩
      exact hx

theorem Ordered.nil : Ordered ([] : StrMap V) := List.Pairwise.nil

theorem Ordered.tail {hd : String × V} {tl : StrMap V} (h : Ordered (hd :: tl)) :
    Ordered tl := by
  unfold Ordered keys at h ⊢
  exact (List.pairwise_cons.mp h).2

theorem Ordered.head_lt {hd : String × V} {tl : StrMap V} (h : Ordered (hd :: tl)) :
    ∀ x ∈ tl.keys, keyLess hd.1 x = true := by
  unfold Ordered keys at h
  exact (List.pairwise_cons.mp h).1

theorem Ordered.cons {hd : String × V} {tl : StrMap V}
    (h1 : ∀ x ∈ tl.keys, keyLess hd.1 x = true) (h2 : Ordered tl) : Ordered (hd :: tl) := by
  unfold Ordered keys
  exact List.pairwise_cons.mpr ⟨h1, h2⟩

theorem Ordered.assign {m : StrMap V} (h : Ordered m) (k : String) (v : V) :
    Ordered (m.assign k v) := by
  induction m with
  | nil =>
    simp only [StrMap.assign]
    exact Ordered.cons (fun x hx => by simp [keys] at hx) Ordered.nil
  | cons hd tl ih =>
    obtain ⟨k', v'⟩ := hd
    simp only [StrMap.assign]
    split_ifs with h1 h2
    · refine Ordered.cons ?_ h
      intro x hx
      simp only [keys, List.map_cons, List.mem_cons] at hx
      rcases hx with e | hx
      · rw [e]
        exact h1
      · exact keyLess_trans h1 (h.head_lt x hx)
    · subst h2
      exact Ordered.cons h.head_lt h.tail
    · refine Ordered.cons ?_ (ih h.tail)
      intro x hx
      rcases (mem_keys_assign tl k x v).mp hx with e | hx
      · subst e
        cases h3 : keyLess k' x with
        | true => rfl
        | false =>
          have h1f : keyLess x k' = false := by
            cases h4 : keyLess x k' with
            | true => exact absurd h4 h1
            | false => rfl
          exact absurd (keyLess_total h3 h1f) h2
      · exact h.head_lt x hx

theorem Ordered.erase {m : StrMap V} (h : Ordered m) (k : String) : Ordered (m.erase k) := by
  induction m with
  | nil => exact h
  | cons hd tl ih =>
    obtain ⟨k', v'⟩ := hd
    simp only [StrMap.erase]
    split_ifs with h1
    · exact ih h.tail
    · refine Ordered.cons ?_ (ih h.tail)
      intro x hx
      exact h.head_lt x ((mem_keys_erase tl k x).mp hx).2

theorem Ordered.nodup {m : StrMap V} (h : Ordered m) : m.keys.Nodup := by
  unfold Ordered at h
  refine List.Pairwise.imp ?_ h
  intro a b hab
  exact keyLess_ne hab

theorem length_keys (m : StrMap V) : m.keys.length = m.length := by
  simp [keys]

end StrMap

/-! ### Parsing lemmas -/

theorem MsgArg.getSV_eq {e : MsgArg} {k : String} {v : MsgArg} (h : e.getSV = some (k, v)) :
    e = MsgArg.dictEntry (MsgArg.str k) (MsgArg.variant v) := by
  cases e with
  | dictEntry key val =>
    cases key with
    | str s =>
      cases val with
      | variant w =>
        simp only [MsgArg.getSV, Option.some.injEq, Prod.mk.injEq] at h
        rw [h.1, h.2]
      | _ => simp [MsgArg.getSV] at h
    | _ => simp [MsgArg.getSV] at h
  | _ => simp [MsgArg.getSV] at h

theorem MsgArg.getS_eq {e : MsgArg} {k : String} (h : e.getS = some k) : e = MsgArg.str k := by
  cases e with
  | str s =>
    simp only [MsgArg.getS, Option.some.injEq] at h
    rw [h]
  | _ => simp [MsgArg.getS] at h

theorem lastEntry_cons (p : String) (e : MsgArg) (rest : List MsgArg) :
    lastEntry p (e :: rest) =
      overlay (lastEntry p rest)
        (match e.getSV with
         | some (k, v) => if k = p then some (MsgArg.variant v) else none
         | none => none) := by
  simp only [lastEntry, overlay]

theorem listedIn_cons (p : String) (e : MsgArg) (rest : List MsgArg) :
    listedIn p (e :: rest) = (decide (e.getS = some p) || listedIn p rest) := rfl

theorem lastEntry_of_not_namedIn (p : String) (entries : List MsgArg)
    (h : namedIn p entries = false) : lastEntry p entries = none := by
  induction entries with
  | nil => rfl
  | cons e rest ih =>
    simp only [namedIn, List.any_cons, Bool.or_eq_false_iff, decide_eq_false_iff_not] at h
    have hrest : lastEntry p rest = none := ih h.2
    simp only [lastEntry, hrest]
    cases hk : e.getSV with
    | none => rfl
    | some kv =>
      obtain ⟨k, v⟩ := kv
      have hne : ¬ k = p := by
        intro e2
        apply h.1
        rw [hk, e2]
        rfl
      simp [hne]

theorem lastEntry_of_namedIn (p : String) (entries : List MsgArg)
    (h : namedIn p entries = true) :
    ∃ x, lastEntry p entries = some (MsgArg.variant x) ∧
      MsgArg.dictEntry (MsgArg.str p) (MsgArg.variant x) ∈ entries := by
  induction entries with
  | nil => simp [namedIn] at h
  | cons e rest ih =>
    by_cases hr : namedIn p rest = true
    · obtain ⟨x, hx1, hx2⟩ := ih hr
      refine ⟨x, ?_, List.mem_cons_of_mem _ hx2⟩
      simp only [lastEntry, hx1]
    · have hr2 : namedIn p rest = false := by
        cases h2 : namedIn p rest with
        | true => exact absurd h2 hr
        | false => rfl
      have hrest := lastEntry_of_not_namedIn p rest hr2
      simp only [namedIn, List.any_cons, Bool.or_eq_true, decide_eq_true_eq] at h
      rcases h with h | h
      · cases hk : e.getSV with
        | none => simp [hk] at h
        | some kv =>
          obtain ⟨k, v⟩ := kv
          simp only [hk, Option.map_some', Option.some.injEq] at h
          subst h
          refine ⟨v, ?_, ?_⟩
          · simp only [lastEntry, hrest, hk, if_true]
          · rw [← MsgArg.getSV_eq hk]
            exact List.mem_cons_self _ _
      · exact absurd h hr

namespace CachedProps

/-! ### The two loops of `SetAll` and `PropertiesChanged` -/

theorem storeLoop_spec (c : CachedProps) (elems : List MsgArg)
    (hwf : elems.all (fun e => e.getSV.isSome) = true) (vals : ValueMap) :
    ∃ vals2, storeLoop c elems vals = some vals2 ∧
      ∀ p, vals2.find p =
        if c.IsCacheable p = true then overlay (lastEntry p elems) (vals.find p)
        else vals.find p := by
  induction elems generalizing vals with
  | nil =>
    refine ⟨vals, rfl, ?_⟩
    intro p
    simp [lastEntry, overlay]
  | cons e rest ih =>
    simp only [List.all_cons, Bool.and_eq_true] at hwf
    obtain ⟨he, hrest⟩ := hwf
    cases hk : e.getSV with
    | none => simp [hk] at he
    | some kv =>
      obtain ⟨k, v⟩ := kv
      simp only [storeLoop, hk]
      obtain ⟨vals2, h1, h2⟩ := ih hrest
        (if c.IsCacheable k = true then StrMap.assign vals k (MsgArg.variant v) else vals)
      refine ⟨vals2, h1, ?_⟩
      intro p
      rw [h2 p, lastEntry_cons, hk]
      by_cases hc : c.IsCacheable p = true
      · rw [if_pos hc, if_pos hc]
        cases hl : lastEntry p rest with
        | some w => rfl
        | none =>
          simp only [overlay]
          by_cases hkp : k = p
          · subst hkp
            rw [if_pos hc, if_pos rfl]
            exact StrMap.find_assign_same vals k _
          · rw [if_neg hkp]
            by_cases hck : c.IsCacheable k = true
            · rw [if_pos hck]
              exact StrMap.find_assign_other vals k p _ hkp
            · rw [if_neg hck]
      · rw [if_neg hc, if_neg hc]
        by_cases hck : c.IsCacheable k = true
        · rw [if_pos hck]
          have hkp : k ≠ p := by
            intro e2
            rw [e2] at hck
            exact hc hck
          exact StrMap.find_assign_other vals k p _ hkp
        · rw [if_neg hck]

theorem eraseLoop_spec (names : List MsgArg)
    (hwf : names.all (fun e => e.getS.isSome) = true) (vals : ValueMap) :
    ∃ vals2, eraseLoop names vals = some vals2 ∧
      ∀ p, vals2.find p = if listedIn p names = true then none else vals.find p := by
  induction names generalizing vals with
  | nil =>
    refine ⟨vals, rfl, ?_⟩
    intro p
    simp [listedIn]
  | cons e rest ih =>
    simp only [List.all_cons, Bool.and_eq_true] at hwf
    obtain ⟨he, hrest⟩ := hwf
    cases hk : e.getS with
    | none => simp [hk] at he
    | some k =>
      simp only [eraseLoop, hk]
      obtain ⟨vals2, h1, h2⟩ := ih hrest (StrMap.erase vals k)
      refine ⟨vals2, h1, ?_⟩
      intro p
      rw [h2 p, listedIn_cons, hk]
      by_cases hr : listedIn p rest = true
      · rw [if_pos hr, hr, Bool.or_true, if_pos rfl]
      · rw [if_neg hr]
        have hr2 : listedIn p rest = false := by
          cases h3 : listedIn p rest with
          | true => exact absurd h3 hr
          | false => rfl
        rw [hr2, Bool.or_false]
        by_cases hkp : k = p
        · subst hkp
          rw [StrMap.find_erase_same]
          simp
        · rw [StrMap.find_erase_other vals k p hkp]
          have : decide (some k = some p) = false := by
            simp [hkp]
          rw [this]
          simp

theorem eraseLoop_listed (names : List MsgArg) (p : String) (hp : listedIn p names = true) :
    ∀ (vals vals2 : ValueMap), eraseLoop names vals = some vals2 → vals2.find p = none := by
  induction names with
  | nil => simp [listedIn] at hp
  | cons e rest ih =>
    intro vals vals2 h
    cases hk : e.getS with
    | none => simp [eraseLoop, hk] at h
    | some k =>
      simp only [eraseLoop, hk] at h
      by_cases hr : listedIn p rest = true
      · exact ih hr _ _ h
      · simp only [listedIn, List.any_cons, hk, Option.some.injEq, Bool.or_eq_true,
          decide_eq_true_eq] at hp
        rcases hp with hp | hp
        · subst hp
          have key : ∀ (ns : List MsgArg) (a b : ValueMap), a.find k = none →
              eraseLoop ns a = some b → b.find k = none := by
            intro ns
            induction ns with
            | nil =>
              intro a b ha hab
              simp only [eraseLoop, Option.some.injEq] at hab
              rw [← hab]
              exact ha
            | cons n ns ih2 =>
              intro a b ha hab
              cases hn : n.getS with
              | none => simp [eraseLoop, hn] at hab
              | some q =>
                simp only [eraseLoop, hn] at hab
                refine ih2 _ _ ?_ hab
                by_cases hq : q = k
                · subst hq
                  exact StrMap.find_erase_same a q
                · rw [StrMap.find_erase_other a q k hq]
                  exact ha
          exact key rest _ _ (StrMap.find_erase_same vals k) h
        · exact absurd hp hr

/-! ### Frame facts for the update functions -/

theorem update_enabled (c : CachedProps) (u : Update) : (c.update u).enabled = c.enabled := by
  cases u with
  | Set n v s =>
    simp only [update, Set]
    repeat' split
    all_goals rfl
  | SetAll a s =>
    simp only [update, SetAll]
    repeat' split
    all_goals rfl
  | PropertiesChanged ch inv s =>
    simp only [update, PropertiesChanged]
    repeat' split
    all_goals rfl

theorem update_description (c : CachedProps) (u : Update) :
    (c.update u).description = c.description := by
  cases u with
  | Set n v s =>
    simp only [update, Set]
    repeat' split
    all_goals rfl
  | SetAll a s =>
    simp only [update, SetAll]
    repeat' split
    all_goals rfl
  | PropertiesChanged ch inv s =>
    simp only [update, PropertiesChanged]
    repeat' split
    all_goals rfl

theorem update_IsCacheable (c : CachedProps) (u : Update) (p : String) :
    (c.update u).IsCacheable p = c.IsCacheable p := by
  unfold IsCacheable
  rw [update_description]

theorem updates_nil (c : CachedProps) : c.updates [] = c := rfl

theorem updates_cons (c : CachedProps) (u : Update) (us : List Update) :
    c.updates (u :: us) = (c.update u).updates us := rfl

theorem updates_append (c : CachedProps) (us vs : List Update) :
    c.updates (us ++ vs) = (c.updates us).updates vs := by
  simp [updates, List.foldl_append]

theorem updates_enabled (c : CachedProps) (us : List Update) :
    (c.updates us).enabled = c.enabled := by
  induction us generalizing c with
  | nil => rfl
  | cons u us ih => rw [updates_cons, ih, update_enabled]

theorem updates_IsCacheable (c : CachedProps) (us : List Update) (p : String) :
    (c.updates us).IsCacheable p = c.IsCacheable p := by
  induction us generalizing c with
  | nil => rfl
  | cons u us ih => rw [updates_cons, ih, update_IsCacheable]

theorem validSerials_append (c : CachedProps) (us vs : List Update) :
    c.validSerials (us ++ vs) = (c.validSerials us && (c.updates us).validSerials vs) := by
  induction us generalizing c with
  | nil => simp [validSerials, updates_nil]
  | cons u us ih =>
    rw [List.cons_append]
    simp only [validSerials, updates_cons]
    rw [ih, Bool.and_assoc]

/-- What a signal with a valid serial and a payload that parses does to an
enabled cache. -/
theorem PropertiesChanged_spec (c : CachedProps) (changed invalidated : List MsgArg) (s : Nat)
    (hen : c.enabled = true) (hs : c.IsValidMessageSerial s = true)
    (hch : changed.all (fun e => e.getSV.isSome) = true)
    (hinv : invalidated.all (fun e => e.getS.isSome) = true) :
    ∃ vals2, c.PropertiesChanged changed invalidated s =
        { c with values := vals2, lastMessageSerial := s } ∧
      ∀ p, vals2.find p =
        if listedIn p invalidated = true then none
        else if c.IsCacheable p = true then overlay (lastEntry p changed) (c.values.find p)
        else c.values.find p := by
  obtain ⟨vals1, h1, h1f⟩ := storeLoop_spec c changed hch c.values
  obtain ⟨vals2, h2, h2f⟩ := eraseLoop_spec invalidated hinv vals1
  refine ⟨vals2, ?_, ?_⟩
  · simp [PropertiesChanged, hen, hs, h1, h2]
  · intro p
    rw [h2f p, h1f p]

/-- What a `GetAll` reply with a valid serial and a payload that parses does to
an enabled cache. -/
theorem SetAll_spec (c : CachedProps) (allValues : MsgArg) (elems : List MsgArg) (s : Nat)
    (hen : c.enabled = true) (hs : c.IsValidMessageSerial s = true)
    (hp : allValues.getASV = some elems) :
    ∃ vals2, c.SetAll allValues s = { c with values := vals2, lastMessageSerial := s } ∧
      ∀ p, vals2.find p =
        if c.IsCacheable p = true then overlay (lastEntry p elems) (c.values.find p)
        else c.values.find p := by
  have hall : elems.all (fun e => e.getSV.isSome) = true := by
    cases allValues with
    | array es =>
      simp only [MsgArg.getASV] at hp
      split_ifs at hp with h
      simp only [Option.some.injEq] at hp
      rw [← hp]
      exact h
    | _ => simp [MsgArg.getASV] at hp
  obtain ⟨vals1, h1, h1f⟩ := storeLoop_spec c elems hall c.values
  refine ⟨vals1, ?_, h1f⟩
  simp [SetAll, hen, hs, hp, h1]

end CachedProps

/-! ### Single updates -/

namespace CachedProps

theorem GetAll_of_values_nil (c : CachedProps) (h : c.values = []) : c.GetAll = none := by
  unfold GetAll
  by_cases hn : c.numProperties = 0
  · simp [hn]
  · have hne : ¬ (0 = c.numProperties) := fun e => hn e.symm
    simp [h, hn, hne]

theorem update_of_disabled (c : CachedProps) (u : Update) (h : c.enabled = false) :
    c.update u = c := by
  cases u with
  | Set n v s => simp [update, Set, h]
  | SetAll a s => simp [update, SetAll, h]
  | PropertiesChanged ch inv s => simp [update, PropertiesChanged, h]

theorem update_sets (c : CachedProps) (u : Update) (p : String) (v : MsgArg)
    (hen : c.enabled = true) (hwf : u.WellFormed = true)
    (hs : c.IsValidMessageSerial u.serial = true) (hp : c.IsCacheable p = true)
    (hu : u.carried p = some v) : (c.update u).Get p = some v := by
  cases u with
  | Set n val s =>
    simp only [Update.carried] at hu
    split_ifs at hu with hnp
    simp only [Option.some.injEq] at hu
    subst hnp
    subst hu
    simp only [Update.serial] at hs
    simp only [update, Set, hp, hen, hs, Get]
    exact StrMap.find_assign_same _ _ _
  | SetAll a s =>
    simp only [Update.carried] at hu
    cases ha : a.getASV with
    | none => simp [ha] at hu
    | some elems =>
      simp only [ha] at hu
      obtain ⟨vals2, h1, h2⟩ := SetAll_spec c a elems s hen hs ha
      simp only [update, h1, Get]
      rw [h2 p, if_pos hp, hu]
      rfl
  | PropertiesChanged ch inv s =>
    simp only [Update.carried] at hu
    split_ifs at hu with hl
    simp only [Update.WellFormed, Bool.and_eq_true] at hwf
    obtain ⟨vals2, h1, h2⟩ := PropertiesChanged_spec c ch inv s hen hs hwf.1 hwf.2
    simp only [update, h1, Get]
    rw [h2 p, if_neg hl, if_pos hp, hu]
    rfl

theorem update_keeps (c : CachedProps) (u : Update) (p : String)
    (hen : c.enabled = true) (hwf : u.WellFormed = true)
    (hs : c.IsValidMessageSerial u.serial = true)
    (hu : u.carried p = none) (hi : u.invalidates p = false) :
    (c.update u).Get p = c.Get p := by
  cases u with
  | Set n val s =>
    simp only [Update.carried] at hu
    have hnp : n ≠ p := by
      intro e
      simp [e] at hu
    simp only [Update.serial] at hs
    simp only [update, Set, hen, hs, Get]
    by_cases hc : c.IsCacheable n = true
    · simp only [hc]
      exact StrMap.find_assign_other _ _ _ _ hnp
    · have hc2 : c.IsCacheable n = false := by
        cases h3 : c.IsCacheable n with
        | true => exact absurd h3 hc
        | false => rfl
      simp [hc2]
  | SetAll a s =>
    simp only [Update.WellFormed] at hwf
    cases ha : a.getASV with
    | none => simp [ha] at hwf
    | some elems =>
      simp only [Update.carried, ha] at hu
      obtain ⟨vals2, h1, h2⟩ := SetAll_spec c a elems s hen hs ha
      simp only [update, h1, Get]
      rw [h2 p, hu]
      split_ifs <;> rfl
  | PropertiesChanged ch inv s =>
    simp only [Update.invalidates] at hi
    simp only [Update.carried, hi] at hu
    simp only [Update.WellFormed, Bool.and_eq_true] at hwf
    obtain ⟨vals2, h1, h2⟩ := PropertiesChanged_spec c ch inv s hen hs hwf.1 hwf.2
    simp only [update, h1, Get]
    have hu2 : lastEntry p ch = none := by
      simpa using hu
    rw [h2 p, hi, hu2]
    simp only [Bool.false_eq_true, if_false]
    split_ifs <;> rfl

theorem updates_keep (post : List Update) (p : String) :
    ∀ (c : CachedProps), c.enabled = true → (∀ x ∈ post, x.WellFormed = true) →
      c.validSerials post = true →
      (∀ x ∈ post, x.carried p = none ∧ x.invalidates p = false) →
      (c.updates post).Get p = c.Get p := by
  induction post with
  | nil =>
    intro c _ _ _ _
    rfl
  | cons u us ih =>
    intro c hen hwf hv hk
    simp only [validSerials, Bool.and_eq_true] at hv
    rw [updates_cons]
    rw [ih (c.update u) (by rw [update_enabled]; exact hen)
      (fun x hx => hwf x (List.mem_cons_of_mem _ hx)) hv.2
      (fun x hx => hk x (List.mem_cons_of_mem _ hx))]
    exact update_keeps c u p hen (hwf u (List.mem_cons_self _ _)) hv.1
      (hk u (List.mem_cons_self _ _)).1 (hk u (List.mem_cons_self _ _)).2

theorem step_enabled_false (c : CachedProps) (op : CacheOp)
    (h : (c.step op).enabled = false) : c.enabled = false ∧ op.isEnable = false := by
  cases op with
  | update u =>
    simp only [step, update_enabled] at h
    exact ⟨h, rfl⟩
  | Enable => simp [step, Enable] at h

theorem run_nil (c : CachedProps) : c.run [] = c := rfl

theorem run_cons (c : CachedProps) (op : CacheOp) (ops : List CacheOp) :
    c.run (op :: ops) = (c.step op).run ops := rfl

theorem run_append (c : CachedProps) (ops ops2 : List CacheOp) :
    c.run (ops ++ ops2) = (c.run ops).run ops2 := by
  simp [run, List.foldl_append]

theorem run_enabled (ops : List CacheOp) : ∀ (c : CachedProps),
    (c.run ops).enabled = (c.enabled || ops.any CacheOp.isEnable) := by
  induction ops with
  | nil =>
    intro c
    simp [run_nil]
  | cons op ops ih =>
    intro c
    rw [run_cons, ih]
    cases op with
    | update u => simp [step, update_enabled, CacheOp.isEnable]
    | Enable => simp [step, Enable, CacheOp.isEnable]

theorem run_disabled_values (ops : List CacheOp) : ∀ (c : CachedProps),
    (c.enabled = false → c.values = []) →
    (c.run ops).enabled = false → (c.run ops).values = [] := by
  induction ops with
  | nil =>
    intro c h0 h
    exact h0 h
  | cons op ops ih =>
    intro c h0 h
    rw [run_cons] at h ⊢
    refine ih (c.step op) ?_ h
    intro hd
    obtain ⟨hc, _⟩ := step_enabled_false c op hd
    cases op with
    | update u =>
      simp only [step]
      rw [update_of_disabled c u hc]
      exact h0 hc
    | Enable => simp [step, Enable] at hd

end CachedProps

/-! ### The representation invariant of a reachable cache -/

namespace CachedProps

theorem ctorLoop_iff (props : List Property) :
    ctorLoop props = true ↔ ∀ q ∈ props, q.cacheable = true := by
  induction props with
  | nil => simp [ctorLoop]
  | cons q rest ih =>
    simp only [ctorLoop, List.mem_cons, forall_eq_or_imp]
    cases hq : q.cacheable with
    | true => simpa using ih
    | false => simp

theorem mem_names_of_IsCacheable (c : CachedProps) (k : String) (h : c.IsCacheable k = true) :
    k ∈ c.description.propertyNames := by
  unfold IsCacheable InterfaceDescription.GetProperty at h
  cases hf : c.description.properties.find? (fun q => decide (q.name = k)) with
  | none => simp [hf] at h
  | some q =>
    have h1 := List.find?_some hf
    have h2 := List.mem_of_find?_eq_some hf
    simp only [decide_eq_true_eq] at h1
    rw [← h1]
    exact List.mem_map_of_mem _ h2

theorem storeLoop_inv (c : CachedProps) (elems : List MsgArg) :
    ∀ (vals vals2 : ValueMap), storeLoop c elems vals = some vals2 →
      StrMap.Ordered vals → (∀ k ∈ StrMap.keys vals, c.IsCacheable k = true) →
      StrMap.Ordered vals2 ∧ (∀ k ∈ StrMap.keys vals2, c.IsCacheable k = true) := by
  induction elems with
  | nil =>
    intro vals vals2 h ho hc
    simp only [storeLoop, Option.some.injEq] at h
    subst h
    exact ⟨ho, hc⟩
  | cons e rest ih =>
    intro vals vals2 h ho hc
    cases hk : e.getSV with
    | none => simp [storeLoop, hk] at h
    | some kv =>
      obtain ⟨k, v⟩ := kv
      simp only [storeLoop, hk] at h
      by_cases hck : c.IsCacheable k = true
      · rw [if_pos hck] at h
        refine ih _ _ h (ho.assign k _) ?_
        intro x hx
        rcases (StrMap.mem_keys_assign vals k x _).mp hx with e2 | hx2
        · rw [e2]
          exact hck
        · exact hc x hx2
      · rw [if_neg hck] at h
        exact ih _ _ h ho hc

theorem eraseLoop_inv (names : List MsgArg) (P : String → Prop) :
    ∀ (vals vals2 : ValueMap), eraseLoop names vals = some vals2 →
      StrMap.Ordered vals → (∀ k ∈ StrMap.keys vals, P k) →
      StrMap.Ordered vals2 ∧ (∀ k ∈ StrMap.keys vals2, P k) := by
  induction names with
  | nil =>
    intro vals vals2 h ho hc
    simp only [eraseLoop, Option.some.injEq] at h
    subst h
    exact ⟨ho, hc⟩
  | cons e rest ih =>
    intro vals vals2 h ho hc
    cases hk : e.getS with
    | none => simp [eraseLoop, hk] at h
    | some k =>
      simp only [eraseLoop, hk] at h
      refine ih _ _ h (ho.erase k) ?_
      intro x hx
      exact hc x ((StrMap.mem_keys_erase vals k x).mp hx).2

theorem update_frame (c : CachedProps) (u : Update) :
    (c.update u).numProperties = c.numProperties ∧
      (c.update u).isFullyCacheable = c.isFullyCacheable := by
  cases u with
  | Set n v s =>
    simp only [update, Set]
    repeat' split
    all_goals exact ⟨rfl, rfl⟩
  | SetAll a s =>
    simp only [update, SetAll]
    repeat' split
    all_goals exact ⟨rfl, rfl⟩
  | PropertiesChanged ch inv s =>
    simp only [update, PropertiesChanged]
    repeat' split
    all_goals exact ⟨rfl, rfl⟩

theorem update_values_inv (c : CachedProps) (u : Update)
    (ho : StrMap.Ordered c.values) (hc : ∀ k ∈ StrMap.keys c.values, c.IsCacheable k = true) :
    StrMap.Ordered (c.update u).values ∧
      (∀ k ∈ StrMap.keys (c.update u).values, c.IsCacheable k = true) := by
  have hnil : StrMap.Ordered ([] : ValueMap) ∧
      (∀ k ∈ StrMap.keys ([] : ValueMap), c.IsCacheable k = true) :=
    ⟨StrMap.Ordered.nil, fun k hk => by simp [StrMap.keys] at hk⟩
  cases u with
  | Set n v s =>
    simp only [update, Set]
    by_cases h1 : c.IsCacheable n = true
    · simp only [h1, Bool.not_true, Bool.false_eq_true, if_false]
      split_ifs
      · exact ⟨ho, hc⟩
      · exact hnil
      · refine ⟨ho.assign n v, ?_⟩
        intro x hx
        rcases (StrMap.mem_keys_assign c.values n x v).mp hx with e2 | hx2
        · rw [e2]
          exact h1
        · exact hc x hx2
    · have h2 : c.IsCacheable n = false := by
        cases h3 : c.IsCacheable n with
        | true => exact absurd h3 h1
        | false => rfl
      simp only [h2, Bool.not_false, if_true]
      exact ⟨ho, hc⟩
  | SetAll a s =>
    simp only [update, SetAll]
    by_cases h1 : c.enabled = true
    · simp only [h1, Bool.not_true, Bool.false_eq_true, if_false]
      cases a.getASV with
      | none => exact hnil
      | some elems =>
        simp only
        by_cases h2 : c.IsValidMessageSerial s = true
        · simp only [h2, Bool.not_true, Bool.false_eq_true, if_false]
          cases h4 : storeLoop c elems c.values with
          | none => exact hnil
          | some vals => exact storeLoop_inv c elems _ _ h4 ho hc
        · simp only [Bool.eq_false_iff.mpr h2, Bool.not_false, if_true]
          exact hnil
    · simp only [Bool.eq_false_iff.mpr h1, Bool.not_false, if_true]
      exact ⟨ho, hc⟩
  | PropertiesChanged ch inv s =>
    simp only [update, PropertiesChanged]
    by_cases h1 : c.enabled = true
    · simp only [h1, Bool.not_true, Bool.false_eq_true, if_false]
      by_cases h2 : c.IsValidMessageSerial s = true
      · simp only [h2, Bool.not_true, Bool.false_eq_true, if_false]
        cases h4 : storeLoop c ch c.values with
        | none => exact hnil
        | some vals =>
          simp only
          obtain ⟨ho2, hc2⟩ := storeLoop_inv c ch _ _ h4 ho hc
          cases h5 : eraseLoop inv vals with
          | none => exact hnil
          | some vals2 => exact eraseLoop_inv inv _ _ _ h5 ho2 hc2
      · simp only [Bool.eq_false_iff.mpr h2, Bool.not_false, if_true]
        exact hnil
    · simp only [Bool.eq_false_iff.mpr h1, Bool.not_false, if_true]
      exact ⟨ho, hc⟩

theorem Inv.step {c : CachedProps} {intf : InterfaceDescription} (h : Inv c intf)
    (op : CacheOp) : Inv (c.step op) intf := by
  cases op with
  | Enable =>
    exact
      { descr := h.descr
        num := h.num
        full := h.full
        ordered := h.ordered
        cacheable := h.cacheable
        disabled := fun hd => by simp [CachedProps.step, Enable] at hd }
  | update u =>
    obtain ⟨ho, hc⟩ := update_values_inv c u h.ordered h.cacheable
    exact
      { descr := by
          simp only [CachedProps.step]
          rw [update_description]
          exact h.descr
        num := by
          simp only [CachedProps.step]
          rw [(update_frame c u).1]
          exact h.num
        full := by
          simp only [CachedProps.step]
          rw [(update_frame c u).2]
          exact h.full
        ordered := ho
        cacheable := by
          intro k hk
          simp only [CachedProps.step] at hk ⊢
          rw [update_IsCacheable]
          exact hc k hk
        disabled := by
          intro hd
          simp only [CachedProps.step] at hd ⊢
          rw [update_enabled] at hd
          rw [update_of_disabled c u hd]
          exact h.disabled hd }

theorem Inv.ctor (intf : InterfaceDescription) : Inv (CachedProps.ctor intf) intf :=
  { descr := rfl
    num := rfl
    full := rfl
    ordered := StrMap.Ordered.nil
    cacheable := fun k hk => by simp [CachedProps.ctor, StrMap.keys] at hk
    disabled := fun _ => rfl }

theorem Inv.run {c : CachedProps} {intf : InterfaceDescription} (h : Inv c intf)
    (ops : List CacheOp) : Inv (c.run ops) intf := by
  induction ops generalizing c with
  | nil => exact h
  | cons op ops ih => exact ih (h.step op)

theorem Inv.reached (intf : InterfaceDescription) (ops : List CacheOp) :
    Inv (CachedProps.reached intf ops) intf := (Inv.ctor intf).run ops

theorem Inv.keys_subset {c : CachedProps} {intf : InterfaceDescription} (h : Inv c intf) :
    StrMap.keys c.values ⊆ intf.propertyNames := by
  intro k hk
  have := mem_names_of_IsCacheable c k (h.cacheable k hk)
  rw [h.descr] at this
  exact this

/-- The condition under which `GetAll` hits, for a cache that satisfies the
representation invariant. -/
theorem Inv.GetAll_isSome_iff {c : CachedProps} {intf : InterfaceDescription} (h : Inv c intf)
    (hwf : intf.WellFormed) :
    c.GetAll.isSome = true ↔
      (intf.properties ≠ [] ∧ (∀ q ∈ intf.properties, q.cacheable = true) ∧
        ∀ q ∈ intf.properties, (c.Get q.name).isSome = true) := by
  have hlen : intf.propertyNames.length = intf.properties.length := by
    simp [InterfaceDescription.propertyNames]
  have hsub := (h.ordered.nodup).subperm h.keys_subset
  constructor
  · intro hg
    unfold GetAll at hg
    by_cases h1 : (!c.isFullyCacheable || c.numProperties == 0) = true
    · simp [h1] at hg
    · rw [if_neg h1] at hg
      simp only [Bool.or_eq_true, Bool.not_eq_true', beq_iff_eq, not_or, Bool.not_eq_false] at h1
      obtain ⟨hfull, hn0⟩ := h1
      by_cases h2 : (c.values.length == c.numProperties) = true
      · simp only [beq_iff_eq] at h2
        have hpos : intf.properties.length > 0 := by
          rw [← h.num]
          exact Nat.pos_of_ne_zero hn0
        rw [h.full, if_pos hpos] at hfull
        refine ⟨?_, (ctorLoop_iff _).mp hfull, ?_⟩
        · intro e
          rw [e] at hpos
          exact Nat.lt_irrefl 0 hpos
        · intro q hq
          have hperm := hsub.perm_of_length_le (by
            rw [StrMap.length_keys, h2, h.num, hlen])
          have hmem : q.name ∈ StrMap.keys c.values :=
            hperm.symm.subset (List.mem_map_of_mem _ hq)
          exact (StrMap.find_isSome_iff_mem_keys c.values q.name).mpr hmem
      · rw [if_neg h2] at hg
        simp at hg
  · rintro ⟨hne, hall, hcached⟩
    have hpos : intf.properties.length > 0 := List.length_pos.mpr hne
    have hfull : c.isFullyCacheable = true := by
      rw [h.full, if_pos hpos]
      exact (ctorLoop_iff _).mpr hall
    have hsub2 : intf.propertyNames ⊆ StrMap.keys c.values := by
      intro k hk
      simp only [InterfaceDescription.propertyNames, List.mem_map] at hk
      obtain ⟨q, hq, hqk⟩ := hk
      rw [← hqk]
      exact (StrMap.find_isSome_iff_mem_keys c.values q.name).mp (hcached q hq)
    have hle1 := (hwf.subperm hsub2).length_le
    have hle2 := hsub.length_le
    have hlen2 : c.values.length = c.numProperties := by
      rw [h.num, ← hlen, ← StrMap.length_keys]
      exact Nat.le_antisymm hle2 hle1
    have hn0 : c.numProperties ≠ 0 := by
      rw [h.num]
      exact Nat.pos_iff_ne_zero.mp hpos
    unfold GetAll
    simp [hfull, hn0, hlen2]

theorem GetAll_eq_some (c : CachedProps) (r : MsgArg) (h : c.GetAll = some r) :
    r = MsgArg.array (c.values.map (fun kv =>
      MsgArg.dictEntry (MsgArg.str kv.1) (MsgArg.variant kv.2.inner))) ∧
      c.values.length = c.numProperties := by
  unfold GetAll at h
  split_ifs at h with h1 h2
  simp only [Option.some.injEq] at h
  simp only [beq_iff_eq] at h2
  exact ⟨h.symm, h2⟩

theorem PropertiesChanged_listed (c : CachedProps) (changed invalidated : List MsgArg) (s : Nat)
    (p : String) (hd : c.enabled = false → c.values = [])
    (hl : listedIn p invalidated = true) :
    (c.PropertiesChanged changed invalidated s).Get p = none := by
  unfold PropertiesChanged Get
  by_cases hen : c.enabled = true
  · simp only [hen, Bool.not_true, Bool.false_eq_true, if_false]
    split_ifs
    · rfl
    · cases storeLoop c changed c.values with
      | none => rfl
      | some vals =>
        simp only
        cases h5 : eraseLoop invalidated vals with
        | none => rfl
        | some vals2 => exact eraseLoop_listed invalidated p hl _ _ h5
  · have hen2 : c.enabled = false := by
      cases h3 : c.enabled with
      | true => exact absurd h3 hen
      | false => rfl
    simp [hen2, hd hen2, StrMap.find]

end CachedProps

theorem StrMap.mem_of_find {V : Type} (m : StrMap V) (k : String) (v : V)
    (h : m.find k = some v) : (k, v) ∈ m := by
  induction m with
  | nil => simp [StrMap.find] at h
  | cons hd tl ih =>
    obtain ⟨k2, v2⟩ := hd
    simp only [StrMap.find] at h
    split_ifs at h with h1
    · simp only [Option.some.injEq] at h
      rw [h1, h]
      exact List.mem_cons_self _ _
    · exact List.mem_cons_of_mem _ (ih h)

theorem entryNames_dict (vals : ValueMap) :
    entryNames (vals.map (fun kv =>
      MsgArg.dictEntry (MsgArg.str kv.1) (MsgArg.variant kv.2.inner))) = StrMap.keys vals := by
  induction vals with
  | nil => rfl
  | cons hd tl ih =>
    simp only [entryNames, StrMap.keys, List.map_cons, List.filterMap_cons, MsgArg.getSV,
      Option.map_some'] at ih ⊢
    rw [ih]

/-! ### The dispatch loops of `PropertiesChangedHandler` -/

theorem Message.GetArgs_wellFormed (m : Message) (ifaceName : String)
    (changedProps invalidProps : List MsgArg)
    (h : m.GetArgs = some (ifaceName, changedProps, invalidProps)) :
    changedProps.all (fun e => e.getSV.isSome) = true ∧
      invalidProps.all (fun e => e.getS.isSome) = true := by
  unfold Message.GetArgs at h
  split at h
  · rename_i a0 a1 a2 _
    split at h
    · rename_i i ch inv h0 h1 h2
      simp only [Option.some.injEq, Prod.mk.injEq] at h
      obtain ⟨_, e1, e2⟩ := h
      subst e1
      subst e2
      constructor
      · cases a1 with
        | array es =>
          simp only [MsgArg.getASV] at h1
          split_ifs at h1 with hall
          simp only [Option.some.injEq] at h1
          rw [← h1]
          exact hall
        | _ => simp [MsgArg.getASV] at h1
      · cases a2 with
        | array es =>
          simp only [MsgArg.getAS] at h2
          split_ifs at h2 with hall
          simp only [Option.some.injEq] at h2
          rw [← h2]
          exact hall
        | _ => simp [MsgArg.getAS] at h2
    · exact Option.noConfusion h
  · exact Option.noConfusion h

theorem filterChangedLoop_eq (properties : List String) (changedProps : List MsgArg)
    (hwf : changedProps.all (fun e => e.getSV.isSome) = true) :
    filterChangedLoop properties changedProps =
      changedProps.filter (fun e =>
        match e.getSV with
        | some (n, _) => decide (n ∈ properties)
        | none => false) := by
  induction changedProps with
  | nil => rfl
  | cons e rest ih =>
    simp only [List.all_cons, Bool.and_eq_true] at hwf
    cases hk : e.getSV with
    | none => simp [hk] at hwf
    | some kv =>
      obtain ⟨k, v⟩ := kv
      simp only [filterChangedLoop, hk, List.filter_cons]
      rw [ih hwf.2]
      by_cases hm : k ∈ properties
      · simp only [hm, if_true, decide_True]
        rw [← MsgArg.getSV_eq hk]
      · simp only [hm, if_false, decide_False]
        rfl

theorem filterInvalidLoop_eq (properties : List String) (invalidProps : List MsgArg)
    (hwf : invalidProps.all (fun e => e.getS.isSome) = true) :
    (filterInvalidLoop properties invalidProps).map MsgArg.str =
      invalidProps.filter (fun e =>
        match e.getS with
        | some n => decide (n ∈ properties)
        | none => false) := by
  induction invalidProps with
  | nil => rfl
  | cons e rest ih =>
    simp only [List.all_cons, Bool.and_eq_true] at hwf
    cases hk : e.getS with
    | none => simp [hk] at hwf
    | some k =>
      simp only [filterInvalidLoop, hk, List.filter_cons]
      by_cases hm : k ∈ properties
      · simp only [hm, if_true, decide_True, List.map_cons]
        rw [ih hwf.2, ← MsgArg.getS_eq hk]
      · simp only [hm, if_false, decide_False]
        rw [ih hwf.2]
        rfl

theorem allInvalidLoop_eq (invalidProps : List MsgArg)
    (hwf : invalidProps.all (fun e => e.getS.isSome) = true) :
    (allInvalidLoop invalidProps).map MsgArg.str = invalidProps := by
  induction invalidProps with
  | nil => rfl
  | cons e rest ih =>
    simp only [List.all_cons, Bool.and_eq_true] at hwf
    cases hk : e.getS with
    | none => simp [hk] at hwf
    | some k =>
      simp only [allInvalidLoop, hk, List.map_cons]
      rw [ih hwf.2, ← MsgArg.getS_eq hk]

theorem length_pos_iff_not_isEmpty {α : Type} (l : List α) :
    decide (l.length > 0) = !l.isEmpty := by
  cases l <;> simp

/-- For a registered entry and a payload that parses, the body of the dispatch
loop delivers what the specification describes. -/
theorem notifyListener_eq_expected (ifaceName : String) (changedProps invalidProps : List MsgArg)
    (ctx : PropertiesChangedCB)
    (hch : changedProps.all (fun e => e.getSV.isSome) = true)
    (hinv : invalidProps.all (fun e => e.getS.isSome) = true)
    (hreg : ctx.isRegistered = true) :
    notifyListener ifaceName changedProps invalidProps ctx =
      expectedDelivery ifaceName changedProps invalidProps ctx := by
  unfold notifyListener expectedDelivery
  simp only [hreg, if_true]
  by_cases he : ctx.properties.isEmpty = true
  · simp only [he, if_true, Bool.true_or]
    have h1 : changedProps.filter (fun e =>
        match e.getSV with
        | some (_, _) => true
        | none => false) = changedProps := by
      rw [List.filter_eq_self]
      intro a ha
      have := (List.all_eq_true.mp hch) a ha
      cases hk : a.getSV with
      | none => simp [hk] at this
      | some kv => rfl
    have h2 : invalidProps.filter (fun e =>
        match e.getS with
        | some _ => true
        | none => false) = invalidProps := by
      rw [List.filter_eq_self]
      intro a ha
      have := (List.all_eq_true.mp hinv) a ha
      cases hk : a.getS with
      | none => simp [hk] at this
      | some kv => rfl
    rw [h1, h2, allInvalidLoop_eq invalidProps hinv]
    have h3 : (allInvalidLoop invalidProps).length = invalidProps.length := by
      have := congrArg List.length (allInvalidLoop_eq invalidProps hinv)
      rw [List.length_map] at this
      exact this
    rw [h3]
    cases changedProps <;> cases invalidProps <;> simp
  · have he2 : ctx.properties.isEmpty = false := Bool.eq_false_iff.mpr he
    simp only [he2, Bool.false_eq_true, if_false, Bool.false_or]
    have h3 : (filterInvalidLoop ctx.properties invalidProps).length =
        ((filterInvalidLoop ctx.properties invalidProps).map MsgArg.str).length := by
      rw [List.length_map]
    rw [h3, filterInvalidLoop_eq ctx.properties invalidProps hinv,
      filterChangedLoop_eq ctx.properties changedProps hch]
    generalize changedProps.filter (fun e =>
        match e.getSV with
        | some (n, _) => decide (n ∈ ctx.properties)
        | none => false) = A
    generalize invalidProps.filter (fun e =>
        match e.getS with
        | some n => decide (n ∈ ctx.properties)
        | none => false) = B
    cases A <;> cases B <;> simp

/-! ### Match-rule bookkeeping -/

theorem StrMap.find_modify_same {V : Type} (m : StrMap V) (k : String) (f : V → V) :
    (m.modify k f).find k = (m.find k).map f := by
  unfold StrMap.modify
  cases h : m.find k with
  | none => simp [h]
  | some v => simp [StrMap.find_assign_same]

theorem StrMap.find_insert_of_none {V : Type} (m : StrMap V) (k : String) (v : V)
    (h : m.find k = none) : (m.insert k v).find k = some v := by
  unfold StrMap.insert
  simp only [h]
  exact StrMap.find_assign_same m k v

namespace Sys

theorem record_enableCache (w : Sys) (intf i2 : String) :
    ({ w with pbo := w.pbo.enableCache i2 } : Sys).record intf = w.record intf := rfl

theorem deliver_calls (bus : BusAttachment) (w : Sys) (intf : String) :
    (w.deliver bus intf).calls = w.calls := by
  unfold deliver
  split_ifs <;> rfl

theorem deliver_of_not_pending (bus : BusAttachment) (w : Sys) (intf : String)
    (h : intf ∉ w.pending) : w.deliver bus intf = w := by
  unfold deliver
  rw [if_neg h]

theorem deliver_record (bus : BusAttachment) (w : Sys) (intf : String)
    (hmem : intf ∈ w.pending) :
    (w.deliver bus intf).record intf =
      (w.record intf).map (fun r => { r with adding := false }) := by
  unfold deliver
  rw [if_pos hmem]
  show (StrMap.modify w.pbo.matchRuleBookKeeping intf _).find intf = _
  rw [StrMap.find_modify_same]
  rfl

theorem deliver_Held (bus : BusAttachment) (w : Sys) (intf : String) (k A R : Nat)
    (h : Held w intf k A R) : Held (w.deliver bus intf) intf k A R := by
  obtain ⟨a, hrec, hp, hA, hR⟩ := h
  by_cases hmem : intf ∈ w.pending
  · refine ⟨false, ?_, fun e => Bool.noConfusion e, ?_, ?_⟩
    · rw [deliver_record bus w intf hmem, hrec]
      rfl
    · unfold addMatchCalls
      rw [deliver_calls]
      exact hA
    · unfold removeMatchCalls
      rw [deliver_calls]
      exact hR
  · rw [deliver_of_not_pending bus w intf hmem]
    exact ⟨a, hrec, hp, hA, hR⟩

theorem deliver_Free (bus : BusAttachment) (w : Sys) (intf : String) (A R : Nat)
    (h : Free w intf A R) : Free (w.deliver bus intf) intf A R := by
  obtain ⟨hrec, hA, hR⟩ := h
  by_cases hmem : intf ∈ w.pending
  · refine ⟨?_, ?_, ?_⟩
    · rw [deliver_record bus w intf hmem, hrec]
      rfl
    · unfold addMatchCalls
      rw [deliver_calls]
      exact hA
    · unfold removeMatchCalls
      rw [deliver_calls]
      exact hR
  · rw [deliver_of_not_pending bus w intf hmem]
    exact ⟨hrec, hA, hR⟩

theorem isAdding_eq (w : Sys) (intf : String) (a : Bool) (k : Nat)
    (hrec : w.record intf = some { adding := a, refCount := k }) :
    w.pbo.isAdding intf = a := by
  unfold Internal.isAdding
  have : w.pbo.matchRuleBookKeeping.find intf = some { adding := a, refCount := k } := hrec
  rw [this]

theorem waitAddMatchDone_Held (bus : BusAttachment) (w : Sys) (intf : String) (k A R : Nat)
    (h : Held w intf k A R) :
    ∃ w2, w.waitAddMatchDone bus intf = some w2 ∧
      w2.record intf = some { adding := false, refCount := k } ∧ w2.calls = w.calls := by
  obtain ⟨a, hrec, hp, hA, hR⟩ := h
  unfold waitAddMatchDone
  rw [isAdding_eq w intf a k hrec]
  cases a with
  | false =>
    simp only [Bool.false_eq_true, if_false]
    exact ⟨w, rfl, hrec, rfl⟩
  | true =>
    simp only [if_true]
    have hmem : intf ∈ w.pending := hp rfl
    rw [if_pos hmem]
    refine ⟨_, rfl, ?_, deliver_calls bus w intf⟩
    rw [deliver_record bus w intf hmem, hrec]
    rfl

theorem addRuleTail_Held (bus : BusAttachment) (w : Sys) (intf : String) (blocking : Bool)
    (k A R : Nat) (h : Held w intf k A R) :
    ∃ w2, addRuleTail bus w intf blocking = some w2 ∧ Held w2 intf k A R := by
  unfold addRuleTail
  have h1 : Held (if (!w.pbo.isAdding intf) = true then
      ({ w with pbo := w.pbo.enableCache intf } : Sys) else w) intf k A R := by
    split_ifs
    · exact h
    · exact h
  cases blocking with
  | false => exact ⟨_, rfl, h1⟩
  | true =>
    simp only [if_true]
    obtain ⟨w2, hw, hrec, hc⟩ := waitAddMatchDone_Held bus _ intf k A R h1
    obtain ⟨_, _, _, hA, hR⟩ := h1
    refine ⟨w2, hw, false, hrec, fun e => Bool.noConfusion e, ?_, ?_⟩
    · unfold addMatchCalls at hA ⊢
      rw [hc]
      exact hA
    · unfold removeMatchCalls at hR ⊢
      rw [hc]
      exact hR

end Sys

namespace Sys

theorem count_calls_register (calls : List BusCall) (c : Bool) (path rule : String) :
    (if c = true then calls ++ [BusCall.RegisterSignalHandler path] else calls).count
        (BusCall.AddMatchAsync rule) = calls.count (BusCall.AddMatchAsync rule) ∧
      (if c = true then calls ++ [BusCall.RegisterSignalHandler path] else calls).count
        (BusCall.RemoveMatchNonBlocking rule) =
          calls.count (BusCall.RemoveMatchNonBlocking rule) := by
  cases c <;> simp [List.count_append]

theorem u32_succ_pred (k : Nat) (h1 : 1 ≤ k) (h2 : k < 2 ^ 32) :
    CachedProps.u32sub k 1 = k - 1 := by
  unfold CachedProps.u32sub
  norm_num at h2 ⊢
  omega

theorem propIntf_check (bus : BusAttachment) (b : Bool)
    (hP : (bus.GetInterface org.freedesktop.DBus.Properties.InterfaceName).isSome = true) :
    (b && (bus.GetInterface org.freedesktop.DBus.Properties.InterfaceName).isNone) = false := by
  cases hg : bus.GetInterface org.freedesktop.DBus.Properties.InterfaceName with
  | none =>
    rw [hg] at hP
    exact Bool.noConfusion hP
  | some d => cases b <;> rfl

theorem add_Held (bus : BusAttachment) (w : Sys) (intf : String) (blocking : Bool)
    (k A R : Nat) (hP : (bus.GetInterface org.freedesktop.DBus.Properties.InterfaceName).isSome = true)
    (h : Held w intf k A R) :
    ∃ w2, w.AddPropertiesChangedRule bus intf blocking = some w2 ∧
      Held w2 intf ((k + 1) % 2 ^ 32) A R := by
  obtain ⟨a, hrec, hp, hA, hR⟩ := h
  have hfind : w.pbo.matchRuleBookKeeping.find intf = some { adding := a, refCount := k } := hrec
  unfold AddPropertiesChangedRule
  simp only [hfind, Option.isNone_some, Bool.false_eq_true, if_false, propIntf_check bus _ hP]
  apply addRuleTail_Held
  refine ⟨a, ?_, hp, ?_, ?_⟩
  · show (StrMap.modify w.pbo.matchRuleBookKeeping intf _).find intf = _
    rw [StrMap.find_modify_same, hfind]
    rfl
  · show List.count _ (if (!w.pbo.registeredPropChangedHandler) = true then _ else _) = A
    rw [(count_calls_register w.calls _ _ _).1]
    exact hA
  · show List.count _ (if (!w.pbo.registeredPropChangedHandler) = true then _ else _) = R
    rw [(count_calls_register w.calls _ _ _).2]
    exact hR

theorem add_Free (bus : BusAttachment) (w : Sys) (intf : String) (blocking : Bool)
    (A R : Nat) (hP : (bus.GetInterface org.freedesktop.DBus.Properties.InterfaceName).isSome = true)
    (hbus : bus.AddMatchAsync (propertiesChangedRule intf) = QStatus.ER_OK)
    (h : Free w intf A R) :
    ∃ w2, w.AddPropertiesChangedRule bus intf blocking = some w2 ∧
      Held w2 intf 1 (A + 1) R := by
  obtain ⟨hrec, hA, hR⟩ := h
  have hfind : w.pbo.matchRuleBookKeeping.find intf = none := hrec
  unfold AddPropertiesChangedRule
  simp only [hfind, Option.isNone_none, if_true, hbus, ne_eq, not_true_eq_false, if_false,
    propIntf_check bus _ hP, Bool.false_eq_true]
  apply addRuleTail_Held
  refine ⟨true, ?_, ?_, ?_, ?_⟩
  · show (StrMap.modify (StrMap.insert w.pbo.matchRuleBookKeeping intf _) intf _).find intf = _
    rw [StrMap.find_modify_same, StrMap.find_insert_of_none _ _ _ hfind]
    rfl
  · intro _
    show intf ∈ w.pending ++ [intf]
    exact List.mem_append_right _ (List.mem_singleton_self intf)
  · show List.count _ ((if (!w.pbo.registeredPropChangedHandler) = true then _ else _) ++ [_]) = A + 1
    rw [List.count_append, (count_calls_register w.calls _ _ _).1]
    unfold addMatchCalls at hA
    rw [hA]
    simp
  · show List.count _ ((if (!w.pbo.registeredPropChangedHandler) = true then _ else _) ++ [_]) = R
    rw [List.count_append, (count_calls_register w.calls _ _ _).2]
    unfold removeMatchCalls at hR
    rw [hR]
    simp

theorem remove_Free (bus : BusAttachment) (w : Sys) (intf : String) (A R : Nat)
    (h : Free w intf A R) : w.RemovePropertiesChangedRule bus intf = some w := by
  have hfind : w.pbo.matchRuleBookKeeping.find intf = none := h.1
  unfold RemovePropertiesChangedRule
  simp only [hfind]

theorem remove_Held_more (bus : BusAttachment) (w : Sys) (intf : String) (k A R : Nat)
    (h : Held w intf k A R) (h1 : 2 ≤ k) (h2 : k < 2 ^ 32) :
    ∃ w2, w.RemovePropertiesChangedRule bus intf = some w2 ∧ Held w2 intf (k - 1) A R := by
  obtain ⟨w1, hw, hrec1, hc1⟩ := waitAddMatchDone_Held bus w intf k A R h
  obtain ⟨a, hrec, hp, hA, hR⟩ := h
  have hfind : w.pbo.matchRuleBookKeeping.find intf = some { adding := a, refCount := k } := hrec
  have hfind1 : w1.pbo.matchRuleBookKeeping.find intf = some { adding := false, refCount := k } :=
    hrec1
  have hsub := u32_succ_pred k (by omega) h2
  have hne : ¬ (k - 1 = 0) := by omega
  unfold RemovePropertiesChangedRule
  simp only [hfind, hw, hfind1, hsub, beq_iff_eq, hne, if_false]
  refine ⟨_, rfl, false, ?_, ?_, ?_, ?_⟩
  · show (StrMap.assign w1.pbo.matchRuleBookKeeping intf _).find intf = _
    rw [StrMap.find_assign_same]
  · intro e
    exact Bool.noConfusion e
  · show List.count _ w1.calls = A
    rw [hc1]
    exact hA
  · show List.count _ w1.calls = R
    rw [hc1]
    exact hR

theorem remove_Held_last (bus : BusAttachment) (w : Sys) (intf : String) (A R : Nat)
    (h : Held w intf 1 A R) :
    ∃ w2, w.RemovePropertiesChangedRule bus intf = some w2 ∧ Free w2 intf A (R + 1) ∧
      w2.calls = w.calls ++ [BusCall.RemoveMatchNonBlocking (propertiesChangedRule intf)] := by
  obtain ⟨w1, hw, hrec1, hc1⟩ := waitAddMatchDone_Held bus w intf 1 A R h
  obtain ⟨a, hrec, hp, hA, hR⟩ := h
  have hfind : w.pbo.matchRuleBookKeeping.find intf = some { adding := a, refCount := 1 } := hrec
  have hfind1 : w1.pbo.matchRuleBookKeeping.find intf = some { adding := false, refCount := 1 } :=
    hrec1
  have hsub : CachedProps.u32sub 1 1 = 0 := by decide
  unfold RemovePropertiesChangedRule
  simp only [hfind, hw, hfind1, hsub, beq_self_eq_true, if_true]
  refine ⟨_, rfl, ⟨?_, ?_, ?_⟩, ?_⟩
  · show (StrMap.erase w1.pbo.matchRuleBookKeeping intf).find intf = none
    exact StrMap.find_erase_same _ _
  · show List.count _ (w1.calls ++ [_]) = A
    rw [List.count_append, hc1]
    unfold addMatchCalls at hA
    rw [hA]
    simp
  · show List.count _ (w1.calls ++ [_]) = R + 1
    rw [List.count_append, hc1]
    unfold removeMatchCalls at hR
    rw [hR]
    simp
  · show w1.calls ++ [_] = w.calls ++ [_]
    rw [hc1]

theorem events_append (bus : BusAttachment) (intf : String) (es1 es2 : List RuleEvent) :
    ∀ w : Sys, events bus intf w (es1 ++ es2) =
      (events bus intf w es1).bind (fun w1 => events bus intf w1 es2) := by
  induction es1 with
  | nil =>
    intro w
    rfl
  | cons e rest ih =>
    intro w
    rw [List.cons_append]
    simp only [events]
    cases w.event bus intf e with
    | none => rfl
    | some w1 => exact ih w1

theorem events_adds_Held (bus : BusAttachment) (intf : String) (A R : Nat)
    (hP : (bus.GetInterface org.freedesktop.DBus.Properties.InterfaceName).isSome = true)
    (es : List RuleEvent) (hes : ∀ e ∈ es, e.isRemove = false) :
    ∀ (w : Sys) (k : Nat), k < 2 ^ 32 → Held w intf k A R →
      ∃ w2, events bus intf w es = some w2 ∧
        Held w2 intf ((k + es.countP RuleEvent.isAdd) % 2 ^ 32) A R := by
  induction es with
  | nil =>
    intro w k hk h
    refine ⟨w, rfl, ?_⟩
    rw [List.countP_nil, Nat.add_zero, Nat.mod_eq_of_lt hk]
    exact h
  | cons e rest ih =>
    intro w k hk h
    have hrest : ∀ x ∈ rest, x.isRemove = false := fun x hx => hes x (List.mem_cons_of_mem _ hx)
    cases e with
    | add b =>
      obtain ⟨w1, hw1, h1⟩ := add_Held bus w intf b k A R hP h
      obtain ⟨w2, hw2, h2⟩ := ih hrest w1 _ (Nat.mod_lt _ (by norm_num)) h1
      refine ⟨w2, ?_, ?_⟩
      · simp only [events, event, hw1]
        exact hw2
      · have hc : (RuleEvent.add b :: rest).countP RuleEvent.isAdd =
            rest.countP RuleEvent.isAdd + 1 := by
          rw [List.countP_cons_of_pos]
          rfl
        rw [hc]
        have : (k + (rest.countP RuleEvent.isAdd + 1)) % 2 ^ 32 =
            ((k + 1) % 2 ^ 32 + rest.countP RuleEvent.isAdd) % 2 ^ 32 := by
          rw [Nat.mod_add_mod]
          congr 1
          omega
        rw [this]
        exact h2
    | remove =>
      have := hes RuleEvent.remove (List.mem_cons_self _ _)
      simp [RuleEvent.isRemove] at this
    | deliver =>
      obtain ⟨w2, hw2, h2⟩ := ih hrest _ k hk (deliver_Held bus w intf k A R h)
      refine ⟨w2, ?_, ?_⟩
      · simp only [events, event]
        exact hw2
      · have hc : (RuleEvent.deliver :: rest).countP RuleEvent.isAdd =
            rest.countP RuleEvent.isAdd := by
          rw [List.countP_cons_of_neg]
          simp [RuleEvent.isAdd]
        rw [hc]
        exact h2

theorem events_adds_Free (bus : BusAttachment) (intf : String) (A R : Nat)
    (hP : (bus.GetInterface org.freedesktop.DBus.Properties.InterfaceName).isSome = true)
    (hbus : bus.AddMatchAsync (propertiesChangedRule intf) = QStatus.ER_OK)
    (es : List RuleEvent) (hes : ∀ e ∈ es, e.isRemove = false)
    (hpos : 1 ≤ es.countP RuleEvent.isAdd) :
    ∀ (w : Sys), Free w intf A R →
      ∃ w2, events bus intf w es = some w2 ∧
        Held w2 intf (es.countP RuleEvent.isAdd % 2 ^ 32) (A + 1) R := by
  induction es with
  | nil => simp at hpos
  | cons e rest ih =>
    intro w h
    have hrest : ∀ x ∈ rest, x.isRemove = false := fun x hx => hes x (List.mem_cons_of_mem _ hx)
    cases e with
    | add b =>
      obtain ⟨w1, hw1, h1⟩ := add_Free bus w intf b A R hP hbus h
      obtain ⟨w2, hw2, h2⟩ := events_adds_Held bus intf (A + 1) R hP rest hrest w1 1 (by norm_num) h1
      refine ⟨w2, ?_, ?_⟩
      · simp only [events, event, hw1]
        exact hw2
      · have hc : (RuleEvent.add b :: rest).countP RuleEvent.isAdd =
            rest.countP RuleEvent.isAdd + 1 := by
          rw [List.countP_cons_of_pos]
          rfl
        rw [hc, Nat.add_comm]
        exact h2
    | remove =>
      have := hes RuleEvent.remove (List.mem_cons_self _ _)
      simp [RuleEvent.isRemove] at this
    | deliver =>
      have hc : (RuleEvent.deliver :: rest).countP RuleEvent.isAdd =
          rest.countP RuleEvent.isAdd := by
        rw [List.countP_cons_of_neg]
        simp [RuleEvent.isAdd]
      rw [hc] at hpos ⊢
      obtain ⟨w2, hw2, h2⟩ := ih hrest hpos _ (deliver_Free bus w intf A R h)
      refine ⟨w2, ?_, h2⟩
      simp only [events, event]
      exact hw2

theorem events_removes_Held (bus : BusAttachment) (intf : String) (A R : Nat)
    (es : List RuleEvent) (hes : ∀ e ∈ es, e.isAdd = false) :
    ∀ (w : Sys) (k : Nat), k < 2 ^ 32 → es.countP RuleEvent.isRemove < k → Held w intf k A R →
      ∃ w2, events bus intf w es = some w2 ∧
        Held w2 intf (k - es.countP RuleEvent.isRemove) A R := by
  induction es with
  | nil =>
    intro w k _ _ h
    exact ⟨w, rfl, h⟩
  | cons e rest ih =>
    intro w k hk hlt h
    have hrest : ∀ x ∈ rest, x.isAdd = false := fun x hx => hes x (List.mem_cons_of_mem _ hx)
    cases e with
    | add b =>
      have := hes (RuleEvent.add b) (List.mem_cons_self _ _)
      simp [RuleEvent.isAdd] at this
    | remove =>
      have hc : (RuleEvent.remove :: rest).countP RuleEvent.isRemove =
          rest.countP RuleEvent.isRemove + 1 := by
        rw [List.countP_cons_of_pos]
        rfl
      rw [hc] at hlt ⊢
      obtain ⟨w1, hw1, h1⟩ := remove_Held_more bus w intf k A R h (by omega) hk
      obtain ⟨w2, hw2, h2⟩ := ih hrest w1 (k - 1) (by omega) (by omega) h1
      refine ⟨w2, ?_, ?_⟩
      · simp only [events, event, hw1]
        exact hw2
      · have : k - (rest.countP RuleEvent.isRemove + 1) =
            k - 1 - rest.countP RuleEvent.isRemove := by omega
        rw [this]
        exact h2
    | deliver =>
      have hc : (RuleEvent.deliver :: rest).countP RuleEvent.isRemove =
          rest.countP RuleEvent.isRemove := by
        rw [List.countP_cons_of_neg]
        simp [RuleEvent.isRemove]
      rw [hc] at hlt ⊢
      obtain ⟨w2, hw2, h2⟩ := ih hrest _ k hk hlt (deliver_Held bus w intf k A R h)
      refine ⟨w2, ?_, h2⟩
      simp only [events, event]
      exact hw2

theorem events_replicate_remove_Free (bus : BusAttachment) (intf : String) (A R : Nat)
    (n : Nat) : ∀ (w : Sys), Free w intf A R →
      events bus intf w (List.replicate n RuleEvent.remove) = some w := by
  induction n with
  | zero =>
    intro w _
    rfl
  | succ m ih =>
    intro w h
    rw [List.replicate_succ]
    simp only [events, event]
    rw [remove_Free bus w intf A R h]
    exact ih w h

theorem countP_replicate_add (n : Nat) (b : Bool) :
    (List.replicate n (RuleEvent.add b)).countP RuleEvent.isAdd = n := by
  induction n with
  | zero => rfl
  | succ m ih =>
    rw [List.replicate_succ, List.countP_cons_of_pos, ih]
    rfl

end Sys

/-! ### Message flags -/

theorem flag_encrypted_set (f : Nat) : (f ||| ALLJOYN_FLAG_ENCRYPTED) &&& ALLJOYN_FLAG_ENCRYPTED ≠ 0 := by
  unfold ALLJOYN_FLAG_ENCRYPTED
  intro h
  have h7 := congrArg (fun n => Nat.testBit n 7) h
  have t : Nat.testBit 128 7 = true := by decide
  simp [Nat.testBit_lor, Nat.testBit_land, t] at h7

theorem flag_noreply_keeps_encrypted (f : Nat) :
    (f ||| ALLJOYN_FLAG_NO_REPLY_EXPECTED) &&& ALLJOYN_FLAG_ENCRYPTED =
      f &&& ALLJOYN_FLAG_ENCRYPTED := by
  unfold ALLJOYN_FLAG_ENCRYPTED ALLJOYN_FLAG_NO_REPLY_EXPECTED
  apply Nat.eq_of_testBit_eq
  intro i
  simp only [Nat.testBit_land, Nat.testBit_lor]
  by_cases h : i = 7
  · subst h
    have t : Nat.testBit 1 7 = false := by decide
    rw [t, Bool.or_false]
  · have t : Nat.testBit 128 i = false := by
      have e : (128 : Nat) = 2 ^ 7 := by norm_num
      rw [e, Nat.testBit_two_pow]
      simp only [decide_eq_false_iff_not]
      omega
    rw [t, Bool.and_false, Bool.and_false]

theorem flag_encrypted_keeps_noreply (f : Nat) :
    (f ||| ALLJOYN_FLAG_ENCRYPTED) &&& ALLJOYN_FLAG_NO_REPLY_EXPECTED =
      f &&& ALLJOYN_FLAG_NO_REPLY_EXPECTED := by
  unfold ALLJOYN_FLAG_ENCRYPTED ALLJOYN_FLAG_NO_REPLY_EXPECTED
  apply Nat.eq_of_testBit_eq
  intro i
  simp only [Nat.testBit_land, Nat.testBit_lor]
  by_cases h : i = 0
  · subst h
    have t : Nat.testBit 128 0 = false := by decide
    rw [t, Bool.or_false]
  · have t : Nat.testBit 1 i = false := by
      have e : (1 : Nat) = 2 ^ 0 := by norm_num
      rw [e, Nat.testBit_two_pow]
      simp only [decide_eq_false_iff_not]
      omega
    rw [t, Bool.and_false, Bool.and_false]

theorem flag_noreply_set (f : Nat) :
    (f ||| ALLJOYN_FLAG_NO_REPLY_EXPECTED) &&& ALLJOYN_FLAG_NO_REPLY_EXPECTED ≠ 0 := by
  unfold ALLJOYN_FLAG_NO_REPLY_EXPECTED
  intro h
  have h0 := congrArg (fun n => Nat.testBit n 0) h
  have t : Nat.testBit 1 0 = true := by decide
  simp [Nat.testBit_lor, Nat.testBit_land, t] at h0

namespace Internal

theorem SecurityApplies_iff (s : Internal) (method : Member) :
    s.SecurityApplies method = true ↔
      (method.ifaceSecPolicy = InterfaceSecurityPolicy.AJ_IFC_SECURITY_REQUIRED ∨
        (s.isSecure = true ∧
          method.ifaceSecPolicy ≠ InterfaceSecurityPolicy.AJ_IFC_SECURITY_OFF)) := by
  unfold SecurityApplies
  by_cases h : method.ifaceSecPolicy = InterfaceSecurityPolicy.AJ_IFC_SECURITY_REQUIRED
  · simp [h]
  · simp [h]

theorem syncFlags_encrypted_iff (s : Internal) (method : Member) (flags : Nat) :
    s.syncFlags method flags &&& ALLJOYN_FLAG_ENCRYPTED ≠ 0 ↔
      (flags &&& ALLJOYN_FLAG_ENCRYPTED ≠ 0 ∨
        method.ifaceSecPolicy = InterfaceSecurityPolicy.AJ_IFC_SECURITY_REQUIRED ∨
        (s.isSecure = true ∧
          method.ifaceSecPolicy ≠ InterfaceSecurityPolicy.AJ_IFC_SECURITY_OFF)) := by
  unfold syncFlags
  rw [← SecurityApplies_iff]
  by_cases h : s.SecurityApplies method = true
  · rw [if_pos h]
    constructor
    · intro _
      exact Or.inr h
    · intro _
      exact flag_encrypted_set flags
  · rw [if_neg h]
    constructor
    · intro h2
      exact Or.inl h2
    · rintro (h2 | h2)
      · exact h2
      · exact absurd h2 h

theorem asyncFlags_encrypted_iff (s : Internal) (method : Member) (replyHandler : Bool)
    (flags : Nat) :
    s.asyncFlags method replyHandler flags &&& ALLJOYN_FLAG_ENCRYPTED ≠ 0 ↔
      (flags &&& ALLJOYN_FLAG_ENCRYPTED ≠ 0 ∨
        method.ifaceSecPolicy = InterfaceSecurityPolicy.AJ_IFC_SECURITY_REQUIRED ∨
        (s.isSecure = true ∧
          method.ifaceSecPolicy ≠ InterfaceSecurityPolicy.AJ_IFC_SECURITY_OFF)) := by
  have key : ∀ f : Nat, (if s.SecurityApplies method = true then f ||| ALLJOYN_FLAG_ENCRYPTED
      else f) = s.syncFlags method f := fun f => rfl
  unfold asyncFlags
  simp only [key]
  rw [syncFlags_encrypted_iff]
  cases replyHandler with
  | true => simp
  | false =>
    simp only [Bool.not_false, if_true]
    rw [flag_noreply_keeps_encrypted]

theorem syncFlags_noreply (s : Internal) (method : Member) (flags : Nat) :
    s.syncFlags method flags &&& ALLJOYN_FLAG_NO_REPLY_EXPECTED =
      flags &&& ALLJOYN_FLAG_NO_REPLY_EXPECTED := by
  unfold syncFlags
  split_ifs
  · exact flag_encrypted_keeps_noreply flags
  · rfl

theorem asyncFlags_noreply_of_handler (s : Internal) (method : Member) (flags : Nat) :
    s.asyncFlags method true flags &&& ALLJOYN_FLAG_NO_REPLY_EXPECTED =
      flags &&& ALLJOYN_FLAG_NO_REPLY_EXPECTED := by
  have key : s.asyncFlags method true flags = s.syncFlags method flags := rfl
  rw [key, syncFlags_noreply]

theorem asyncFlags_noreply_of_no_handler (s : Internal) (method : Member) (flags : Nat) :
    s.asyncFlags method false flags &&& ALLJOYN_FLAG_NO_REPLY_EXPECTED ≠ 0 := by
  have key : s.asyncFlags method false flags =
      s.syncFlags method (flags ||| ALLJOYN_FLAG_NO_REPLY_EXPECTED) := rfl
  rw [key, syncFlags_noreply]
  exact flag_noreply_set flags

theorem AdjustErrorForPermissionDenied_other (env : CallEnv) (reply : Message)
    (status : QStatus) (h : status ≠ QStatus.ER_BUS_REPLY_IS_ERROR_MESSAGE) :
    AdjustErrorForPermissionDenied env reply status = status := by
  unfold AdjustErrorForPermissionDenied
  split_ifs with h1 h2
  · rfl
  · rfl
  · exact absurd (not_not.mp h2).symm h

/-- The exit sequence of `MethodCall` when the body ends with a status that is
neither `ER_OK` nor `ER_BUS_REPLY_IS_ERROR_MESSAGE`. -/
theorem MethodCall_of_body_error (env : CallEnv) (s : Internal) (method : Member)
    (flags : Nat) (replyMsg : Message) (status : QStatus) (r : Message) (e : CallEffects)
    (hvalid : env.localEndpointValid = true)
    (hbody : methodCallBody env s method (s.syncFlags method flags) replyMsg = (status, r, e))
    (h1 : status ≠ QStatus.ER_OK) (h2 : status ≠ QStatus.ER_BUS_REPLY_IS_ERROR_MESSAGE) :
    (s.MethodCall env method flags replyMsg).1 = status ∧
      (s.MethodCall env method flags replyMsg).2.1 = s ∧
      (s.MethodCall env method flags replyMsg).2.2.2 = e := by
  unfold MethodCall
  simp only [hvalid, Bool.not_true, Bool.false_eq_true, if_false, hbody, h1, false_and, ne_eq]
  have h3 : ¬ (QStatus.ER_OK = status) := fun e2 => h1 e2.symm
  simp only [h3, not_false_eq_true, if_true]
  exact ⟨AdjustErrorForPermissionDenied_other env _ status h2, trivial, trivial⟩

end Internal

namespace Internal

theorem methodCallBody_pushed (env : CallEnv) (s : Internal) (method : Member) (flags : Nat)
    (replyMsg : Message) :
    ∀ m ∈ (methodCallBody env s method flags replyMsg).2.2.pushed, m.flags = flags := by
  intro m hm
  unfold methodCallBody at hm
  dsimp only at hm
  split_ifs at hm
  all_goals first
    | exact absurd hm (List.not_mem_nil _)
    | (rw [List.mem_singleton.mp hm])

theorem MethodCall_effects (env : CallEnv) (s : Internal) (method : Member) (flags : Nat)
    (replyMsg : Message) (hvalid : env.localEndpointValid = true) :
    (s.MethodCall env method flags replyMsg).2.2.2 =
      (methodCallBody env s method (s.syncFlags method flags) replyMsg).2.2 := by
  unfold MethodCall
  simp only [hvalid, Bool.not_true, Bool.false_eq_true, if_false]

end Internal

namespace Internal

theorem AdjustError_of_denied (env : CallEnv) (reply : Message)
    (h : isPermissionDenied env reply) :
    AdjustErrorForPermissionDenied env reply QStatus.ER_BUS_REPLY_IS_ERROR_MESSAGE =
      QStatus.ER_PERMISSION_DENIED := by
  unfold AdjustErrorForPermissionDenied GetReplyErrorStatus
  rcases h with h | ⟨h1, arg, h2, h3⟩
  · simp [h]
  · have h2b : reply.args[1]? = some arg := by
      rw [← List.get?_eq_getElem?]
      exact h2
    by_cases hn : org.alljoyn.Bus.ErrorName = PermissionMgmtObj.ERROR_PERMISSION_DENIED
    · simp [h1, hn]
    · simp [h1, hn, h2b, h3]

theorem AdjustError_of_not_denied (env : CallEnv) (reply : Message)
    (h : ¬ isPermissionDenied env reply) :
    AdjustErrorForPermissionDenied env reply QStatus.ER_BUS_REPLY_IS_ERROR_MESSAGE =
      QStatus.ER_BUS_REPLY_IS_ERROR_MESSAGE := by
  unfold isPermissionDenied at h
  simp only [not_or, not_and, not_exists] at h
  obtain ⟨h1, h2⟩ := h
  unfold AdjustErrorForPermissionDenied GetReplyErrorStatus
  cases hn : reply.errorName with
  | none => simp
  | some n =>
    have hne : ¬ n = PermissionMgmtObj.ERROR_PERMISSION_DENIED := by
      intro e
      apply h1
      rw [hn, e]
    by_cases hb : n = org.alljoyn.Bus.ErrorName
    · subst hb
      cases ha : reply.args.get? 1 with
      | none =>
        have hab : reply.args[1]? = none := by
          rw [← List.get?_eq_getElem?]
          exact ha
        simp [hne, hab]
      | some arg =>
        have hab : reply.args[1]? = some arg := by
          rw [← List.get?_eq_getElem?]
          exact ha
        have h3 := h2 hn arg ha
        have h4 : ¬ (QStatus.ER_PERMISSION_DENIED =
            env.statusOfCode (arg.v_uint16 env.rawUint16)) := fun e => h3 e.symm
        simp [hne, hab, h4]
    · simp [hne, hb]

/-- The body of `MethodCall` when the call is sent and the wait for the reply
ends with `ER_OK`. -/
theorem methodCallBody_of_reply (env : CallEnv) (s : Internal) (method : Member) (flags : Nat)
    (replyMsg : Message)
    (hreent : (env.IsReentrantCall && !env.IsDaemon) = false)
    (himpl : s.ImplementsInterface method.ifaceName = true)
    (hsec : ((flags &&& ALLJOYN_FLAG_ENCRYPTED != 0) && !env.IsPeerSecurityEnabled) = false)
    (hmsg : env.CallMsg = QStatus.ER_OK) (hman : env.SendManifests = QStatus.ER_OK)
    (hreply : flags &&& ALLJOYN_FLAG_NO_REPLY_EXPECTED = 0)
    (hreg : env.RegisterReplyHandler = QStatus.ER_OK)
    (hwait : sendAndWait env = QStatus.ER_OK) :
    methodCallBody env s method flags replyMsg =
      (QStatus.ER_OK, env.reply,
        { pushed := [{ ifaceName := method.ifaceName, memberName := method.name, flags := flags }],
          registered := true }) := by
  unfold methodCallBody
  simp [hreent, himpl, hsec, hmsg, hman, hreply, hreg, hwait]

end Internal

/-! ### Frame facts of the match-rule bookkeeping -/

theorem StrMap.find_modify_other {V : Type} (m : StrMap V) (k j : String) (f : V → V)
    (h : k ≠ j) : (m.modify k f).find j = m.find j := by
  unfold StrMap.modify
  cases m.find k with
  | none => rfl
  | some v => exact StrMap.find_assign_other m k j _ h

theorem StrMap.find_insert_other {V : Type} (m : StrMap V) (k j : String) (v : V)
    (h : k ≠ j) : (m.insert k v).find j = m.find j := by
  unfold StrMap.insert
  cases m.find k with
  | none => exact StrMap.find_assign_other m k j _ h
  | some v => rfl

theorem StrMap.find_insert_of_some {V : Type} (m : StrMap V) (k : String) (v v2 : V)
    (h : m.find k = some v2) : m.insert k v = m := by
  unfold StrMap.insert
  simp only [h]

namespace Sys

theorem SameOutsideRules.refl (w : Sys) : SameOutsideRules w w :=
  ⟨rfl, rfl, rfl, rfl, rfl, rfl, rfl, rfl, rfl, rfl⟩

theorem SameOutsideRules.trans {w w2 w3 : Sys} (h1 : SameOutsideRules w w2)
    (h2 : SameOutsideRules w2 w3) : SameOutsideRules w w3 := by
  obtain ⟨a1, a2, a3, a4, a5, a6, a7, a8, a9, a10⟩ := h1
  obtain ⟨b1, b2, b3, b4, b5, b6, b7, b8, b9, b10⟩ := h2
  exact ⟨b1.trans a1, b2.trans a2, b3.trans a3, b4.trans a4, b5.trans a5, b6.trans a6,
    b7.trans a7, b8.trans a8, b9.trans a9, b10.trans a10⟩

theorem deliver_same (bus : BusAttachment) (w : Sys) (intf : String) :
    SameOutsideRules w (w.deliver bus intf) := by
  unfold deliver
  split_ifs
  · exact ⟨rfl, rfl, rfl, rfl, rfl, rfl, rfl, rfl, rfl, rfl⟩
  · exact SameOutsideRules.refl w

theorem deliver_record_other (bus : BusAttachment) (w : Sys) (intf j : String) (h : intf ≠ j) :
    (w.deliver bus intf).record j = w.record j := by
  unfold deliver
  split_ifs
  · show (StrMap.modify w.pbo.matchRuleBookKeeping intf _).find j = _
    exact StrMap.find_modify_other _ _ _ _ h
  · rfl

theorem deliver_not_adding (bus : BusAttachment) (w : Sys) (intf : String)
    (hmem : intf ∈ w.pending) : (w.deliver bus intf).pbo.isAdding intf = false := by
  have h := deliver_record bus w intf hmem
  unfold Internal.isAdding
  have h2 : (w.deliver bus intf).pbo.matchRuleBookKeeping.find intf =
      (w.record intf).map (fun r => { r with adding := false }) := h
  rw [h2]
  cases w.record intf <;> rfl

theorem waitAddMatchDone_same (bus : BusAttachment) (w w2 : Sys) (intf : String)
    (h : w.waitAddMatchDone bus intf = some w2) :
    SameOutsideRules w w2 ∧ (∀ j, intf ≠ j → w2.record j = w.record j) ∧
      w2.pbo.isAdding intf = false ∧ w2.calls = w.calls := by
  unfold waitAddMatchDone at h
  by_cases ha : w.pbo.isAdding intf = true
  · rw [if_pos ha] at h
    by_cases hm : intf ∈ w.pending
    · rw [if_pos hm] at h
      simp only [Option.some.injEq] at h
      subst h
      exact ⟨deliver_same bus w intf, fun j hj => deliver_record_other bus w intf j hj,
        deliver_not_adding bus w intf hm, deliver_calls bus w intf⟩
    · rw [if_neg hm] at h
      exact Option.noConfusion h
  · rw [if_neg ha] at h
    simp only [Option.some.injEq] at h
    subst h
    exact ⟨SameOutsideRules.refl w, fun _ _ => rfl, Bool.eq_false_iff.mpr ha, rfl⟩

theorem addRuleTail_same (bus : BusAttachment) (w w2 : Sys) (intf : String) (blocking : Bool)
    (h : addRuleTail bus w intf blocking = some w2) :
    SameOutsideRules w w2 ∧ (∀ j, intf ≠ j → w2.record j = w.record j) ∧
      (blocking = true → w2.pbo.isAdding intf = false) ∧ w2.calls = w.calls := by
  unfold addRuleTail at h
  have h1 : SameOutsideRules w (if (!w.pbo.isAdding intf) = true then
      ({ w with pbo := w.pbo.enableCache intf } : Sys) else w) := by
    split_ifs
    · exact ⟨rfl, rfl, rfl, rfl, rfl, rfl, rfl, rfl, rfl, rfl⟩
    · exact SameOutsideRules.refl w
  have h2 : ∀ j, (if (!w.pbo.isAdding intf) = true then
      ({ w with pbo := w.pbo.enableCache intf } : Sys) else w).record j = w.record j := by
    intro j
    split_ifs <;> rfl
  have h3 : (if (!w.pbo.isAdding intf) = true then
      ({ w with pbo := w.pbo.enableCache intf } : Sys) else w).calls = w.calls := by
    split_ifs <;> rfl
  cases blocking with
  | false =>
    simp only [Bool.false_eq_true, if_false, Option.some.injEq] at h
    subst h
    exact ⟨h1, fun j _ => h2 j, fun e => Bool.noConfusion e, h3⟩
  | true =>
    simp only [if_true] at h
    obtain ⟨a, b, c, d⟩ := waitAddMatchDone_same bus _ w2 intf h
    exact ⟨h1.trans a, fun j hj => (b j hj).trans (h2 j), fun _ => c, d.trans h3⟩

theorem AddPropertiesChangedRule_same (bus : BusAttachment) (w w2 : Sys) (intf : String)
    (blocking : Bool) (h : w.AddPropertiesChangedRule bus intf blocking = some w2) :
    SameOutsideRules w w2 ∧ (∀ j, intf ≠ j → w2.record j = w.record j) ∧
      (blocking = true → bus.AddMatchAsync (propertiesChangedRule intf) = QStatus.ER_OK →
        w2.pbo.isAdding intf = false) := by
  unfold AddPropertiesChangedRule at h
  dsimp only at h
  by_cases hchk : ((!w.pbo.registeredPropChangedHandler) &&
      (bus.GetInterface org.freedesktop.DBus.Properties.InterfaceName).isNone) = true
  · rw [if_pos hchk] at h
    exact Option.noConfusion h
  rw [if_neg hchk] at h
  by_cases hn : (w.pbo.matchRuleBookKeeping.find intf).isNone = true
  · simp only [hn, if_true] at h
    by_cases hs : bus.AddMatchAsync (propertiesChangedRule intf) = QStatus.ER_OK
    · simp only [hs, ne_eq, not_true_eq_false, if_false] at h
      obtain ⟨a, b, c, _⟩ := addRuleTail_same bus _ w2 intf blocking h
      refine ⟨⟨a.1, a.2.1, a.2.2.1, a.2.2.2.1, a.2.2.2.2.1, a.2.2.2.2.2.1, a.2.2.2.2.2.2.1,
        a.2.2.2.2.2.2.2.1, a.2.2.2.2.2.2.2.2.1, a.2.2.2.2.2.2.2.2.2⟩, ?_, fun hb _ => c hb⟩
      intro j hj
      rw [b j hj]
      show (StrMap.modify (StrMap.insert w.pbo.matchRuleBookKeeping intf _) intf _).find j = _
      rw [StrMap.find_modify_other _ _ _ _ hj, StrMap.find_insert_other _ _ _ _ hj]
      rfl
    · simp only [ne_eq, hs, not_false_eq_true, if_true, Option.some.injEq] at h
      subst h
      refine ⟨⟨rfl, rfl, rfl, rfl, rfl, rfl, rfl, rfl, rfl, rfl⟩, ?_, fun _ hb => absurd hb hs⟩
      intro j hj
      show (StrMap.modify (StrMap.modify (StrMap.insert w.pbo.matchRuleBookKeeping intf _)
        intf _) intf _).find j = _
      rw [StrMap.find_modify_other _ _ _ _ hj, StrMap.find_modify_other _ _ _ _ hj,
        StrMap.find_insert_other _ _ _ _ hj]
      rfl
  · have hn2 : (w.pbo.matchRuleBookKeeping.find intf).isNone = false := Bool.eq_false_iff.mpr hn
    simp only [hn2, Bool.false_eq_true, if_false] at h
    obtain ⟨a, b, c, _⟩ := addRuleTail_same bus _ w2 intf blocking h
    refine ⟨⟨a.1, a.2.1, a.2.2.1, a.2.2.2.1, a.2.2.2.2.1, a.2.2.2.2.2.1, a.2.2.2.2.2.2.1,
      a.2.2.2.2.2.2.2.1, a.2.2.2.2.2.2.2.2.1, a.2.2.2.2.2.2.2.2.2⟩, ?_, fun hb _ => c hb⟩
    intro j hj
    rw [b j hj]
    show (StrMap.modify w.pbo.matchRuleBookKeeping intf _).find j = _
    rw [StrMap.find_modify_other _ _ _ _ hj]
    rfl

theorem RemovePropertiesChangedRule_same (bus : BusAttachment) (w w2 : Sys) (intf : String)
    (h : w.RemovePropertiesChangedRule bus intf = some w2) :
    SameOutsideRules w w2 ∧ (∀ j, intf ≠ j → w2.record j = w.record j) ∧
      w2.pbo.isAdding intf = false ∨ w2 = w := by
  unfold RemovePropertiesChangedRule at h
  cases hf : w.pbo.matchRuleBookKeeping.find intf with
  | none =>
    simp only [hf, Option.some.injEq] at h
    exact Or.inr h.symm
  | some r0 =>
    simp only [hf] at h
    cases hw : w.waitAddMatchDone bus intf with
    | none => simp [hw] at h
    | some w1 =>
      simp only [hw] at h
      obtain ⟨a, b, c, _⟩ := waitAddMatchDone_same bus w w1 intf hw
      cases hf1 : w1.pbo.matchRuleBookKeeping.find intf with
      | none =>
        simp only [hf1, Option.some.injEq] at h
        subst h
        exact Or.inl ⟨a, b, c⟩
      | some r =>
        simp only [hf1] at h
        have hr : r.adding = false := by
          unfold Internal.isAdding at c
          rw [hf1] at c
          exact c
        split_ifs at h
        · simp only [Option.some.injEq] at h
          subst h
          refine Or.inl ⟨a, ?_, ?_⟩
          · intro j hj
            rw [← b j hj]
            show (StrMap.erase w1.pbo.matchRuleBookKeeping intf).find j = _
            rw [StrMap.find_erase_other _ _ _ hj]
            rfl
          · show Internal.isAdding _ intf = false
            unfold Internal.isAdding
            show (match (StrMap.erase w1.pbo.matchRuleBookKeeping intf).find intf with
              | some r => r.adding
              | none => false) = false
            rw [StrMap.find_erase_same]
        · simp only [Option.some.injEq] at h
          subst h
          refine Or.inl ⟨a, ?_, ?_⟩
          · intro j hj
            rw [← b j hj]
            show (StrMap.assign w1.pbo.matchRuleBookKeeping intf _).find j = _
            rw [StrMap.find_assign_other _ _ _ _ hj]
            rfl
          · show Internal.isAdding _ intf = false
            unfold Internal.isAdding
            show (match (StrMap.assign w1.pbo.matchRuleBookKeeping intf _).find intf with
              | some r => r.adding
              | none => false) = false
            rw [StrMap.find_assign_same]
            exact hr

end Sys

/-! ### The listener table -/

theorem removeListener_none (iface : String) (listener : Nat)
    (cbs : List (String × PropertiesChangedCB))
    (h : removeListener iface listener cbs = none) : (iface, listener) ∉ registeredPairs cbs := by
  induction cbs with
  | nil => simp [registeredPairs]
  | cons hd tl ih =>
    obtain ⟨k, cb⟩ := hd
    simp only [removeListener] at h
    split_ifs at h with hc
    cases hr : removeListener iface listener tl with
    | some p => simp [hr] at h
    | none =>
      have := ih hr
      simp only [registeredPairs, List.map_cons, List.mem_cons, Prod.mk.injEq, not_or]
      refine ⟨?_, this⟩
      rintro ⟨e1, e2⟩
      exact hc ⟨e1.symm, e2.symm⟩

theorem removeListener_some (iface : String) (listener : Nat)
    (cbs : List (String × PropertiesChangedCB)) :
    ∀ (found : PropertiesChangedCB) (rest : List (String × PropertiesChangedCB)),
      removeListener iface listener cbs = some (found, rest) →
      found.listener = listener ∧ (iface, found) ∈ cbs ∧
        (registeredPairs cbs).Perm ((iface, listener) :: registeredPairs rest) ∧
        (∀ kv ∈ rest, kv ∈ cbs) := by
  induction cbs with
  | nil =>
    intro found rest h
    simp [removeListener] at h
  | cons hd tl ih =>
    intro found rest h
    obtain ⟨k, cb⟩ := hd
    simp only [removeListener] at h
    split_ifs at h with hc
    · simp only [Option.some.injEq, Prod.mk.injEq] at h
      obtain ⟨e1, e2⟩ := h
      subst e1
      subst e2
      obtain ⟨hk, hl⟩ := hc
      subst hk
      refine ⟨hl, List.mem_cons_self _ _, ?_, fun kv hkv => List.mem_cons_of_mem _ hkv⟩
      simp only [registeredPairs, List.map_cons, hl]
      exact List.Perm.refl _
    · cases hr : removeListener iface listener tl with
      | none => simp [hr] at h
      | some p =>
        obtain ⟨f2, r2⟩ := p
        simp only [hr, Option.some.injEq, Prod.mk.injEq] at h
        obtain ⟨e1, e2⟩ := h
        subst e1
        subst e2
        obtain ⟨a, b, c, d⟩ := ih f2 r2 hr
        refine ⟨a, List.mem_cons_of_mem _ b, ?_, ?_⟩
        · simp only [registeredPairs, List.map_cons]
          exact (List.Perm.cons _ c).trans (List.Perm.swap _ _ _)
        · intro kv hkv
          rcases List.mem_cons.mp hkv with e | hkv2
          · rw [e]
            exact List.mem_cons_self _ _
          · exact List.mem_cons_of_mem _ (d kv hkv2)

theorem removeListener_of_mem (iface : String) (listener : Nat)
    (cbs : List (String × PropertiesChangedCB))
    (h : (iface, listener) ∈ registeredPairs cbs) :
    ∃ found rest, removeListener iface listener cbs = some (found, rest) := by
  cases hr : removeListener iface listener cbs with
  | none => exact absurd h (removeListener_none iface listener cbs hr)
  | some p => exact ⟨p.1, p.2, rfl⟩

theorem registeredPairs_append (cbs : List (String × PropertiesChangedCB)) (iface : String)
    (ctx : PropertiesChangedCB) :
    registeredPairs (cbs ++ [(iface, ctx)]) = registeredPairs cbs ++ [(iface, ctx.listener)] := by
  simp [registeredPairs]

theorem nodup_after_replace (iface : String) (listener : Nat)
    (cbs rest : List (String × PropertiesChangedCB)) (found ctx : PropertiesChangedCB)
    (hctx : ctx.listener = listener)
    (hn : (registeredPairs cbs).Nodup)
    (h : removeListener iface listener cbs = some (found, rest)) :
    (registeredPairs (rest ++ [(iface, ctx)])).Nodup ∧
      (iface, listener) ∉ registeredPairs rest := by
  obtain ⟨_, _, hperm, _⟩ := removeListener_some iface listener cbs found rest h
  have h2 : ((iface, listener) :: registeredPairs rest).Nodup := hperm.nodup_iff.mp hn
  obtain ⟨h3, h4⟩ := List.nodup_cons.mp h2
  refine ⟨?_, h3⟩
  rw [registeredPairs_append, hctx]
  exact (List.perm_append_singleton _ _).nodup_iff.mpr h2

theorem nodup_after_insert (iface : String) (listener : Nat)
    (cbs : List (String × PropertiesChangedCB)) (ctx : PropertiesChangedCB)
    (hctx : ctx.listener = listener)
    (hn : (registeredPairs cbs).Nodup)
    (h : removeListener iface listener cbs = none) :
    (registeredPairs (cbs ++ [(iface, ctx)])).Nodup := by
  have h3 := removeListener_none iface listener cbs h
  rw [registeredPairs_append, hctx]
  exact (List.perm_append_singleton _ _).nodup_iff.mpr (List.nodup_cons.mpr ⟨h3, hn⟩)

theorem nodup_after_remove (iface : String) (listener : Nat)
    (cbs rest : List (String × PropertiesChangedCB)) (found : PropertiesChangedCB)
    (hn : (registeredPairs cbs).Nodup)
    (h : removeListener iface listener cbs = some (found, rest)) :
    (registeredPairs rest).Nodup := by
  obtain ⟨_, _, hperm, _⟩ := removeListener_some iface listener cbs found rest h
  have h2 : ((iface, listener) :: registeredPairs rest).Nodup := hperm.nodup_iff.mp hn
  exact (List.nodup_cons.mp h2).2

namespace Sys

/-- Every returned `RegisterPropertiesChangedListener` keeps the pairs of the
table distinct. -/
theorem Register_nodup (bus : BusAttachment) (w w2 : Sys) (iface : String)
    (properties : List String) (listener context : Nat) (st : QStatus)
    (hn : (registeredPairs w.pbo.propertiesChangedCBs).Nodup)
    (h : w.RegisterPropertiesChangedListener bus iface properties listener context =
      some (st, w2)) :
    (registeredPairs w2.pbo.propertiesChangedCBs).Nodup := by
  unfold RegisterPropertiesChangedListener at h
  cases hg : bus.GetInterface iface with
  | none =>
    simp only [hg, Option.some.injEq, Prod.mk.injEq] at h
    rw [← h.2]
    exact hn
  | some ifc =>
    simp only [hg] at h
    by_cases hp : (properties.any fun p => !ifc.HasProperty p) = true
    · rw [if_pos hp] at h
      simp only [Option.some.injEq, Prod.mk.injEq] at h
      rw [← h.2]
      exact hn
    · rw [if_neg hp] at h
      cases hr : removeListener iface listener w.pbo.propertiesChangedCBs with
      | some p =>
        obtain ⟨old, rest⟩ := p
        simp only [hr, Option.some.injEq, Prod.mk.injEq] at h
        rw [← h.2]
        exact (nodup_after_replace iface listener _ rest old _ rfl hn hr).1
      | none =>
        rw [hr] at h
        dsimp only at h
        split at h
        · rename_i w3 heq
          simp only [Option.some.injEq, Prod.mk.injEq] at h
          rw [← h.2]
          obtain ⟨hs, _, _⟩ := AddPropertiesChangedRule_same bus _ w3 iface true heq
          rw [hs.2.2.2.2.2.2.2.2.1]
          dsimp only
          split_ifs <;> exact nodup_after_insert iface listener _ _ rfl hn hr
        · exact Option.noConfusion h

end Sys

namespace Sys

theorem adding_of_isAdding (w : Sys) (intf : String) (r : MatchRuleInfo)
    (h : w.pbo.isAdding intf = false) (hr : w.record intf = some r) : r.adding = false := by
  unfold Internal.isAdding at h
  have hf : w.pbo.matchRuleBookKeeping.find intf = some r := hr
  rw [hf] at h
  exact h

theorem AddPropertiesChangedRule_ne_none (bus : BusAttachment) (w : Sys) (intf : String)
    (blocking : Bool) (h : w.AddPropertiesChangedRule bus intf blocking = none)
    (hP : (bus.GetInterface org.freedesktop.DBus.Properties.InterfaceName).isSome = true)
    (hbus : bus.AddMatchAsync (propertiesChangedRule intf) = QStatus.ER_OK)
    (hs : ∀ r, w.record intf = some r → r.adding = false) : False := by
  cases hr : w.record intf with
  | none =>
    obtain ⟨w2, h2, _⟩ := add_Free bus w intf blocking _ _ hP hbus ⟨hr, rfl, rfl⟩
    rw [h2] at h
    exact Option.noConfusion h
  | some r =>
    have ha := hs r hr
    obtain ⟨w2, h2, _⟩ := add_Held bus w intf blocking r.refCount _ _ hP
      ⟨r.adding, hr, fun e => Bool.noConfusion (ha.symm.trans e), rfl, rfl⟩
    rw [h2] at h
    exact Option.noConfusion h

theorem AddPropertiesChangedRule_settled (bus : BusAttachment) (w w2 : Sys) (intf : String)
    (h : w.AddPropertiesChangedRule bus intf true = some w2)
    (hbus : bus.AddMatchAsync (propertiesChangedRule intf) = QStatus.ER_OK)
    (hs : Settled w) : Settled w2 := by
  obtain ⟨a, b, c⟩ := AddPropertiesChangedRule_same bus w w2 intf true h
  refine ⟨?_, ?_⟩
  · intro i r hr
    by_cases hi : intf = i
    · subst hi
      exact adding_of_isAdding w2 intf r (c rfl hbus) hr
    · rw [b i hi] at hr
      exact hs.1 i r hr
  · rw [a.2.2.2.2.2.2.2.2.1]
    exact hs.2

theorem RemovePropertiesChangedRule_ne_none (bus : BusAttachment) (w : Sys) (intf : String)
    (h : w.RemovePropertiesChangedRule bus intf = none)
    (hs : ∀ r, w.record intf = some r → r.adding = false) : False := by
  cases hr : w.record intf with
  | none =>
    rw [remove_Free bus w intf _ _ ⟨hr, rfl, rfl⟩] at h
    exact Option.noConfusion h
  | some r =>
    have ha := hs r hr
    have hfind : w.pbo.matchRuleBookKeeping.find intf = some r := hr
    have hw : w.waitAddMatchDone bus intf = some w := by
      unfold waitAddMatchDone
      have : w.pbo.isAdding intf = false := by
        unfold Internal.isAdding
        rw [hfind]
        exact ha
      rw [this]
      rfl
    unfold RemovePropertiesChangedRule at h
    simp only [hfind, hw] at h
    split_ifs at h

theorem RemovePropertiesChangedRule_settled (bus : BusAttachment) (w w2 : Sys) (intf : String)
    (h : w.RemovePropertiesChangedRule bus intf = some w2) (hs : Settled w) : Settled w2 := by
  rcases RemovePropertiesChangedRule_same bus w w2 intf h with ⟨a, b, c⟩ | e
  · refine ⟨?_, ?_⟩
    · intro i r hr
      by_cases hi : intf = i
      · subst hi
        exact adding_of_isAdding w2 intf r c hr
      · rw [b i hi] at hr
        exact hs.1 i r hr
    · rw [a.2.2.2.2.2.2.2.2.1]
      exact hs.2
  · rw [e]
    exact hs

theorem fresh_settled (objPath service : String) (isSecure : Bool) :
    Settled (fresh objPath service isSecure) := by
  refine ⟨?_, ?_⟩
  · intro i r hr
    exact Option.noConfusion hr
  · intro kv hkv
    exact absurd hkv (List.not_mem_nil _)

/-- On a bus that accepts every `AddMatchAsync` call, a registration made in a
settled state returns and leaves the state settled. -/
theorem Register_settled (bus : BusAttachment)
    (hP : (bus.GetInterface org.freedesktop.DBus.Properties.InterfaceName).isSome = true)
    (hbus : ∀ rule, bus.AddMatchAsync rule = QStatus.ER_OK) (w : Sys) (iface : String)
    (properties : List String) (listener context : Nat) (hs : Settled w) :
    ∃ st w2, w.RegisterPropertiesChangedListener bus iface properties listener context =
      some (st, w2) ∧ Settled w2 := by
  cases hR : w.RegisterPropertiesChangedListener bus iface properties listener context with
  | none =>
    exfalso
    unfold RegisterPropertiesChangedListener at hR
    cases hg : bus.GetInterface iface with
    | none =>
      simp only [hg] at hR
      exact Option.noConfusion hR
    | some ifc =>
      simp only [hg] at hR
      by_cases hp : (properties.any fun p => !ifc.HasProperty p) = true
      · rw [if_pos hp] at hR
        exact Option.noConfusion hR
      · rw [if_neg hp] at hR
        cases hr : removeListener iface listener w.pbo.propertiesChangedCBs with
        | some p =>
          rw [hr] at hR
          exact Option.noConfusion hR
        | none =>
          rw [hr] at hR
          dsimp only at hR
          split at hR
          · exact Option.noConfusion hR
          · rename_i heq
            refine AddPropertiesChangedRule_ne_none bus _ iface true heq hP (hbus _) ?_
            intro r hrec
            refine hs.1 iface r ?_
            rw [← hrec]
            show StrMap.find _ iface = StrMap.find _ iface
            split_ifs <;> rfl
  | some p =>
    obtain ⟨st, w2⟩ := p
    refine ⟨st, w2, rfl, ?_⟩
    unfold RegisterPropertiesChangedListener at hR
    cases hg : bus.GetInterface iface with
    | none =>
      simp only [hg, Option.some.injEq, Prod.mk.injEq] at hR
      rw [← hR.2]
      exact hs
    | some ifc =>
      simp only [hg] at hR
      by_cases hp : (properties.any fun p => !ifc.HasProperty p) = true
      · rw [if_pos hp] at hR
        simp only [Option.some.injEq, Prod.mk.injEq] at hR
        rw [← hR.2]
        exact hs
      · rw [if_neg hp] at hR
        cases hr : removeListener iface listener w.pbo.propertiesChangedCBs with
        | some p =>
          obtain ⟨old, rest⟩ := p
          simp only [hr, Option.some.injEq, Prod.mk.injEq] at hR
          rw [← hR.2]
          obtain ⟨_, _, _, hsub⟩ := removeListener_some iface listener _ old rest hr
          refine ⟨fun i r h => hs.1 i r h, ?_⟩
          intro kv hkv
          rcases List.mem_append.mp hkv with h1 | h1
          · exact hs.2 kv (hsub kv h1)
          · rw [List.mem_singleton.mp h1]
            rfl
        | none =>
          rw [hr] at hR
          dsimp only at hR
          split at hR
          · rename_i w3 heq
            simp only [Option.some.injEq, Prod.mk.injEq] at hR
            rw [← hR.2]
            refine AddPropertiesChangedRule_settled bus _ w3 iface heq (hbus _) ⟨?_, ?_⟩
            · intro i r hrec
              refine hs.1 i r ?_
              rw [← hrec]
              show StrMap.find _ i = StrMap.find _ i
              split_ifs <;> rfl
            · intro kv hkv
              have hkv2 : kv ∈ w.pbo.propertiesChangedCBs ++
                  [(iface, PropertiesChangedCB.ctor listener properties context)] := by
                revert hkv
                dsimp only
                split_ifs <;> exact fun h => h
              rcases List.mem_append.mp hkv2 with h1 | h1
              · exact hs.2 kv h1
              · rw [List.mem_singleton.mp h1]
                rfl
          · exact Option.noConfusion hR

/-- A removal made in a settled state returns and leaves the state settled. -/
theorem Unregister_settled (bus : BusAttachment) (w : Sys) (thread : Nat) (iface : String)
    (listener : Nat) (hs : Settled w) :
    ∃ st w2, w.UnregisterPropertiesChangedListener bus thread iface listener = some (st, w2) ∧
      Settled w2 := by
  cases hR : w.UnregisterPropertiesChangedListener bus thread iface listener with
  | none =>
    exfalso
    unfold UnregisterPropertiesChangedListener at hR
    cases hg : bus.GetInterface iface with
    | none =>
      simp only [hg] at hR
      exact Option.noConfusion hR
    | some ifc =>
      simp only [hg] at hR
      by_cases ht : w.pbo.threadRunsListener thread listener = true
      · rw [if_pos ht] at hR
        exact Option.noConfusion hR
      · rw [if_neg ht] at hR
        cases hr : removeListener iface listener w.pbo.propertiesChangedCBs with
        | none =>
          rw [hr] at hR
          exact Option.noConfusion hR
        | some p =>
          obtain ⟨ctx, rest⟩ := p
          rw [hr] at hR
          dsimp only at hR
          obtain ⟨_, hmem, _, _⟩ := removeListener_some iface listener _ ctx rest hr
          have h0 : ctx.numRunning = 0 := hs.2 (iface, ctx) hmem
          have h1 : ¬ ctx.numRunning > 0 := by omega
          rw [if_neg h1] at hR
          split at hR
          · exact Option.noConfusion hR
          · rename_i heq
            exact RemovePropertiesChangedRule_ne_none bus _ iface heq
              (fun r hrec => hs.1 iface r hrec)
  | some p =>
    obtain ⟨st, w2⟩ := p
    refine ⟨st, w2, rfl, ?_⟩
    unfold UnregisterPropertiesChangedListener at hR
    cases hg : bus.GetInterface iface with
    | none =>
      simp only [hg, Option.some.injEq, Prod.mk.injEq] at hR
      rw [← hR.2]
      exact hs
    | some ifc =>
      simp only [hg] at hR
      by_cases ht : w.pbo.threadRunsListener thread listener = true
      · rw [if_pos ht] at hR
        simp only [Option.some.injEq, Prod.mk.injEq] at hR
        rw [← hR.2]
        exact hs
      · rw [if_neg ht] at hR
        cases hr : removeListener iface listener w.pbo.propertiesChangedCBs with
        | none =>
          simp only [hr, Option.some.injEq, Prod.mk.injEq] at hR
          rw [← hR.2]
          exact hs
        | some p =>
          obtain ⟨ctx, rest⟩ := p
          rw [hr] at hR
          dsimp only at hR
          obtain ⟨_, hmem, _, hsub⟩ := removeListener_some iface listener _ ctx rest hr
          have h0 : ctx.numRunning = 0 := hs.2 (iface, ctx) hmem
          have h1 : ¬ ctx.numRunning > 0 := by omega
          rw [if_neg h1] at hR
          split at hR
          · rename_i w3 heq
            simp only [Option.some.injEq, Prod.mk.injEq] at hR
            rw [← hR.2]
            exact RemovePropertiesChangedRule_settled bus _ w3 iface heq
              ⟨fun i r hrec => hs.1 i r hrec, fun kv hkv => hs.2 kv (hsub kv hkv)⟩
          · exact Option.noConfusion hR

/-- Every returned `UnregisterPropertiesChangedListener` keeps the pairs of the
table distinct. -/
theorem Unregister_nodup (bus : BusAttachment) (w w2 : Sys) (thread : Nat) (iface : String)
    (listener : Nat) (st : QStatus)
    (hn : (registeredPairs w.pbo.propertiesChangedCBs).Nodup)
    (h : w.UnregisterPropertiesChangedListener bus thread iface listener = some (st, w2)) :
    (registeredPairs w2.pbo.propertiesChangedCBs).Nodup := by
  unfold UnregisterPropertiesChangedListener at h
  cases hg : bus.GetInterface iface with
  | none =>
    simp only [hg, Option.some.injEq, Prod.mk.injEq] at h
    rw [← h.2]
    exact hn
  | some ifc =>
    simp only [hg] at h
    by_cases ht : w.pbo.threadRunsListener thread listener = true
    · rw [if_pos ht] at h
      simp only [Option.some.injEq, Prod.mk.injEq] at h
      rw [← h.2]
      exact hn
    · rw [if_neg ht] at h
      cases hr : removeListener iface listener w.pbo.propertiesChangedCBs with
      | none =>
        simp only [hr, Option.some.injEq, Prod.mk.injEq] at h
        rw [← h.2]
        exact hn
      | some p =>
        obtain ⟨ctx, rest⟩ := p
        rw [hr] at h
        dsimp only at h
        by_cases h1 : ctx.numRunning > 0
        · rw [if_pos h1] at h
          exact Option.noConfusion h
        · rw [if_neg h1] at h
          split at h
          · rename_i w3 heq
            simp only [Option.some.injEq, Prod.mk.injEq] at h
            rw [← h.2]
            have hcbs : w3.pbo.propertiesChangedCBs = rest := by
              rcases RemovePropertiesChangedRule_same bus _ w3 iface heq with ⟨a, _, _⟩ | e
              · exact a.2.2.2.2.2.2.2.2.1
              · rw [e]
            rw [hcbs]
            exact nodup_after_remove iface listener _ rest ctx hn hr
          · exact Option.noConfusion h

theorem listenerOps_nodup (bus : BusAttachment) (ops : List ListenerOp) :
    ∀ (w w2 : Sys), (registeredPairs w.pbo.propertiesChangedCBs).Nodup →
      listenerOps bus w ops = some w2 → (registeredPairs w2.pbo.propertiesChangedCBs).Nodup := by
  induction ops with
  | nil =>
    intro w w2 hn h
    simp only [listenerOps, Option.some.injEq] at h
    rw [← h]
    exact hn
  | cons op rest ih =>
    intro w w2 hn h
    cases op with
    | register iface properties listener context =>
      simp only [listenerOps] at h
      cases hR : w.RegisterPropertiesChangedListener bus iface properties listener context with
      | none =>
        rw [hR] at h
        exact Option.noConfusion h
      | some p =>
        obtain ⟨st, w1⟩ := p
        rw [hR] at h
        exact ih w1 w2 (Register_nodup bus w w1 iface properties listener context st hn hR) h
    | unregister thread iface listener =>
      simp only [listenerOps] at h
      cases hR : w.UnregisterPropertiesChangedListener bus thread iface listener with
      | none =>
        rw [hR] at h
        exact Option.noConfusion h
      | some p =>
        obtain ⟨st, w1⟩ := p
        rw [hR] at h
        exact ih w1 w2 (Unregister_nodup bus w w1 thread iface listener st hn hR) h

theorem listenerOps_returns (bus : BusAttachment)
    (hP : (bus.GetInterface org.freedesktop.DBus.Properties.InterfaceName).isSome = true)
    (hbus : ∀ rule, bus.AddMatchAsync rule = QStatus.ER_OK) (ops : List ListenerOp) :
    ∀ (w : Sys), Settled w → ∃ w2, listenerOps bus w ops = some w2 := by
  induction ops with
  | nil =>
    intro w _
    exact ⟨w, rfl⟩
  | cons op rest ih =>
    intro w hs
    cases op with
    | register iface properties listener context =>
      obtain ⟨st, w1, h1, hs1⟩ := Register_settled bus hP hbus w iface properties listener context hs
      obtain ⟨w2, h2⟩ := ih w1 hs1
      refine ⟨w2, ?_⟩
      simp only [listenerOps, h1]
      exact h2
    | unregister thread iface listener =>
      obtain ⟨st, w1, h1, hs1⟩ := Unregister_settled bus w thread iface listener hs
      obtain ⟨w2, h2⟩ := ih w1 hs1
      refine ⟨w2, ?_⟩
      simp only [listenerOps, h1]
      exact h2

end Sys

/-! ### Interface binding -/

theorem StrMap.find_insert_mono {V : Type} (m : StrMap V) (k j : String) (v d : V)
    (h : m.find j = some d) : (m.insert k v).find j = some d := by
  by_cases hk : k = j
  · subst hk
    rw [StrMap.find_insert_of_some m k v d h]
    exact h
  · rw [StrMap.find_insert_other m k j v hk]
    exact h

theorem StrMap.find_insert_self_isSome {V : Type} (m : StrMap V) (k : String) (v : V) :
    ((m.insert k v).find k).isSome = true := by
  cases h : m.find k with
  | none => rw [StrMap.find_insert_of_none m k v h]; rfl
  | some d => rw [StrMap.find_insert_of_some m k v d h, h]; rfl

theorem StrMap.find_insert_isSome_mono {V : Type} (m : StrMap V) (k j : String) (v : V)
    (h : (m.find j).isSome = true) : ((m.insert k v).find j).isSome = true := by
  cases hd : m.find j with
  | none => rw [hd] at h; exact Bool.noConfusion h
  | some d => rw [StrMap.find_insert_mono m k j v d hd]; rfl

theorem StrMap.find_isSome_of_mem {V : Type} (m : StrMap V) (k : String) (v : V)
    (h : (k, v) ∈ m) : (m.find k).isSome = true := by
  induction m with
  | nil => exact absurd h (List.not_mem_nil _)
  | cons hd tl ih =>
    obtain ⟨k2, v2⟩ := hd
    simp only [StrMap.find]
    by_cases hk : k2 = k
    · rw [if_pos hk]; rfl
    · rw [if_neg hk]
      rcases List.mem_cons.mp h with e | h2
      · exact absurd (Prod.mk.inj e).1.symm hk
      · exact ih h2

theorem StrMap.find_modify_isSome {V : Type} (m : StrMap V) (k j : String) (f : V → V) :
    ((m.modify k f).find j).isSome = (m.find j).isSome := by
  by_cases hk : k = j
  · subst hk
    rw [StrMap.find_modify_same]
    cases m.find k <;> rfl
  · rw [StrMap.find_modify_other m k j f hk]


namespace Sys

theorem bindDescriptor_ifaces (w : Sys) (iface : InterfaceDescription) :
    (w.bindDescriptor iface).pbo.ifaces = w.pbo.ifaces.insert iface.name iface := by
  unfold bindDescriptor
  dsimp only
  split_ifs <;> rfl

theorem bindDescriptor_caches (w : Sys) (iface : InterfaceDescription) :
    (w.bindDescriptor iface).pbo.caches =
      if w.pbo.cacheProperties && iface.HasCacheableProperties then
        w.pbo.caches.insert iface.name (CachedProps.ctor iface)
      else w.pbo.caches := by
  unfold bindDescriptor
  dsimp only
  split_ifs <;> rfl

theorem bindDescriptor_frame (w : Sys) (iface : InterfaceDescription) :
    (w.bindDescriptor iface).pbo.hasProperties = w.pbo.hasProperties ∧
      (w.bindDescriptor iface).pbo.cacheProperties = w.pbo.cacheProperties ∧
      (w.bindDescriptor iface).pbo.matchRuleBookKeeping = w.pbo.matchRuleBookKeeping ∧
      (w.bindDescriptor iface).calls = w.calls ∧
      (w.bindDescriptor iface).pending = w.pending := by
  unfold bindDescriptor
  dsimp only
  split_ifs <;> exact ⟨rfl, rfl, rfl, rfl, rfl⟩

theorem bindDescriptor_record (w : Sys) (iface : InterfaceDescription) (n : String) :
    (w.bindDescriptor iface).record n = w.record n := by
  unfold record
  rw [(bindDescriptor_frame w iface).2.2.1]

theorem bindDescriptor_caches_other (w : Sys) (iface : InterfaceDescription) (n : String)
    (h : iface.name ≠ n) :
    (w.bindDescriptor iface).pbo.caches.find n = w.pbo.caches.find n := by
  rw [bindDescriptor_caches]
  split_ifs
  · exact StrMap.find_insert_other _ _ _ _ h
  · rfl

theorem bindDescriptor_inv (w : Sys) (iface : InterfaceDescription) (h : BindInv w) :
    BindInv (w.bindDescriptor iface) := by
  refine ⟨?_, ?_, ?_⟩
  · intro hp
    rw [(bindDescriptor_frame w iface).1] at hp
    rw [bindDescriptor_ifaces]
    exact StrMap.find_insert_isSome_mono _ _ _ _ (h.props hp)
  · intro n hn
    rw [bindDescriptor_record] at hn
    rw [bindDescriptor_ifaces]
    exact StrMap.find_insert_isSome_mono _ _ _ _ (h.records n hn)
  · intro n hn
    rw [bindDescriptor_ifaces]
    rw [bindDescriptor_caches] at hn
    split_ifs at hn
    · by_cases hk : iface.name = n
      · subst hk
        exact StrMap.find_insert_self_isSome _ _ _
      · rw [StrMap.find_insert_other _ _ _ _ hk] at hn
        exact StrMap.find_insert_isSome_mono _ _ _ _ (h.caches n hn)
    · exact StrMap.find_insert_isSome_mono _ _ _ _ (h.caches n hn)

theorem addRuleTail_nonblocking (bus : BusAttachment) (w : Sys) (intf : String) :
    addRuleTail bus w intf false =
      some (if !w.pbo.isAdding intf then { w with pbo := w.pbo.enableCache intf } else w) := rfl

theorem AddPropertiesChangedRule_nonblocking_returns (bus : BusAttachment) (w : Sys)
    (intf : String) (hP : (bus.GetInterface org.freedesktop.DBus.Properties.InterfaceName).isSome = true) :
    ∃ w2, w.AddPropertiesChangedRule bus intf false = some w2 := by
  unfold AddPropertiesChangedRule
  dsimp only
  simp only [addRuleTail_nonblocking, propIntf_check bus _ hP, Bool.false_eq_true, if_false]
  split_ifs <;> exact ⟨_, rfl⟩

theorem addRuleTail_nonblocking_caches (bus : BusAttachment) (w w2 : Sys) (intf : String)
    (h : addRuleTail bus w intf false = some w2) :
    (∀ j, (w2.pbo.caches.find j).isSome = (w.pbo.caches.find j).isSome) ∧
      (∀ j, intf ≠ j → w2.pbo.caches.find j = w.pbo.caches.find j) ∧
      (w.pbo.isAdding intf = true → w2 = w) := by
  rw [addRuleTail_nonblocking] at h
  simp only [Option.some.injEq] at h
  subst h
  by_cases ha : w.pbo.isAdding intf = true
  · have e : (if (!w.pbo.isAdding intf) = true then
        ({ w with pbo := w.pbo.enableCache intf } : Sys) else w) = w := by
      rw [ha]
      rfl
    rw [e]
    exact ⟨fun _ => rfl, fun _ _ => rfl, fun _ => rfl⟩
  · have ha2 : w.pbo.isAdding intf = false := Bool.eq_false_iff.mpr ha
    simp only [ha2, Bool.not_false, if_true]
    refine ⟨fun j => ?_, fun j hj => ?_, fun e => Bool.noConfusion e⟩
    · exact StrMap.find_modify_isSome _ _ _ _
    · exact StrMap.find_modify_other _ _ _ _ hj

theorem AddPropertiesChangedRule_nonblocking_caches (bus : BusAttachment) (w w2 : Sys)
    (intf : String) (h : w.AddPropertiesChangedRule bus intf false = some w2) :
    (∀ j, (w2.pbo.caches.find j).isSome = (w.pbo.caches.find j).isSome) ∧
      (∀ j, intf ≠ j → w2.pbo.caches.find j = w.pbo.caches.find j) := by
  unfold AddPropertiesChangedRule at h
  dsimp only at h
  by_cases hchk : ((!w.pbo.registeredPropChangedHandler) &&
      (bus.GetInterface org.freedesktop.DBus.Properties.InterfaceName).isNone) = true
  · rw [if_pos hchk] at h
    exact Option.noConfusion h
  rw [if_neg hchk] at h
  by_cases hn : (w.pbo.matchRuleBookKeeping.find intf).isNone = true
  · simp only [hn, if_true] at h
    by_cases hs : bus.AddMatchAsync (propertiesChangedRule intf) = QStatus.ER_OK
    · simp only [hs, ne_eq, not_true_eq_false, if_false] at h
      obtain ⟨a, b, _⟩ := addRuleTail_nonblocking_caches bus _ w2 intf h
      exact ⟨a, b⟩
    · simp only [ne_eq, hs, not_false_eq_true, if_true, Option.some.injEq] at h
      subst h
      exact ⟨fun _ => rfl, fun _ _ => rfl⟩
  · have hn2 : (w.pbo.matchRuleBookKeeping.find intf).isNone = false := Bool.eq_false_iff.mpr hn
    simp only [hn2, Bool.false_eq_true, if_false] at h
    obtain ⟨a, b, _⟩ := addRuleTail_nonblocking_caches bus _ w2 intf h
    exact ⟨a, b⟩

/-- The non-blocking acquisition made for a name without a record touches no
cache; on a bus that accepts the call the record is created with one reference
and stays in the adding state, the last call made is `AddMatchAsync` and its
callback is outstanding. -/
theorem AddPropertiesChangedRule_nonblocking_new (bus : BusAttachment) (w w2 : Sys)
    (intf : String) (h : w.AddPropertiesChangedRule bus intf false = some w2)
    (hrec : w.record intf = none) :
    w2.pbo.caches = w.pbo.caches ∧
      (bus.AddMatchAsync (propertiesChangedRule intf) = QStatus.ER_OK →
        w2.record intf = some { adding := true, refCount := 1 } ∧
        (∃ pre, w2.calls = pre ++ [BusCall.AddMatchAsync (propertiesChangedRule intf)]) ∧
        w2.pending = w.pending ++ [intf]) := by
  have hfind : w.pbo.matchRuleBookKeeping.find intf = none := hrec
  unfold AddPropertiesChangedRule at h
  dsimp only at h
  by_cases hchk : ((!w.pbo.registeredPropChangedHandler) &&
      (bus.GetInterface org.freedesktop.DBus.Properties.InterfaceName).isNone) = true
  · rw [if_pos hchk] at h
    exact Option.noConfusion h
  rw [if_neg hchk] at h
  simp only [hfind, Option.isNone_none, if_true] at h
  by_cases hbus : bus.AddMatchAsync (propertiesChangedRule intf) = QStatus.ER_OK
  · simp only [hbus, ne_eq, not_true_eq_false, if_false] at h
    have hbook : (StrMap.modify
        (StrMap.insert w.pbo.matchRuleBookKeeping intf { adding := true, refCount := 0 }) intf
        (fun r => { r with refCount := (r.refCount + 1) % 2 ^ 32 })).find intf =
        some { adding := true, refCount := 1 } := by
      rw [StrMap.find_modify_same, StrMap.find_insert_of_none _ _ _ hfind]
      rfl
    obtain ⟨_, _, c⟩ := addRuleTail_nonblocking_caches bus _ w2 intf h
    have hadd : Internal.isAdding
        ({ w.pbo with
            matchRuleBookKeeping := StrMap.modify
              (StrMap.insert w.pbo.matchRuleBookKeeping intf { adding := true, refCount := 0 })
              intf (fun r => { r with refCount := (r.refCount + 1) % 2 ^ 32 })
            registeredPropChangedHandler := true } : Internal) intf = true := by
      unfold Internal.isAdding
      dsimp only
      rw [hbook]
    rw [c hadd]
    exact ⟨rfl, fun _ => ⟨hbook, ⟨_, rfl⟩, rfl⟩⟩
  · simp only [ne_eq, hbus, not_false_eq_true, if_true, Option.some.injEq] at h
    subst h
    exact ⟨rfl, fun e => absurd e hbus⟩

/-- The non-blocking acquisition for a name without a record, on a bus that
rejects the `AddMatchAsync` call: afterwards no reference is held for the name
and no callback has been added to the outstanding ones. -/
theorem AddPropertiesChangedRule_nonblocking_rejected (bus : BusAttachment) (w w2 : Sys)
    (intf : String) (h : w.AddPropertiesChangedRule bus intf false = some w2)
    (hrec : w.record intf = none)
    (hbus : bus.AddMatchAsync (propertiesChangedRule intf) ≠ QStatus.ER_OK) :
    (∀ r, w2.record intf = some r → r.refCount = 0) ∧ w2.pending = w.pending := by
  have hfind : w.pbo.matchRuleBookKeeping.find intf = none := hrec
  unfold AddPropertiesChangedRule at h
  dsimp only at h
  by_cases hchk : ((!w.pbo.registeredPropChangedHandler) &&
      (bus.GetInterface org.freedesktop.DBus.Properties.InterfaceName).isNone) = true
  · rw [if_pos hchk] at h
    exact Option.noConfusion h
  rw [if_neg hchk] at h
  simp only [hfind, Option.isNone_none, if_true] at h
  simp only [ne_eq, hbus, not_false_eq_true, if_true, Option.some.injEq] at h
  subst h
  refine ⟨?_, rfl⟩
  intro r hr
  have hbook : (StrMap.modify (StrMap.modify
      (StrMap.insert w.pbo.matchRuleBookKeeping intf { adding := true, refCount := 0 }) intf
      (fun r => { r with refCount := (r.refCount + 1) % 2 ^ 32 })) intf
      (fun r => { r with refCount := CachedProps.u32sub r.refCount 1 })).find intf =
      some { adding := true, refCount := 0 } := by
    rw [StrMap.find_modify_same, StrMap.find_modify_same,
      StrMap.find_insert_of_none _ _ _ hfind]
    rfl
  have hr2 : (StrMap.modify (StrMap.modify
      (StrMap.insert w.pbo.matchRuleBookKeeping intf { adding := true, refCount := 0 }) intf
      (fun r => { r with refCount := (r.refCount + 1) % 2 ^ 32 })) intf
      (fun r => { r with refCount := CachedProps.u32sub r.refCount 1 })).find intf = some r := hr
  rw [hbook] at hr2
  rw [← Option.some.inj hr2]

theorem AddPropertiesChangedRule_nonblocking_inv (bus : BusAttachment) (w w2 : Sys)
    (intf : String) (h : w.AddPropertiesChangedRule bus intf false = some w2)
    (hb : (w.pbo.ifaces.find intf).isSome = true) (hinv : BindInv w) : BindInv w2 := by
  obtain ⟨a, b, _⟩ := AddPropertiesChangedRule_same bus w w2 intf false h
  obtain ⟨c, _⟩ := AddPropertiesChangedRule_nonblocking_caches bus w w2 intf h
  have hif : w2.pbo.ifaces = w.pbo.ifaces := a.2.2.2.2.2.2.2.1
  have hhp : w2.pbo.hasProperties = w.pbo.hasProperties := a.2.2.2.1
  refine ⟨?_, ?_, ?_⟩
  · intro hp
    rw [hif]
    rw [hhp] at hp
    exact hinv.props hp
  · intro n hn
    rw [hif]
    by_cases hk : intf = n
    · subst hk
      exact hb
    · rw [b n hk] at hn
      exact hinv.records n hn
  · intro n hn
    rw [hif]
    rw [c n] at hn
    exact hinv.caches n hn


theorem Extends.self (w : Sys) (k : String) : Extends w w k :=
  ⟨fun _ _ h => h, rfl, fun _ _ _ => ⟨rfl, rfl⟩⟩

theorem Extends.chain {w w2 w3 : Sys} {k : String} (h1 : Extends w w2 k)
    (h2 : Extends w2 w3 k) : Extends w w3 k := by
  obtain ⟨a1, b1, c1⟩ := h1
  obtain ⟨a2, b2, c2⟩ := h2
  refine ⟨fun n d h => a2 n d (a1 n d h), b2.trans b1, fun n hk hp => ?_⟩
  obtain ⟨x1, y1⟩ := c1 n hk hp
  obtain ⟨x2, y2⟩ := c2 n hk hp
  exact ⟨x2.trans x1, y2.trans y1⟩

theorem Extends.weaken {w w2 : Sys} (k : String)
    (h : Extends w w2 org.freedesktop.DBus.Properties.InterfaceName) : Extends w w2 k :=
  ⟨h.1, h.2.1, fun n _ hp => h.2.2 n hp hp⟩

theorem bindDescriptor_extends (w : Sys) (iface : InterfaceDescription) :
    Extends w (w.bindDescriptor iface) iface.name := by
  refine ⟨fun n d h => ?_, (bindDescriptor_frame w iface).2.1, fun n hk _ => ?_⟩
  · rw [bindDescriptor_ifaces]
    exact StrMap.find_insert_mono _ _ _ _ _ h
  · exact ⟨bindDescriptor_record w iface n, bindDescriptor_caches_other w iface n hk⟩

theorem AddPropertiesChangedRule_nonblocking_extends (bus : BusAttachment) (w w2 : Sys)
    (intf : String) (h : w.AddPropertiesChangedRule bus intf false = some w2) :
    Extends w w2 intf := by
  obtain ⟨a, b, _⟩ := AddPropertiesChangedRule_same bus w w2 intf false h
  obtain ⟨_, d⟩ := AddPropertiesChangedRule_nonblocking_caches bus w w2 intf h
  refine ⟨fun n dsc hn => ?_, a.2.2.2.2.2.1, fun n hk _ => ⟨b n hk, d n hk⟩⟩
  rw [a.2.2.2.2.2.2.2.1]
  exact hn

/-- The three ways through the block guarded by `!internal->hasProperties`. -/
theorem bindProperties_cases (bus : BusAttachment) (propIntf : InterfaceDescription)
    (hprop : bus.GetInterface org.freedesktop.DBus.Properties.InterfaceName = some propIntf)
    (nested : Sys → InterfaceDescription → Option (QStatus × Sys)) (w1 : Sys)
    (iface : InterfaceDescription) :
    (bindProperties bus nested w1 iface = some w1 ∧
        (w1.pbo.hasProperties = true ∨ ¬ iface.GetProperties > 0)) ∨
      (w1.pbo.hasProperties = false ∧ iface = propIntf ∧
        bindProperties bus nested w1 iface =
          some { w1 with pbo := { w1.pbo with hasProperties := true } }) ∨
      (w1.pbo.hasProperties = false ∧ iface ≠ propIntf ∧
        bindProperties bus nested w1 iface = (nested w1 propIntf).map Prod.snd) := by
  unfold bindProperties
  cases hp : w1.pbo.hasProperties with
  | true =>
    refine Or.inl ⟨?_, Or.inl rfl⟩
    rfl
  | false =>
    simp only [Bool.not_false, if_true, hprop]
    by_cases he : iface = propIntf
    · refine Or.inr (Or.inl ⟨trivial, he, ?_⟩)
      rw [if_pos he]
    · rw [if_neg he]
      by_cases hg : iface.GetProperties > 0
      · refine Or.inr (Or.inr ⟨trivial, he, ?_⟩)
        rw [if_pos hg]
        cases nested w1 propIntf with
        | none => rfl
        | some r =>
          obtain ⟨x, y⟩ := r
          rfl
      · refine Or.inl ⟨?_, Or.inr hg⟩
        rw [if_neg hg]

theorem AddInterfaceAux_bound (bus : BusAttachment) (fuel : Nat) (w : Sys)
    (iface bound : InterfaceDescription) (h : w.pbo.ifaces.find iface.name = some bound) :
    AddInterfaceAux bus (fuel + 1) w iface = some (QStatus.ER_BUS_IFACE_ALREADY_EXISTS, w) := by
  unfold AddInterfaceAux
  simp only [h]

/-- The call for an unbound name in terms of the state left by the block on the
property-access interface. -/
theorem AddInterfaceAux_new (bus : BusAttachment) (fuel : Nat) (w w3 : Sys)
    (iface : InterfaceDescription) (h : w.pbo.ifaces.find iface.name = none)
    (h3 : bindProperties bus (AddInterfaceAux bus fuel) (w.bindDescriptor iface) iface =
      some w3) :
    AddInterfaceAux bus (fuel + 1) w iface =
      if w.pbo.cacheProperties && iface.HasCacheableProperties then
        (w3.AddPropertiesChangedRule bus iface.name false).map (fun w4 => (QStatus.ER_OK, w4))
      else some (QStatus.ER_OK, w3) := by
  rw [AddInterfaceAux]
  simp only [h, h3]
  split_ifs
  · cases w3.AddPropertiesChangedRule bus iface.name false <;> rfl
  · rfl

theorem AddInterfaceAux_new_none (bus : BusAttachment) (fuel : Nat) (w : Sys)
    (iface : InterfaceDescription) (h : w.pbo.ifaces.find iface.name = none)
    (h3 : bindProperties bus (AddInterfaceAux bus fuel) (w.bindDescriptor iface) iface = none) :
    AddInterfaceAux bus (fuel + 1) w iface = none := by
  rw [AddInterfaceAux]
  simp only [h, h3]


theorem Extends.isSome {w w2 : Sys} {k : String} (h : Extends w w2 k) (n : String)
    (hn : (w.pbo.ifaces.find n).isSome = true) : (w2.pbo.ifaces.find n).isSome = true := by
  cases hd : w.pbo.ifaces.find n with
  | none =>
    rw [hd] at hn
    exact Bool.noConfusion hn
  | some d =>
    rw [h.1 n d hd]
    rfl

/-- What a returned `AddInterface` call keeps and establishes. -/
theorem AddInterfaceAux_spec (bus : BusAttachment) (propIntf : InterfaceDescription)
    (hprop : bus.GetInterface org.freedesktop.DBus.Properties.InterfaceName = some propIntf)
    (hname : propIntf.name = org.freedesktop.DBus.Properties.InterfaceName) :
    ∀ (fuel : Nat) (w : Sys) (iface : InterfaceDescription) (st : QStatus) (w2 : Sys),
      AddInterfaceAux bus fuel w iface = some (st, w2) → BindInv w →
      BindInv w2 ∧ Extends w w2 iface.name ∧ (w2.pbo.ifaces.find iface.name).isSome = true := by
  intro fuel
  induction fuel with
  | zero =>
    intro w iface st w2 h
    rw [AddInterfaceAux] at h
    exact Option.noConfusion h
  | succ fuel ih =>
    intro w iface st w2 h hinv
    cases hf : w.pbo.ifaces.find iface.name with
    | some bound =>
      rw [AddInterfaceAux_bound bus fuel w iface bound hf] at h
      simp only [Option.some.injEq, Prod.mk.injEq] at h
      rw [← h.2]
      refine ⟨hinv, Extends.self w _, ?_⟩
      rw [hf]
      rfl
    | none =>
      have hw1 := bindDescriptor_inv w iface hinv
      have he1 := bindDescriptor_extends w iface
      have hb1 : ((w.bindDescriptor iface).pbo.ifaces.find iface.name).isSome = true := by
        rw [bindDescriptor_ifaces]
        exact StrMap.find_insert_self_isSome _ _ _
      have key : ∀ w3, bindProperties bus (AddInterfaceAux bus fuel) (w.bindDescriptor iface)
          iface = some w3 →
          BindInv w3 ∧ Extends (w.bindDescriptor iface) w3 iface.name ∧
            (w3.pbo.ifaces.find iface.name).isSome = true := by
        intro w3 h3
        rcases bindProperties_cases bus propIntf hprop (AddInterfaceAux bus fuel)
          (w.bindDescriptor iface) iface with ⟨e, _⟩ | ⟨_, e1, e⟩ | ⟨_, _, e⟩
        · rw [e] at h3
          simp only [Option.some.injEq] at h3
          rw [← h3]
          exact ⟨hw1, Extends.self _ _, hb1⟩
        · rw [e] at h3
          simp only [Option.some.injEq] at h3
          rw [← h3]
          refine ⟨⟨fun _ => ?_, hw1.records, hw1.caches⟩,
            ⟨fun _ _ hx => hx, rfl, fun _ _ _ => ⟨rfl, rfl⟩⟩, hb1⟩
          have hk : iface.name = org.freedesktop.DBus.Properties.InterfaceName := by
            rw [e1]
            exact hname
          rw [← hk]
          exact hb1
        · rw [e] at h3
          cases hn : AddInterfaceAux bus fuel (w.bindDescriptor iface) propIntf with
          | none =>
            rw [hn] at h3
            exact Option.noConfusion h3
          | some r =>
            obtain ⟨st1, w5⟩ := r
            rw [hn] at h3
            simp only [Option.map_some', Option.some.injEq] at h3
            subst h3
            obtain ⟨a, b, _⟩ := ih (w.bindDescriptor iface) propIntf st1 w5 hn hw1
            rw [hname] at b
            exact ⟨a, Extends.weaken iface.name b, b.isSome iface.name hb1⟩
      cases h3 : bindProperties bus (AddInterfaceAux bus fuel) (w.bindDescriptor iface) iface with
      | none =>
        rw [AddInterfaceAux_new_none bus fuel w iface hf h3] at h
        exact Option.noConfusion h
      | some w3 =>
        rw [AddInterfaceAux_new bus fuel w w3 iface hf h3] at h
        obtain ⟨i3, e3, b3⟩ := key w3 h3
        split_ifs at h with hc
        · cases h4 : w3.AddPropertiesChangedRule bus iface.name false with
          | none =>
            rw [h4] at h
            exact Option.noConfusion h
          | some w4 =>
            rw [h4] at h
            simp only [Option.map_some', Option.some.injEq, Prod.mk.injEq] at h
            rw [← h.2]
            have e4 := AddPropertiesChangedRule_nonblocking_extends bus w3 w4 iface.name h4
            exact ⟨AddPropertiesChangedRule_nonblocking_inv bus w3 w4 iface.name h4 b3 i3,
              (he1.chain e3).chain e4, e4.isSome iface.name b3⟩
        · simp only [Option.some.injEq, Prod.mk.injEq] at h
          rw [← h.2]
          exact ⟨i3, he1.chain e3, b3⟩

theorem AddInterfaceAux_new_returns (bus : BusAttachment) (fuel : Nat) (w w3 : Sys)
    (iface : InterfaceDescription)
    (hP : (bus.GetInterface org.freedesktop.DBus.Properties.InterfaceName).isSome = true)
    (h : w.pbo.ifaces.find iface.name = none)
    (h3 : bindProperties bus (AddInterfaceAux bus fuel) (w.bindDescriptor iface) iface =
      some w3) :
    ∃ w2, AddInterfaceAux bus (fuel + 1) w iface = some (QStatus.ER_OK, w2) ∧
      ((w.pbo.cacheProperties && iface.HasCacheableProperties) = true →
        w3.AddPropertiesChangedRule bus iface.name false = some w2) ∧
      ((w.pbo.cacheProperties && iface.HasCacheableProperties) = false → w2 = w3) := by
  rw [AddInterfaceAux_new bus fuel w w3 iface h h3]
  by_cases hc : (w.pbo.cacheProperties && iface.HasCacheableProperties) = true
  · rw [if_pos hc]
    obtain ⟨w4, h4⟩ := AddPropertiesChangedRule_nonblocking_returns bus w3 iface.name hP
    rw [h4]
    exact ⟨w4, rfl, fun _ => rfl, fun e => absurd hc (by rw [e]; exact Bool.false_ne_true)⟩
  · rw [if_neg hc]
    exact ⟨w3, rfl, fun e => absurd e hc, fun _ => rfl⟩

theorem AddInterfaceAux_returns_props (bus : BusAttachment) (propIntf : InterfaceDescription)
    (hprop : bus.GetInterface org.freedesktop.DBus.Properties.InterfaceName = some propIntf)
    (fuel : Nat) (w : Sys) : ∃ r, AddInterfaceAux bus (fuel + 1) w propIntf = some r := by
  have hP : (bus.GetInterface org.freedesktop.DBus.Properties.InterfaceName).isSome = true := by
    rw [hprop]
    rfl
  cases hf : w.pbo.ifaces.find propIntf.name with
  | some bound => exact ⟨_, AddInterfaceAux_bound bus fuel w propIntf bound hf⟩
  | none =>
    rcases bindProperties_cases bus propIntf hprop (AddInterfaceAux bus fuel)
      (w.bindDescriptor propIntf) propIntf with ⟨e, _⟩ | ⟨_, _, e⟩ | ⟨_, e1, _⟩
    · obtain ⟨w2, h2, _⟩ := AddInterfaceAux_new_returns bus fuel w _ propIntf hP hf e
      exact ⟨_, h2⟩
    · obtain ⟨w2, h2, _⟩ := AddInterfaceAux_new_returns bus fuel w _ propIntf hP hf e
      exact ⟨_, h2⟩
    · exact absurd rfl e1

theorem AddInterfaceAux_returns (bus : BusAttachment) (propIntf : InterfaceDescription)
    (hprop : bus.GetInterface org.freedesktop.DBus.Properties.InterfaceName = some propIntf)
    (fuel : Nat) (w : Sys) (iface : InterfaceDescription) :
    ∃ r, AddInterfaceAux bus (fuel + 2) w iface = some r := by
  have hP : (bus.GetInterface org.freedesktop.DBus.Properties.InterfaceName).isSome = true := by
    rw [hprop]
    rfl
  cases hf : w.pbo.ifaces.find iface.name with
  | some bound => exact ⟨_, AddInterfaceAux_bound bus (fuel + 1) w iface bound hf⟩
  | none =>
    rcases bindProperties_cases bus propIntf hprop (AddInterfaceAux bus (fuel + 1))
      (w.bindDescriptor iface) iface with ⟨e, _⟩ | ⟨_, _, e⟩ | ⟨_, _, e⟩
    · obtain ⟨w2, h2, _⟩ := AddInterfaceAux_new_returns bus (fuel + 1) w _ iface hP hf e
      exact ⟨_, h2⟩
    · obtain ⟨w2, h2, _⟩ := AddInterfaceAux_new_returns bus (fuel + 1) w _ iface hP hf e
      exact ⟨_, h2⟩
    · obtain ⟨r, hr⟩ := AddInterfaceAux_returns_props bus propIntf hprop fuel
        (w.bindDescriptor iface)
      rw [hr] at e
      obtain ⟨w2, h2, _⟩ := AddInterfaceAux_new_returns bus (fuel + 1) w r.2 iface hP hf e
      exact ⟨_, h2⟩

theorem seedCaches_find (l : List (String × InterfaceDescription)) :
    ∀ (caches : StrMap CachedProps) (n : String),
      ((seedCaches l caches).find n).isSome = true →
      (caches.find n).isSome = true ∨ ∃ d, (n, d) ∈ l := by
  induction l with
  | nil =>
    intro caches n h
    exact Or.inl h
  | cons hd tl ih =>
    intro caches n h
    obtain ⟨k, d⟩ := hd
    simp only [seedCaches] at h
    split_ifs at h
    · rcases ih _ n h with h1 | ⟨d2, h2⟩
      · by_cases hk : k = n
        · subst hk
          exact Or.inr ⟨d, List.mem_cons_self _ _⟩
        · rw [StrMap.find_insert_other _ _ _ _ hk] at h1
          exact Or.inl h1
      · exact Or.inr ⟨d2, List.mem_cons_of_mem _ h2⟩
    · rcases ih _ n h with h1 | ⟨d2, h2⟩
      · exact Or.inl h1
      · exact Or.inr ⟨d2, List.mem_cons_of_mem _ h2⟩

theorem addRules_returns (bus : BusAttachment)
    (hP : (bus.GetInterface org.freedesktop.DBus.Properties.InterfaceName).isSome = true)
    (names : List String) :
    ∀ (w : Sys), (∀ n ∈ names, (w.pbo.ifaces.find n).isSome = true) → BindInv w →
      ∃ w2, addRules bus names w = some w2 ∧ BindInv w2 := by
  induction names with
  | nil =>
    intro w _ hinv
    exact ⟨w, rfl, hinv⟩
  | cons n rest ih =>
    intro w hb hinv
    obtain ⟨w1, h1⟩ := AddPropertiesChangedRule_nonblocking_returns bus w n hP
    have hi1 := AddPropertiesChangedRule_nonblocking_inv bus w w1 n h1
      (hb n (List.mem_cons_self _ _)) hinv
    have he1 := AddPropertiesChangedRule_nonblocking_extends bus w w1 n h1
    obtain ⟨w2, h2, hi2⟩ := ih w1
      (fun m hm => he1.isSome m (hb m (List.mem_cons_of_mem _ hm))) hi1
    refine ⟨w2, ?_, hi2⟩
    simp only [addRules, h1]
    exact h2

theorem EnablePropertyCaching_returns (bus : BusAttachment)
    (hP : (bus.GetInterface org.freedesktop.DBus.Properties.InterfaceName).isSome = true)
    (w : Sys) (hinv : BindInv w) :
    ∃ w2, w.EnablePropertyCaching bus = some w2 ∧ BindInv w2 := by
  unfold EnablePropertyCaching
  by_cases hc : (!w.pbo.cacheProperties) = true
  · rw [if_pos hc]
    dsimp only
    refine addRules_returns bus hP _ _ ?_ ⟨hinv.props, hinv.records, ?_⟩
    · intro n hn
      obtain ⟨kv, hkv, e⟩ := List.mem_map.mp hn
      have hmem := (List.mem_filter.mp hkv).1
      rw [← e]
      exact StrMap.find_isSome_of_mem w.pbo.ifaces kv.1 kv.2 hmem
    · intro n hn
      rcases seedCaches_find w.pbo.ifaces w.pbo.caches n hn with h1 | ⟨d, h2⟩
      · exact hinv.caches n h1
      · exact StrMap.find_isSome_of_mem w.pbo.ifaces n d h2
  · rw [if_neg hc]
    exact ⟨w, rfl, hinv⟩

theorem fresh_bindInv (objPath service : String) (isSecure : Bool) :
    BindInv (fresh objPath service isSecure) :=
  ⟨fun h => Bool.noConfusion h, fun _ h => Bool.noConfusion h, fun _ h => Bool.noConfusion h⟩

/-- On a bus that has the property-access interface registered every sequence
of binding calls returns. -/
theorem bindOps_returns (bus : BusAttachment) (propIntf : InterfaceDescription)
    (hprop : bus.GetInterface org.freedesktop.DBus.Properties.InterfaceName = some propIntf)
    (hname : propIntf.name = org.freedesktop.DBus.Properties.InterfaceName)
    (ops : List BindOp) :
    ∀ (w : Sys), BindInv w → ∃ w2, bindOps bus w ops = some w2 ∧ BindInv w2 := by
  induction ops with
  | nil =>
    intro w hinv
    exact ⟨w, rfl, hinv⟩
  | cons op rest ih =>
    intro w hinv
    cases op with
    | addInterface iface =>
      obtain ⟨r, hr⟩ := AddInterfaceAux_returns bus propIntf hprop 0 w iface
      obtain ⟨st, w1⟩ := r
      obtain ⟨hi1, _, _⟩ := AddInterfaceAux_spec bus propIntf hprop hname 2 w iface st w1 hr hinv
      obtain ⟨w2, h2, hi2⟩ := ih w1 hi1
      refine ⟨w2, ?_, hi2⟩
      have hr2 : w.AddInterface bus iface = some (st, w1) := hr
      simp only [bindOps, hr2]
      exact h2
    | enablePropertyCaching =>
      obtain ⟨w1, h1, hi1⟩ := EnablePropertyCaching_returns bus (by rw [hprop]; rfl) w hinv
      obtain ⟨w2, h2, hi2⟩ := ih w1 hi1
      refine ⟨w2, ?_, hi2⟩
      simp only [bindOps, h1]
      exact h2


/-- The call of `AddInterface` for an unbound name with at least one property,
in a state that satisfies the binding invariant. -/
theorem AddInterface_new (bus : BusAttachment) (propIntf : InterfaceDescription)
    (hprop : bus.GetInterface org.freedesktop.DBus.Properties.InterfaceName = some propIntf)
    (hname : propIntf.name = org.freedesktop.DBus.Properties.InterfaceName)
    (w : Sys) (iface : InterfaceDescription) (hinv : BindInv w)
    (hnew : w.pbo.ifaces.find iface.name = none) (hprops : iface.GetProperties > 0) :
    ∃ w2, w.AddInterface bus iface = some (QStatus.ER_OK, w2) ∧
      w2.pbo.ifaces.find iface.name = some iface ∧
      (w2.pbo.ifaces.find org.freedesktop.DBus.Properties.InterfaceName).isSome = true ∧
      (w.pbo.cacheProperties = true → iface.HasCacheableProperties = true →
        w2.pbo.caches.find iface.name = some (CachedProps.ctor iface) ∧
        w.record iface.name = none ∧
        (bus.AddMatchAsync (propertiesChangedRule iface.name) = QStatus.ER_OK →
          w2.record iface.name = some { adding := true, refCount := 1 } ∧
          (∃ pre, w2.calls =
            pre ++ [BusCall.AddMatchAsync (propertiesChangedRule iface.name)]) ∧
          iface.name ∈ w2.pending) ∧
        (bus.AddMatchAsync (propertiesChangedRule iface.name) ≠ QStatus.ER_OK →
          ∀ r, w2.record iface.name = some r → r.refCount = 0)) := by
  have hP : (bus.GetInterface org.freedesktop.DBus.Properties.InterfaceName).isSome = true := by
    rw [hprop]
    rfl
  have hw1 := bindDescriptor_inv w iface hinv
  have hfind1 : (w.bindDescriptor iface).pbo.ifaces.find iface.name = some iface := by
    rw [bindDescriptor_ifaces]
    exact StrMap.find_insert_of_none _ _ _ hnew
  have hrec : w.record iface.name = none := by
    cases hr : w.record iface.name with
    | none => rfl
    | some r =>
      have := hinv.records iface.name (by rw [hr]; rfl)
      rw [hnew] at this
      exact Bool.noConfusion this
  have hcache : w.pbo.caches.find iface.name = none := by
    cases hr : w.pbo.caches.find iface.name with
    | none => rfl
    | some r =>
      have := hinv.caches iface.name (by rw [hr]; rfl)
      rw [hnew] at this
      exact Bool.noConfusion this
  have hrec1 : (w.bindDescriptor iface).record iface.name = none := by
    rw [bindDescriptor_record]
    exact hrec
  have key : ∃ w3, bindProperties bus (AddInterfaceAux bus 1) (w.bindDescriptor iface) iface =
      some w3 ∧ w3.pbo.ifaces.find iface.name = some iface ∧
      (w3.pbo.ifaces.find org.freedesktop.DBus.Properties.InterfaceName).isSome = true ∧
      w3.record iface.name = none ∧
      w3.pbo.caches.find iface.name = (w.bindDescriptor iface).pbo.caches.find iface.name := by
    rcases bindProperties_cases bus propIntf hprop (AddInterfaceAux bus 1)
      (w.bindDescriptor iface) iface with ⟨e, hp | hg⟩ | ⟨_, e1, e⟩ | ⟨_, _, e⟩
    · exact ⟨_, e, hfind1, hw1.props hp, hrec1, rfl⟩
    · exact absurd hprops hg
    · refine ⟨_, e, hfind1, ?_, hrec1, rfl⟩
      have hk : iface.name = org.freedesktop.DBus.Properties.InterfaceName := by
        rw [e1]
        exact hname
      show ((w.bindDescriptor iface).pbo.ifaces.find
        org.freedesktop.DBus.Properties.InterfaceName).isSome = true
      rw [← hk, hfind1]
      rfl
    · by_cases hk : iface.name = org.freedesktop.DBus.Properties.InterfaceName
      · have hb : (w.bindDescriptor iface).pbo.ifaces.find propIntf.name = some iface := by
          rw [hname, ← hk]
          exact hfind1
        rw [AddInterfaceAux_bound bus 0 _ propIntf iface hb] at e
        refine ⟨_, e, hfind1, ?_, hrec1, rfl⟩
        show ((w.bindDescriptor iface).pbo.ifaces.find
          org.freedesktop.DBus.Properties.InterfaceName).isSome = true
        rw [← hk, hfind1]
        rfl
      · obtain ⟨r, hr⟩ := AddInterfaceAux_returns_props bus propIntf hprop 0
          (w.bindDescriptor iface)
        obtain ⟨st1, w5⟩ := r
        obtain ⟨_, b, c⟩ := AddInterfaceAux_spec bus propIntf hprop hname 1 _ propIntf st1 w5
          hr hw1
        rw [hr] at e
        rw [hname] at b c
        have hk2 : org.freedesktop.DBus.Properties.InterfaceName ≠ iface.name :=
          fun h => hk h.symm
        obtain ⟨x, y⟩ := b.2.2 iface.name hk2 hk2
        exact ⟨_, e, b.1 _ _ hfind1, c, x.trans hrec1, y⟩
  obtain ⟨w3, h3, f3, p3, r3, c3⟩ := key
  obtain ⟨w2, h2, hA, hB⟩ := AddInterfaceAux_new_returns bus 1 w w3 iface hP hnew h3
  refine ⟨w2, h2, ?_, ?_, ?_⟩
  · by_cases hc : (w.pbo.cacheProperties && iface.HasCacheableProperties) = true
    · exact (AddPropertiesChangedRule_nonblocking_extends bus w3 w2 iface.name (hA hc)).1 _ _ f3
    · rw [hB (Bool.eq_false_iff.mpr hc)]
      exact f3
  · by_cases hc : (w.pbo.cacheProperties && iface.HasCacheableProperties) = true
    · exact (AddPropertiesChangedRule_nonblocking_extends bus w3 w2 iface.name (hA hc)).isSome
        _ p3
    · rw [hB (Bool.eq_false_iff.mpr hc)]
      exact p3
  · intro h1 h2c
    have hc : (w.pbo.cacheProperties && iface.HasCacheableProperties) = true := by
      rw [h1, h2c]
      rfl
    obtain ⟨x, y⟩ := AddPropertiesChangedRule_nonblocking_new bus w3 w2 iface.name (hA hc) r3
    refine ⟨?_, hrec, ?_, ?_⟩
    · rw [x, c3, bindDescriptor_caches, if_pos hc]
      exact StrMap.find_insert_of_none _ _ _ hcache
    · intro hbus
      obtain ⟨y1, y2, y3⟩ := y hbus
      refine ⟨y1, y2, ?_⟩
      rw [y3]
      exact List.mem_append_right _ (List.mem_singleton_self _)
    · intro hbus
      exact (AddPropertiesChangedRule_nonblocking_rejected bus w3 w2 iface.name (hA hc) r3
        hbus).1

end Sys

/-! ### Scanning a path -/

theorem indexFrom_none (c : Char) (l : List Char) :
    ∀ i, indexFrom c l i = none ↔ c ∉ l := by
  induction l with
  | nil =>
    intro i
    simp [indexFrom]
  | cons x rest ih =>
    intro i
    simp only [indexFrom]
    by_cases hx : x = c
    · simp [hx]
    · rw [if_neg hx, ih (i + 1)]
      simp only [List.mem_cons, not_or]
      exact ⟨fun h => ⟨fun e => hx e.symm, h⟩, fun h => h.2⟩

theorem indexFrom_some (c : Char) (l : List Char) :
    ∀ i e, indexFrom c l i = some e →
      ∃ a b, l = a ++ c :: b ∧ c ∉ a ∧ e = i + a.length := by
  induction l with
  | nil =>
    intro i e h
    simp [indexFrom] at h
  | cons x rest ih =>
    intro i e h
    simp only [indexFrom] at h
    by_cases hx : x = c
    · rw [if_pos hx] at h
      simp only [Option.some.injEq] at h
      exact ⟨[], rest, by rw [hx]; rfl, List.not_mem_nil _, by simp [h]⟩
    · rw [if_neg hx] at h
      obtain ⟨a, b, h1, h2, h3⟩ := ih (i + 1) e h
      refine ⟨x :: a, b, by rw [h1]; rfl, ?_, ?_⟩
      · simp only [List.mem_cons, not_or]
        exact ⟨fun e2 => hx e2.symm, h2⟩
      · simp only [List.length_cons]
        omega

theorem getLast_cons_of_ne_nil (c : Char) (l : List Char) (h : l ≠ []) :
    (c :: l).getLast? = l.getLast? := by
  cases l with
  | nil => exact absurd rfl h
  | cons x t => exact List.getLast?_cons_cons

theorem getLast_cons_of_ne_nil2 {α : Type} (c : α) (l : List α) (h : l ≠ []) :
    (c :: l).getLast? = l.getLast? := by
  cases l with
  | nil => exact absurd rfl h
  | cons x t => exact List.getLast?_cons_cons

theorem itemsAux_ne_nil (l : List Char) : ∀ acc, itemsAux acc l ≠ [] := by
  induction l with
  | nil =>
    intro acc
    simp [itemsAux]
  | cons c rest ih =>
    intro acc
    simp only [itemsAux]
    split_ifs
    · simp
    · simp
    · exact ih _

theorem pathItems_ne_nil (s : List Char) (idx : Nat) : pathItems s idx ≠ [] :=
  itemsAux_ne_nil _ _

theorem itemsAux_no_slash (l : List Char) : ∀ acc, '/' ∉ l → itemsAux acc l = [acc ++ l] := by
  induction l with
  | nil =>
    intro acc _
    simp [itemsAux]
  | cons c rest ih =>
    intro acc h
    simp only [List.mem_cons, not_or] at h
    have hc : c ≠ '/' := fun e => h.1 e.symm
    simp only [itemsAux, if_neg hc]
    rw [ih _ h.2]
    simp

theorem itemsAux_slash (a b : List Char) : ∀ acc, '/' ∉ a →
    itemsAux acc (a ++ '/' :: b) =
      if b = [] then [acc ++ a] else (acc ++ a) :: itemsAux (acc ++ a ++ ['/']) b := by
  induction a with
  | nil =>
    intro acc _
    simp [itemsAux]
  | cons c rest ih =>
    intro acc h
    simp only [List.mem_cons, not_or] at h
    have hc : c ≠ '/' := fun e => h.1 e.symm
    show itemsAux acc (c :: (rest ++ '/' :: b)) = _
    simp only [itemsAux, if_neg hc]
    rw [ih _ h.2]
    simp

/-- An item of a walk is the path itself or a part of it that a `'/'` follows. -/
theorem itemsAux_mem (l : List Char) : ∀ acc x, x ∈ itemsAux acc l →
    x = acc ++ l ∨ ∃ a b, l = a ++ '/' :: b ∧ x = acc ++ a := by
  induction l with
  | nil =>
    intro acc x h
    simp only [itemsAux, List.mem_singleton] at h
    left
    simp [h]
  | cons c rest ih =>
    intro acc x h
    simp only [itemsAux] at h
    by_cases hc : c = '/'
    · rw [if_pos hc] at h
      by_cases hr : rest = []
      · rw [if_pos hr] at h
        simp only [List.mem_singleton] at h
        right
        exact ⟨[], rest, by rw [hc]; rfl, by simp [h]⟩
      · rw [if_neg hr] at h
        rcases List.mem_cons.mp h with h1 | h1
        · right
          exact ⟨[], rest, by rw [hc]; rfl, by simp [h1]⟩
        · rcases ih _ x h1 with h2 | ⟨a, b, h2, h3⟩
          · left
            simp [h2]
          · right
            exact ⟨c :: a, b, by rw [h2]; rfl, by simp [h3]⟩
    · rw [if_neg hc] at h
      rcases ih _ x h with h2 | ⟨a, b, h2, h3⟩
      · left
        simp [h2]
      · right
        exact ⟨c :: a, b, by rw [h2]; rfl, by simp [h3]⟩

/-- The last item of a walk over a path that does not end with `'/'` is the
path. -/
theorem itemsAux_getLast (l : List Char) : ∀ acc, l.getLast? ≠ some '/' →
    (itemsAux acc l).getLast? = some (acc ++ l) := by
  induction l with
  | nil =>
    intro acc _
    simp [itemsAux]
  | cons c rest ih =>
    intro acc h
    have hrest : rest ≠ [] → rest.getLast? ≠ some '/' := by
      intro hr
      rw [getLast_cons_of_ne_nil _ _ hr] at h
      exact h
    simp only [itemsAux]
    by_cases hc : c = '/'
    · rw [if_pos hc]
      by_cases hr : rest = []
      · exfalso
        apply h
        rw [hr, hc]
        rfl
      · rw [if_neg hr, getLast_cons_of_ne_nil2 _ _ (itemsAux_ne_nil _ _), ih _ (hrest hr)]
        simp
    · rw [if_neg hc]
      by_cases hr : rest = []
      · rw [hr]
        simp [itemsAux]
      · rw [ih _ (hrest hr)]
        simp

/-- The walk over a path `q ++ "/" ++ rest` first visits the items of the walk
over `q`. -/
theorem itemsAux_append (q rest : List Char) (hrest : rest ≠ []) : ∀ acc,
    q.getLast? ≠ some '/' →
    itemsAux acc (q ++ '/' :: rest) = itemsAux acc q ++ itemsAux (acc ++ q ++ ['/']) rest := by
  induction q with
  | nil =>
    intro acc _
    simp [itemsAux, hrest]
  | cons c q2 ih =>
    intro acc h
    have hq2 : q2 ≠ [] → q2.getLast? ≠ some '/' := by
      intro hr
      rw [getLast_cons_of_ne_nil _ _ hr] at h
      exact h
    have hne : q2 ++ '/' :: rest ≠ [] := by simp
    show itemsAux acc (c :: (q2 ++ '/' :: rest)) = itemsAux acc (c :: q2) ++ _
    simp only [itemsAux]
    by_cases hc : c = '/'
    · rw [if_pos hc, if_pos hc, if_neg hne]
      by_cases hr : q2 = []
      · exfalso
        apply h
        rw [hr, hc]
        rfl
      · rw [if_neg hr, ih _ (hq2 hr)]
        simp
    · rw [if_neg hc, if_neg hc]
      by_cases hr : q2 = []
      · rw [hr]
        simp [itemsAux, hrest]
      · rw [ih _ (hq2 hr)]
        simp

theorem take_add_of_drop (s a b : List Char) (idx : Nat) (hidx : idx ≤ s.length)
    (h : s.drop idx = a ++ b) : s.take (idx + a.length) = s.take idx ++ a ∧
      s.drop (idx + a.length) = b := by
  have hs : s = s.take idx ++ (a ++ b) := by
    rw [← h]
    exact (List.take_append_drop idx s).symm
  have hl : (s.take idx).length = idx := List.length_take_of_le hidx
  have hs2 : s = (s.take idx ++ a) ++ b := by
    rw [List.append_assoc]
    exact hs
  have hl2 : (s.take idx ++ a).length = idx + a.length := by
    rw [List.length_append, hl]
  constructor
  · conv_lhs => rw [hs2, ← hl2]
    exact List.take_left' rfl
  · conv_lhs => rw [hs2, ← hl2]
    exact List.drop_left' rfl

/-- One step of a walk, as the loops compute it. -/
theorem pathItems_step (s : List Char) (idx : Nat) (hidx : idx ≤ s.length) :
    (find_first_of s '/' idx = none → pathItems s idx = [s]) ∧
      (∀ e, find_first_of s '/' idx = some e →
        idx ≤ e ∧ e < s.length ∧ (∃ b, s = s.take e ++ '/' :: b) ∧
        (e + 1 = s.length → pathItems s idx = [s.take e]) ∧
        (e + 1 ≠ s.length → pathItems s idx = s.take e :: pathItems s (e + 1))) := by
  unfold find_first_of pathItems
  refine ⟨?_, ?_⟩
  · intro h
    rw [itemsAux_no_slash _ _ ((indexFrom_none _ _ _).mp h), List.take_append_drop]
  · intro e h
    obtain ⟨a, b, h1, h2, h3⟩ := indexFrom_some _ _ _ _ h
    obtain ⟨t1, d1⟩ := take_add_of_drop s a ('/' :: b) idx hidx h1
    have h1b : s.drop idx = (a ++ ['/']) ++ b := by
      rw [h1]
      simp
    obtain ⟨t2, d2⟩ := take_add_of_drop s (a ++ ['/']) b idx hidx h1b
    have he1 : idx + (a ++ ['/']).length = e + 1 := by
      rw [List.length_append, h3]
      simp
      omega
    rw [he1] at t2 d2
    rw [← h3] at t1 d1
    have hlen : s.length = e + 1 + b.length := by
      have h5 := congrArg List.length (List.take_append_drop (e + 1) s)
      rw [t2, d2] at h5
      simp only [List.length_append, List.length_take_of_le hidx, List.length_cons,
        List.length_nil] at h5
      omega
    have hs : s = s.take e ++ '/' :: b := by
      conv_lhs => rw [← List.take_append_drop e s, d1]
    refine ⟨by omega, by omega, ⟨b, hs⟩, ?_, ?_⟩
    · intro hl
      have hb : b = [] := List.eq_nil_of_length_eq_zero (by omega)
      rw [h1, itemsAux_slash _ _ _ h2, if_pos hb, t1]
    · intro hl
      have hb : b ≠ [] := by
        intro hb
        rw [hb] at hlen
        simp at hlen
        omega
      rw [h1, itemsAux_slash _ _ _ h2, if_neg hb, t1, t2, d2]
      simp

/-! ### The inner loop of the walks -/

namespace ProxyBusObject

theorem mk_eta (p : ProxyBusObject) : mk p.internal p.children = p := by
  cases p
  rfl

end ProxyBusObject

theorem splitAtChild_some (item : List Char) (ch : List ProxyBusObject) :
    ∀ pre it post, splitAtChild ch item = some (pre, it, post) →
      ch = pre ++ it :: post ∧ it.GetPath.data = item ∧ ∀ n ∈ pre, n.GetPath.data ≠ item := by
  induction ch with
  | nil =>
    intro pre it post h
    simp [splitAtChild] at h
  | cons x rest ih =>
    intro pre it post h
    simp only [splitAtChild] at h
    by_cases hx : x.GetPath.data = item
    · rw [if_pos hx] at h
      simp only [Option.some.injEq, Prod.mk.injEq] at h
      obtain ⟨h1, h2, h3⟩ := h
      subst h1 h2 h3
      exact ⟨rfl, hx, fun n hn => absurd hn (List.not_mem_nil n)⟩
    · rw [if_neg hx] at h
      cases hr : splitAtChild rest item with
      | none =>
        rw [hr] at h
        exact Option.noConfusion h
      | some r =>
        obtain ⟨pre2, it2, post2⟩ := r
        rw [hr] at h
        simp only [Option.some.injEq, Prod.mk.injEq] at h
        obtain ⟨h1, h2, h3⟩ := h
        subst h1 h2 h3
        obtain ⟨e1, e2, e3⟩ := ih _ _ _ hr
        refine ⟨by rw [e1]; rfl, e2, ?_⟩
        intro n hn
        rcases List.mem_cons.mp hn with hn | hn
        · rw [hn]
          exact hx
        · exact e3 n hn

theorem splitAtChild_none (item : List Char) (ch : List ProxyBusObject) :
    splitAtChild ch item = none ↔ ∀ n ∈ ch, n.GetPath.data ≠ item := by
  induction ch with
  | nil => simp [splitAtChild]
  | cons x rest ih =>
    simp only [splitAtChild]
    by_cases hx : x.GetPath.data = item
    · rw [if_pos hx]
      simp [hx]
    · rw [if_neg hx]
      cases hr : splitAtChild rest item with
      | none =>
        simp only [true_iff]
        intro n hn
        rcases List.mem_cons.mp hn with hn | hn
        · rw [hn]
          exact hx
        · exact (ih.mp hr) n hn
      | some r =>
        obtain ⟨pre2, it2, post2⟩ := r
        constructor
        · intro h
          exact Option.noConfusion h
        · intro hall
          have h2 := ih.mpr (fun n hn => hall n (List.mem_cons_of_mem _ hn))
          rw [hr] at h2
          exact Option.noConfusion h2

theorem splitAtChild_of (item : List Char) (it : ProxyBusObject) (post : List ProxyBusObject)
    (hit : it.GetPath.data = item) (pre : List ProxyBusObject) :
    (∀ n ∈ pre, n.GetPath.data ≠ item) →
      splitAtChild (pre ++ it :: post) item = some (pre, it, post) := by
  induction pre with
  | nil =>
    intro _
    simp [splitAtChild, hit]
  | cons x rest ih =>
    intro h
    have hx : x.GetPath.data ≠ item := h x (List.mem_cons_self _ _)
    show splitAtChild (x :: (rest ++ it :: post)) item = _
    simp only [splitAtChild, if_neg hx]
    rw [ih (fun n hn => h n (List.mem_cons_of_mem _ hn))]

namespace ProxyBusObject

theorem findChild_nil (d : List Char) : findChild [] d = none := rfl

theorem findChild_cons (x : ProxyBusObject) (rest : List ProxyBusObject) (d : List Char) :
    findChild (x :: rest) d = if x.GetPath.data = d then some x else findChild rest d := by
  unfold findChild
  simp only [splitAtChild]
  by_cases hx : x.GetPath.data = d
  · simp [hx]
  · rw [if_neg hx, if_neg hx]
    cases splitAtChild rest d with
    | none => rfl
    | some r =>
      obtain ⟨a, b, c⟩ := r
      rfl

theorem findChild_append (a b : List ProxyBusObject) (d : List Char) :
    findChild (a ++ b) d = (findChild a d).orElse (fun _ => findChild b d) := by
  induction a with
  | nil => rfl
  | cons x rest ih =>
    show findChild (x :: (rest ++ b)) d = _
    rw [findChild_cons, findChild_cons]
    by_cases hx : x.GetPath.data = d
    · rw [if_pos hx, if_pos hx]
      rfl
    · rw [if_neg hx, if_neg hx]
      exact ih

theorem findChild_of_split (ch : List ProxyBusObject) (d : List Char)
    (pre post : List ProxyBusObject) (it : ProxyBusObject)
    (h : splitAtChild ch d = some (pre, it, post)) : findChild ch d = some it := by
  unfold findChild
  rw [h]
  rfl

theorem findChild_of_split_none (ch : List ProxyBusObject) (d : List Char)
    (h : splitAtChild ch d = none) : findChild ch d = none := by
  unfold findChild
  rw [h]
  rfl

theorem findChild_some_path (ch : List ProxyBusObject) (d : List Char) (m : ProxyBusObject)
    (h : findChild ch d = some m) : m.GetPath.data = d := by
  unfold findChild at h
  cases hs : splitAtChild ch d with
  | none =>
    rw [hs] at h
    exact Option.noConfusion h
  | some r =>
    obtain ⟨pre, it, post⟩ := r
    rw [hs] at h
    have h2 : it = m := Option.some.inj h
    rw [← h2]
    exact (splitAtChild_some d ch _ _ _ hs).2.1

theorem findChild_none_iff (ch : List ProxyBusObject) (d : List Char) :
    findChild ch d = none ↔ ∀ n ∈ ch, n.GetPath.data ≠ d := by
  rw [← splitAtChild_none]
  unfold findChild
  cases splitAtChild ch d with
  | none => simp
  | some r => simp

/-- A child whose path is not the one looked for can be replaced or removed
without changing what the inner loop finds. -/
theorem findChild_skip (pre post : List ProxyBusObject) (x : ProxyBusObject) (d : List Char)
    (hx : x.GetPath.data ≠ d) : findChild (pre ++ x :: post) d = findChild (pre ++ post) d := by
  rw [findChild_append, findChild_append, findChild_cons, if_neg hx]

theorem findChild_at (pre post : List ProxyBusObject) (x : ProxyBusObject) (d : List Char)
    (hpre : ∀ n ∈ pre, n.GetPath.data ≠ d) (hx : x.GetPath.data = d) :
    findChild (pre ++ x :: post) d = some x :=
  findChild_of_split _ _ _ _ _ (splitAtChild_of d x post hx pre hpre)

theorem descend_nil (cur : ProxyBusObject) : descend cur [] = some cur := rfl

theorem descend_cons (cur : ProxyBusObject) (item : List Char) (rest : List (List Char)) :
    descend cur (item :: rest) = (findChild cur.children item).bind (fun it => descend it rest) := by
  simp only [descend]
  cases findChild cur.children item with
  | none => rfl
  | some it => rfl

theorem descend_append (l1 : List (List Char)) : ∀ (cur : ProxyBusObject) (l2 : List (List Char)),
    descend cur (l1 ++ l2) = (descend cur l1).bind (fun n => descend n l2) := by
  induction l1 with
  | nil =>
    intro cur l2
    rfl
  | cons item rest ih =>
    intro cur l2
    show descend cur (item :: (rest ++ l2)) = _
    rw [descend_cons, descend_cons]
    cases findChild cur.children item with
    | none => rfl
    | some it => exact ih it l2

end ProxyBusObject

/-! ### The walks as walks along lists of items -/

theorem find_not_last (s : List Char) (idx e : Nat) (hidx : idx ≤ s.length)
    (hs : s.getLast? ≠ some '/') (h : find_first_of s '/' idx = some e) :
    e + 1 ≠ s.length := by
  obtain ⟨_, hlt, ⟨b, hb⟩, _, _⟩ := (pathItems_step s idx hidx).2 e h
  intro hl
  have hlen := congrArg List.length hb
  simp only [List.length_append, List.length_cons, List.length_take_of_le (Nat.le_of_lt hlt)]
    at hlen
  have hb0 : b = [] := List.eq_nil_of_length_eq_zero (by omega)
  apply hs
  rw [hb, hb0]
  simp

namespace ProxyBusObject

theorem removeAlong_single (cur : ProxyBusObject) (item : List Char) :
    removeAlong cur [item] =
      match splitAtChild cur.children item with
      | none => (QStatus.ER_BUS_OBJ_NOT_FOUND, cur)
      | some (pre, _, post) => (QStatus.ER_OK, mk cur.internal (pre ++ post)) := rfl

theorem removeAlong_more (cur : ProxyBusObject) (item : List Char) (rest : List (List Char))
    (hrest : rest ≠ []) :
    removeAlong cur (item :: rest) =
      match splitAtChild cur.children item with
      | none => (QStatus.ER_BUS_OBJ_NOT_FOUND, cur)
      | some (pre, it, post) =>
        ((removeAlong it rest).1, mk cur.internal (pre ++ (removeAlong it rest).2 :: post)) := by
  cases rest with
  | nil => exact absurd rfl hrest
  | cons r rs => rfl

theorem addAlong_single (bus : BusAttachment) (self : Internal) (child cur : ProxyBusObject)
    (item : List Char) :
    addAlong bus self child cur [item] =
      match splitAtChild cur.children item with
      | some _ => some (QStatus.ER_BUS_OBJ_ALREADY_EXISTS, cur)
      | none => some (QStatus.ER_OK, mk cur.internal (cur.children ++ [child])) := rfl

theorem addAlong_more (bus : BusAttachment) (self : Internal) (child cur : ProxyBusObject)
    (item : List Char) (rest : List (List Char)) (hrest : rest ≠ []) :
    addAlong bus self child cur (item :: rest) =
      match splitAtChild cur.children item with
      | some (pre, it, post) =>
        match addAlong bus self child it rest with
        | none => none
        | some (status, it2) => some (status, mk cur.internal (pre ++ it2 :: post))
      | none =>
        match ctor bus self.serviceName self.uniqueName (String.mk item) false with
        | none => none
        | some ro =>
          match addAlong bus self child ro rest with
          | none => none
          | some (status, ro2) => some (status, mk cur.internal (cur.children ++ [ro2])) := by
  cases rest with
  | nil => exact absurd rfl hrest
  | cons r rs => rfl

/-- The loop of `GetChild` is the walk along the items of the path. -/
theorem getChildLoop_eq (s : List Char) : ∀ (fuel : Nat) (cur : ProxyBusObject) (idx : Nat),
    idx ≤ s.length → s.length < fuel + idx →
      getChildLoop s fuel cur idx = some (descend cur (pathItems s idx)) := by
  intro fuel
  induction fuel with
  | zero =>
    intro cur idx h1 h2
    omega
  | succ fuel ih =>
    intro cur idx h1 h2
    obtain ⟨hnone, hsome⟩ := pathItems_step s idx h1
    simp only [getChildLoop]
    cases hf : find_first_of s '/' idx with
    | none =>
      rw [hnone hf, descend_cons]
      simp only [substr, nextIdx]
      cases hsp : splitAtChild cur.children s with
      | none =>
        rw [findChild_of_split_none _ _ hsp]
        rfl
      | some r =>
        obtain ⟨pre, it, post⟩ := r
        rw [findChild_of_split _ _ _ _ _ hsp]
        rfl
    | some e =>
      obtain ⟨hle, hlt, _, hlast, hmore⟩ := hsome e hf
      simp only [substr, nextIdx]
      by_cases hl : e + 1 = s.length
      · rw [hlast hl, descend_cons, if_pos hl]
        cases hsp : splitAtChild cur.children (s.take e) with
        | none =>
          rw [findChild_of_split_none _ _ hsp]
          rfl
        | some r =>
          obtain ⟨pre, it, post⟩ := r
          rw [findChild_of_split _ _ _ _ _ hsp]
          rfl
      · rw [hmore hl, descend_cons, if_neg hl]
        cases hsp : splitAtChild cur.children (s.take e) with
        | none =>
          rw [findChild_of_split_none _ _ hsp]
          rfl
        | some r =>
          obtain ⟨pre, it, post⟩ := r
          rw [findChild_of_split _ _ _ _ _ hsp]
          simp only [Option.some_bind]
          exact ih it (e + 1) (by omega) (by omega)

/-- The loop of `RemoveChild` over a path that does not end with `'/'` is the
walk along the items of the path. -/
theorem removeChildLoop_eq (s : List Char) (hs : s.getLast? ≠ some '/') :
    ∀ (fuel : Nat) (cur : ProxyBusObject) (idx : Nat),
      idx ≤ s.length → s.length < fuel + idx →
        removeChildLoop s fuel cur idx = some (removeAlong cur (pathItems s idx)) := by
  intro fuel
  induction fuel with
  | zero =>
    intro cur idx h1 h2
    omega
  | succ fuel ih =>
    intro cur idx h1 h2
    obtain ⟨hnone, hsome⟩ := pathItems_step s idx h1
    simp only [removeChildLoop]
    cases hf : find_first_of s '/' idx with
    | none =>
      rw [hnone hf, removeAlong_single]
      simp only [substr]
      cases hsp : splitAtChild cur.children s with
      | none => rfl
      | some r => rfl
    | some e =>
      obtain ⟨hle, hlt, _, hlast, hmore⟩ := hsome e hf
      have hl : e + 1 ≠ s.length := find_not_last s idx e h1 hs hf
      rw [hmore hl, removeAlong_more _ _ _ (pathItems_ne_nil _ _)]
      simp only [substr, nextIdx, if_neg hl]
      cases hsp : splitAtChild cur.children (s.take e) with
      | none => rfl
      | some r =>
        obtain ⟨pre, it, post⟩ := r
        simp only
        rw [ih it (e + 1) (by omega) (by omega)]

/-- The loop of `AddChild` over a path that does not end with `'/'` is the walk
along the items of the path. -/
theorem addChildLoop_eq (bus : BusAttachment) (self : Internal) (child : ProxyBusObject)
    (s : List Char) (hs : s.getLast? ≠ some '/') :
    ∀ (fuel : Nat) (cur : ProxyBusObject) (idx : Nat),
      idx ≤ s.length → s.length < fuel + idx →
        addChildLoop bus self child s fuel cur idx =
          addAlong bus self child cur (pathItems s idx) := by
  intro fuel
  induction fuel with
  | zero =>
    intro cur idx h1 h2
    omega
  | succ fuel ih =>
    intro cur idx h1 h2
    obtain ⟨hnone, hsome⟩ := pathItems_step s idx h1
    simp only [addChildLoop]
    cases hf : find_first_of s '/' idx with
    | none =>
      rw [hnone hf, addAlong_single]
      simp only [substr, nextIdx, if_true]
      cases hsp : splitAtChild cur.children s with
      | none => rfl
      | some r => rfl
    | some e =>
      obtain ⟨hle, hlt, _, hlast, hmore⟩ := hsome e hf
      have hl : e + 1 ≠ s.length := find_not_last s idx e h1 hs hf
      have hne : s ≠ s.take e := by
        intro h
        have h3 := congrArg List.length h
        rw [List.length_take_of_le (Nat.le_of_lt hlt)] at h3
        omega
      rw [hmore hl, addAlong_more _ _ _ _ _ _ (pathItems_ne_nil _ _)]
      simp only [substr, nextIdx, if_neg hl, if_neg hne]
      cases hsp : splitAtChild cur.children (s.take e) with
      | none =>
        simp only
        cases hc : ctor bus self.serviceName self.uniqueName (String.mk (s.take e)) false with
        | none => rfl
        | some ro =>
          simp only
          rw [ih ro (e + 1) (by omega) (by omega)]
      | some r =>
        obtain ⟨pre, it, post⟩ := r
        simp only
        rw [ih it (e + 1) (by omega) (by omega)]

end ProxyBusObject

/-! ### The constructor of a placeholder -/

namespace Sys

theorem bindDescriptor_path (w : Sys) (iface : InterfaceDescription) :
    (w.bindDescriptor iface).pbo.path = w.pbo.path := by
  unfold bindDescriptor
  dsimp only
  split_ifs <;> rfl

theorem bindProperties_path (bus : BusAttachment)
    (nested : Sys → InterfaceDescription → Option (QStatus × Sys))
    (hnested : ∀ w d st w2, nested w d = some (st, w2) → w.pbo.cacheProperties = false →
      w2.pbo.path = w.pbo.path ∧ w2.pbo.cacheProperties = false)
    (w1 : Sys) (iface : InterfaceDescription) (w3 : Sys)
    (h : bindProperties bus nested w1 iface = some w3) (hc : w1.pbo.cacheProperties = false) :
    w3.pbo.path = w1.pbo.path ∧ w3.pbo.cacheProperties = false := by
  unfold bindProperties at h
  by_cases hp : (!w1.pbo.hasProperties) = true
  · rw [if_pos hp] at h
    cases hg : bus.GetInterface org.freedesktop.DBus.Properties.InterfaceName with
    | none =>
      rw [hg] at h
      exact Option.noConfusion h
    | some propIntf =>
      rw [hg] at h
      dsimp only at h
      by_cases he : iface = propIntf
      · rw [if_pos he] at h
        rw [← Option.some.inj h]
        exact ⟨rfl, hc⟩
      · rw [if_neg he] at h
        by_cases hn : iface.GetProperties > 0
        · rw [if_pos hn] at h
          cases hr : nested w1 propIntf with
          | none =>
            rw [hr] at h
            exact Option.noConfusion h
          | some r =>
            obtain ⟨st, w2⟩ := r
            rw [hr] at h
            rw [← Option.some.inj h]
            exact hnested _ _ _ _ hr hc
        · rw [if_neg hn] at h
          rw [← Option.some.inj h]
          exact ⟨rfl, hc⟩
  · rw [if_neg hp] at h
    rw [← Option.some.inj h]
    exact ⟨rfl, hc⟩

/-- With caching off a call of `AddInterface` keeps the path of the proxy and
leaves caching off. -/
theorem AddInterfaceAux_path (bus : BusAttachment) :
    ∀ (fuel : Nat) (w : Sys) (iface : InterfaceDescription) (st : QStatus) (w2 : Sys),
      AddInterfaceAux bus fuel w iface = some (st, w2) → w.pbo.cacheProperties = false →
        w2.pbo.path = w.pbo.path ∧ w2.pbo.cacheProperties = false := by
  intro fuel
  induction fuel with
  | zero =>
    intro w iface st w2 h
    rw [AddInterfaceAux] at h
    exact Option.noConfusion h
  | succ fuel ih =>
    intro w iface st w2 h hc
    rw [AddInterfaceAux] at h
    cases hf : w.pbo.ifaces.find iface.name with
    | some bound =>
      rw [hf] at h
      have h2 := Option.some.inj h
      rw [← (Prod.mk.inj h2).2]
      exact ⟨rfl, hc⟩
    | none =>
      rw [hf] at h
      dsimp only at h
      cases hb : bindProperties bus (AddInterfaceAux bus fuel) (w.bindDescriptor iface) iface with
      | none =>
        rw [hb] at h
        exact Option.noConfusion h
      | some w3 =>
        rw [hb] at h
        dsimp only at h
        have hc1 : (w.bindDescriptor iface).pbo.cacheProperties = false := by
          rw [(bindDescriptor_frame w iface).2.1]
          exact hc
        obtain ⟨p3, c3⟩ := bindProperties_path bus (AddInterfaceAux bus fuel) ih _ iface w3 hb hc1
        have hno : (w.pbo.cacheProperties && iface.HasCacheableProperties) = false := by
          rw [hc]
          rfl
        rw [hno] at h
        have h2 := Option.some.inj h
        rw [← (Prod.mk.inj h2).2]
        exact ⟨by rw [p3, bindDescriptor_path], c3⟩

end Sys

namespace ProxyBusObject

/-- A constructed proxy has the path it was given and no children. -/
theorem ctor_spec (bus : BusAttachment) (service uniqueName path : String) (isSecure : Bool)
    (ro : ProxyBusObject) (h : ctor bus service uniqueName path isSecure = some ro) :
    ro.GetPath = path ∧ ro.children = [] := by
  unfold ctor Sys.AddInterfaceByName at h
  cases hg : bus.GetInterface org.freedesktop.DBus.Peer.InterfaceName with
  | none =>
    rw [hg] at h
    dsimp only at h
    rw [← Option.some.inj h]
    exact ⟨rfl, rfl⟩
  | some iface =>
    rw [hg] at h
    dsimp only at h
    cases hr : ({ pbo := Internal.ctorUnique path service uniqueName isSecure } : Sys).AddInterface
        bus iface with
    | none =>
      rw [hr] at h
      exact Option.noConfusion h
    | some r =>
      obtain ⟨st, w⟩ := r
      rw [hr] at h
      dsimp only at h
      rw [← Option.some.inj h]
      exact ⟨(Sys.AddInterfaceAux_path bus 2 _ iface st w hr rfl).1, rfl⟩

/-- On a bus that has the property-access interface registered the constructor
returns. -/
theorem ctor_returns (bus : BusAttachment)
    (hP : (bus.GetInterface org.freedesktop.DBus.Properties.InterfaceName).isSome = true)
    (service uniqueName path : String) (isSecure : Bool) :
    ∃ ro, ctor bus service uniqueName path isSecure = some ro := by
  cases hg : bus.GetInterface org.freedesktop.DBus.Properties.InterfaceName with
  | none =>
    rw [hg] at hP
    exact Bool.noConfusion hP
  | some propIntf =>
    unfold ctor Sys.AddInterfaceByName
    cases hg2 : bus.GetInterface org.freedesktop.DBus.Peer.InterfaceName with
    | none => exact ⟨_, rfl⟩
    | some iface =>
      dsimp only
      obtain ⟨r, hr⟩ := Sys.AddInterfaceAux_returns bus propIntf hg 0
        ({ pbo := Internal.ctorUnique path service uniqueName isSecure } : Sys) iface
      have hr2 : ({ pbo := Internal.ctorUnique path service uniqueName isSecure } : Sys).AddInterface
          bus iface = some r := hr
      rw [hr2]
      exact ⟨_, rfl⟩

end ProxyBusObject

/-! ### The walk of `AddChild` -/

namespace ProxyBusObject

theorem findChild_split (ch : List ProxyBusObject) (d : List Char) (m : ProxyBusObject)
    (h : findChild ch d = some m) : ∃ pre post, splitAtChild ch d = some (pre, m, post) := by
  unfold findChild at h
  cases hs : splitAtChild ch d with
  | none =>
    rw [hs] at h
    exact Option.noConfusion h
  | some r =>
    obtain ⟨pre, it, post⟩ := r
    rw [hs] at h
    have h2 : it = m := Option.some.inj h
    rw [← h2]
    exact ⟨pre, post, rfl⟩

theorem findChild_push_some (ch : List ProxyBusObject) (d : List Char) (m x : ProxyBusObject)
    (h : findChild ch d = some m) : findChild (ch ++ [x]) d = some m := by
  rw [findChild_append, h]
  rfl

theorem findChild_push_none (ch : List ProxyBusObject) (d : List Char) (x : ProxyBusObject)
    (h : findChild ch d = none) (hx : x.GetPath.data = d) : findChild (ch ++ [x]) d = some x := by
  rw [findChild_append, h, findChild_cons, if_pos hx]
  rfl

theorem GetPath_of_internal (a b : ProxyBusObject) (h : a.internal = b.internal) :
    a.GetPath = b.GetPath := by
  unfold GetPath
  rw [h]

/-- The walk of `AddChild` leaves the `Internal` of the proxy it starts at. -/
theorem addAlong_internal (bus : BusAttachment) (self : Internal) (child : ProxyBusObject) :
    ∀ (items : List (List Char)) (cur : ProxyBusObject) (st : QStatus) (cur2 : ProxyBusObject),
      addAlong bus self child cur items = some (st, cur2) → cur2.internal = cur.internal := by
  intro items
  induction items with
  | nil =>
    intro cur st cur2 h
    have h2 := Option.some.inj h
    rw [← (Prod.mk.inj h2).2]
  | cons item rest ih =>
    intro cur st cur2 h
    by_cases hrest : rest = []
    · subst hrest
      rw [addAlong_single] at h
      cases hs : splitAtChild cur.children item with
      | none =>
        rw [hs] at h
        have h2 := Option.some.inj h
        rw [← (Prod.mk.inj h2).2]
        rfl
      | some r =>
        rw [hs] at h
        have h2 := Option.some.inj h
        rw [← (Prod.mk.inj h2).2]
    · rw [addAlong_more _ _ _ _ _ _ hrest] at h
      cases hs : splitAtChild cur.children item with
      | none =>
        rw [hs] at h
        dsimp only at h
        cases hc : ctor bus self.serviceName self.uniqueName (String.mk item) false with
        | none =>
          rw [hc] at h
          exact Option.noConfusion h
        | some ro =>
          rw [hc] at h
          dsimp only at h
          cases hr : addAlong bus self child ro rest with
          | none =>
            rw [hr] at h
            exact Option.noConfusion h
          | some r =>
            obtain ⟨st2, ro2⟩ := r
            rw [hr] at h
            have h2 := Option.some.inj h
            rw [← (Prod.mk.inj h2).2]
            rfl
      | some r =>
        obtain ⟨pre, it, post⟩ := r
        rw [hs] at h
        dsimp only at h
        cases hr : addAlong bus self child it rest with
        | none =>
          rw [hr] at h
          exact Option.noConfusion h
        | some r =>
          obtain ⟨st2, it2⟩ := r
          rw [hr] at h
          have h2 := Option.some.inj h
          rw [← (Prod.mk.inj h2).2]
          rfl

/-- The shapes of a returned walk of `AddChild` along more than one item. -/
theorem addAlong_more_cases (bus : BusAttachment) (self : Internal)
    (child cur : ProxyBusObject) (item : List Char) (rest : List (List Char)) (hrest : rest ≠ [])
    (st : QStatus) (cur2 : ProxyBusObject)
    (h : addAlong bus self child cur (item :: rest) = some (st, cur2)) :
    (∃ pre it post it2, splitAtChild cur.children item = some (pre, it, post) ∧
        addAlong bus self child it rest = some (st, it2) ∧
        cur2 = mk cur.internal (pre ++ it2 :: post)) ∨
      (∃ ro ro2, splitAtChild cur.children item = none ∧
        ctor bus self.serviceName self.uniqueName (String.mk item) false = some ro ∧
        addAlong bus self child ro rest = some (st, ro2) ∧
        cur2 = mk cur.internal (cur.children ++ [ro2])) := by
  rw [addAlong_more _ _ _ _ _ _ hrest] at h
  cases hs : splitAtChild cur.children item with
  | none =>
    rw [hs] at h
    dsimp only at h
    cases hc : ctor bus self.serviceName self.uniqueName (String.mk item) false with
    | none =>
      rw [hc] at h
      exact Option.noConfusion h
    | some ro =>
      rw [hc] at h
      dsimp only at h
      cases hr : addAlong bus self child ro rest with
      | none =>
        rw [hr] at h
        exact Option.noConfusion h
      | some r =>
        obtain ⟨st2, ro2⟩ := r
        rw [hr] at h
        have h2 := Prod.mk.inj (Option.some.inj h)
        right
        exact ⟨ro, ro2, rfl, rfl, by rw [← h2.1]; exact hr, h2.2.symm⟩
  | some r =>
    obtain ⟨pre, it, post⟩ := r
    rw [hs] at h
    dsimp only at h
    cases hr : addAlong bus self child it rest with
    | none =>
      rw [hr] at h
      exact Option.noConfusion h
    | some r =>
      obtain ⟨st2, it2⟩ := r
      rw [hr] at h
      have h2 := Prod.mk.inj (Option.some.inj h)
      left
      exact ⟨pre, it, post, it2, rfl, by rw [← h2.1]; exact hr, h2.2.symm⟩

/-- When every placeholder can be constructed the walk of `AddChild` returns. -/
theorem addAlong_returns (bus : BusAttachment) (self : Internal) (child : ProxyBusObject)
    (hctor : ∀ path, ∃ ro, ctor bus self.serviceName self.uniqueName path false = some ro) :
    ∀ (items : List (List Char)) (cur : ProxyBusObject),
      ∃ r, addAlong bus self child cur items = some r := by
  intro items
  induction items with
  | nil =>
    intro cur
    exact ⟨_, rfl⟩
  | cons item rest ih =>
    intro cur
    by_cases hrest : rest = []
    · subst hrest
      rw [addAlong_single]
      cases splitAtChild cur.children item with
      | none => exact ⟨_, rfl⟩
      | some r => exact ⟨_, rfl⟩
    · rw [addAlong_more _ _ _ _ _ _ hrest]
      cases hs : splitAtChild cur.children item with
      | none =>
        dsimp only
        obtain ⟨ro, hro⟩ := hctor (String.mk item)
        rw [hro]
        dsimp only
        obtain ⟨r, hr⟩ := ih ro
        rw [hr]
        exact ⟨_, rfl⟩
      | some r =>
        obtain ⟨pre, it, post⟩ := r
        dsimp only
        obtain ⟨r, hr⟩ := ih it
        rw [hr]
        exact ⟨_, rfl⟩

theorem getLast_tail (item : List Char) (rest : List (List Char)) (hrest : rest ≠ []) :
    (item :: rest).getLast? = rest.getLast? := by
  cases rest with
  | nil => exact absurd rfl hrest
  | cons x t => exact List.getLast?_cons_cons

/-- The walk of `AddChild` to a place where there is no proxy yet returns
`ER_OK`, and the walk of `GetChild` then ends at the child. -/
theorem addAlong_new (bus : BusAttachment) (self : Internal) (child : ProxyBusObject) :
    ∀ (items : List (List Char)) (cur : ProxyBusObject) (st : QStatus) (cur2 : ProxyBusObject),
      items.getLast? = some child.GetPath.data → descend cur items = none →
      addAlong bus self child cur items = some (st, cur2) →
        st = QStatus.ER_OK ∧ descend cur2 items = some child := by
  intro items
  induction items with
  | nil =>
    intro cur st cur2 hl
    exact Option.noConfusion hl
  | cons item rest ih =>
    intro cur st cur2 hl hd h
    rw [descend_cons] at hd
    by_cases hrest : rest = []
    · subst hrest
      have hitem : child.GetPath.data = item := by
        have h3 : some item = some child.GetPath.data := hl
        exact (Option.some.inj h3).symm
      rw [addAlong_single] at h
      cases hf : findChild cur.children item with
      | some m =>
        rw [hf] at hd
        exact Option.noConfusion hd
      | none =>
        have hs : splitAtChild cur.children item = none := by
          rw [splitAtChild_none]
          exact (findChild_none_iff _ _).mp hf
        rw [hs] at h
        have h2 := Prod.mk.inj (Option.some.inj h)
        refine ⟨h2.1.symm, ?_⟩
        rw [← h2.2, descend_cons]
        show (findChild (cur.children ++ [child]) item).bind _ = _
        rw [findChild_push_none _ _ _ hf hitem]
        rfl
    · rw [getLast_tail _ _ hrest] at hl
      rcases addAlong_more_cases bus self child cur item rest hrest st cur2 h with
        ⟨pre, it, post, it2, hs, hr, hc⟩ | ⟨ro, ro2, hs, hro, hr, hc⟩
      · rw [findChild_of_split _ _ _ _ _ hs] at hd
        obtain ⟨e1, e2⟩ := ih it st it2 hl hd hr
        refine ⟨e1, ?_⟩
        obtain ⟨_, hit, hpre⟩ := splitAtChild_some item _ _ _ _ hs
        have hit2 : it2.GetPath.data = item := by
          rw [GetPath_of_internal _ _ (addAlong_internal bus self child _ _ _ _ hr)]
          exact hit
        rw [hc, descend_cons]
        show (findChild (pre ++ it2 :: post) item).bind _ = _
        rw [findChild_at _ _ _ _ hpre hit2]
        exact e2
      · obtain ⟨hp, hch⟩ := ctor_spec bus _ _ _ _ ro hro
        have hdro : descend ro rest = none := by
          cases rest with
          | nil => exact absurd rfl hrest
          | cons r rs =>
            rw [descend_cons, hch]
            rfl
        obtain ⟨e1, e2⟩ := ih ro st ro2 hl hdro hr
        refine ⟨e1, ?_⟩
        have hro2 : ro2.GetPath.data = item := by
          rw [GetPath_of_internal _ _ (addAlong_internal bus self child _ _ _ _ hr), hp]
        rw [hc, descend_cons]
        show (findChild (cur.children ++ [ro2]) item).bind _ = _
        rw [findChild_push_none _ _ _ (findChild_of_split_none _ _ hs) hro2]
        exact e2

/-- After the walk of `AddChild` there is a proxy for every item before the
last one, and its path is the item. -/
theorem addAlong_visits (bus : BusAttachment) (self : Internal) (child : ProxyBusObject)
    (q : List Char) (l2 : List (List Char)) (hl2 : l2 ≠ []) :
    ∀ (l1 : List (List Char)) (cur : ProxyBusObject) (st : QStatus) (cur2 : ProxyBusObject),
      addAlong bus self child cur (l1 ++ q :: l2) = some (st, cur2) →
        ∃ n, descend cur2 (l1 ++ [q]) = some n ∧ n.GetPath.data = q := by
  intro l1
  induction l1 with
  | nil =>
    intro cur st cur2 h
    rcases addAlong_more_cases bus self child cur q l2 hl2 st cur2 h with
      ⟨pre, it, post, it2, hs, hr, hc⟩ | ⟨ro, ro2, hs, hro, hr, hc⟩
    · obtain ⟨_, hit, hpre⟩ := splitAtChild_some q _ _ _ _ hs
      have hit2 : it2.GetPath.data = q := by
        rw [GetPath_of_internal _ _ (addAlong_internal bus self child _ _ _ _ hr)]
        exact hit
      refine ⟨it2, ?_, hit2⟩
      rw [hc]
      show descend _ [q] = _
      rw [descend_cons]
      show (findChild (pre ++ it2 :: post) q).bind _ = _
      rw [findChild_at _ _ _ _ hpre hit2]
      rfl
    · obtain ⟨hp, hch⟩ := ctor_spec bus _ _ _ _ ro hro
      have hro2 : ro2.GetPath.data = q := by
        rw [GetPath_of_internal _ _ (addAlong_internal bus self child _ _ _ _ hr), hp]
      refine ⟨ro2, ?_, hro2⟩
      rw [hc]
      show descend _ [q] = _
      rw [descend_cons]
      show (findChild (cur.children ++ [ro2]) q).bind _ = _
      rw [findChild_push_none _ _ _ (findChild_of_split_none _ _ hs) hro2]
      rfl
  | cons item rest ih =>
    intro cur st cur2 h
    have hne : rest ++ q :: l2 ≠ [] := by simp
    have h1 : addAlong bus self child cur (item :: (rest ++ q :: l2)) = some (st, cur2) := h
    rcases addAlong_more_cases bus self child cur item _ hne st cur2 h1 with
      ⟨pre, it, post, it2, hs, hr, hc⟩ | ⟨ro, ro2, hs, hro, hr, hc⟩
    · obtain ⟨_, hit, hpre⟩ := splitAtChild_some item _ _ _ _ hs
      have hit2 : it2.GetPath.data = item := by
        rw [GetPath_of_internal _ _ (addAlong_internal bus self child _ _ _ _ hr)]
        exact hit
      obtain ⟨n, hn, hq⟩ := ih it st it2 hr
      refine ⟨n, ?_, hq⟩
      rw [hc]
      show descend _ (item :: (rest ++ [q])) = _
      rw [descend_cons]
      show (findChild (pre ++ it2 :: post) item).bind _ = _
      rw [findChild_at _ _ _ _ hpre hit2]
      exact hn
    · obtain ⟨hp, hch⟩ := ctor_spec bus _ _ _ _ ro hro
      have hro2 : ro2.GetPath.data = item := by
        rw [GetPath_of_internal _ _ (addAlong_internal bus self child _ _ _ _ hr), hp]
      obtain ⟨n, hn, hq⟩ := ih ro st ro2 hr
      refine ⟨n, ?_, hq⟩
      rw [hc]
      show descend _ (item :: (rest ++ [q])) = _
      rw [descend_cons]
      show (findChild (cur.children ++ [ro2]) item).bind _ = _
      rw [findChild_push_none _ _ _ (findChild_of_split_none _ _ hs) hro2]
      exact hn

/-- The walk of `AddChild` to a place where there is a proxy returns
`ER_BUS_OBJ_ALREADY_EXISTS` and changes nothing. -/
theorem addAlong_exists (bus : BusAttachment) (self : Internal) (child : ProxyBusObject) :
    ∀ (items : List (List Char)) (cur n : ProxyBusObject), items ≠ [] →
      descend cur items = some n →
        addAlong bus self child cur items = some (QStatus.ER_BUS_OBJ_ALREADY_EXISTS, cur) := by
  intro items
  induction items with
  | nil =>
    intro cur n hne
    exact absurd rfl hne
  | cons item rest ih =>
    intro cur n _ hd
    rw [descend_cons] at hd
    cases hf : findChild cur.children item with
    | none =>
      rw [hf] at hd
      exact Option.noConfusion hd
    | some it =>
      rw [hf] at hd
      obtain ⟨pre, post, hs⟩ := findChild_split _ _ _ hf
      by_cases hrest : rest = []
      · subst hrest
        rw [addAlong_single, hs]
      · rw [addAlong_more _ _ _ _ _ _ hrest, hs]
        dsimp only
        rw [ih it n hrest hd]
        dsimp only
        rw [← (splitAtChild_some item _ _ _ _ hs).1, mk_eta]

/-- The walk of `AddChild` keeps every proxy that a walk of `GetChild` ends at:
afterwards the walk ends at a proxy with the same `Internal`. -/
theorem addAlong_keeps (bus : BusAttachment) (self : Internal) (child : ProxyBusObject) :
    ∀ (d : List (List Char)) (items : List (List Char)) (cur : ProxyBusObject) (st : QStatus)
      (cur2 n : ProxyBusObject),
      descend cur d = some n → addAlong bus self child cur items = some (st, cur2) →
        ∃ n2, descend cur2 d = some n2 ∧ n2.internal = n.internal := by
  intro d
  induction d with
  | nil =>
    intro items cur st cur2 n hd h
    have hn : cur = n := Option.some.inj hd
    refine ⟨cur2, rfl, ?_⟩
    rw [← hn]
    exact addAlong_internal bus self child _ _ _ _ h
  | cons x rest ih =>
    intro items cur st cur2 n hd h
    rw [descend_cons] at hd
    cases hf : findChild cur.children x with
    | none =>
      rw [hf] at hd
      exact Option.noConfusion hd
    | some m =>
      rw [hf] at hd
      have hd2 : descend m rest = some n := hd
      cases items with
      | nil =>
        have h2 := Prod.mk.inj (Option.some.inj h)
        refine ⟨n, ?_, rfl⟩
        rw [← h2.2, descend_cons, hf]
        exact hd2
      | cons item more =>
        by_cases hmore : more = []
        · subst hmore
          rw [addAlong_single] at h
          cases hs : splitAtChild cur.children item with
          | none =>
            rw [hs] at h
            have h2 := Prod.mk.inj (Option.some.inj h)
            refine ⟨n, ?_, rfl⟩
            rw [← h2.2, descend_cons]
            show (findChild (cur.children ++ [child]) x).bind _ = _
            rw [findChild_push_some _ _ _ _ hf]
            exact hd2
          | some r =>
            rw [hs] at h
            have h2 := Prod.mk.inj (Option.some.inj h)
            refine ⟨n, ?_, rfl⟩
            rw [← h2.2, descend_cons, hf]
            exact hd2
        · rcases addAlong_more_cases bus self child cur item more hmore st cur2 h with
            ⟨pre, it, post, it2, hs, hr, hc⟩ | ⟨ro, ro2, hs, hro, hr, hc⟩
          · obtain ⟨hch, hit, hpre⟩ := splitAtChild_some item _ _ _ _ hs
            have hit2 : it2.GetPath.data = item := by
              rw [GetPath_of_internal _ _ (addAlong_internal bus self child _ _ _ _ hr)]
              exact hit
            by_cases hx : x = item
            · subst hx
              have hm : m = it := by
                have h3 := findChild_of_split _ _ _ _ _ hs
                rw [hf] at h3
                exact Option.some.inj h3
              rw [hm] at hd2
              obtain ⟨n2, hn2, hi2⟩ := ih more it st it2 n hd2 hr
              refine ⟨n2, ?_, hi2⟩
              rw [hc, descend_cons]
              show (findChild (pre ++ it2 :: post) x).bind _ = _
              rw [findChild_at _ _ _ _ hpre hit2]
              exact hn2
            · refine ⟨n, ?_, rfl⟩
              rw [hc, descend_cons]
              show (findChild (pre ++ it2 :: post) x).bind _ = _
              rw [findChild_skip _ _ _ _ (by rw [hit2]; exact fun e => hx e.symm),
                ← findChild_skip pre post it x (by rw [hit]; exact fun e => hx e.symm),
                ← hch, hf]
              exact hd2
          · refine ⟨n, ?_, rfl⟩
            rw [hc, descend_cons]
            show (findChild (cur.children ++ [ro2]) x).bind _ = _
            rw [findChild_push_some _ _ _ _ hf]
            exact hd2

end ProxyBusObject

/-! ### The representation invariant of the child tree -/

namespace ProxyBusObject

theorem findChild_mem (ch : List ProxyBusObject) (d : List Char) (m : ProxyBusObject)
    (h : findChild ch d = some m) : m ∈ ch := by
  obtain ⟨pre, post, hs⟩ := findChild_split _ _ _ h
  rw [(splitAtChild_some d _ _ _ _ hs).1]
  simp

theorem findChild_self (ch : List ProxyBusObject) :
    (ch.map (fun n => n.GetPath.data)).Nodup → ∀ m ∈ ch, findChild ch m.GetPath.data = some m := by
  induction ch with
  | nil =>
    intro _ m hm
    exact absurd hm (List.not_mem_nil m)
  | cons x rest ih =>
    intro hnd m hm
    rw [List.map_cons, List.nodup_cons] at hnd
    rw [findChild_cons]
    rcases List.mem_cons.mp hm with hm | hm
    · rw [hm, if_pos rfl]
    · have hx : x.GetPath.data ≠ m.GetPath.data := by
        intro e
        apply hnd.1
        rw [e]
        exact List.mem_map_of_mem _ hm
      rw [if_neg hx]
      exact ih hnd.2 m hm

/-- The invariant says that sibling paths are distinct at every proxy of the
tree. -/
theorem Distinct_iff (cur : ProxyBusObject) :
    Distinct cur ↔ (cur.children.map (fun n => n.GetPath.data)).Nodup ∧
      ∀ m ∈ cur.children, Distinct m := by
  constructor
  · intro h
    have hnd := h [] cur rfl
    refine ⟨hnd, ?_⟩
    intro m hm items x hx
    apply h (m.GetPath.data :: items) x
    rw [descend_cons, findChild_self _ hnd m hm]
    exact hx
  · intro h items x hx
    cases items with
    | nil =>
      have e : cur = x := Option.some.inj hx
      rw [← e]
      exact h.1
    | cons d rest =>
      rw [descend_cons] at hx
      cases hf : findChild cur.children d with
      | none =>
        rw [hf] at hx
        exact Option.noConfusion hx
      | some m =>
        rw [hf] at hx
        exact h.2 m (findChild_mem _ _ _ hf) rest x hx

theorem Distinct_leaf (i : Internal) : Distinct (mk i []) := by
  rw [Distinct_iff]
  exact ⟨List.nodup_nil, fun m hm => absurd hm (List.not_mem_nil m)⟩

theorem Distinct_of_no_children (p : ProxyBusObject) (h : p.children = []) : Distinct p := by
  rw [Distinct_iff, h]
  exact ⟨List.nodup_nil, fun m hm => absurd hm (List.not_mem_nil m)⟩

theorem Distinct_push (cur x : ProxyBusObject) (hcur : Distinct cur) (hx : Distinct x)
    (hnew : findChild cur.children x.GetPath.data = none) :
    Distinct (mk cur.internal (cur.children ++ [x])) := by
  rw [Distinct_iff] at hcur ⊢
  show ((cur.children ++ [x]).map (fun n => n.GetPath.data)).Nodup ∧
    ∀ m ∈ cur.children ++ [x], Distinct m
  refine ⟨?_, ?_⟩
  · rw [List.map_append, List.nodup_append]
    refine ⟨hcur.1, by simp, ?_⟩
    intro p hp1 hp2
    simp only [List.map_cons, List.map_nil, List.mem_singleton] at hp2
    obtain ⟨n, hn, hnp⟩ := List.mem_map.mp hp1
    exact (findChild_none_iff _ _).mp hnew n hn (by rw [hnp, hp2])
  · intro m hm
    rcases List.mem_append.mp hm with hm | hm
    · exact hcur.2 m hm
    · rw [List.mem_singleton.mp hm]
      exact hx

theorem Distinct_replace (cur it it2 : ProxyBusObject) (pre post : List ProxyBusObject)
    (hcur : Distinct cur) (hch : cur.children = pre ++ it :: post)
    (hpath : it2.GetPath.data = it.GetPath.data) (hit2 : Distinct it2) :
    Distinct (mk cur.internal (pre ++ it2 :: post)) := by
  rw [Distinct_iff] at hcur ⊢
  show ((pre ++ it2 :: post).map (fun n => n.GetPath.data)).Nodup ∧
    ∀ m ∈ pre ++ it2 :: post, Distinct m
  rw [hch] at hcur
  refine ⟨?_, ?_⟩
  · have h1 := hcur.1
    rw [List.map_append, List.map_cons] at h1 ⊢
    rw [hpath]
    exact h1
  · intro m hm
    rcases List.mem_append.mp hm with hm | hm
    · exact hcur.2 m (List.mem_append_left _ hm)
    · rcases List.mem_cons.mp hm with hm | hm
      · rw [hm]
        exact hit2
      · exact hcur.2 m (List.mem_append_right _ (List.mem_cons_of_mem _ hm))

theorem Distinct_erase (cur it : ProxyBusObject) (pre post : List ProxyBusObject)
    (hcur : Distinct cur) (hch : cur.children = pre ++ it :: post) :
    Distinct (mk cur.internal (pre ++ post)) ∧
      findChild (pre ++ post) it.GetPath.data = none := by
  rw [Distinct_iff] at hcur
  rw [hch] at hcur
  have h1 := hcur.1
  rw [List.map_append, List.map_cons, List.nodup_middle, List.nodup_cons, ← List.map_append]
    at h1
  refine ⟨?_, ?_⟩
  · rw [Distinct_iff]
    refine ⟨h1.2, ?_⟩
    intro m hm
    have hm2 : m ∈ pre ++ post := hm
    rcases List.mem_append.mp hm2 with hm3 | hm3
    · exact hcur.2 m (List.mem_append_left _ hm3)
    · exact hcur.2 m (List.mem_append_right _ (List.mem_cons_of_mem _ hm3))
  · rw [findChild_none_iff]
    intro n hn e
    apply h1.1
    rw [← e]
    exact List.mem_map_of_mem _ hn

theorem Distinct_child (cur m : ProxyBusObject) (hcur : Distinct cur) (hm : m ∈ cur.children) :
    Distinct m :=
  ((Distinct_iff cur).mp hcur).2 m hm

theorem mem_of_split (ch pre post : List ProxyBusObject) (it : ProxyBusObject) (d : List Char)
    (hs : splitAtChild ch d = some (pre, it, post)) : it ∈ ch := by
  rw [(splitAtChild_some d _ _ _ _ hs).1]
  simp

/-- The walk of `AddChild` keeps the invariant. -/
theorem addAlong_distinct (bus : BusAttachment) (self : Internal) (child : ProxyBusObject)
    (hchild : Distinct child) :
    ∀ (items : List (List Char)) (cur : ProxyBusObject) (st : QStatus) (cur2 : ProxyBusObject),
      items.getLast? = some child.GetPath.data → Distinct cur →
      addAlong bus self child cur items = some (st, cur2) → Distinct cur2 := by
  intro items
  induction items with
  | nil =>
    intro cur st cur2 hl
    exact Option.noConfusion hl
  | cons item rest ih =>
    intro cur st cur2 hl hcur h
    by_cases hrest : rest = []
    · subst hrest
      have hitem : child.GetPath.data = item := by
        have h3 : some item = some child.GetPath.data := hl
        exact (Option.some.inj h3).symm
      rw [addAlong_single] at h
      cases hs : splitAtChild cur.children item with
      | none =>
        rw [hs] at h
        have h2 := Prod.mk.inj (Option.some.inj h)
        rw [← h2.2]
        exact Distinct_push cur child hcur hchild
          (by rw [hitem]; exact findChild_of_split_none _ _ hs)
      | some r =>
        rw [hs] at h
        have h2 := Prod.mk.inj (Option.some.inj h)
        rw [← h2.2]
        exact hcur
    · rw [getLast_tail _ _ hrest] at hl
      rcases addAlong_more_cases bus self child cur item rest hrest st cur2 h with
        ⟨pre, it, post, it2, hs, hr, hc⟩ | ⟨ro, ro2, hs, hro, hr, hc⟩
      · obtain ⟨hch, hit, hpre⟩ := splitAtChild_some item _ _ _ _ hs
        rw [hc]
        refine Distinct_replace cur it it2 pre post hcur hch ?_ ?_
        · rw [GetPath_of_internal _ _ (addAlong_internal bus self child _ _ _ _ hr)]
        · exact ih it st it2 hl (Distinct_child cur it hcur (mem_of_split _ _ _ _ _ hs)) hr
      · obtain ⟨hp, hch⟩ := ctor_spec bus _ _ _ _ ro hro
        have hro2 : ro2.GetPath.data = item := by
          rw [GetPath_of_internal _ _ (addAlong_internal bus self child _ _ _ _ hr), hp]
        rw [hc]
        refine Distinct_push cur ro2 hcur ?_ ?_
        · exact ih ro st ro2 hl (Distinct_of_no_children ro hch) hr
        · rw [hro2]
          exact findChild_of_split_none _ _ hs

/-! ### The walk of `RemoveChild` -/

theorem removeAlong_internal :
    ∀ (items : List (List Char)) (cur : ProxyBusObject),
      (removeAlong cur items).2.internal = cur.internal := by
  intro items
  induction items with
  | nil =>
    intro cur
    rfl
  | cons item rest ih =>
    intro cur
    by_cases hrest : rest = []
    · subst hrest
      rw [removeAlong_single]
      cases hs : splitAtChild cur.children item with
      | none => rfl
      | some r => rfl
    · rw [removeAlong_more _ _ _ hrest]
      cases hs : splitAtChild cur.children item with
      | none => rfl
      | some r => rfl

/-- The walk of `RemoveChild` keeps the invariant. -/
theorem removeAlong_distinct :
    ∀ (items : List (List Char)) (cur : ProxyBusObject), Distinct cur →
      Distinct (removeAlong cur items).2 := by
  intro items
  induction items with
  | nil =>
    intro cur hcur
    exact hcur
  | cons item rest ih =>
    intro cur hcur
    by_cases hrest : rest = []
    · subst hrest
      rw [removeAlong_single]
      cases hs : splitAtChild cur.children item with
      | none => exact hcur
      | some r =>
        obtain ⟨pre, it, post⟩ := r
        exact (Distinct_erase cur it pre post hcur (splitAtChild_some item _ _ _ _ hs).1).1
    · rw [removeAlong_more _ _ _ hrest]
      cases hs : splitAtChild cur.children item with
      | none => exact hcur
      | some r =>
        obtain ⟨pre, it, post⟩ := r
        refine Distinct_replace cur it _ pre post hcur (splitAtChild_some item _ _ _ _ hs).1 ?_ ?_
        · rw [GetPath_of_internal _ _ (removeAlong_internal rest it)]
        · exact ih it (Distinct_child cur it hcur (mem_of_split _ _ _ _ _ hs))

/-- The walk of `RemoveChild` to a place where there is a proxy returns
`ER_OK`. -/
theorem removeAlong_found :
    ∀ (items : List (List Char)) (cur n : ProxyBusObject), items ≠ [] →
      descend cur items = some n → (removeAlong cur items).1 = QStatus.ER_OK := by
  intro items
  induction items with
  | nil =>
    intro cur n hne
    exact absurd rfl hne
  | cons item rest ih =>
    intro cur n _ hd
    rw [descend_cons] at hd
    cases hf : findChild cur.children item with
    | none =>
      rw [hf] at hd
      exact Option.noConfusion hd
    | some it =>
      rw [hf] at hd
      obtain ⟨pre, post, hs⟩ := findChild_split _ _ _ hf
      by_cases hrest : rest = []
      · subst hrest
        rw [removeAlong_single, hs]
      · rw [removeAlong_more _ _ _ hrest, hs]
        exact ih it n hrest hd

/-- The walk of `RemoveChild` to a place where there is no proxy returns
`ER_BUS_OBJ_NOT_FOUND` and changes nothing. -/
theorem removeAlong_missing :
    ∀ (items : List (List Char)) (cur : ProxyBusObject), items ≠ [] →
      descend cur items = none →
        removeAlong cur items = (QStatus.ER_BUS_OBJ_NOT_FOUND, cur) := by
  intro items
  induction items with
  | nil =>
    intro cur hne
    exact absurd rfl hne
  | cons item rest ih =>
    intro cur _ hd
    rw [descend_cons] at hd
    by_cases hrest : rest = []
    · subst hrest
      rw [removeAlong_single]
      cases hs : splitAtChild cur.children item with
      | none => rfl
      | some r =>
        obtain ⟨pre, it, post⟩ := r
        rw [findChild_of_split _ _ _ _ _ hs] at hd
        exact Option.noConfusion hd
    · rw [removeAlong_more _ _ _ hrest]
      cases hs : splitAtChild cur.children item with
      | none => rfl
      | some r =>
        obtain ⟨pre, it, post⟩ := r
        rw [findChild_of_split _ _ _ _ _ hs] at hd
        dsimp only
        rw [ih it hrest hd]
        dsimp only
        rw [← (splitAtChild_some item _ _ _ _ hs).1, mk_eta]

/-- After the walk of `RemoveChild` has erased a proxy, no walk of `GetChild`
that passes the place of the proxy ends at a proxy. -/
theorem removeAlong_gone :
    ∀ (items : List (List Char)) (cur n : ProxyBusObject), Distinct cur → items ≠ [] →
      descend cur items = some n →
        ∀ more, descend (removeAlong cur items).2 (items ++ more) = none := by
  intro items
  induction items with
  | nil =>
    intro cur n _ hne
    exact absurd rfl hne
  | cons item rest ih =>
    intro cur n hcur _ hd more
    rw [descend_cons] at hd
    cases hf : findChild cur.children item with
    | none =>
      rw [hf] at hd
      exact Option.noConfusion hd
    | some it =>
      rw [hf] at hd
      obtain ⟨pre, post, hs⟩ := findChild_split _ _ _ hf
      obtain ⟨hch, hit, hpre⟩ := splitAtChild_some item _ _ _ _ hs
      show descend _ (item :: (rest ++ more)) = none
      rw [descend_cons]
      by_cases hrest : rest = []
      · subst hrest
        rw [removeAlong_single, hs]
        show (findChild (pre ++ post) item).bind _ = none
        have h2 := (Distinct_erase cur it pre post hcur hch).2
        rw [hit] at h2
        rw [h2]
        rfl
      · rw [removeAlong_more _ _ _ hrest, hs]
        show (findChild (pre ++ (removeAlong it rest).2 :: post) item).bind _ = none
        have hit2 : (removeAlong it rest).2.GetPath.data = item := by
          rw [GetPath_of_internal _ _ (removeAlong_internal rest it)]
          exact hit
        rw [findChild_at _ _ _ _ hpre hit2]
        exact ih it n (Distinct_child cur it hcur (mem_of_split _ _ _ _ _ hs)) hrest hd more

/-- The walk of `RemoveChild` keeps every proxy that is not at or below the
place it walks to: a walk of `GetChild` ends at a proxy with the same `Internal`
as before, and at the same proxy when it does not pass a proxy on the way to
that place. -/
theorem removeAlong_other :
    ∀ (items : List (List Char)) (cur : ProxyBusObject) (d : List (List Char)),
      (∀ more, d ≠ items ++ more) →
        (descend (removeAlong cur items).2 d).map (fun n => n.internal) =
            (descend cur d).map (fun n => n.internal) ∧
          ((∀ more, items ≠ d ++ more) → descend (removeAlong cur items).2 d = descend cur d) := by
  intro items
  induction items with
  | nil =>
    intro cur d _
    exact ⟨rfl, fun _ => rfl⟩
  | cons item rest ih =>
    intro cur d hd
    cases d with
    | nil =>
      refine ⟨?_, fun h => absurd rfl (h (item :: rest))⟩
      show some (removeAlong cur (item :: rest)).2.internal = some cur.internal
      rw [removeAlong_internal]
    | cons x xs =>
      by_cases hrest : rest = []
      · subst hrest
        rw [removeAlong_single]
        cases hs : splitAtChild cur.children item with
        | none => exact ⟨rfl, fun _ => rfl⟩
        | some r =>
          obtain ⟨pre, it, post⟩ := r
          obtain ⟨hch, hit, hpre⟩ := splitAtChild_some item _ _ _ _ hs
          have hx : x ≠ item := by
            intro e
            exact hd xs (by rw [e]; rfl)
          have e : descend (mk cur.internal (pre ++ post)) (x :: xs) = descend cur (x :: xs) := by
            rw [descend_cons, descend_cons]
            show (findChild (pre ++ post) x).bind _ = _
            rw [hch, findChild_skip pre post it x (by rw [hit]; exact fun e => hx e.symm)]
          exact ⟨by rw [e], fun _ => e⟩
      · rw [removeAlong_more _ _ _ hrest]
        cases hs : splitAtChild cur.children item with
        | none => exact ⟨rfl, fun _ => rfl⟩
        | some r =>
          obtain ⟨pre, it, post⟩ := r
          obtain ⟨hch, hit, hpre⟩ := splitAtChild_some item _ _ _ _ hs
          have hit2 : (removeAlong it rest).2.GetPath.data = item := by
            rw [GetPath_of_internal _ _ (removeAlong_internal rest it)]
            exact hit
          show (descend (mk cur.internal (pre ++ (removeAlong it rest).2 :: post)) (x :: xs)).map _
              = _ ∧ (_ → descend (mk cur.internal (pre ++ (removeAlong it rest).2 :: post))
                (x :: xs) = _)
          rw [descend_cons, descend_cons]
          show (((findChild (pre ++ (removeAlong it rest).2 :: post) x).bind _).map _ = _) ∧
            (_ → (findChild (pre ++ (removeAlong it rest).2 :: post) x).bind _ = _)
          by_cases hx : x = item
          · subst hx
            have hd2 : ∀ more, xs ≠ rest ++ more := by
              intro more e
              exact hd more (by rw [e]; rfl)
            obtain ⟨i1, i2⟩ := ih it xs hd2
            rw [findChild_at _ _ _ _ hpre hit2, findChild_of_split _ _ _ _ _ hs]
            refine ⟨i1, ?_⟩
            intro h3
            apply i2
            intro more e
            exact h3 more (by rw [e]; rfl)
          · rw [findChild_skip _ _ _ _ (by rw [hit2]; exact fun e => hx e.symm), hch,
              findChild_skip pre post it x (by rw [hit]; exact fun e => hx e.symm)]
            exact ⟨rfl, fun _ => rfl⟩

end ProxyBusObject

/-! ### The three functions as walks -/

theorem getLast_drop_ne (l : List Char) (n : Nat) (c : Char) (h : l.getLast? ≠ some c) :
    (l.drop n).getLast? ≠ some c := by
  intro hd
  apply h
  have hne : l.drop n ≠ [] := by
    intro e
    rw [e] at hd
    exact Option.noConfusion hd
  rw [← List.take_append_drop n l, List.getLast?_append_of_ne_nil _ hne]
  exact hd

theorem exists_init_of_getLast {α : Type} (l : List α) (x : α) (h : l.getLast? = some x) :
    ∃ init, l = init ++ [x] :=
  ⟨l.dropLast, (List.dropLast_append_getLast? x (by rw [h]; rfl)).symm⟩

/-- The last item of the walk over a path that does not end with `'/'` is the
path. -/
theorem pathItems_getLast (s : List Char) (idx : Nat) (hs : s.getLast? ≠ some '/') :
    (pathItems s idx).getLast? = some s := by
  unfold pathItems
  rw [itemsAux_getLast _ _ (getLast_drop_ne s idx '/' hs), List.take_append_drop]

/-- An item of the walk over a path is the path or a part of it that a `'/'`
follows. -/
theorem pathItems_mem (s : List Char) (idx : Nat) (x : List Char) (h : x ∈ pathItems s idx) :
    x = s ∨ ∃ b, s = x ++ '/' :: b := by
  unfold pathItems at h
  rcases itemsAux_mem _ _ x h with h1 | ⟨a, b, h1, h2⟩
  · left
    rw [h1, List.take_append_drop]
  · right
    refine ⟨b, ?_⟩
    rw [h2, List.append_assoc, ← h1, List.take_append_drop]

/-- The walk over a path below `q` first visits the items of the walk over `q`. -/
theorem pathItems_append (q rest : List Char) (idx : Nat) (hrest : rest ≠ [])
    (hq : q.getLast? ≠ some '/') (hidx : idx ≤ q.length) :
    pathItems (q ++ '/' :: rest) idx =
      pathItems q idx ++ pathItems (q ++ '/' :: rest) (q.length + 1) := by
  unfold pathItems
  have e1 : (q ++ '/' :: rest).take (q.length + 1) = q ++ ['/'] := by
    have e : q ++ '/' :: rest = (q ++ ['/']) ++ rest := by simp
    rw [e]
    exact List.take_left' (by simp)
  have e2 : (q ++ '/' :: rest).drop (q.length + 1) = rest := by
    have e : q ++ '/' :: rest = (q ++ ['/']) ++ rest := by simp
    rw [e]
    exact List.drop_left' (by simp)
  rw [e1, e2, List.take_append_of_le_length hidx, List.drop_append_of_le_length hidx,
    itemsAux_append _ _ hrest _ (getLast_drop_ne q idx '/' hq), List.take_append_drop]

/-- The walk to a path that is neither `a` nor below `a` does not pass the
items of the walk to `a`. -/
theorem pathItems_other (a d : List Char) (idx : Nat) (ha : a.getLast? ≠ some '/')
    (h1 : d ≠ a) (h2 : ∀ rest, d ≠ a ++ '/' :: rest) :
    ∀ more, pathItems d idx ≠ pathItems a idx ++ more := by
  intro more e
  obtain ⟨init, hinit⟩ := exists_init_of_getLast _ _ (pathItems_getLast a idx ha)
  have hmem : a ∈ pathItems d idx := by
    rw [e, hinit]
    simp
  rcases pathItems_mem d idx a hmem with h3 | ⟨b, h3⟩
  · exact h1 h3.symm
  · exact h2 b h3

theorem pathSlash_getLast (path : String) : (pathSlash path).getLast? = some '/' := by
  unfold pathSlash
  by_cases h : path = "/"
  · rw [if_pos h, h]
    rfl
  · rw [if_neg h]
    simp

theorem pathSlash_length (path : String) : path.length ≤ (pathSlash path).length := by
  unfold pathSlash
  by_cases h : path = "/"
  · rw [if_pos h]
    exact Nat.le_refl _
  · rw [if_neg h, List.length_append]
    exact Nat.le_add_right _ _

/-- A path that passes the sanity check is longer than the path of the proxy. -/
theorem sane_length (path : String) (s t : List Char) (hs : s = pathSlash path ++ t)
    (hend : s.getLast? ≠ some '/') : path.length + 1 ≤ s.length := by
  have ht : t ≠ [] := by
    intro e
    apply hend
    rw [hs, e, List.append_nil]
    exact pathSlash_getLast path
  have hl : 0 < t.length := List.length_pos.mpr ht
  have h2 := pathSlash_length path
  rw [hs, List.length_append]
  omega

theorem badChildPath_false (p s : List Char) :
    badChildPath p s = false ↔ (∃ t, s = p ++ t) ∧ s.getLast? ≠ some '/' := by
  unfold badChildPath
  rw [Bool.or_eq_false_iff, Bool.not_eq_false', decide_eq_false_iff_not,
    List.isPrefixOf_iff_prefix]
  constructor
  · rintro ⟨⟨t, ht⟩, h2⟩
    exact ⟨⟨t, ht.symm⟩, h2⟩
  · rintro ⟨⟨t, ht⟩, h2⟩
    exact ⟨⟨t, ht.symm⟩, h2⟩

theorem badChildPath_true (p s : List Char) :
    badChildPath p s = true ↔ (∀ t, s ≠ p ++ t) ∨ s.getLast? = some '/' := by
  constructor
  · intro h
    by_contra hn
    rw [not_or] at hn
    have h2 : badChildPath p s = false := by
      rw [badChildPath_false]
      refine ⟨?_, hn.2⟩
      by_contra h3
      exact hn.1 (fun t e => h3 ⟨t, e⟩)
    rw [h2] at h
    exact Bool.noConfusion h
  · intro h
    cases hb : badChildPath p s with
    | true => rfl
    | false =>
      obtain ⟨⟨t, ht⟩, h2⟩ := (badChildPath_false p s).mp hb
      rcases h with h | h
      · exact absurd ht (h t)
      · exact absurd h h2

namespace ProxyBusObject

/-- The function `GetChild` is the walk along the items of the absolute
path. -/
theorem GetChild_eq (self : ProxyBusObject) (inPath : String) :
    self.GetChild inPath =
      if badChildPath (pathSlash self.internal.path) (absolutePath self.internal.path inPath)
      then some none
      else some (descend self
        (pathItems (absolutePath self.internal.path inPath) (self.internal.path.length + 1))) := by
  unfold GetChild
  dsimp only
  by_cases hb : badChildPath (pathSlash self.internal.path)
      (absolutePath self.internal.path inPath) = true
  · rw [if_pos hb, if_pos hb]
  · rw [if_neg hb, if_neg hb]
    obtain ⟨⟨t, ht⟩, hend⟩ := (badChildPath_false _ _).mp (Bool.eq_false_iff.mpr hb)
    have hlen := sane_length _ _ t ht hend
    exact getChildLoop_eq _ _ _ _ hlen (by omega)

/-- The function `RemoveChild` is the walk along the items of the absolute
path. -/
theorem RemoveChild_eq (self : ProxyBusObject) (inPath : String) :
    self.RemoveChild inPath =
      if badChildPath (pathSlash self.internal.path) (absolutePath self.internal.path inPath)
      then some (QStatus.ER_BUS_BAD_CHILD_PATH, self)
      else some (removeAlong self
        (pathItems (absolutePath self.internal.path inPath) (self.internal.path.length + 1))) := by
  unfold RemoveChild
  dsimp only
  by_cases hb : badChildPath (pathSlash self.internal.path)
      (absolutePath self.internal.path inPath) = true
  · rw [if_pos hb, if_pos hb]
  · rw [if_neg hb, if_neg hb]
    obtain ⟨⟨t, ht⟩, hend⟩ := (badChildPath_false _ _).mp (Bool.eq_false_iff.mpr hb)
    have hlen := sane_length _ _ t ht hend
    exact removeChildLoop_eq _ hend _ _ _ hlen (by omega)

theorem isPrefixOf_singleton (c : Char) (s : List Char) :
    [c].isPrefixOf s = decide (s.head? = some c) := by
  cases s with
  | nil => rfl
  | cons x rest =>
    simp only [List.isPrefixOf, List.head?_cons, Option.some.injEq, Bool.and_true]
    by_cases h : c = x
    · simp [h]
    · have h2 : ¬ x = c := fun e => h e.symm
      simp [h, h2]

/-- For a proxy whose path starts with `'/'` the function `AddChild` makes the
same sanity check as the other two, and is the walk along the items of the path
of the child. -/
theorem AddChild_eq (bus : BusAttachment) (self child : ProxyBusObject)
    (hroot : self.internal.path.data.head? = some '/') :
    self.AddChild bus child =
      if badChildPath (pathSlash self.internal.path) child.GetPath.data
      then some (QStatus.ER_BUS_BAD_CHILD_PATH, self)
      else addAlong bus self.internal child self
        (pathItems child.GetPath.data (self.internal.path.length + 1)) := by
  unfold AddChild
  dsimp only
  have hcond : ((decide (self.internal.path.data.length > 1) &&
        !(self.internal.path.data ++ ['/']).isPrefixOf child.GetPath.data) ||
      (decide (self.internal.path.data.length = 1) &&
        decide (child.GetPath.data.head? ≠ some '/'))) =
      !(pathSlash self.internal.path).isPrefixOf child.GetPath.data := by
    unfold pathSlash
    by_cases hp : self.internal.path = "/"
    · rw [if_pos hp, hp]
      have e : ("/" : String).data = ['/'] := rfl
      rw [e, isPrefixOf_singleton]
      simp
    · rw [if_neg hp]
      have hlen : self.internal.path.data.length > 1 := by
        cases hd : self.internal.path.data with
        | nil =>
          rw [hd] at hroot
          exact Option.noConfusion hroot
        | cons x rest =>
          rw [hd] at hroot
          have hx : x = '/' := Option.some.inj hroot
          cases rest with
          | nil =>
            exact absurd (String.ext (hd.trans (congrArg (fun c => [c]) hx))) hp
          | cons y ys =>
            simp
      have h1 : decide (self.internal.path.data.length > 1) = true := decide_eq_true hlen
      have h2 : decide (self.internal.path.data.length = 1) = false :=
        decide_eq_false (by omega)
      rw [h1, h2]
      simp
  rw [hcond]
  by_cases hpre : (pathSlash self.internal.path).isPrefixOf child.GetPath.data = true
  · have hne : child.GetPath.data ≠ [] := by
      intro e
      rw [e] at hpre
      have h3 := List.isPrefixOf_iff_prefix.mp hpre
      have h4 := List.prefix_nil.mp h3
      have h5 := pathSlash_getLast self.internal.path
      rw [h4] at h5
      exact Option.noConfusion h5
    rw [hpre]
    simp only [Bool.not_true, Bool.false_eq_true, if_false, if_neg hne]
    by_cases hend : child.GetPath.data.getLast? = some '/'
    · have hb : badChildPath (pathSlash self.internal.path) child.GetPath.data = true := by
        rw [badChildPath_true]
        exact Or.inr hend
      rw [if_pos hend, if_pos hb]
    · have hb : badChildPath (pathSlash self.internal.path) child.GetPath.data = false := by
        rw [badChildPath_false]
        obtain ⟨t, ht⟩ := List.isPrefixOf_iff_prefix.mp hpre
        exact ⟨⟨t, ht.symm⟩, hend⟩
      rw [if_neg hend, hb]
      simp only [Bool.false_eq_true, if_false]
      obtain ⟨⟨t, ht⟩, _⟩ := (badChildPath_false _ _).mp hb
      have hlen := sane_length _ _ t ht hend
      exact addChildLoop_eq bus _ child _ hend _ _ _ hlen (by omega)
  · have hpre2 : (pathSlash self.internal.path).isPrefixOf child.GetPath.data = false :=
      Bool.eq_false_iff.mpr hpre
    have hb : badChildPath (pathSlash self.internal.path) child.GetPath.data = true := by
      unfold badChildPath
      rw [hpre2]
      rfl
    rw [hpre2, hb]
    rfl

theorem absolutePath_of_slash (path inPath : String) (h : inPath.data.head? = some '/') :
    absolutePath path inPath = inPath.data := by
  unfold absolutePath
  rw [if_pos h]

theorem absolutePath_relative (path inPath : String) (h : inPath.data.head? ≠ some '/') :
    absolutePath path inPath = pathSlash path ++ inPath.data := by
  unfold absolutePath
  rw [if_neg h]

theorem pathSlash_head (path : String) (hroot : path.data.head? = some '/') :
    (pathSlash path).head? = some '/' := by
  unfold pathSlash
  by_cases h : path = "/"
  · rw [if_pos h]
    exact hroot
  · rw [if_neg h]
    cases hd : path.data with
    | nil =>
      rw [hd] at hroot
      exact Option.noConfusion hroot
    | cons x rest =>
      rw [hd] at hroot
      exact hroot

theorem head_of_below (path : String) (s t : List Char)
    (hroot : path.data.head? = some '/') (hs : s = pathSlash path ++ t) :
    s.head? = some '/' := by
  have h := pathSlash_head path hroot
  rw [hs]
  cases hp : pathSlash path with
  | nil =>
    rw [hp] at h
    exact Option.noConfusion h
  | cons x rest =>
    rw [hp] at h
    exact h

theorem removeAlong_status :
    ∀ (items : List (List Char)) (cur : ProxyBusObject), items ≠ [] →
      (removeAlong cur items).1 = QStatus.ER_OK ∨
        (removeAlong cur items).1 = QStatus.ER_BUS_OBJ_NOT_FOUND := by
  intro items
  induction items with
  | nil =>
    intro cur hne
    exact absurd rfl hne
  | cons item rest ih =>
    intro cur _
    by_cases hrest : rest = []
    · subst hrest
      rw [removeAlong_single]
      cases hs : splitAtChild cur.children item with
      | none => exact Or.inr rfl
      | some r => exact Or.inl rfl
    · rw [removeAlong_more _ _ _ hrest]
      cases hs : splitAtChild cur.children item with
      | none => exact Or.inr rfl
      | some r =>
        obtain ⟨pre, it, post⟩ := r
        exact ih it hrest

end ProxyBusObject

theorem ne_append_of_take (a b : List Char) (n : Nat) (hn : n ≤ b.length)
    (h : a.take n ≠ b.take n) : ∀ rest, a ≠ b ++ rest := by
  intro rest e
  apply h
  rw [e, List.take_append_of_le_length hn]

theorem scenarioTree_distinct : scenarioTree.Distinct := by
  rw [ProxyBusObject.Distinct_iff]
  refine ⟨by decide, ?_⟩
  intro m hm
  have hm2 : m ∈ [ProxyBusObject.mk { path := "/foo/bar", serviceName := "org.example.service" }
      [scenarioTreeChild],
      ProxyBusObject.mk { path := "/foo/qux", serviceName := "org.example.service" } []] := hm
  rcases List.mem_cons.mp hm2 with h1 | h1
  · rw [h1, ProxyBusObject.Distinct_iff]
    refine ⟨by decide, ?_⟩
    intro k hk
    have hk2 : k ∈ [scenarioTreeChild] := hk
    rw [List.mem_singleton.mp hk2]
    exact ProxyBusObject.Distinct_leaf _
  · rw [List.mem_singleton.mp h1]
    exact ProxyBusObject.Distinct_leaf _

/-! ### The two loops of `EnablePropertyCaching` -/

theorem StrMap.find_of_mem_nodup {V : Type} (m : StrMap V) :
    m.keys.Nodup → ∀ k v, (k, v) ∈ m → m.find k = some v := by
  induction m with
  | nil =>
    intro _ k v h
    exact absurd h (List.not_mem_nil _)
  | cons hd tl ih =>
    intro hnd k v h
    obtain ⟨k2, v2⟩ := hd
    have hnd2 : k2 ∉ StrMap.keys tl ∧ (StrMap.keys tl).Nodup := List.nodup_cons.mp hnd
    simp only [StrMap.find]
    rcases List.mem_cons.mp h with h1 | h1
    · have e := Prod.mk.inj h1
      rw [if_pos e.1.symm, e.2]
    · have hk : k2 ≠ k := by
        intro e
        apply hnd2.1
        rw [e]
        exact List.mem_map_of_mem Prod.fst h1
      rw [if_neg hk]
      exact ih hnd2.2 k v h1

namespace Sys

/-- The loop that creates the caches keeps a cache that is there. -/
theorem seedCaches_keeps (l : List (String × InterfaceDescription)) :
    ∀ (caches : StrMap CachedProps) (n : String) (c : CachedProps),
      caches.find n = some c → (seedCaches l caches).find n = some c := by
  induction l with
  | nil =>
    intro caches n c h
    exact h
  | cons hd tl ih =>
    intro caches n c h
    obtain ⟨k, d⟩ := hd
    simp only [seedCaches]
    by_cases hc : d.HasCacheableProperties = true
    · rw [if_pos hc]
      exact ih _ n c (StrMap.find_insert_mono _ _ _ _ _ h)
    · rw [if_neg hc]
      exact ih _ n c h

/-- The loop that creates the caches, for a name that has no cache: a fresh
cache is created when the name is bound to a descriptor with a cacheable
property. -/
theorem seedCaches_new (l : List (String × InterfaceDescription)) :
    ∀ (caches : StrMap CachedProps) (n : String),
      caches.find n = none → (StrMap.keys l).Nodup →
      (seedCaches l caches).find n =
        (StrMap.find l n).bind
          (fun d => if d.HasCacheableProperties then some (CachedProps.ctor d) else none) := by
  induction l with
  | nil =>
    intro caches n h _
    exact h
  | cons hd tl ih =>
    intro caches n h hnd
    obtain ⟨k, d⟩ := hd
    have hnd2 : k ∉ StrMap.keys tl ∧ (StrMap.keys tl).Nodup := List.nodup_cons.mp hnd
    simp only [seedCaches, StrMap.find]
    by_cases hk : k = n
    · subst hk
      rw [if_pos rfl]
      by_cases hc : d.HasCacheableProperties = true
      · rw [if_pos hc]
        rw [seedCaches_keeps tl _ k (CachedProps.ctor d) (StrMap.find_insert_of_none _ _ _ h)]
        simp only [Option.some_bind, if_pos hc]
      · rw [if_neg hc, ih caches k h hnd2.2, (StrMap.find_eq_none_iff tl k).mpr hnd2.1]
        simp only [Option.some_bind, if_neg hc]
        rfl
    · rw [if_neg hk]
      by_cases hc : d.HasCacheableProperties = true
      · rw [if_pos hc]
        refine ih _ n ?_ hnd2.2
        rw [StrMap.find_insert_other _ _ _ _ hk]
        exact h
      · rw [if_neg hc]
        exact ih caches n h hnd2.2

/-- The loop that adds the match rules, for distinct names without a record:
it returns, leaves the caches, the caching flag, the interface map and the
other records; on a bus that accepts `AddMatchAsync` the record of each name
holds one reference, and no reference is held for a name whose `AddMatchAsync`
call the bus rejects. -/
theorem addRules_spec (bus : BusAttachment)
    (hP : (bus.GetInterface org.freedesktop.DBus.Properties.InterfaceName).isSome = true)
    (names : List String) :
    ∀ (w : Sys), names.Nodup → (∀ n ∈ names, w.record n = none) →
      ∃ w2, addRules bus names w = some w2 ∧ w2.pbo.caches = w.pbo.caches ∧
        w2.pbo.cacheProperties = w.pbo.cacheProperties ∧ w2.pbo.ifaces = w.pbo.ifaces ∧
        (∀ n, n ∉ names → w2.record n = w.record n) ∧
        ((∀ rule, bus.AddMatchAsync rule = QStatus.ER_OK) →
          ∀ n ∈ names, w2.record n = some { adding := true, refCount := 1 }) ∧
        (∀ n ∈ names, bus.AddMatchAsync (propertiesChangedRule n) ≠ QStatus.ER_OK →
          ∀ r, w2.record n = some r → r.refCount = 0) := by
  induction names with
  | nil =>
    intro w _ _
    exact ⟨w, rfl, rfl, rfl, rfl, fun _ _ => rfl, fun _ n hn => absurd hn (List.not_mem_nil n),
      fun n hn => absurd hn (List.not_mem_nil n)⟩
  | cons name rest ih =>
    intro w hnd hrec
    have hnd2 : name ∉ rest ∧ rest.Nodup := List.nodup_cons.mp hnd
    obtain ⟨w1, h1⟩ := AddPropertiesChangedRule_nonblocking_returns bus w name hP
    obtain ⟨hc1, hok1⟩ := AddPropertiesChangedRule_nonblocking_new bus w w1 name h1
      (hrec name (List.mem_cons_self _ _))
    obtain ⟨hs1, ho1, _⟩ := AddPropertiesChangedRule_same bus w w1 name false h1
    have hrec1 : ∀ n ∈ rest, w1.record n = none := by
      intro n hn
      have hne : name ≠ n := by
        intro e
        apply hnd2.1
        rw [e]
        exact hn
      rw [ho1 n hne]
      exact hrec n (List.mem_cons_of_mem _ hn)
    obtain ⟨w2, h2, hc2, hf2, hi2, ho2, hok2, hrej2⟩ := ih w1 hnd2.2 hrec1
    refine ⟨w2, ?_, hc2.trans hc1, hf2.trans hs1.2.2.2.2.2.1, hi2.trans hs1.2.2.2.2.2.2.2.1,
      ?_, ?_, ?_⟩
    · simp only [addRules, h1]
      exact h2
    · intro n hn
      have hn1 : name ≠ n := fun e => hn (by rw [e]; exact List.mem_cons_self _ _)
      have hn2 : n ∉ rest := fun e => hn (List.mem_cons_of_mem _ e)
      rw [ho2 n hn2, ho1 n hn1]
    · intro hbus n hn
      rcases List.mem_cons.mp hn with e | e
      · rw [e, ho2 name hnd2.1]
        exact (hok1 (hbus _)).1
      · exact hok2 hbus n e
    · intro n hn hbus
      rcases List.mem_cons.mp hn with e | e
      · rw [e] at hbus ⊢
        rw [ho2 name hnd2.1]
        exact (AddPropertiesChangedRule_nonblocking_rejected bus w w1 name h1
          (hrec name (List.mem_cons_self _ _)) hbus).1
      · exact hrej2 n e hbus

/-- The names for which `EnablePropertyCaching` adds a match rule. -/
theorem mem_ifcNames (m : StrMap InterfaceDescription) (hnd : m.keys.Nodup) (n : String) :
    n ∈ (m.filter (fun kv => kv.2.HasCacheableProperties)).map Prod.fst ↔
      ∃ d, m.find n = some d ∧ d.HasCacheableProperties = true := by
  constructor
  · intro h
    obtain ⟨kv, hkv, e⟩ := List.mem_map.mp h
    obtain ⟨hm, hc⟩ := List.mem_filter.mp hkv
    refine ⟨kv.2, ?_, hc⟩
    rw [← e]
    exact StrMap.find_of_mem_nodup m hnd kv.1 kv.2 hm
  · rintro ⟨d, hd, hc⟩
    exact List.mem_map.mpr ⟨(n, d), List.mem_filter.mpr ⟨StrMap.mem_of_find m n d hd, hc⟩, rfl⟩

theorem ifcNames_nodup (m : StrMap InterfaceDescription) (hnd : m.keys.Nodup) :
    ((m.filter (fun kv => kv.2.HasCacheableProperties)).map Prod.fst).Nodup :=
  List.Nodup.sublist (List.Sublist.map Prod.fst (List.filter_sublist m)) hnd

end Sys

/-! ## Theorems -/

/-- C1: for every last-accepted serial `L` and incoming serial `S`, both unsigned
32-bit, `IsValidMessageSerial` accepts `S` exactly when `(S - L) mod 2^32 < 2^31`. -/
theorem C1_IsValidMessageSerial_iff (c : CachedProps) (S : Nat)
    (hL : c.lastMessageSerial < 2 ^ 32) (hS : S < 2 ^ 32) :
    c.IsValidMessageSerial S = true ↔
      ((S : Int) - (c.lastMessageSerial : Int)) % 2 ^ 32 < 2 ^ 31 := by
  unfold CachedProps.IsValidMessageSerial CachedProps.u32sub
  have e31 : (1 <<< 31) % 2 ^ 32 = 2147483648 := by decide
  simp only [e31]
  by_cases h : S ≥ c.lastMessageSerial
  · rw [if_pos h, decide_eq_true_eq]
    omega
  · rw [if_neg h, decide_eq_true_eq]
    omega

/-- C1 (instance): with the watermark at `2^32 - 6`, the serial 3 (nine steps
ahead across the wraparound) is accepted. -/
theorem C1_IsValidMessageSerial_iff_witness :
    ({ scenarioAfterSignal with lastMessageSerial := 4294967290 } : CachedProps).IsValidMessageSerial 3
        = true ∧
      (({ scenarioAfterSignal with lastMessageSerial := 4294967290 } : CachedProps).IsValidMessageSerial 3
        = true ↔ ((3 : Int) - (4294967290 : Int)) % 2 ^ 32 < 2 ^ 31) :=
  ⟨by decide,
    C1_IsValidMessageSerial_iff { scenarioAfterSignal with lastMessageSerial := 4294967290 } 3
      (by decide) (by decide)⟩

/-- C2: on an enabled cache, after a sequence of well-formed updates whose
serials are all valid, `Get p` for a cacheable property `p` returns the value
carried by the last update that set `p`, provided no later update of the
sequence set or invalidated `p`. -/
theorem C2_get_returns_last_update (c : CachedProps) (pre post : List Update) (u : Update)
    (p : String) (v : MsgArg)
    (hen : c.enabled = true)
    (hwf : ∀ x ∈ pre ++ u :: post, x.WellFormed = true)
    (hvalid : c.validSerials (pre ++ u :: post) = true)
    (hp : c.IsCacheable p = true)
    (hu : u.carried p = some v)
    (hpost : ∀ x ∈ post, x.carried p = none ∧ x.invalidates p = false) :
    (c.updates (pre ++ u :: post)).Get p = some v := by
  rw [CachedProps.validSerials_append] at hvalid
  simp only [Bool.and_eq_true, CachedProps.validSerials] at hvalid
  obtain ⟨_, hvu, hvpost⟩ := hvalid
  rw [CachedProps.updates_append, CachedProps.updates_cons]
  have hen1 : (c.updates pre).enabled = true := by
    rw [CachedProps.updates_enabled]
    exact hen
  have hen2 : ((c.updates pre).update u).enabled = true := by
    rw [CachedProps.update_enabled]
    exact hen1
  have hwfu : u.WellFormed = true := hwf u (by simp)
  have hwfpost : ∀ x ∈ post, x.WellFormed = true := fun x hx => hwf x (by simp [hx])
  rw [CachedProps.updates_keep post p _ hen2 hwfpost hvpost hpost]
  refine CachedProps.update_sets _ u p v hen1 hwfu hvu ?_ hu
  rw [CachedProps.updates_IsCacheable]
  exact hp

/-- C2 (instance): in the scenario of the specification, after the `GetAll`
reply `{a:1,b:2}` (serial 10) and the signal `changed={b:3}` (serial 11),
`Get b` returns 3, not the earlier 2. -/
theorem C2_get_returns_last_update_witness :
    ((CachedProps.ctor scenarioX).Enable.updates
        ([Update.SetAll (MsgArg.array [svEntry "a" 1, svEntry "b" 2]) 10] ++
          Update.PropertiesChanged [svEntry "b" 3] [] 11 ::
            [Update.Set "a" (MsgArg.variant (MsgArg.uint32 7)) 12])).Get "b" =
      some (MsgArg.variant (MsgArg.uint32 3)) :=
  C2_get_returns_last_update (CachedProps.ctor scenarioX).Enable
    [Update.SetAll (MsgArg.array [svEntry "a" 1, svEntry "b" 2]) 10]
    [Update.Set "a" (MsgArg.variant (MsgArg.uint32 7)) 12]
    (Update.PropertiesChanged [svEntry "b" 3] [] 11) "b" (MsgArg.variant (MsgArg.uint32 3))
    (by rfl)
    (by
      intro x hx
      simp only [List.singleton_append, List.mem_cons, List.mem_singleton, List.not_mem_nil,
        or_false] at hx
      rcases hx with e | e | e <;> subst e <;> rfl)
    (by decide) (by decide) (by rfl)
    (by
      intro x hx
      rw [List.mem_singleton] at hx
      subst hx
      exact ⟨rfl, rfl⟩)

/-- C3: on an enabled cache, whatever it holds, a `SetAll` or
`PropertiesChanged` update whose serial fails the validity check leaves no value
at all: `Get` misses for every name and `GetAll` misses. -/
theorem C3_invalid_serial_clears (c : CachedProps) (u : Update)
    (hen : c.enabled = true) (hb : u.isBulk = true)
    (hs : c.IsValidMessageSerial u.serial = false) :
    (c.update u).values = [] ∧ (∀ p, (c.update u).Get p = none) ∧
      (c.update u).GetAll = none := by
  have hv : (c.update u).values = [] := by
    cases u with
    | Set n v s => simp [Update.isBulk] at hb
    | SetAll a s =>
      simp only [Update.serial] at hs
      simp only [CachedProps.update, CachedProps.SetAll, hen, hs]
      cases a.getASV <;> rfl
    | PropertiesChanged ch inv s =>
      simp only [Update.serial] at hs
      simp [CachedProps.update, CachedProps.PropertiesChanged, hen, hs]
  refine ⟨hv, ?_, CachedProps.GetAll_of_values_nil _ hv⟩
  intro p
  simp [CachedProps.Get, hv, StrMap.find]

/-- C3 (instance): the scenario of the specification; after serials 10 and 11 a
signal with serial 5 empties the cache. -/
theorem C3_invalid_serial_clears_witness :
    scenarioAfterSignal.GetAll =
        some (MsgArg.array [svEntry "a" 1, svEntry "b" 3]) ∧
      (scenarioAfterSignal.update (Update.PropertiesChanged [svEntry "b" 4] [] 5)).values = [] ∧
      (∀ p, (scenarioAfterSignal.update
        (Update.PropertiesChanged [svEntry "b" 4] [] 5)).Get p = none) ∧
      (scenarioAfterSignal.update (Update.PropertiesChanged [svEntry "b" 4] [] 5)).GetAll = none :=
  ⟨by rfl, C3_invalid_serial_clears scenarioAfterSignal
    (Update.PropertiesChanged [svEntry "b" 4] [] 5) (by rfl) (by rfl) (by decide)⟩

/-- C4: in every state reached from a freshly constructed cache of a well-formed
interface description, `GetAll` hits exactly when the interface has a property,
all its properties are cacheable and each has a cached value; a hit returns a
dictionary with exactly one entry per property, carrying the cached value; and
after a `PropertiesChanged` update that invalidates a cached property, `GetAll`
misses. -/
theorem C4_GetAll_complete (intf : InterfaceDescription) (ops : List CacheOp)
    (hwf : intf.WellFormed) :
    ((CachedProps.reached intf ops).GetAll.isSome = true ↔
        (intf.properties ≠ [] ∧ (∀ q ∈ intf.properties, q.cacheable = true) ∧
          ∀ q ∈ intf.properties, ((CachedProps.reached intf ops).Get q.name).isSome = true)) ∧
      (∀ r, (CachedProps.reached intf ops).GetAll = some r →
        ∃ entries, r = MsgArg.array entries ∧
          entries.length = intf.properties.length ∧
          (entryNames entries).Perm intf.propertyNames ∧
          ∀ q ∈ intf.properties, ∃ v, (CachedProps.reached intf ops).Get q.name = some v ∧
            MsgArg.dictEntry (MsgArg.str q.name) (MsgArg.variant v.inner) ∈ entries) ∧
      (∀ changed invalidated s p,
        ((CachedProps.reached intf ops).Get p).isSome = true →
        listedIn p invalidated = true →
        ((CachedProps.reached intf ops).PropertiesChanged changed invalidated s).GetAll = none) := by
  have hinv := CachedProps.Inv.reached intf ops
  have hiff := hinv.GetAll_isSome_iff hwf
  refine ⟨hiff, ?_, ?_⟩
  · intro r hr
    obtain ⟨hr1, hr2⟩ := CachedProps.GetAll_eq_some _ r hr
    have hsome : (CachedProps.reached intf ops).GetAll.isSome = true := by
      rw [hr]
      rfl
    obtain ⟨_, _, hcached⟩ := hiff.mp hsome
    refine ⟨_, hr1, ?_, ?_, ?_⟩
    · rw [List.length_map, hr2, hinv.num]
    · rw [entryNames_dict]
      refine ((hinv.ordered.nodup).subperm hinv.keys_subset).perm_of_length_le ?_
      rw [StrMap.length_keys, hr2, hinv.num]
      simp [InterfaceDescription.propertyNames]
    · intro q hq
      have hq2 := hcached q hq
      cases hv : (CachedProps.reached intf ops).Get q.name with
      | none => simp [hv] at hq2
      | some v =>
        refine ⟨v, rfl, ?_⟩
        have hm := StrMap.mem_of_find _ _ _ hv
        exact List.mem_map_of_mem
          (fun kv : String × MsgArg =>
            MsgArg.dictEntry (MsgArg.str kv.1) (MsgArg.variant kv.2.inner)) hm
  · intro changed invalidated s p hp hl
    have hstep : (CachedProps.reached intf ops).PropertiesChanged changed invalidated s =
        CachedProps.reached intf
          (ops ++ [CacheOp.update (Update.PropertiesChanged changed invalidated s)]) := by
      simp only [CachedProps.reached, CachedProps.run_append]
      rfl
    have hnone := CachedProps.PropertiesChanged_listed (CachedProps.reached intf ops)
      changed invalidated s p hinv.disabled hl
    have hpn : p ∈ intf.propertyNames :=
      hinv.keys_subset ((StrMap.find_isSome_iff_mem_keys _ p).mp hp)
    simp only [InterfaceDescription.propertyNames, List.mem_map] at hpn
    obtain ⟨q, hq, hqp⟩ := hpn
    have hinv2 := CachedProps.Inv.reached intf
      (ops ++ [CacheOp.update (Update.PropertiesChanged changed invalidated s)])
    rw [← hstep] at hinv2
    cases hg : ((CachedProps.reached intf ops).PropertiesChanged changed invalidated s).GetAll with
    | none => rfl
    | some r =>
      have hsome : ((CachedProps.reached intf ops).PropertiesChanged
          changed invalidated s).GetAll.isSome = true := by
        rw [hg]
        rfl
      have h3 := ((hinv2.GetAll_isSome_iff hwf).mp hsome).2.2 q hq
      rw [hqp, hnone] at h3
      simp at h3

/-- C4 (instance): the scenario of the specification; with `{a:1,b:3}` cached
`GetAll` hits, and after a signal that invalidates `b` it misses. -/
theorem C4_GetAll_complete_witness :
    scenarioX.WellFormed ∧
      (CachedProps.reached scenarioX
        [CacheOp.Enable,
          CacheOp.update (Update.SetAll (MsgArg.array [svEntry "a" 1, svEntry "b" 2]) 10),
          CacheOp.update (Update.PropertiesChanged [svEntry "b" 3] [] 11)]).GetAll =
        some (MsgArg.array [svEntry "a" 1, svEntry "b" 3]) ∧
      ((CachedProps.reached scenarioX
        [CacheOp.Enable,
          CacheOp.update (Update.SetAll (MsgArg.array [svEntry "a" 1, svEntry "b" 2]) 10),
          CacheOp.update (Update.PropertiesChanged [svEntry "b" 3] [] 11)]).PropertiesChanged
            [] [MsgArg.str "b"] 12).GetAll = none :=
  ⟨by unfold InterfaceDescription.WellFormed; decide, by rfl,
    (C4_GetAll_complete scenarioX
      [CacheOp.Enable,
        CacheOp.update (Update.SetAll (MsgArg.array [svEntry "a" 1, svEntry "b" 2]) 10),
        CacheOp.update (Update.PropertiesChanged [svEntry "b" 3] [] 11)]
      (by unfold InterfaceDescription.WellFormed; decide)).2.2 [] [MsgArg.str "b"] 12 "b" (by rfl) (by rfl)⟩

/-- C5: in every state reached from a freshly constructed cache by `Set`,
`SetAll`, `PropertiesChanged` and `Enable` calls, the cache is still disabled
exactly when `Enable` has not been called, and then the value map is empty,
`Get` and `GetAll` miss, and every update leaves the cache (values and serial
watermark included) as it is. -/
theorem C5_disabled_cache_is_empty (intf : InterfaceDescription) (ops : List CacheOp) :
    (((CachedProps.ctor intf).run ops).enabled = false ↔
        ops.all (fun op => !op.isEnable) = true) ∧
      (((CachedProps.ctor intf).run ops).enabled = false →
        ((CachedProps.ctor intf).run ops).values = [] ∧
        (∀ p, ((CachedProps.ctor intf).run ops).Get p = none) ∧
        ((CachedProps.ctor intf).run ops).GetAll = none ∧
        (∀ u, ((CachedProps.ctor intf).run ops).update u = (CachedProps.ctor intf).run ops)) := by
  constructor
  · rw [CachedProps.run_enabled]
    simp [CachedProps.ctor]
  · intro h
    have hv := CachedProps.run_disabled_values ops (CachedProps.ctor intf) (fun _ => rfl) h
    refine ⟨hv, ?_, CachedProps.GetAll_of_values_nil _ hv, ?_⟩
    · intro p
      simp [CachedProps.Get, hv, StrMap.find]
    · intro u
      exact CachedProps.update_of_disabled _ u h

/-- C6: on an enabled cache, a well-formed `PropertiesChanged` update with a
valid serial removes every invalidated name (also one that is in the changed
list), stores for every cacheable changed name that is not invalidated the value
of its (last) changed entry, leaves every name in neither list as it was, and
sets the serial watermark to the serial of the update. -/
theorem C6_PropertiesChanged_effect (c : CachedProps) (changed invalidated : List MsgArg)
    (s : Nat)
    (hen : c.enabled = true) (hs : c.IsValidMessageSerial s = true)
    (hch : changed.all (fun e => e.getSV.isSome) = true)
    (hinv : invalidated.all (fun e => e.getS.isSome) = true) :
    (∀ p, listedIn p invalidated = true →
        (c.PropertiesChanged changed invalidated s).Get p = none) ∧
      (∀ p, c.IsCacheable p = true → namedIn p changed = true →
        listedIn p invalidated = false →
        ∃ x, lastEntry p changed = some (MsgArg.variant x) ∧
          MsgArg.dictEntry (MsgArg.str p) (MsgArg.variant x) ∈ changed ∧
          (c.PropertiesChanged changed invalidated s).Get p = some (MsgArg.variant x)) ∧
      (∀ p, namedIn p changed = false → listedIn p invalidated = false →
        (c.PropertiesChanged changed invalidated s).Get p = c.Get p) ∧
      (c.PropertiesChanged changed invalidated s).lastMessageSerial = s := by
  obtain ⟨vals2, h1, h2⟩ := CachedProps.PropertiesChanged_spec c changed invalidated s hen hs hch hinv
  rw [h1]
  refine ⟨?_, ?_, ?_, rfl⟩
  · intro p hl
    simp only [CachedProps.Get]
    rw [h2 p, if_pos hl]
  · intro p hc hn hl
    obtain ⟨x, hx1, hx2⟩ := lastEntry_of_namedIn p changed hn
    refine ⟨x, hx1, hx2, ?_⟩
    simp only [CachedProps.Get]
    rw [h2 p, hl, hx1, if_pos hc]
    rfl
  · intro p hn hl
    simp only [CachedProps.Get]
    rw [h2 p, hl, lastEntry_of_not_namedIn p changed hn]
    simp only [Bool.false_eq_true, if_false]
    split_ifs <;> rfl

/-- C6 (instance): the scenario of the specification; the signal
`changed={b:3}` with serial 11 turns `{a:1,b:2}` into `{a:1,b:3}`. -/
theorem C6_PropertiesChanged_effect_witness :
    scenarioAfterGetAll.enabled = true ∧
      scenarioAfterGetAll.IsValidMessageSerial 11 = true ∧
      (scenarioAfterGetAll.PropertiesChanged [svEntry "b" 3] [] 11).Get "a" =
        scenarioAfterGetAll.Get "a" ∧
      (scenarioAfterGetAll.PropertiesChanged [svEntry "b" 3] [] 11).lastMessageSerial = 11 :=
  ⟨by rfl, by decide,
    (C6_PropertiesChanged_effect scenarioAfterGetAll [svEntry "b" 3] [] 11
      (by rfl) (by decide) (by decide) (by decide)).2.2.1 "a" (by decide) (by decide),
    (C6_PropertiesChanged_effect scenarioAfterGetAll [svEntry "b" 3] [] 11
      (by rfl) (by decide) (by decide) (by decide)).2.2.2⟩


/-- C7: for a signal that passes the sender and payload checks, the handler
calls the registered listeners of the interface in order, each with what the
specification describes: a listener with a non-empty subset is called exactly
when a changed or invalidated name of the signal is in its subset and receives
exactly the changed entries and invalidated names of the subset, in the order
of the signal; a listener with the empty subset receives the full lists and is
called exactly when the signal carries a changed or invalidated property. -/
theorem C7_listener_filtering (s : Internal) (thread : Nat) (message : Message)
    (ifaceName : String) (changedProps invalidProps : List MsgArg)
    (hsender : s.uniqueName = message.sender)
    (hargs : message.GetArgs = some (ifaceName, changedProps, invalidProps)) :
    (s.PropertiesChangedHandler thread message).2 =
        (s.snapshot ifaceName).filterMap
          (expectedDelivery ifaceName changedProps invalidProps) ∧
      (∀ ctx : PropertiesChangedCB, ctx.properties ≠ [] →
        ((expectedDelivery ifaceName changedProps invalidProps ctx).isSome = true ↔
          ∃ n ∈ ctx.properties, namedIn n changedProps = true ∨ listedIn n invalidProps = true)) ∧
      (∀ ctx : PropertiesChangedCB, ctx.properties = [] →
        ((expectedDelivery ifaceName changedProps invalidProps ctx).isSome = true ↔
          (changedProps ≠ [] ∨ invalidProps ≠ [])) ∧
        ∀ call, expectedDelivery ifaceName changedProps invalidProps ctx = some call →
          call.changed = MsgArg.array changedProps ∧
          call.invalidated = MsgArg.array invalidProps) := by
  obtain ⟨hch, hinv⟩ := Message.GetArgs_wellFormed message ifaceName changedProps invalidProps hargs
  have hfull1 : ∀ (f : String → Bool), (∀ n, f n = true) → changedProps.filter (fun e =>
      match e.getSV with
      | some (n, _) => f n
      | none => false) = changedProps := by
    intro f hf
    rw [List.filter_eq_self]
    intro a ha
    have := (List.all_eq_true.mp hch) a ha
    cases hk : a.getSV with
    | none => simp [hk] at this
    | some kv => exact hf kv.1
  have hfull2 : ∀ (f : String → Bool), (∀ n, f n = true) → invalidProps.filter (fun e =>
      match e.getS with
      | some n => f n
      | none => false) = invalidProps := by
    intro f hf
    rw [List.filter_eq_self]
    intro a ha
    have := (List.all_eq_true.mp hinv) a ha
    cases hk : a.getS with
    | none => simp [hk] at this
    | some kv => exact hf kv
  refine ⟨?_, ?_, ?_⟩
  · unfold Internal.PropertiesChangedHandler
    simp only [hsender, ne_eq, not_true_eq_false, if_false, hargs]
    apply List.filterMap_congr
    intro ctx hctx
    refine notifyListener_eq_expected ifaceName changedProps invalidProps ctx hch hinv ?_
    simp only [Internal.snapshot, List.mem_map, List.mem_filter, Bool.and_eq_true,
      decide_eq_true_eq] at hctx
    obtain ⟨kv, ⟨_, _, hreg⟩, hkv⟩ := hctx
    rw [← hkv]
    exact hreg
  · intro ctx hne
    have he : ctx.properties.isEmpty = false := by
      cases hp : ctx.properties with
      | nil => exact absurd hp hne
      | cons a l => rfl
    unfold expectedDelivery
    simp only [he, Bool.false_or]
    constructor
    · intro h
      split_ifs at h with hc
      · simp at h
      · simp only [Bool.and_eq_true, List.isEmpty_iff, not_and_or] at hc
        rcases hc with hc | hc
        · obtain ⟨e, he1, he2⟩ := List.exists_mem_of_ne_nil _ hc |>.imp
            (fun e he => List.mem_filter.mp he)
          cases hk : e.getSV with
          | none => simp [hk] at he2
          | some kv =>
            simp only [hk, decide_eq_true_eq] at he2
            refine ⟨kv.1, he2, Or.inl ?_⟩
            simp only [namedIn, List.any_eq_true, decide_eq_true_eq]
            exact ⟨e, he1, by rw [hk]; rfl⟩
        · obtain ⟨e, he1, he2⟩ := List.exists_mem_of_ne_nil _ hc |>.imp
            (fun e he => List.mem_filter.mp he)
          cases hk : e.getS with
          | none => simp [hk] at he2
          | some k =>
            simp only [hk, decide_eq_true_eq] at he2
            refine ⟨k, he2, Or.inr ?_⟩
            simp only [listedIn, List.any_eq_true, decide_eq_true_eq]
            exact ⟨e, he1, hk⟩
    · rintro ⟨n, hn, h | h⟩
      · simp only [namedIn, List.any_eq_true, decide_eq_true_eq] at h
        obtain ⟨e, he1, he2⟩ := h
        have hmem : e ∈ changedProps.filter (fun e =>
            match e.getSV with
            | some (n, _) => decide (n ∈ ctx.properties)
            | none => false) := by
          rw [List.mem_filter]
          refine ⟨he1, ?_⟩
          cases hk : e.getSV with
          | none => simp [hk] at he2
          | some kv =>
            simp only [hk, Option.map_some', Option.some.injEq] at he2
            simp only [decide_eq_true_eq]
            rw [he2]
            exact hn
        have hne2 : ¬ ((changedProps.filter (fun e =>
            match e.getSV with
            | some (n, _) => decide (n ∈ ctx.properties)
            | none => false)).isEmpty = true) := by
          rw [List.isEmpty_iff]
          exact List.ne_nil_of_mem hmem
        simp [hne2]
      · simp only [listedIn, List.any_eq_true, decide_eq_true_eq] at h
        obtain ⟨e, he1, he2⟩ := h
        have hmem : e ∈ invalidProps.filter (fun e =>
            match e.getS with
            | some n => decide (n ∈ ctx.properties)
            | none => false) := by
          rw [List.mem_filter]
          refine ⟨he1, ?_⟩
          simp only [he2, decide_eq_true_eq]
          exact hn
        have hne2 : ¬ ((invalidProps.filter (fun e =>
            match e.getS with
            | some n => decide (n ∈ ctx.properties)
            | none => false)).isEmpty = true) := by
          rw [List.isEmpty_iff]
          exact List.ne_nil_of_mem hmem
        simp [hne2]
  · intro ctx he
    have he2 : ctx.properties.isEmpty = true := by
      rw [he]
      rfl
    unfold expectedDelivery
    simp only [he2, Bool.true_or]
    rw [hfull1 (fun _ => true) (fun _ => rfl), hfull2 (fun _ => true) (fun _ => rfl)]
    constructor
    · cases changedProps <;> cases invalidProps <;> simp
    · intro call hcall
      split_ifs at hcall
      simp only [Option.some.injEq] at hcall
      rw [← hcall]
      exact ⟨rfl, rfl⟩

/-- C7 (instance): the signal `changed={b:3}` reaches the listener of all
properties and the listener of `b`, and not the listener of `a`. -/
theorem C7_listener_filtering_witness :
    ((scenarioProxy.PropertiesChangedHandler 7 (scenarioSignal ":1.5")).2.map
        (fun call => call.listener)) = [1, 2] ∧
      (scenarioProxy.PropertiesChangedHandler 7 (scenarioSignal ":1.5")).2 =
        (scenarioProxy.snapshot "X").filterMap
          (expectedDelivery "X" [svEntry "b" 3] []) :=
  ⟨by rfl,
    (C7_listener_filtering scenarioProxy 7 (scenarioSignal ":1.5") "X" [svEntry "b" 3] []
      (by rfl) (by rfl)).1⟩

/-- C8: a signal whose sender is not the unique name of the proxy, or whose
payload does not parse, changes nothing (caches, watermarks and listener
registrations included) and reaches no listener. -/
theorem C8_dropped_signal_no_effect (s : Internal) (thread : Nat) (message : Message)
    (h : s.uniqueName ≠ message.sender ∨ message.GetArgs = none) :
    s.PropertiesChangedHandler thread message = (s, []) := by
  unfold Internal.PropertiesChangedHandler
  by_cases hs : s.uniqueName = message.sender
  · rcases h with h | h
    · exact absurd hs h
    · simp [hs, h]
  · simp [hs]

/-- C8 (instance): the scenario signal sent by another peer is dropped. -/
theorem C8_dropped_signal_no_effect_witness :
    scenarioProxy.PropertiesChangedHandler 7 (scenarioSignal ":1.9") = (scenarioProxy, []) :=
  C8_dropped_signal_no_effect scenarioProxy 7 (scenarioSignal ":1.9") (Or.inl (by decide))


/-- C9 (as amended): starting without a record for `intf`, on a bus that has
the property-access interface registered, whose `AddMatchAsync` succeeds and
whose completion callback is delivered (at any point, or when a call waits for
it): for `1 ≤ N < 2^32`, `N` acquisitions issue
exactly one `AddMatchAsync` and leave the reference count at `N`; after `N-1`
releases the record is still present with reference count 1 and no
`RemoveMatchNonBlocking` has been issued; the `N`-th release issues exactly one
`RemoveMatchNonBlocking` for the rule and removes the record. -/
theorem C9_refcount_below_wraparound (bus : BusAttachment) (w : Sys) (intf : String)
    (adds rems : List RuleEvent)
    (hP : (bus.GetInterface org.freedesktop.DBus.Properties.InterfaceName).isSome = true)
    (hbus : bus.AddMatchAsync (propertiesChangedRule intf) = QStatus.ER_OK)
    (hfree : w.record intf = none)
    (hadds : ∀ e ∈ adds, e.isRemove = false) (hrems : ∀ e ∈ rems, e.isAdd = false)
    (hN : 1 ≤ adds.countP RuleEvent.isAdd) (hbound : adds.countP RuleEvent.isAdd < 2 ^ 32)
    (hcount : rems.countP RuleEvent.isRemove + 1 = adds.countP RuleEvent.isAdd) :
    ∃ w1 w2 w3,
      Sys.events bus intf w adds = some w1 ∧
      w1.addMatchCalls intf = w.addMatchCalls intf + 1 ∧
      (w1.record intf).map (fun r => r.refCount) = some (adds.countP RuleEvent.isAdd) ∧
      Sys.events bus intf w1 rems = some w2 ∧
      (w2.record intf).map (fun r => r.refCount) = some 1 ∧
      w2.addMatchCalls intf = w.addMatchCalls intf + 1 ∧
      w2.removeMatchCalls intf = w.removeMatchCalls intf ∧
      w2.RemovePropertiesChangedRule bus intf = some w3 ∧
      w3.calls = w2.calls ++ [BusCall.RemoveMatchNonBlocking (propertiesChangedRule intf)] ∧
      w3.record intf = none := by
  have h0 : Sys.Free w intf (w.addMatchCalls intf) (w.removeMatchCalls intf) :=
    ⟨hfree, rfl, rfl⟩
  obtain ⟨w1, hw1, h1⟩ := Sys.events_adds_Free bus intf _ _ hP hbus adds hadds hN w h0
  rw [Nat.mod_eq_of_lt hbound] at h1
  obtain ⟨w2, hw2, h2⟩ := Sys.events_removes_Held bus intf _ _ rems hrems w1 _ hbound
    (by omega) h1
  have hk : adds.countP RuleEvent.isAdd - rems.countP RuleEvent.isRemove = 1 := by omega
  rw [hk] at h2
  obtain ⟨w3, hw3, h3, hc3⟩ := Sys.remove_Held_last bus w2 intf _ _ h2
  obtain ⟨a1, hr1, _, hA1, _⟩ := h1
  obtain ⟨a2, hr2, _, hA2, hR2⟩ := h2
  refine ⟨w1, w2, w3, hw1, hA1, ?_, hw2, ?_, hA2, hR2, hw3, hc3, h3.1⟩
  · rw [hr1]
    rfl
  · rw [hr2]
    rfl

/-- C9 (instance): two acquisitions (one not blocking, one blocking, the
callback delivered in between) and one release on the scenario proxy. -/
theorem C9_refcount_below_wraparound_witness :
    ∃ w1 w2 w3,
      Sys.events busOk "X" scenarioStart
        [RuleEvent.add false, RuleEvent.deliver, RuleEvent.add true] = some w1 ∧
      w1.addMatchCalls "X" = scenarioStart.addMatchCalls "X" + 1 ∧
      (w1.record "X").map (fun r => r.refCount) =
        some ([RuleEvent.add false, RuleEvent.deliver, RuleEvent.add true].countP
          RuleEvent.isAdd) ∧
      Sys.events busOk "X" w1 [RuleEvent.remove, RuleEvent.deliver] = some w2 ∧
      (w2.record "X").map (fun r => r.refCount) = some 1 ∧
      w2.addMatchCalls "X" = scenarioStart.addMatchCalls "X" + 1 ∧
      w2.removeMatchCalls "X" = scenarioStart.removeMatchCalls "X" ∧
      w2.RemovePropertiesChangedRule busOk "X" = some w3 ∧
      w3.calls = w2.calls ++ [BusCall.RemoveMatchNonBlocking (propertiesChangedRule "X")] ∧
      w3.record "X" = none :=
  C9_refcount_below_wraparound busOk scenarioStart "X"
    [RuleEvent.add false, RuleEvent.deliver, RuleEvent.add true]
    [RuleEvent.remove, RuleEvent.deliver]
    (by decide) (by rfl) (by rfl) (by decide) (by decide) (by decide) (by decide) (by decide)

/-- C9 (counterexample to the claim for every `N`): after `2^32 + 1`
acquisitions the 32-bit reference count has wrapped to 1, so the first of the
following `2^32` releases already removes the record and the rule. -/
theorem C9_wraparound_counterexample :
    ∃ w2, Sys.events busOk "X" scenarioStart
        (List.replicate (2 ^ 32 + 1) (RuleEvent.add false) ++
          List.replicate (2 ^ 32) RuleEvent.remove) = some w2 ∧
      w2.record "X" = none ∧ w2.removeMatchCalls "X" = 1 := by
  have h0 : Sys.Free scenarioStart "X" 0 0 := ⟨by rfl, by rfl, by rfl⟩
  have hadds : ∀ e ∈ List.replicate (2 ^ 32 + 1) (RuleEvent.add false), e.isRemove = false := by
    intro e he
    rw [List.eq_of_mem_replicate he]
    rfl
  have hcnt := Sys.countP_replicate_add (2 ^ 32 + 1) false
  obtain ⟨w1, hw1, h1⟩ := Sys.events_adds_Free busOk "X" 0 0 (by decide) (by rfl) _ hadds
    (by rw [hcnt]; exact Nat.le_add_left 1 _) scenarioStart h0
  rw [hcnt] at h1
  have hmod : (2 ^ 32 + 1) % 2 ^ 32 = 1 := by norm_num
  rw [hmod] at h1
  obtain ⟨m, hm⟩ : ∃ m, 2 ^ 32 = m + 1 := ⟨2 ^ 32 - 1, by norm_num⟩
  obtain ⟨w2, hw2, h2, _⟩ := Sys.remove_Held_last busOk w1 "X" _ _ h1
  refine ⟨w2, ?_, h2.1, h2.2.2⟩
  rw [Sys.events_append, hw1, hm, List.replicate_succ]
  show Sys.events busOk "X" w1 (RuleEvent.remove :: List.replicate m RuleEvent.remove) = some w2
  simp only [Sys.events, Sys.event, hw2]
  exact Sys.events_replicate_remove_Free busOk "X" _ _ m w2 h2

/-- C10 (the code at the failing input): when the `AddMatchAsync` call of the
first acquisition fails, the reference count is rolled back to 0 and the cache
is not enabled, but the record stays in the registry with `adding` set: a later
acquisition issues no new `AddMatchAsync`, and a later blocking acquisition or
release never returns. -/
theorem C10_failed_AddMatchAsync_leaves_record :
    (scenarioStart.AddPropertiesChangedRule busFail "X" false).map
        (fun w => (w.record "X", (w.pbo.caches.find "X").map (fun c => c.enabled))) =
      some (some { adding := true, refCount := 0 }, some false) ∧
    ((scenarioStart.AddPropertiesChangedRule busFail "X" false).bind
        (fun w => w.AddPropertiesChangedRule busOk "X" false)).map
        (fun w => (w.addMatchCalls "X", w.record "X")) =
      some (1, some { adding := true, refCount := 1 }) ∧
    ((scenarioStart.AddPropertiesChangedRule busFail "X" false).bind
        (fun w => w.AddPropertiesChangedRule busOk "X" true)).isNone = true ∧
    ((scenarioStart.AddPropertiesChangedRule busFail "X" false).bind
        (fun w => w.RemovePropertiesChangedRule busOk "X")).isNone = true := by
  refine ⟨by decide, by decide, by decide, by decide⟩


/-- C11 (the code at the failing input): `AddMatchCB` does not look at its
status; when the subscribe for `X` completes with `ER_FAIL` the cache of `X` is
enabled all the same, admits the next `Get` reply and serves it. -/
theorem C11_failed_callback_enables_cache :
    (∀ (s : Internal) (status : QStatus) (ifaceName : String),
        s.AddMatchCB status ifaceName = s.AddMatchCB QStatus.ER_OK ifaceName) ∧
    (Sys.events busReplyFail "X" scenarioStart [RuleEvent.add false, RuleEvent.deliver]).map
        (fun w => (w.pbo.caches.find "X").map (fun c => c.enabled)) = some (some true) ∧
    (Sys.events busReplyFail "X" scenarioStart [RuleEvent.add false, RuleEvent.deliver]).map
        (fun w => (w.pbo.caches.find "X").map
          (fun c => (c.Set "a" (MsgArg.variant (MsgArg.uint32 1)) 10).Get "a")) =
      some (some (some (MsgArg.variant (MsgArg.uint32 1)))) := by
  refine ⟨fun _ _ _ => rfl, by decide, by rfl⟩

/-- C14: for `MethodCallAsync` and `MethodCall` on a member whose interface the
proxy implements (local endpoint valid, no disallowed reentrant call): the flags
of the call contain `ALLJOYN_FLAG_ENCRYPTED` exactly when the caller's flags do,
or the policy of the interface is REQUIRED, or the proxy is secure and the
policy is not OFF; every message pushed carries these flags; and when the call
is encrypted while peer security is not enabled the call returns
`ER_BUS_SECURITY_NOT_ENABLED`, pushes no message, registers no reply handler
and leaves the proxy as it is. -/
theorem C14_security_flag_and_gate (env : CallEnv) (s : Internal) (method : Member)
    (replyHandler : Bool) (flags : Nat) (replyMsg : Message)
    (hvalid : env.localEndpointValid = true)
    (himpl : s.ImplementsInterface method.ifaceName = true)
    (hreent : (env.IsReentrantCall && !env.IsDaemon) = false) :
    (s.asyncFlags method replyHandler flags &&& ALLJOYN_FLAG_ENCRYPTED ≠ 0 ↔
        (flags &&& ALLJOYN_FLAG_ENCRYPTED ≠ 0 ∨
          method.ifaceSecPolicy = InterfaceSecurityPolicy.AJ_IFC_SECURITY_REQUIRED ∨
          (s.isSecure = true ∧
            method.ifaceSecPolicy ≠ InterfaceSecurityPolicy.AJ_IFC_SECURITY_OFF))) ∧
      (s.syncFlags method flags &&& ALLJOYN_FLAG_ENCRYPTED ≠ 0 ↔
        (flags &&& ALLJOYN_FLAG_ENCRYPTED ≠ 0 ∨
          method.ifaceSecPolicy = InterfaceSecurityPolicy.AJ_IFC_SECURITY_REQUIRED ∨
          (s.isSecure = true ∧
            method.ifaceSecPolicy ≠ InterfaceSecurityPolicy.AJ_IFC_SECURITY_OFF))) ∧
      (∀ m ∈ (s.MethodCallAsync env method replyHandler flags).2.pushed,
        m.flags = s.asyncFlags method replyHandler flags) ∧
      (∀ m ∈ (s.MethodCall env method flags replyMsg).2.2.2.pushed,
        m.flags = s.syncFlags method flags) ∧
      ((flags &&& ALLJOYN_FLAG_ENCRYPTED ≠ 0 ∨
          method.ifaceSecPolicy = InterfaceSecurityPolicy.AJ_IFC_SECURITY_REQUIRED ∨
          (s.isSecure = true ∧
            method.ifaceSecPolicy ≠ InterfaceSecurityPolicy.AJ_IFC_SECURITY_OFF)) →
        env.IsPeerSecurityEnabled = false →
        s.MethodCallAsync env method replyHandler flags =
            (QStatus.ER_BUS_SECURITY_NOT_ENABLED, {}) ∧
          (s.MethodCall env method flags replyMsg).1 = QStatus.ER_BUS_SECURITY_NOT_ENABLED ∧
          (s.MethodCall env method flags replyMsg).2.1 = s ∧
          (s.MethodCall env method flags replyMsg).2.2.2 = {}) := by
  refine ⟨Internal.asyncFlags_encrypted_iff s method replyHandler flags,
    Internal.syncFlags_encrypted_iff s method flags, ?_, ?_, ?_⟩
  · intro m hm
    unfold Internal.MethodCallAsync at hm
    simp only [hvalid, himpl, Bool.not_true, Bool.false_eq_true, if_false] at hm
    split_ifs at hm <;> simp at hm <;> rw [hm]
  · intro m hm
    rw [Internal.MethodCall_effects env s method flags replyMsg hvalid] at hm
    exact Internal.methodCallBody_pushed env s method _ replyMsg m hm
  · intro henc hpeer
    have ha := (Internal.asyncFlags_encrypted_iff s method replyHandler flags).mpr henc
    have hs := (Internal.syncFlags_encrypted_iff s method flags).mpr henc
    constructor
    · unfold Internal.MethodCallAsync
      simp [hvalid, himpl, hpeer, ha]
    · have hbody : Internal.methodCallBody env s method (s.syncFlags method flags) replyMsg =
          (QStatus.ER_BUS_SECURITY_NOT_ENABLED, replyMsg, {}) := by
        unfold Internal.methodCallBody
        simp [himpl, hreent, hpeer, hs]
      exact Internal.MethodCall_of_body_error env s method flags replyMsg _ _ _ hvalid hbody
        (by decide) (by decide)

/-- C14 (instance): on the secure scenario proxy a plain call of `Ping` is
encrypted, and without peer security it is refused before anything is sent. -/
theorem C14_security_flag_and_gate_witness :
    ({ scenarioProxy with isSecure := true } : Internal).MethodCallAsync
        { IsPeerSecurityEnabled := false } scenarioMember true 0 =
      (QStatus.ER_BUS_SECURITY_NOT_ENABLED, {}) :=
  ((C14_security_flag_and_gate { IsPeerSecurityEnabled := false }
      { scenarioProxy with isSecure := true } scenarioMember true 0
      { sender := "", callSerial := 0, args := [] }
      (by rfl) (by decide) (by rfl)).2.2.2.2
    (Or.inr (Or.inr ⟨by rfl, by decide⟩)) (by rfl)).1

/-- C15: structural errors of method calls have no side effects: an interface
name that is not bound gives `ER_BUS_NO_SUCH_INTERFACE`, a bound interface
without the member gives `ER_BUS_INTERFACE_NO_SUCH_MEMBER`, a member whose
interface the proxy does not implement gives `ER_BUS_OBJECT_NO_SUCH_INTERFACE`
(local endpoint valid, call not reentrant); nothing is pushed, no reply handler
is registered and the proxy is unchanged. -/
theorem C15_structural_errors_no_effect (env : CallEnv) (s : Internal) (replyHandler : Bool)
    (flags : Nat) (replyMsg : Message) :
    (∀ ifaceName methodName, s.ifaces.find ifaceName = none →
        s.MethodCallAsyncByName env ifaceName methodName replyHandler flags =
            (QStatus.ER_BUS_NO_SUCH_INTERFACE, {}) ∧
          s.MethodCallByName env ifaceName methodName flags replyMsg =
            (QStatus.ER_BUS_NO_SUCH_INTERFACE, s, replyMsg, {})) ∧
      (∀ ifaceName methodName d, s.ifaces.find ifaceName = some d →
        d.GetMember methodName = none →
        s.MethodCallAsyncByName env ifaceName methodName replyHandler flags =
            (QStatus.ER_BUS_INTERFACE_NO_SUCH_MEMBER, {}) ∧
          s.MethodCallByName env ifaceName methodName flags replyMsg =
            (QStatus.ER_BUS_INTERFACE_NO_SUCH_MEMBER, s, replyMsg, {})) ∧
      (∀ method : Member, env.localEndpointValid = true →
        (env.IsReentrantCall && !env.IsDaemon) = false →
        s.ImplementsInterface method.ifaceName = false →
        s.MethodCallAsync env method replyHandler flags =
            (QStatus.ER_BUS_OBJECT_NO_SUCH_INTERFACE, {}) ∧
          (s.MethodCall env method flags replyMsg).1 = QStatus.ER_BUS_OBJECT_NO_SUCH_INTERFACE ∧
          (s.MethodCall env method flags replyMsg).2.1 = s ∧
          (s.MethodCall env method flags replyMsg).2.2.2 = {}) := by
  refine ⟨?_, ?_, ?_⟩
  · intro ifaceName methodName h
    simp [Internal.MethodCallAsyncByName, Internal.MethodCallByName, h]
  · intro ifaceName methodName d h hm
    simp [Internal.MethodCallAsyncByName, Internal.MethodCallByName, h, hm]
  · intro method hvalid hreent himpl
    constructor
    · unfold Internal.MethodCallAsync
      simp [hvalid, himpl]
    · have hbody : Internal.methodCallBody env s method (s.syncFlags method flags) replyMsg =
          (QStatus.ER_BUS_OBJECT_NO_SUCH_INTERFACE, replyMsg, {}) := by
        unfold Internal.methodCallBody
        simp [himpl, hreent]
      exact Internal.MethodCall_of_body_error env s method flags replyMsg _ _ _ hvalid hbody
        (by decide) (by decide)

/-- C16: in `MethodCallAsync` with a reply handler (reply expected, checks
passed, message built): when the registration succeeded and the send fails with
a status `E`, the registration is taken back, and the call returns `E` if that
succeeded and `ER_OK` if it failed because the handler had been invoked; when
the registration fails nothing is sent and its status is returned. -/
theorem C16_async_send_failure (env : CallEnv) (s : Internal) (method : Member) (flags : Nat)
    (hvalid : env.localEndpointValid = true)
    (himpl : s.ImplementsInterface method.ifaceName = true)
    (hsec : s.asyncFlags method true flags &&& ALLJOYN_FLAG_ENCRYPTED = 0 ∨
      env.IsPeerSecurityEnabled = true)
    (hmsg : env.CallMsg = QStatus.ER_OK)
    (hreply : flags &&& ALLJOYN_FLAG_NO_REPLY_EXPECTED = 0) :
    (env.RegisterReplyHandler = QStatus.ER_OK → env.PushMessage ≠ QStatus.ER_OK →
        (env.handlerInvokedEarly = false →
          (s.MethodCallAsync env method true flags).1 = env.PushMessage ∧
          (s.MethodCallAsync env method true flags).2.registered = true ∧
          (s.MethodCallAsync env method true flags).2.unregistered = true) ∧
        (env.handlerInvokedEarly = true →
          (s.MethodCallAsync env method true flags).1 = QStatus.ER_OK ∧
          (s.MethodCallAsync env method true flags).2.unregistered = false)) ∧
      (env.RegisterReplyHandler ≠ QStatus.ER_OK →
        s.MethodCallAsync env method true flags = (env.RegisterReplyHandler, {})) := by
  have hnr : s.asyncFlags method true flags &&& ALLJOYN_FLAG_NO_REPLY_EXPECTED = 0 := by
    rw [Internal.asyncFlags_noreply_of_handler]
    exact hreply
  have hgate : ((s.asyncFlags method true flags &&& ALLJOYN_FLAG_ENCRYPTED != 0) &&
      !env.IsPeerSecurityEnabled) = false := by
    rcases hsec with h | h
    · simp [h]
    · simp [h]
  refine ⟨?_, ?_⟩
  · intro hreg hpush
    constructor
    · intro hearly
      unfold Internal.MethodCallAsync
      simp [hvalid, himpl, hgate, hmsg, hnr, hreg, hpush, UnregisterReplyHandler, hearly]
    · intro hearly
      unfold Internal.MethodCallAsync
      simp [hvalid, himpl, hgate, hmsg, hnr, hreg, hpush, UnregisterReplyHandler, hearly]
  · intro hreg
    unfold Internal.MethodCallAsync
    simp [hvalid, himpl, hgate, hmsg, hnr, hreg]

/-- C16 (instance): `Ping` with a reply handler on the scenario proxy, the send
failing with `ER_FAIL` after a successful registration. -/
theorem C16_async_send_failure_witness :
    (scenarioProxy.MethodCallAsync { PushMessage := QStatus.ER_FAIL } scenarioMember true 0).1 =
        QStatus.ER_FAIL ∧
      (scenarioProxy.MethodCallAsync
        { PushMessage := QStatus.ER_FAIL, handlerInvokedEarly := true } scenarioMember true 0).1 =
        QStatus.ER_OK :=
  ⟨(((C16_async_send_failure { PushMessage := QStatus.ER_FAIL } scenarioProxy scenarioMember 0
      (by rfl) (by decide) (Or.inr (by rfl)) (by rfl) (by decide)).1
      (by rfl) (by decide)).1 (by rfl)).1,
   (((C16_async_send_failure { PushMessage := QStatus.ER_FAIL, handlerInvokedEarly := true }
      scenarioProxy scenarioMember 0
      (by rfl) (by decide) (Or.inr (by rfl)) (by rfl) (by decide)).1
      (by rfl) (by decide)).2 (by rfl)).1⟩

/-- C17 (the code at the failing input): `MethodCallAsync` without a reply
handler registers nothing, so when the send fails `UnregisterReplyHandler`
finds no registration and the status is replaced by `ER_OK`: whatever status
`PushMessage` returns, the call returns `ER_OK`. -/
theorem C17_async_no_reply_send_failure_swallowed :
    (∀ E : QStatus,
        (scenarioProxy.MethodCallAsync { PushMessage := E } scenarioMember false 0).1 =
          QStatus.ER_OK) ∧
      scenarioProxy.MethodCallAsync { PushMessage := QStatus.ER_FAIL } scenarioMember false 0 =
        (QStatus.ER_OK,
          { pushed := [{ ifaceName := "X", memberName := "Ping", flags := 1 }],
            registered := false, unregistered := false }) := by
  constructor
  · intro E
    by_cases h : E = QStatus.ER_OK
    · subst h
      decide
    · unfold Internal.MethodCallAsync
      have himpl : scenarioProxy.ImplementsInterface scenarioMember.ifaceName = true := by decide
      have hfl : scenarioProxy.asyncFlags scenarioMember false 0 = 1 := by decide
      simp [himpl, hfl, h, UnregisterReplyHandler, ALLJOYN_FLAG_ENCRYPTED,
        ALLJOYN_FLAG_NO_REPLY_EXPECTED]
  · decide

/-- C18: a synchronous `MethodCall` that receives a reply (call sent, wait
ended with `ER_OK`): for a reply of type error the status is
`ER_PERMISSION_DENIED` when the error name is the permission-denied error name,
or is the AllJoyn status error name with a second argument that carries
`ER_PERMISSION_DENIED`, and `ER_BUS_REPLY_IS_ERROR_MESSAGE` in every other case;
for a reply of type method-return the status is `ER_OK`. -/
theorem C18_reply_status (env : CallEnv) (s : Internal) (method : Member) (flags : Nat)
    (replyMsg : Message)
    (hvalid : env.localEndpointValid = true)
    (hreent : (env.IsReentrantCall && !env.IsDaemon) = false)
    (himpl : s.ImplementsInterface method.ifaceName = true)
    (hsec : s.syncFlags method flags &&& ALLJOYN_FLAG_ENCRYPTED = 0 ∨
      env.IsPeerSecurityEnabled = true)
    (hmsg : env.CallMsg = QStatus.ER_OK) (hman : env.SendManifests = QStatus.ER_OK)
    (hreply : flags &&& ALLJOYN_FLAG_NO_REPLY_EXPECTED = 0)
    (hreg : env.RegisterReplyHandler = QStatus.ER_OK)
    (hwait : Internal.sendAndWait env = QStatus.ER_OK) :
    (env.reply.type = MessageType.MESSAGE_ERROR → isPermissionDenied env env.reply →
        (s.MethodCall env method flags replyMsg).1 = QStatus.ER_PERMISSION_DENIED) ∧
      (env.reply.type = MessageType.MESSAGE_ERROR → ¬ isPermissionDenied env env.reply →
        (s.MethodCall env method flags replyMsg).1 = QStatus.ER_BUS_REPLY_IS_ERROR_MESSAGE) ∧
      (env.reply.type = MessageType.MESSAGE_METHOD_RET →
        (s.MethodCall env method flags replyMsg).1 = QStatus.ER_OK) := by
  have hgate : ((s.syncFlags method flags &&& ALLJOYN_FLAG_ENCRYPTED != 0) &&
      !env.IsPeerSecurityEnabled) = false := by
    rcases hsec with h | h
    · simp [h]
    · simp [h]
  have hnr : s.syncFlags method flags &&& ALLJOYN_FLAG_NO_REPLY_EXPECTED = 0 := by
    rw [Internal.syncFlags_noreply]
    exact hreply
  have hbody := Internal.methodCallBody_of_reply env s method (s.syncFlags method flags) replyMsg
    hreent himpl hgate hmsg hman hnr hreg hwait
  refine ⟨?_, ?_, ?_⟩
  · intro hty hden
    unfold Internal.MethodCall
    simp only [hvalid, Bool.not_true, Bool.false_eq_true, if_false, hbody, hty, if_true]
    simp [Internal.AdjustError_of_denied env env.reply hden]
  · intro hty hden
    unfold Internal.MethodCall
    simp only [hvalid, Bool.not_true, Bool.false_eq_true, if_false, hbody, hty, if_true]
    simp [Internal.AdjustError_of_not_denied env env.reply hden]
  · intro hty
    unfold Internal.MethodCall
    simp [hvalid, hbody, hty]

/-- C18 (instance): `Ping` on the scenario proxy answered by an error reply with
the permission-denied error name. -/
theorem C18_reply_status_witness :
    (scenarioProxy.MethodCall { reply := scenarioDeniedReply } scenarioMember 0
        { sender := "", callSerial := 0, args := [] }).1 = QStatus.ER_PERMISSION_DENIED :=
  (C18_reply_status { reply := scenarioDeniedReply } scenarioProxy scenarioMember 0
    { sender := "", callSerial := 0, args := [] }
    (by rfl) (by rfl) (by decide) (Or.inr (by rfl)) (by rfl) (by rfl) (by decide) (by rfl)
    (by decide)).1 (by rfl) (Or.inl (by rfl))

/-- C12 (as amended): when `UnregisterPropertiesChangedListener(iface, L)` is
called for an interface name known to the bus by a thread that is running the
callback of `L`, it returns `ER_DEADLOCK` at once and the proxy (listener
registrations, their flags, match-rule reference counts) and the bus are exactly
as before. -/
theorem C12_self_unregister_is_refused (bus : BusAttachment) (w : Sys) (thread : Nat)
    (iface : String) (listener : Nat)
    (hknown : (bus.GetInterface iface).isSome = true)
    (hrun : w.pbo.threadRunsListener thread listener = true) :
    w.UnregisterPropertiesChangedListener bus thread iface listener =
      some (QStatus.ER_DEADLOCK, w) := by
  unfold Sys.UnregisterPropertiesChangedListener
  cases hg : bus.GetInterface iface with
  | none => simp [hg] at hknown
  | some d => simp [hrun]

/-- C12 (instance): thread 7, running the callback of listener 2, unregisters
listener 2 from `X`. -/
theorem C12_self_unregister_is_refused_witness :
    scenarioDispatching.UnregisterPropertiesChangedListener busOk 7 "X" 2 =
      some (QStatus.ER_DEADLOCK, scenarioDispatching) :=
  C12_self_unregister_is_refused busOk scenarioDispatching 7 "X" 2 (by rfl) (by rfl)

/-- C12 (counterexample to the claim for every interface name): the same call
with an interface name the bus does not know returns
`ER_BUS_OBJECT_NO_SUCH_INTERFACE`, not `ER_DEADLOCK`. -/
theorem C12_unknown_interface_counterexample :
    scenarioDispatching.pbo.threadRunsListener 7 2 = true ∧
      (scenarioDispatching.UnregisterPropertiesChangedListener busOk 7 "Y" 2).map
        Prod.fst = some QStatus.ER_BUS_OBJECT_NO_SUCH_INTERFACE := by
  constructor
  · rfl
  · rfl

/-- Claim C13: in every state a freshly constructed proxy reaches through
`RegisterPropertiesChangedListener` and `UnregisterPropertiesChangedListener`
calls the listener table holds at most one registration per (interface name,
listener) pair, and on a bus that has the property-access interface registered
and accepts every `AddMatchAsync` call every such sequence of calls returns. Registering a pair the table already holds returns
`ER_OK`; the table then holds, in place of the old registration, the one
registration of the pair with the new property subset and context; the old
registration is marked as no longer registered; the match-rule registry, the
calls made on the bus and the outstanding callbacks are unchanged. -/
theorem C13_listener_table_invariant (bus : BusAttachment) (objPath service : String)
    (isSecure : Bool) :
    (∀ ops w, Sys.listenerOps bus (Sys.fresh objPath service isSecure) ops = some w →
      (registeredPairs w.pbo.propertiesChangedCBs).Nodup) ∧
    ((bus.GetInterface org.freedesktop.DBus.Properties.InterfaceName).isSome = true →
      (∀ rule, bus.AddMatchAsync rule = QStatus.ER_OK) →
      ∀ ops, ∃ w, Sys.listenerOps bus (Sys.fresh objPath service isSecure) ops = some w) ∧
    (∀ ops w iface properties listener context ifc,
      Sys.listenerOps bus (Sys.fresh objPath service isSecure) ops = some w →
      bus.GetInterface iface = some ifc →
      (∀ p ∈ properties, ifc.HasProperty p = true) →
      (iface, listener) ∈ registeredPairs w.pbo.propertiesChangedCBs →
      ∃ old rest w2,
        removeListener iface listener w.pbo.propertiesChangedCBs = some (old, rest) ∧
        old.listener = listener ∧ (iface, old) ∈ w.pbo.propertiesChangedCBs ∧
        (iface, listener) ∉ registeredPairs rest ∧
        w.RegisterPropertiesChangedListener bus iface properties listener context =
          some (QStatus.ER_OK, w2) ∧
        w2.pbo.propertiesChangedCBs =
          rest ++ [(iface, PropertiesChangedCB.ctor listener properties context)] ∧
        w2.pbo.retiredCBs = w.pbo.retiredCBs ++ [{ old with isRegistered := false }] ∧
        w2.pbo.matchRuleBookKeeping = w.pbo.matchRuleBookKeeping ∧
        w2.calls = w.calls ∧ w2.pending = w.pending) := by
  have hfresh : (registeredPairs
      (Sys.fresh objPath service isSecure).pbo.propertiesChangedCBs).Nodup := List.nodup_nil
  refine ⟨fun ops w h => Sys.listenerOps_nodup bus ops _ w hfresh h,
    fun hP hbus ops => Sys.listenerOps_returns bus hP hbus ops _
      (Sys.fresh_settled objPath service isSecure), ?_⟩
  intro ops w iface properties listener context ifc hops hg hprops hmem
  have hn := Sys.listenerOps_nodup bus ops _ w hfresh hops
  obtain ⟨old, rest, hr⟩ := removeListener_of_mem iface listener _ hmem
  obtain ⟨h1, h2, _, _⟩ := removeListener_some iface listener _ old rest hr
  have h3 := (nodup_after_replace iface listener _ rest old
    (PropertiesChangedCB.ctor listener properties context) rfl hn hr).2
  have hp : ¬ (properties.any fun p => !ifc.HasProperty p) = true := by
    intro hany
    obtain ⟨p, hpm, hpf⟩ := List.any_eq_true.mp hany
    rw [hprops p hpm] at hpf
    exact Bool.noConfusion hpf
  refine ⟨old, rest,
    { w with pbo := { w.pbo with
        propertiesChangedCBs :=
          rest ++ [(iface, PropertiesChangedCB.ctor listener properties context)]
        retiredCBs := w.pbo.retiredCBs ++ [{ old with isRegistered := false }] } },
    hr, h1, h2, h3, ?_, rfl, rfl, rfl, rfl, rfl⟩
  unfold Sys.RegisterPropertiesChangedListener
  simp only [hg]
  rw [if_neg hp, hr]

/-- Claim C19: `AddInterface` with a descriptor whose name is already bound
returns `ER_BUS_IFACE_ALREADY_EXISTS` and leaves the whole state as it was: the
interface map still holds the descriptor bound before, the caches, the
has-properties flag and the match-rule registry are unchanged and no call is
made on the bus. -/
theorem C19_duplicate_interface (bus : BusAttachment) (w : Sys)
    (iface bound : InterfaceDescription)
    (h : w.pbo.ifaces.find iface.name = some bound) :
    ∃ w2, w.AddInterface bus iface = some (QStatus.ER_BUS_IFACE_ALREADY_EXISTS, w2) ∧
      w2 = w ∧ w2.pbo.ifaces.find iface.name = some bound ∧
      w2.pbo.caches = w.pbo.caches ∧ w2.pbo.hasProperties = w.pbo.hasProperties ∧
      w2.pbo.matchRuleBookKeeping = w.pbo.matchRuleBookKeeping ∧ w2.calls = w.calls := by
  refine ⟨w, ?_, rfl, h, rfl, rfl, rfl, rfl⟩
  unfold Sys.AddInterface Sys.AddInterfaceAux
  simp only [h]

theorem C19_duplicate_interface_witness :
    scenarioStart.pbo.ifaces.find scenarioX.name = some scenarioX ∧
    ∃ w2, scenarioStart.AddInterface busOk scenarioX =
        some (QStatus.ER_BUS_IFACE_ALREADY_EXISTS, w2) ∧
      w2 = scenarioStart ∧ w2.pbo.ifaces.find scenarioX.name = some scenarioX ∧
      w2.pbo.caches = scenarioStart.pbo.caches ∧
      w2.pbo.hasProperties = scenarioStart.pbo.hasProperties ∧
      w2.pbo.matchRuleBookKeeping = scenarioStart.pbo.matchRuleBookKeeping ∧
      w2.calls = scenarioStart.calls :=
  ⟨by decide, C19_duplicate_interface busOk scenarioStart scenarioX scenarioX (by decide)⟩

/-- Claim C20 (amended): on a bus that has `org.freedesktop.DBus.Properties`
registered every sequence of `AddInterface` and `EnablePropertyCaching` calls
on a freshly constructed proxy returns, and in the state reached, for every
descriptor with at least one property whose name is not yet bound,
`AddInterface` returns `ER_OK` and afterwards the interface map holds the
descriptor under its name and holds an entry for
`org.freedesktop.DBus.Properties`. If caching is enabled and the descriptor has
a cacheable property, the cache of the name is the freshly constructed, not yet
enabled one, the registry held no record of the name before, and a reference
is held for the name exactly when the bus accepts the `AddMatchAsync` call for
the rule of the name: when it accepts, one reference has been acquired (the
record holds reference count 1 and is in the adding state, the last call made
on the bus is that `AddMatchAsync` and its callback is outstanding); when it
rejects, no reference is held for the name. -/
theorem C20_AddInterface_binds (bus : BusAttachment) (propIntf : InterfaceDescription)
    (objPath service : String) (isSecure : Bool) (ops : List BindOp)
    (iface : InterfaceDescription)
    (hprop : bus.GetInterface org.freedesktop.DBus.Properties.InterfaceName = some propIntf)
    (hname : propIntf.name = org.freedesktop.DBus.Properties.InterfaceName) :
    ∃ w, Sys.bindOps bus (Sys.fresh objPath service isSecure) ops = some w ∧
      (w.pbo.ifaces.find iface.name = none → iface.GetProperties > 0 →
        ∃ w2, w.AddInterface bus iface = some (QStatus.ER_OK, w2) ∧
          w2.pbo.ifaces.find iface.name = some iface ∧
          (w2.pbo.ifaces.find org.freedesktop.DBus.Properties.InterfaceName).isSome = true ∧
          (w.pbo.cacheProperties = true → iface.HasCacheableProperties = true →
            w2.pbo.caches.find iface.name = some (CachedProps.ctor iface) ∧
            (CachedProps.ctor iface).enabled = false ∧
            w.record iface.name = none ∧
            (bus.AddMatchAsync (propertiesChangedRule iface.name) = QStatus.ER_OK →
              w2.record iface.name = some { adding := true, refCount := 1 } ∧
              (∃ pre, w2.calls =
                pre ++ [BusCall.AddMatchAsync (propertiesChangedRule iface.name)]) ∧
              iface.name ∈ w2.pending) ∧
            (bus.AddMatchAsync (propertiesChangedRule iface.name) ≠ QStatus.ER_OK →
              ∀ r, w2.record iface.name = some r → r.refCount = 0))) := by
  obtain ⟨w, hw, hinv⟩ := Sys.bindOps_returns bus propIntf hprop hname ops _
    (Sys.fresh_bindInv objPath service isSecure)
  refine ⟨w, hw, fun hnew hprops => ?_⟩
  obtain ⟨w2, a, b, c, d⟩ := Sys.AddInterface_new bus propIntf hprop hname w iface hinv hnew hprops
  refine ⟨w2, a, b, c, fun h1 h2 => ?_⟩
  obtain ⟨d1, d2, d3, d4⟩ := d h1 h2
  exact ⟨d1, rfl, d2, d3, d4⟩

/-- C20 (instance): the scenario bus, caching enabled on a fresh proxy, then
`AddInterface` for `X`. -/
theorem C20_AddInterface_binds_witness :
    busOk.GetInterface org.freedesktop.DBus.Properties.InterfaceName =
        some scenarioPropertiesIntf ∧
    scenarioPropertiesIntf.name = org.freedesktop.DBus.Properties.InterfaceName ∧
    ∃ w, Sys.bindOps busOk (Sys.fresh "/obj" "org.example" false)
        [BindOp.enablePropertyCaching] = some w ∧
      (w.pbo.ifaces.find scenarioX.name = none → scenarioX.GetProperties > 0 →
        ∃ w2, w.AddInterface busOk scenarioX = some (QStatus.ER_OK, w2) ∧
          w2.pbo.ifaces.find scenarioX.name = some scenarioX ∧
          (w2.pbo.ifaces.find org.freedesktop.DBus.Properties.InterfaceName).isSome = true ∧
          (w.pbo.cacheProperties = true → scenarioX.HasCacheableProperties = true →
            w2.pbo.caches.find scenarioX.name = some (CachedProps.ctor scenarioX) ∧
            (CachedProps.ctor scenarioX).enabled = false ∧
            w.record scenarioX.name = none ∧
            (busOk.AddMatchAsync (propertiesChangedRule scenarioX.name) = QStatus.ER_OK →
              w2.record scenarioX.name = some { adding := true, refCount := 1 } ∧
              (∃ pre, w2.calls =
                pre ++ [BusCall.AddMatchAsync (propertiesChangedRule scenarioX.name)]) ∧
              scenarioX.name ∈ w2.pending) ∧
            (busOk.AddMatchAsync (propertiesChangedRule scenarioX.name) ≠ QStatus.ER_OK →
              ∀ r, w2.record scenarioX.name = some r → r.refCount = 0))) :=
  ⟨by decide, rfl,
    C20_AddInterface_binds busOk scenarioPropertiesIntf "/obj" "org.example" false
      [BindOp.enablePropertyCaching] scenarioX (by decide) rfl⟩

/-- C20 (counterexample to the claim for every bus): on a bus that has
`org.freedesktop.DBus.Properties` registered and whose `AddMatchAsync` fails,
with caching enabled, `AddInterface` for the unbound `X` with its two cacheable
properties returns `ER_OK` and creates the cache, but the record of `X` holds
reference count 0 and no callback is outstanding: no reference has been
acquired. -/
theorem C20_failed_AddMatchAsync_counterexample :
    ∃ w w2, Sys.bindOps busFail (Sys.fresh "/obj" "org.example" false)
        [BindOp.enablePropertyCaching] = some w ∧
      busFail.GetInterface org.freedesktop.DBus.Properties.InterfaceName =
        some scenarioPropertiesIntf ∧
      w.pbo.ifaces.find scenarioX.name = none ∧ scenarioX.GetProperties > 0 ∧
      w.pbo.cacheProperties = true ∧ scenarioX.HasCacheableProperties = true ∧
      w.AddInterface busFail scenarioX = some (QStatus.ER_OK, w2) ∧
      w2.pbo.caches.find "X" = some (CachedProps.ctor scenarioX) ∧
      w2.record "X" = some { adding := true, refCount := 0 } ∧
      w2.pending = [] :=
  ⟨_, _, rfl, by decide, rfl, by decide, rfl, by decide, rfl, rfl, rfl, rfl⟩

/-- Claim C24: a synchronous `MethodCall` that has sent its message and waits
for the reply (checks passed, reply expected, handler registered, send
succeeded, proxy not exiting when the send returns): when the wait ends with
`ER_ALERTED_THREAD` and the alert code is `SYNC_METHOD_ALERTCODE_ABORT`, as
after the alert of the destructor, the call returns
`ER_BUS_METHOD_CALL_ABORTED`, which is not the timeout status, whatever reply
message the reply timer has stored in the meantime and whether or not the reply
handler has run; the proxy is left as it is and the reply handler is not
unregistered. When the proxy is found exiting after the send, the call returns
`ER_BUS_STOPPING` and the result does not depend on any outcome of a wait. -/
theorem C24_abort_is_not_timeout (env : CallEnv) (s : Internal) (method : Member) (flags : Nat)
    (replyMsg : Message)
    (hvalid : env.localEndpointValid = true)
    (hreent : (env.IsReentrantCall && !env.IsDaemon) = false)
    (himpl : s.ImplementsInterface method.ifaceName = true)
    (hsec : s.syncFlags method flags &&& ALLJOYN_FLAG_ENCRYPTED = 0 ∨
      env.IsPeerSecurityEnabled = true)
    (hmsg : env.CallMsg = QStatus.ER_OK) (hman : env.SendManifests = QStatus.ER_OK)
    (hreply : flags &&& ALLJOYN_FLAG_NO_REPLY_EXPECTED = 0)
    (hreg : env.RegisterReplyHandler = QStatus.ER_OK)
    (hpush : env.PushMessage = QStatus.ER_OK) :
    (env.isExiting = false → env.waitStatus = QStatus.ER_ALERTED_THREAD →
        env.alertCode = SYNC_METHOD_ALERTCODE_ABORT →
        (s.MethodCall env method flags replyMsg).1 = QStatus.ER_BUS_METHOD_CALL_ABORTED ∧
        (s.MethodCall env method flags replyMsg).1 ≠ QStatus.ER_TIMEOUT ∧
        (s.MethodCall env method flags replyMsg).2.1 = s ∧
        (s.MethodCall env method flags replyMsg).2.2.2.unregistered = false) ∧
      (env.isExiting = true →
        (s.MethodCall env method flags replyMsg).1 = QStatus.ER_BUS_STOPPING ∧
        ∀ (ws : QStatus) (ac : Nat) (rp : Message),
          (s.MethodCall { env with waitStatus := ws, alertCode := ac, reply := rp }
            method flags replyMsg).1 = QStatus.ER_BUS_STOPPING) := by
  have hgate : ∀ e : CallEnv, e.IsPeerSecurityEnabled = env.IsPeerSecurityEnabled →
      ((s.syncFlags method flags &&& ALLJOYN_FLAG_ENCRYPTED != 0) &&
        !e.IsPeerSecurityEnabled) = false := by
    intro e he
    rw [he]
    rcases hsec with h | h
    · simp [h]
    · simp [h]
  have hnr : s.syncFlags method flags &&& ALLJOYN_FLAG_NO_REPLY_EXPECTED = 0 := by
    rw [Internal.syncFlags_noreply]
    exact hreply
  have hstop : ∀ e : CallEnv, e.localEndpointValid = true →
      (e.IsReentrantCall && !e.IsDaemon) = false →
      e.IsPeerSecurityEnabled = env.IsPeerSecurityEnabled →
      e.CallMsg = QStatus.ER_OK → e.SendManifests = QStatus.ER_OK →
      e.RegisterReplyHandler = QStatus.ER_OK → e.PushMessage = QStatus.ER_OK →
      e.isExiting = true →
      (s.MethodCall e method flags replyMsg).1 = QStatus.ER_BUS_STOPPING := by
    intro e h1 h2 h3 h4 h5 h6 h7 h8
    have hw : Internal.sendAndWait e = QStatus.ER_BUS_STOPPING := by
      unfold Internal.sendAndWait
      simp [h7, h8]
    have hbody : Internal.methodCallBody e s method (s.syncFlags method flags) replyMsg =
        (QStatus.ER_BUS_STOPPING, replyMsg,
          { pushed := [{ ifaceName := method.ifaceName, memberName := method.name,
                         flags := s.syncFlags method flags }],
            registered := true, unregistered := UnregisterReplyHandler e true }) := by
      unfold Internal.methodCallBody
      simp [h2, himpl, hgate e h3, h4, h5, hnr, h6, hw]
    exact (Internal.MethodCall_of_body_error e s method flags replyMsg _ _ _ h1 hbody
      (by decide) (by decide)).1
  refine ⟨?_, ?_⟩
  · intro hex hws hac
    have hw : Internal.sendAndWait env = QStatus.ER_ALERTED_THREAD := by
      unfold Internal.sendAndWait
      simp [hpush, hex, hws]
    have hbody : Internal.methodCallBody env s method (s.syncFlags method flags) replyMsg =
        (QStatus.ER_BUS_METHOD_CALL_ABORTED, replyMsg,
          { pushed := [{ ifaceName := method.ifaceName, memberName := method.name,
                         flags := s.syncFlags method flags }],
            registered := true }) := by
      unfold Internal.methodCallBody
      simp [hreent, himpl, hgate env rfl, hmsg, hman, hnr, hreg, hw, hac]
    obtain ⟨a, b, c⟩ := Internal.MethodCall_of_body_error env s method flags replyMsg _ _ _
      hvalid hbody (by decide) (by decide)
    refine ⟨a, ?_, b, ?_⟩
    · rw [a]
      decide
    · rw [c]
  · intro hex
    refine ⟨hstop env hvalid hreent rfl hmsg hman hreg hpush hex, ?_⟩
    intro ws ac rp
    exact hstop _ hvalid hreent rfl hmsg hman hreg hpush hex

/-- C24 (instance): `Ping` on the scenario proxy, the waiting thread alerted
with the abort code while a reply is already stored. -/
theorem C24_abort_is_not_timeout_witness :
    (scenarioProxy.MethodCall
        { waitStatus := QStatus.ER_ALERTED_THREAD, alertCode := SYNC_METHOD_ALERTCODE_ABORT,
          reply := scenarioDeniedReply, handlerInvokedEarly := true }
        scenarioMember 0 { sender := "", callSerial := 0, args := [] }).1 =
      QStatus.ER_BUS_METHOD_CALL_ABORTED :=
  ((C24_abort_is_not_timeout
      { waitStatus := QStatus.ER_ALERTED_THREAD, alertCode := SYNC_METHOD_ALERTCODE_ABORT,
        reply := scenarioDeniedReply, handlerInvokedEarly := true }
      scenarioProxy scenarioMember 0 { sender := "", callSerial := 0, args := [] }
      (by rfl) (by rfl) (by decide) (Or.inr (by rfl)) (by rfl) (by rfl) (by decide) (by rfl)
      (by rfl)).1 (by rfl) (by rfl) (by rfl)).1

/-- Claim C25 (amended): on an enabled cache whose last accepted serial is `L`
the serial check accepts an update that carries the serial `L` itself, and a
value the update carries for a cacheable property is admitted: `Get` returns it
and the watermark stays at `L`. -/
theorem C25_equal_serial_is_accepted (c : CachedProps) (u : Update) (p : String) (v : MsgArg)
    (hen : c.enabled = true) (hwf : u.WellFormed = true)
    (heq : u.serial = c.lastMessageSerial)
    (hp : c.IsCacheable p = true) (hu : u.carried p = some v) :
    c.IsValidMessageSerial u.serial = true ∧ (c.update u).Get p = some v ∧
      (c.update u).lastMessageSerial = c.lastMessageSerial := by
  have hs : c.IsValidMessageSerial u.serial = true := by
    rw [heq]
    unfold CachedProps.IsValidMessageSerial CachedProps.u32sub
    have e31 : (1 <<< 31) % 2 ^ 32 = 2147483648 := by decide
    simp only [e31, ge_iff_le, le_refl, if_true, decide_eq_true_eq]
    omega
  refine ⟨hs, CachedProps.update_sets c u p v hen hwf hs hp hu, ?_⟩
  cases u with
  | Set n val s =>
    simp only [Update.carried] at hu
    split_ifs at hu with hnp
    subst hnp
    simp only [Update.serial] at hs heq
    simp only [CachedProps.update, CachedProps.Set, hp, hen, hs]
    exact heq
  | SetAll a s =>
    simp only [Update.serial] at hs heq
    simp only [Update.WellFormed] at hwf
    cases hg : a.getASV with
    | none =>
      rw [hg] at hwf
      exact Bool.noConfusion hwf
    | some elems =>
      obtain ⟨vals2, h2, _⟩ := CachedProps.SetAll_spec c a elems s hen hs hg
      show (c.SetAll a s).lastMessageSerial = _
      rw [h2]
      exact heq
  | PropertiesChanged ch inv s =>
    simp only [Update.serial] at hs heq
    simp only [Update.WellFormed, Bool.and_eq_true] at hwf
    obtain ⟨vals2, h2, _⟩ := CachedProps.PropertiesChanged_spec c ch inv s hen hs hwf.1 hwf.2
    show (c.PropertiesChanged ch inv s).lastMessageSerial = _
    rw [h2]
    exact heq

/-- C25 (instance): the cache of the scenario after the `GetAll` reply with
serial 10; a `Get` reply for `a` with serial 10 is admitted. -/
theorem C25_equal_serial_is_accepted_witness :
    scenarioAfterGetAll.IsValidMessageSerial
        (Update.Set "a" (MsgArg.variant (MsgArg.uint32 7)) 10).serial = true ∧
      (scenarioAfterGetAll.update (Update.Set "a" (MsgArg.variant (MsgArg.uint32 7)) 10)).Get "a" =
        some (MsgArg.variant (MsgArg.uint32 7)) ∧
      (scenarioAfterGetAll.update
        (Update.Set "a" (MsgArg.variant (MsgArg.uint32 7)) 10)).lastMessageSerial =
        scenarioAfterGetAll.lastMessageSerial :=
  C25_equal_serial_is_accepted scenarioAfterGetAll
    (Update.Set "a" (MsgArg.variant (MsgArg.uint32 7)) 10) "a" (MsgArg.variant (MsgArg.uint32 7))
    (by rfl) (by rfl) (by rfl) (by decide) (by rfl)

/-- C25 (counterexample to the claim): the enabled cache of the scenario holds
`a = 1` with the last accepted serial 10; the check accepts the serial 10 again,
and each kind of update with that serial replaces the value of `a`. -/
theorem C25_duplicate_serial_counterexample :
    scenarioAfterGetAll.enabled = true ∧ scenarioAfterGetAll.lastMessageSerial = 10 ∧
      scenarioAfterGetAll.Get "a" = some (MsgArg.variant (MsgArg.uint32 1)) ∧
      scenarioAfterGetAll.IsValidMessageSerial 10 = true ∧
      (scenarioAfterGetAll.Set "a" (MsgArg.variant (MsgArg.uint32 7)) 10).Get "a" =
        some (MsgArg.variant (MsgArg.uint32 7)) ∧
      (scenarioAfterGetAll.SetAll (MsgArg.array [svEntry "a" 8]) 10).Get "a" =
        some (MsgArg.variant (MsgArg.uint32 8)) ∧
      (scenarioAfterGetAll.PropertiesChanged [svEntry "a" 9] [] 10).Get "a" =
        some (MsgArg.variant (MsgArg.uint32 9)) :=
  ⟨rfl, rfl, rfl, by decide, rfl, rfl, rfl⟩

/-- Claim C26 (amended): on an enabled cache, whatever it holds, a `Set` with a
serial that fails the validity check empties the cache when the property name
is a cacheable property of the interface, so that `Get` misses for every name;
for any other property name `Set` returns before the serial is looked at and
the cache is left as it is. -/
theorem C26_Set_invalid_serial (c : CachedProps) (propname : String) (val : MsgArg) (S : Nat)
    (hen : c.enabled = true) (hs : c.IsValidMessageSerial S = false) :
    (c.IsCacheable propname = true →
        (c.Set propname val S).values = [] ∧ ∀ q, (c.Set propname val S).Get q = none) ∧
      (c.IsCacheable propname = false → c.Set propname val S = c) := by
  refine ⟨?_, ?_⟩
  · intro hc
    have hv : (c.Set propname val S).values = [] := by
      simp [CachedProps.Set, hc, hen, hs]
    refine ⟨hv, ?_⟩
    intro q
    simp [CachedProps.Get, hv, StrMap.find]
  · intro hc
    simp [CachedProps.Set, hc]

/-- C26 (instance): the cache of the scenario after serial 11; a `Get` reply for
`a` with the stale serial 5 empties it. -/
theorem C26_Set_invalid_serial_witness :
    scenarioAfterSignal.enabled = true ∧
      scenarioAfterSignal.IsValidMessageSerial 5 = false ∧
      scenarioAfterSignal.Get "b" = some (MsgArg.variant (MsgArg.uint32 3)) ∧
      (scenarioAfterSignal.Set "a" (MsgArg.variant (MsgArg.uint32 7)) 5).values = [] ∧
      (scenarioAfterSignal.Set "a" (MsgArg.variant (MsgArg.uint32 7)) 5).Get "b" = none :=
  ⟨rfl, by decide, rfl,
    ((C26_Set_invalid_serial scenarioAfterSignal "a" (MsgArg.variant (MsgArg.uint32 7)) 5
      (by rfl) (by decide)).1 (by decide)).1,
    ((C26_Set_invalid_serial scenarioAfterSignal "a" (MsgArg.variant (MsgArg.uint32 7)) 5
      (by rfl) (by decide)).1 (by decide)).2 "b"⟩

/-- C26 (counterexample to the claim for every property name): the cache of the
scenario after serial 11 holds `a = 1`; a `Set` for the name `c`, which is not a
property of `X`, with the stale serial 5 does not empty the cache: `Get` still
hits for `a`. -/
theorem C26_not_cacheable_counterexample :
    scenarioAfterSignal.enabled = true ∧
      scenarioAfterSignal.IsValidMessageSerial 5 = false ∧
      (scenarioAfterSignal.Set "c" (MsgArg.variant (MsgArg.uint32 7)) 5).Get "a" =
        some (MsgArg.variant (MsgArg.uint32 1)) ∧
      (scenarioAfterSignal.Set "c" (MsgArg.variant (MsgArg.uint32 7)) 5).values ≠ [] := by
  refine ⟨rfl, by decide, rfl, ?_⟩
  intro h
  have h2 : (scenarioAfterSignal.Set "c" (MsgArg.variant (MsgArg.uint32 7)) 5).Get "a" = none := by
    unfold CachedProps.Get
    rw [h]
    rfl
  exact Option.noConfusion (h2.symm.trans (rfl :
    (scenarioAfterSignal.Set "c" (MsgArg.variant (MsgArg.uint32 7)) 5).Get "a" =
      some (MsgArg.variant (MsgArg.uint32 1))))

/-- Claim C28: the listener calls made by `PropertiesChangedHandler` for a
signal do not depend on the property cache: a state that differs only in the
caching flag and in the caches yields the same calls, in the same order, with
the same changed and invalidated lists. In particular, when the cache of the
interface rejects the serial of the signal and is emptied, the calls are still
those of the full dispatch over the registered listeners. -/
theorem C28_notification_independent_of_cache (s : Internal) (thread : Nat) (message : Message)
    (flag : Bool) (caches : StrMap CachedProps) :
    (({ s with cacheProperties := flag, caches := caches } : Internal).PropertiesChangedHandler
        thread message).2 = (s.PropertiesChangedHandler thread message).2 ∧
      (∀ ifaceName changedProps invalidProps c,
        s.uniqueName = message.sender →
        message.GetArgs = some (ifaceName, changedProps, invalidProps) →
        s.cacheProperties = true → s.caches.find ifaceName = some c → c.enabled = true →
        c.IsValidMessageSerial message.callSerial = false →
        (s.PropertiesChangedHandler thread message).2 =
            (s.snapshot ifaceName).filterMap (notifyListener ifaceName changedProps invalidProps) ∧
          ((s.PropertiesChangedHandler thread message).1.caches.find ifaceName).map
            (fun c2 => c2.values) = some []) := by
  refine ⟨?_, ?_⟩
  · unfold Internal.PropertiesChangedHandler
    by_cases hu : s.uniqueName = message.sender
    · simp only [hu, ne_eq, not_true_eq_false, if_false]
      cases message.GetArgs with
      | none => rfl
      | some r => rfl
    · simp only [hu, ne_eq, not_false_eq_true, if_true]
  · intro ifaceName changedProps invalidProps c hu hargs hflag hfind hen hser
    unfold Internal.PropertiesChangedHandler
    simp only [hu, ne_eq, not_true_eq_false, if_false, hargs, hflag, if_true, hfind]
    refine ⟨trivial, ?_⟩
    rw [StrMap.find_assign_same]
    simp [CachedProps.PropertiesChanged, hen, hser]

/-- Claim C29: `Internal::operator<` is the lexicographic order on (path,
service name); it is irreflexive and transitive, and two internals are
incomparable exactly when `Internal::operator==` holds, which is the case
exactly when their paths and their service names are equal. -/
theorem C29_operator_lt_strict_weak_order :
    (∀ a b : Internal, a.operatorLt b = true ↔
        (keyLess a.path b.path = true ∨
          (a.path = b.path ∧ keyLess a.serviceName b.serviceName = true))) ∧
      (∀ a : Internal, a.operatorLt a = false) ∧
      (∀ a b c : Internal, a.operatorLt b = true → b.operatorLt c = true →
        a.operatorLt c = true) ∧
      (∀ (a b : Internal) (sameObject : Bool), (sameObject = true → a = b) →
        ((a.operatorLt b = false ∧ b.operatorLt a = false) ↔
          a.operatorEq b sameObject = true)) ∧
      (∀ (a b : Internal) (sameObject : Bool), (sameObject = true → a = b) →
        (a.operatorEq b sameObject = true ↔
          (a.path = b.path ∧ a.serviceName = b.serviceName))) := by
  have hlt : ∀ a b : Internal, a.operatorLt b = true ↔
      (keyLess a.path b.path = true ∨
        (a.path = b.path ∧ keyLess a.serviceName b.serviceName = true)) := by
    intro a b
    unfold Internal.operatorLt
    simp only [Bool.or_eq_true, Bool.and_eq_true, decide_eq_true_eq]
  have heq : ∀ (a b : Internal) (sameObject : Bool), (sameObject = true → a = b) →
      (a.operatorEq b sameObject = true ↔
        (a.path = b.path ∧ a.serviceName = b.serviceName)) := by
    intro a b so hso
    unfold Internal.operatorEq
    simp only [Bool.or_eq_true, Bool.and_eq_true, decide_eq_true_eq]
    constructor
    · rintro (h | h)
      · rw [hso h]
        exact ⟨rfl, rfl⟩
      · exact h
    · intro h
      exact Or.inr h
  have hirr : ∀ a : Internal, a.operatorLt a = false := by
    intro a
    apply Bool.eq_false_iff.mpr
    intro h
    rcases (hlt a a).mp h with h1 | ⟨_, h2⟩
    · rw [keyLess_irrefl] at h1
      exact Bool.noConfusion h1
    · rw [keyLess_irrefl] at h2
      exact Bool.noConfusion h2
  refine ⟨hlt, hirr, ?_, ?_, heq⟩
  · intro a b c hab hbc
    apply (hlt a c).mpr
    rcases (hlt a b).mp hab with h1 | ⟨e1, h1⟩
    · rcases (hlt b c).mp hbc with h2 | ⟨e2, _⟩
      · exact Or.inl (keyLess_trans h1 h2)
      · rw [← e2]
        exact Or.inl h1
    · rcases (hlt b c).mp hbc with h2 | ⟨e2, h2⟩
      · rw [e1]
        exact Or.inl h2
      · exact Or.inr ⟨e1.trans e2, keyLess_trans h1 h2⟩
  · intro a b so hso
    rw [heq a b so hso]
    constructor
    · rintro ⟨h1, h2⟩
      have n1 : ¬ (keyLess a.path b.path = true ∨
          (a.path = b.path ∧ keyLess a.serviceName b.serviceName = true)) :=
        fun h => Bool.noConfusion (h1.symm.trans ((hlt a b).mpr h))
      have n2 : ¬ (keyLess b.path a.path = true ∨
          (b.path = a.path ∧ keyLess b.serviceName a.serviceName = true)) :=
        fun h => Bool.noConfusion (h2.symm.trans ((hlt b a).mpr h))
      have p1 : keyLess a.path b.path = false :=
        Bool.eq_false_iff.mpr (fun h => n1 (Or.inl h))
      have p2 : keyLess b.path a.path = false :=
        Bool.eq_false_iff.mpr (fun h => n2 (Or.inl h))
      have hp : a.path = b.path := keyLess_total p1 p2
      have q1 : keyLess a.serviceName b.serviceName = false :=
        Bool.eq_false_iff.mpr (fun h => n1 (Or.inr ⟨hp, h⟩))
      have q2 : keyLess b.serviceName a.serviceName = false :=
        Bool.eq_false_iff.mpr (fun h => n2 (Or.inr ⟨hp.symm, h⟩))
      exact ⟨hp, keyLess_total q1 q2⟩
    · rintro ⟨hp, hsn⟩
      constructor
      · apply Bool.eq_false_iff.mpr
        intro h
        rcases (hlt a b).mp h with h1 | ⟨_, h2⟩
        · exact keyLess_ne h1 hp
        · exact keyLess_ne h2 hsn
      · apply Bool.eq_false_iff.mpr
        intro h
        rcases (hlt b a).mp h with h1 | ⟨_, h2⟩
        · exact keyLess_ne h1 hp.symm
        · exact keyLess_ne h2 hsn.symm

/-- Claim C21: for a proxy whose path `P` starts with `'/'`, on a bus that has the
property-access interface registered, and a child whose path `C` starts with
`P` and a `'/'` (`P` alone when `P` is `"/"`), does not end with `'/'`, and for
which `GetChild(C)` is NULL: `AddChild` returns `ER_OK`; afterwards
`GetChild(C)` returns the child; for every part `Q` of `C` that a `'/'`
follows, that is below `P` and does not end with `'/'`, `GetChild(Q)` returns a
proxy whose path is `Q`; `GetChild` of a relative path returns what it returns
for the absolute path; every proxy that `GetChild` returned before is still
returned, with the same `Internal`; and sibling paths stay distinct. -/
theorem C21_AddChild_then_GetChild (bus : BusAttachment) (self child : ProxyBusObject)
    (hbus : (bus.GetInterface org.freedesktop.DBus.Properties.InterfaceName).isSome = true)
    (hroot : self.internal.path.data.head? = some '/')
    (hbelow : ∃ t, child.GetPath.data = pathSlash self.internal.path ++ t)
    (hend : child.GetPath.data.getLast? ≠ some '/')
    (hnew : self.GetChild child.GetPath = some none) :
    ∃ self2, self.AddChild bus child = some (QStatus.ER_OK, self2) ∧
      self2.internal = self.internal ∧
      self2.GetChild child.GetPath = some (some child) ∧
      (∀ q rest, child.GetPath.data = q ++ '/' :: rest →
        (∃ t, q = pathSlash self.internal.path ++ t) → q.getLast? ≠ some '/' →
          ∃ n, self2.GetChild (String.mk q) = some (some n) ∧ n.GetPath.data = q) ∧
      (∀ rel : String, rel.data.head? ≠ some '/' →
        self2.GetChild rel =
          self2.GetChild (String.mk (pathSlash self.internal.path ++ rel.data))) ∧
      (∀ inPath n, self.GetChild inPath = some (some n) →
        ∃ n2, self2.GetChild inPath = some (some n2) ∧ n2.internal = n.internal) ∧
      (self.Distinct → child.Distinct → self2.Distinct) := by
  obtain ⟨t, ht⟩ := hbelow
  have hhead : child.GetPath.data.head? = some '/' :=
    ProxyBusObject.head_of_below _ _ t hroot ht
  have hb : badChildPath (pathSlash self.internal.path) child.GetPath.data = false :=
    (badChildPath_false _ _).mpr ⟨⟨t, ht⟩, hend⟩
  have habs : absolutePath self.internal.path child.GetPath = child.GetPath.data :=
    ProxyBusObject.absolutePath_of_slash _ _ hhead
  rw [ProxyBusObject.GetChild_eq, habs, hb] at hnew
  simp only [Bool.false_eq_true, if_false] at hnew
  have hd := Option.some.inj hnew
  have hlast := pathItems_getLast child.GetPath.data (self.internal.path.length + 1) hend
  obtain ⟨r, hr⟩ := ProxyBusObject.addAlong_returns bus self.internal child
    (fun path => ProxyBusObject.ctor_returns bus hbus _ _ path false)
    (pathItems child.GetPath.data (self.internal.path.length + 1)) self
  obtain ⟨st, self2⟩ := r
  obtain ⟨hst, hd2⟩ := ProxyBusObject.addAlong_new bus self.internal child _ self st self2
    hlast hd hr
  have hint := ProxyBusObject.addAlong_internal bus self.internal child _ _ _ _ hr
  refine ⟨self2, ?_, hint, ?_, ?_, ?_, ?_, ?_⟩
  · rw [ProxyBusObject.AddChild_eq bus self child hroot, hb]
    simp only [Bool.false_eq_true, if_false]
    rw [hr, hst]
  · rw [ProxyBusObject.GetChild_eq, hint, habs, hb]
    simp only [Bool.false_eq_true, if_false]
    rw [hd2]
  · rintro q rest hq ⟨tq, htq⟩ hqend
    have hrest : rest ≠ [] := by
      intro e
      apply hend
      rw [hq, e]
      simp
    have hqlen := sane_length _ _ tq htq hqend
    have hqb : badChildPath (pathSlash self.internal.path) q = false :=
      (badChildPath_false _ _).mpr ⟨⟨tq, htq⟩, hqend⟩
    have hqabs : absolutePath self.internal.path (String.mk q) = q :=
      ProxyBusObject.absolutePath_of_slash _ _
        (ProxyBusObject.head_of_below _ _ tq hroot htq)
    obtain ⟨init, hinit⟩ := exists_init_of_getLast _ _
      (pathItems_getLast q (self.internal.path.length + 1) hqend)
    have hitems : pathItems child.GetPath.data (self.internal.path.length + 1) =
        init ++ q :: pathItems (q ++ '/' :: rest) (q.length + 1) := by
      rw [hq, pathItems_append q rest _ hrest hqend hqlen, hinit, List.append_assoc]
      rfl
    rw [hitems] at hr
    obtain ⟨n, hn, hnq⟩ := ProxyBusObject.addAlong_visits bus self.internal child q _
      (pathItems_ne_nil _ _) init self st self2 hr
    refine ⟨n, ?_, hnq⟩
    rw [ProxyBusObject.GetChild_eq, hint, hqabs, hqb]
    simp only [Bool.false_eq_true, if_false]
    rw [hinit, hn]
  · intro rel hrel
    have e1 : absolutePath self.internal.path rel = pathSlash self.internal.path ++ rel.data :=
      ProxyBusObject.absolutePath_relative _ _ hrel
    have e2 : absolutePath self.internal.path
        (String.mk (pathSlash self.internal.path ++ rel.data)) =
        pathSlash self.internal.path ++ rel.data :=
      ProxyBusObject.absolutePath_of_slash _ _
        (ProxyBusObject.head_of_below _ _ rel.data hroot rfl)
    rw [ProxyBusObject.GetChild_eq, ProxyBusObject.GetChild_eq, hint, e1, e2]
  · intro inPath n hg
    rw [ProxyBusObject.GetChild_eq] at hg
    rw [ProxyBusObject.GetChild_eq, hint]
    by_cases hbad : badChildPath (pathSlash self.internal.path)
        (absolutePath self.internal.path inPath) = true
    · rw [if_pos hbad] at hg
      have h2 := Option.some.inj hg
      exact Option.noConfusion h2
    · rw [if_neg hbad] at hg
      rw [if_neg hbad]
      obtain ⟨n2, hn2, hi2⟩ := ProxyBusObject.addAlong_keeps bus self.internal child _ _ self st
        self2 n (Option.some.inj hg) hr
      exact ⟨n2, by rw [hn2], hi2⟩
  · intro hself hchild
    exact ProxyBusObject.addAlong_distinct bus self.internal child hchild _ self st self2
      hlast hself hr

/-- Claim C21, at the proxy `/foo` without children and the child `/foo/bar/baz`:
the placeholder `/foo/bar` is created. -/
theorem C21_AddChild_then_GetChild_witness :
    (busOk.GetInterface org.freedesktop.DBus.Properties.InterfaceName).isSome = true ∧
      scenarioTreeRoot.GetChild "/foo/bar/baz" = some none ∧
      ∃ self2, scenarioTreeRoot.AddChild busOk scenarioTreeChild = some (QStatus.ER_OK, self2) ∧
        self2.GetChild "/foo/bar/baz" = some (some scenarioTreeChild) ∧
        (∃ n, self2.GetChild "/foo/bar" = some (some n) ∧ n.GetPath.data = "/foo/bar".data) ∧
        self2.GetChild "bar/baz" = self2.GetChild "/foo/bar/baz" := by
  refine ⟨by decide, rfl, ?_⟩
  obtain ⟨self2, h1, _, h3, h4, h5, _, _⟩ :=
    C21_AddChild_then_GetChild busOk scenarioTreeRoot scenarioTreeChild (by decide) (by decide)
      ⟨"bar/baz".data, by decide⟩ (by decide) rfl
  exact ⟨self2, h1, h3, h4 "/foo/bar".data "baz".data (by decide) ⟨"bar".data, by decide⟩
    (by decide), h5 "bar/baz" (by decide)⟩

/-- Claim C22: for a proxy whose path starts with `'/'`, a child tree with distinct
sibling paths, and a path below the path of the proxy that does not end with
`'/'`: when `GetChild` of the path is not NULL, `RemoveChild` returns `ER_OK`,
afterwards `GetChild` of the path and of every path below it returns NULL, and
`GetChild` of every other path returns a proxy with the same `Internal` as
before, and the same proxy when the path is not above the removed one; when
`GetChild` of the path is NULL, `RemoveChild` returns `ER_BUS_OBJ_NOT_FOUND` and
changes nothing; `AddChild` of a child whose path is in the tree returns
`ER_BUS_OBJ_ALREADY_EXISTS` and changes nothing. -/
theorem C22_RemoveChild_and_duplicate (bus : BusAttachment) (self : ProxyBusObject)
    (inPath : String)
    (hroot : self.internal.path.data.head? = some '/')
    (hdist : self.Distinct)
    (hbelow : ∃ t, absolutePath self.internal.path inPath = pathSlash self.internal.path ++ t)
    (hend : (absolutePath self.internal.path inPath).getLast? ≠ some '/') :
    (∀ n, self.GetChild inPath = some (some n) →
      ∃ self2, self.RemoveChild inPath = some (QStatus.ER_OK, self2) ∧
        self2.internal = self.internal ∧ self2.Distinct ∧
        self2.GetChild inPath = some none ∧
        (∀ other : String,
          (∃ rest, absolutePath self.internal.path other =
            absolutePath self.internal.path inPath ++ '/' :: rest) →
          self2.GetChild other = some none) ∧
        (∀ other : String,
          absolutePath self.internal.path other ≠ absolutePath self.internal.path inPath →
          (∀ rest, absolutePath self.internal.path other ≠
            absolutePath self.internal.path inPath ++ '/' :: rest) →
          (self2.GetChild other).map (Option.map (fun p => p.internal)) =
              (self.GetChild other).map (Option.map (fun p => p.internal)) ∧
            ((∀ rest, absolutePath self.internal.path inPath ≠
                absolutePath self.internal.path other ++ '/' :: rest) →
              self2.GetChild other = self.GetChild other))) ∧
      (self.GetChild inPath = some none →
        self.RemoveChild inPath = some (QStatus.ER_BUS_OBJ_NOT_FOUND, self)) ∧
      (∀ child : ProxyBusObject,
        child.GetPath.data = absolutePath self.internal.path inPath →
        (∃ n, self.GetChild inPath = some (some n)) →
        self.AddChild bus child = some (QStatus.ER_BUS_OBJ_ALREADY_EXISTS, self)) := by
  obtain ⟨t, ht⟩ := hbelow
  have hb : badChildPath (pathSlash self.internal.path)
      (absolutePath self.internal.path inPath) = false :=
    (badChildPath_false _ _).mpr ⟨⟨t, ht⟩, hend⟩
  have hlen := sane_length _ _ t ht hend
  have hne := pathItems_ne_nil (absolutePath self.internal.path inPath)
    (self.internal.path.length + 1)
  have hget : self.GetChild inPath = some (ProxyBusObject.descend self
      (pathItems (absolutePath self.internal.path inPath) (self.internal.path.length + 1))) := by
    rw [ProxyBusObject.GetChild_eq, hb]
    rfl
  have hrem : self.RemoveChild inPath = some (ProxyBusObject.removeAlong self
      (pathItems (absolutePath self.internal.path inPath) (self.internal.path.length + 1))) := by
    rw [ProxyBusObject.RemoveChild_eq, hb]
    rfl
  refine ⟨?_, ?_, ?_⟩
  · intro n hn
    rw [hget] at hn
    have hd := Option.some.inj hn
    have hint := ProxyBusObject.removeAlong_internal
      (pathItems (absolutePath self.internal.path inPath) (self.internal.path.length + 1)) self
    have hgone := ProxyBusObject.removeAlong_gone _ self n hdist hne hd
    refine ⟨(ProxyBusObject.removeAlong self (pathItems (absolutePath self.internal.path inPath)
      (self.internal.path.length + 1))).2, ?_, hint,
      ProxyBusObject.removeAlong_distinct _ self hdist, ?_, ?_, ?_⟩
    · rw [hrem, ← ProxyBusObject.removeAlong_found _ self n hne hd]
    · rw [ProxyBusObject.GetChild_eq, hint, hb]
      simp only [Bool.false_eq_true, if_false]
      have h2 := hgone []
      rw [List.append_nil] at h2
      rw [h2]
    · rintro other ⟨rest, hother⟩
      rw [ProxyBusObject.GetChild_eq, hint]
      by_cases hbad : badChildPath (pathSlash self.internal.path)
          (absolutePath self.internal.path other) = true
      · rw [if_pos hbad]
      · rw [if_neg hbad]
        obtain ⟨_, hoend⟩ := (badChildPath_false _ _).mp (Bool.eq_false_iff.mpr hbad)
        have hrest : rest ≠ [] := by
          intro e
          apply hoend
          rw [hother, e]
          simp
        rw [hother, pathItems_append _ rest _ hrest hend hlen, hgone]
    · intro other h1 h2
      have hother := pathItems_other (absolutePath self.internal.path inPath)
        (absolutePath self.internal.path other) (self.internal.path.length + 1) hend h1 h2
      obtain ⟨k1, k2⟩ := ProxyBusObject.removeAlong_other _ self _ hother
      rw [ProxyBusObject.GetChild_eq, ProxyBusObject.GetChild_eq, hint]
      by_cases hbad : badChildPath (pathSlash self.internal.path)
          (absolutePath self.internal.path other) = true
      · rw [if_pos hbad, if_pos hbad]
        exact ⟨rfl, fun _ => rfl⟩
      · rw [if_neg hbad, if_neg hbad]
        obtain ⟨_, hoend⟩ := (badChildPath_false _ _).mp (Bool.eq_false_iff.mpr hbad)
        refine ⟨?_, ?_⟩
        · exact congrArg some k1
        · intro h3
          have h4 : ∀ more, pathItems (absolutePath self.internal.path inPath)
              (self.internal.path.length + 1) ≠
              pathItems (absolutePath self.internal.path other)
                (self.internal.path.length + 1) ++ more :=
            pathItems_other _ _ _ hoend (fun e => h1 e.symm) h3
          rw [k2 h4]
  · intro hn
    rw [hget] at hn
    have hd := Option.some.inj hn
    rw [hrem, ProxyBusObject.removeAlong_missing _ self hne hd]
  · rintro child hchild ⟨n, hn⟩
    rw [hget] at hn
    have hd := Option.some.inj hn
    rw [ProxyBusObject.AddChild_eq bus self child hroot, hchild, hb]
    simp only [Bool.false_eq_true, if_false]
    exact ProxyBusObject.addAlong_exists bus self.internal child _ self n hne hd

/-- Claim C23: for a proxy whose path `P` starts with `'/'`: when the absolute form
of a path does not start with `P` and a `'/'` (`P` alone when `P` is `"/"`) or
ends with `'/'`, `GetChild` returns NULL and `RemoveChild` returns
`ER_BUS_BAD_CHILD_PATH` with the tree unchanged; when the path of a child does,
`AddChild` returns `ER_BUS_BAD_CHILD_PATH` with the tree unchanged. The
absolute form of a path that starts with `'/'` is the path, that of another
path is the path appended to `P` and a `'/'`, and that of the empty path ends
with `'/'`. -/
theorem C23_bad_child_path (bus : BusAttachment) (self child : ProxyBusObject) (inPath : String)
    (hroot : self.internal.path.data.head? = some '/') :
    (((∀ t, absolutePath self.internal.path inPath ≠ pathSlash self.internal.path ++ t) ∨
        (absolutePath self.internal.path inPath).getLast? = some '/') →
      self.GetChild inPath = some none ∧
        self.RemoveChild inPath = some (QStatus.ER_BUS_BAD_CHILD_PATH, self)) ∧
      (((∀ t, child.GetPath.data ≠ pathSlash self.internal.path ++ t) ∨
          child.GetPath.data.getLast? = some '/') →
        self.AddChild bus child = some (QStatus.ER_BUS_BAD_CHILD_PATH, self)) ∧
      (inPath.data.head? = some '/' → absolutePath self.internal.path inPath = inPath.data) ∧
      (inPath.data.head? ≠ some '/' →
        absolutePath self.internal.path inPath = pathSlash self.internal.path ++ inPath.data) ∧
      (absolutePath self.internal.path "").getLast? = some '/' := by
  refine ⟨?_, ?_, ProxyBusObject.absolutePath_of_slash _ _,
    ProxyBusObject.absolutePath_relative _ _, ?_⟩
  · intro h
    have hb := (badChildPath_true _ _).mpr h
    rw [ProxyBusObject.GetChild_eq, ProxyBusObject.RemoveChild_eq, if_pos hb, if_pos hb]
    exact ⟨rfl, rfl⟩
  · intro h
    have hb := (badChildPath_true _ _).mpr h
    rw [ProxyBusObject.AddChild_eq bus self child hroot, if_pos hb]
  · rw [ProxyBusObject.absolutePath_relative _ _ (by decide)]
    show (pathSlash self.internal.path ++ []).getLast? = some '/'
    rw [List.append_nil]
    exact pathSlash_getLast _

/-- Claim C23, at the proxy `/foo` with children: the paths `/fo/bar` and `bar/`, and
a child at `/foo`. -/
theorem C23_bad_child_path_witness :
    scenarioTree.GetChild "/fo/bar" = some none ∧
      scenarioTree.RemoveChild "/fo/bar" = some (QStatus.ER_BUS_BAD_CHILD_PATH, scenarioTree) ∧
      scenarioTree.GetChild "bar/" = some none ∧
      scenarioTree.RemoveChild "bar/" = some (QStatus.ER_BUS_BAD_CHILD_PATH, scenarioTree) ∧
      scenarioTree.AddChild busOk scenarioTreeRoot =
        some (QStatus.ER_BUS_BAD_CHILD_PATH, scenarioTree) := by
  have h1 := (C23_bad_child_path busOk scenarioTree scenarioTreeRoot "/fo/bar" (by decide)).1
    ((badChildPath_true _ _).mp (by decide))
  have h2 := C23_bad_child_path busOk scenarioTree scenarioTreeRoot "bar/" (by decide)
  have h3 := h2.1 (Or.inr (by decide))
  have h4 := h2.2.1 ((badChildPath_true _ _).mp (by decide))
  exact ⟨h1.1, h1.2, h3.1, h3.2, h4⟩

/-- Claim C27: `RemoveChild` returns for every path and every child tree, with one of
the statuses `ER_OK`, `ER_BUS_OBJ_NOT_FOUND` and `ER_BUS_BAD_CHILD_PATH`, never
`ER_FAIL`; and for a path that passes the sanity check the loop, started at any
proxy and any position of the path, returns one of the first two when it is
given more iterations than the path has characters after the position. -/
theorem C27_RemoveChild_terminates (self : ProxyBusObject) (inPath : String) :
    ∃ st self2, self.RemoveChild inPath = some (st, self2) ∧
      (st = QStatus.ER_OK ∨ st = QStatus.ER_BUS_OBJ_NOT_FOUND ∨
        st = QStatus.ER_BUS_BAD_CHILD_PATH) ∧
      st ≠ QStatus.ER_FAIL ∧
      (badChildPath (pathSlash self.internal.path)
          (absolutePath self.internal.path inPath) = false →
        ∀ (fuel : Nat) (cur : ProxyBusObject) (idx : Nat),
          idx ≤ (absolutePath self.internal.path inPath).length →
          (absolutePath self.internal.path inPath).length < fuel + idx →
          ∃ st3 cur3,
            ProxyBusObject.removeChildLoop (absolutePath self.internal.path inPath) fuel cur idx =
              some (st3, cur3) ∧
            (st3 = QStatus.ER_OK ∨ st3 = QStatus.ER_BUS_OBJ_NOT_FOUND)) := by
  have hloop : badChildPath (pathSlash self.internal.path)
      (absolutePath self.internal.path inPath) = false →
      ∀ (fuel : Nat) (cur : ProxyBusObject) (idx : Nat),
        idx ≤ (absolutePath self.internal.path inPath).length →
        (absolutePath self.internal.path inPath).length < fuel + idx →
        ∃ st3 cur3,
          ProxyBusObject.removeChildLoop (absolutePath self.internal.path inPath) fuel cur idx =
            some (st3, cur3) ∧
          (st3 = QStatus.ER_OK ∨ st3 = QStatus.ER_BUS_OBJ_NOT_FOUND) := by
    intro hb fuel cur idx h1 h2
    obtain ⟨_, hend⟩ := (badChildPath_false _ _).mp hb
    exact ⟨_, _, ProxyBusObject.removeChildLoop_eq _ hend fuel cur idx h1 h2,
      ProxyBusObject.removeAlong_status _ cur (pathItems_ne_nil _ _)⟩
  rw [ProxyBusObject.RemoveChild_eq]
  by_cases hbad : badChildPath (pathSlash self.internal.path)
      (absolutePath self.internal.path inPath) = true
  · rw [if_pos hbad]
    exact ⟨_, _, rfl, Or.inr (Or.inr rfl), by decide, hloop⟩
  · rw [if_neg hbad]
    have hs := ProxyBusObject.removeAlong_status
      (pathItems (absolutePath self.internal.path inPath) (self.internal.path.length + 1)) self
      (pathItems_ne_nil _ _)
    refine ⟨_, _, rfl, ?_, ?_, hloop⟩
    · rcases hs with hs | hs
      · exact Or.inl hs
      · exact Or.inr (Or.inl hs)
    · rcases hs with hs | hs
      · rw [hs]
        decide
      · rw [hs]
        decide

/-- Claim C22, at the proxy `/foo` with the children `/foo/bar`, which has the child
`/foo/bar/baz`, and `/foo/qux`: the removal of `bar`. -/
theorem C22_RemoveChild_and_duplicate_witness :
    scenarioTree.Distinct ∧
      (∃ self2, scenarioTree.RemoveChild "bar" = some (QStatus.ER_OK, self2) ∧
        self2.GetChild "bar" = some none ∧
        self2.GetChild "bar/baz" = some none ∧
        self2.GetChild "qux" = scenarioTree.GetChild "qux") ∧
      scenarioTree.RemoveChild "baz" = some (QStatus.ER_BUS_OBJ_NOT_FOUND, scenarioTree) := by
  have h := C22_RemoveChild_and_duplicate busOk scenarioTree "bar" (by decide)
    scenarioTree_distinct ⟨"bar".data, by decide⟩ (by decide)
  have h2 := C22_RemoveChild_and_duplicate busOk scenarioTree "baz" (by decide)
    scenarioTree_distinct ⟨"baz".data, by decide⟩ (by decide)
  obtain ⟨self2, k1, _, _, k4, k5, k6⟩ := h.1 _ rfl
  refine ⟨scenarioTree_distinct, ⟨self2, k1, k4, k5 "bar/baz" ⟨"baz".data, by decide⟩, ?_⟩,
    h2.2.1 rfl⟩
  exact (k6 "qux" (by decide)
    (fun rest => ne_append_of_take "/foo/qux".data "/foo/bar".data 6 (by decide) (by decide)
      ('/' :: rest))).2
    (fun rest => ne_append_of_take "/foo/bar".data "/foo/qux".data 6 (by decide) (by decide)
      ('/' :: rest))

/-- Claim C30: on a bus that has the property-access interface registered, for
a proxy with caching off, no cache, and no match-rule record for a bound
interface that has cacheable properties: `EnablePropertyCaching` returns; it
sets the caching flag and leaves the interface map; afterwards a name has a
cache exactly when it is bound to a descriptor with a cacheable property, and
the cache is the freshly constructed one, which is not enabled; when the bus
accepts every `AddMatchAsync` call the record of each such name holds one
reference, and no reference is held for such a name when the bus rejects the
`AddMatchAsync` call for its rule; the records of the other names are as
before; and a second call returns the state unchanged. In every state with the
caching flag set the call returns the state unchanged. -/
theorem C30_EnablePropertyCaching_idempotent (bus : BusAttachment) (w : Sys)
    (hP : (bus.GetInterface org.freedesktop.DBus.Properties.InterfaceName).isSome = true)
    (hoff : w.pbo.cacheProperties = false)
    (hcaches : ∀ n, w.pbo.caches.find n = none)
    (hord : w.pbo.ifaces.Ordered)
    (hrec : ∀ n d, w.pbo.ifaces.find n = some d → d.HasCacheableProperties = true →
      w.record n = none) :
    ∃ w2, w.EnablePropertyCaching bus = some w2 ∧
      w2.pbo.cacheProperties = true ∧ w2.pbo.ifaces = w.pbo.ifaces ∧
      (∀ n, w2.pbo.caches.find n =
        (w.pbo.ifaces.find n).bind
          (fun d => if d.HasCacheableProperties then some (CachedProps.ctor d) else none)) ∧
      (∀ n c, w2.pbo.caches.find n = some c → c.enabled = false) ∧
      ((∀ rule, bus.AddMatchAsync rule = QStatus.ER_OK) →
        ∀ n d, w.pbo.ifaces.find n = some d → d.HasCacheableProperties = true →
          w2.record n = some { adding := true, refCount := 1 }) ∧
      (∀ n d, w.pbo.ifaces.find n = some d → d.HasCacheableProperties = true →
        bus.AddMatchAsync (propertiesChangedRule n) ≠ QStatus.ER_OK →
          ∀ r, w2.record n = some r → r.refCount = 0) ∧
      (∀ n, (∀ d, w.pbo.ifaces.find n = some d → d.HasCacheableProperties = false) →
        w2.record n = w.record n) ∧
      w2.EnablePropertyCaching bus = some w2 ∧
      (∀ w3 : Sys, w3.pbo.cacheProperties = true → w3.EnablePropertyCaching bus = some w3) := by
  have hnd := StrMap.Ordered.nodup hord
  have hidem : ∀ w3 : Sys, w3.pbo.cacheProperties = true →
      w3.EnablePropertyCaching bus = some w3 := by
    intro w3 h3
    unfold Sys.EnablePropertyCaching
    rw [h3]
    rfl
  have hnames := Sys.ifcNames_nodup w.pbo.ifaces hnd
  obtain ⟨w2, h2, hc2, hf2, hi2, ho2, hok2, hrej2⟩ := Sys.addRules_spec bus hP
    ((w.pbo.ifaces.filter (fun kv => kv.2.HasCacheableProperties)).map Prod.fst)
    ({ w with pbo := { w.pbo with
      cacheProperties := true, caches := Sys.seedCaches w.pbo.ifaces w.pbo.caches } } : Sys)
    hnames (by
      intro n hn
      obtain ⟨d, hd, hc⟩ := (Sys.mem_ifcNames w.pbo.ifaces hnd n).mp hn
      exact hrec n d hd hc)
  have hcache : ∀ n, w2.pbo.caches.find n =
      (w.pbo.ifaces.find n).bind
        (fun d => if d.HasCacheableProperties then some (CachedProps.ctor d) else none) := by
    intro n
    rw [hc2]
    exact Sys.seedCaches_new w.pbo.ifaces w.pbo.caches n (hcaches n) hnd
  have hflag : w2.pbo.cacheProperties = true := hf2
  refine ⟨w2, ?_, hflag, hi2, hcache, ?_, ?_, ?_, ?_, hidem w2 hflag, hidem⟩
  · unfold Sys.EnablePropertyCaching
    rw [hoff]
    exact h2
  · intro n c hc
    rw [hcache n] at hc
    cases hf : w.pbo.ifaces.find n with
    | none =>
      rw [hf] at hc
      exact Option.noConfusion hc
    | some d =>
      rw [hf] at hc
      simp only [Option.some_bind] at hc
      by_cases hcb : d.HasCacheableProperties = true
      · rw [if_pos hcb] at hc
        rw [← Option.some.inj hc]
        rfl
      · rw [if_neg hcb] at hc
        exact Option.noConfusion hc
  · intro hbus n d hd hcb
    exact hok2 hbus n ((Sys.mem_ifcNames w.pbo.ifaces hnd n).mpr ⟨d, hd, hcb⟩)
  · intro n d hd hcb hbus
    exact hrej2 n ((Sys.mem_ifcNames w.pbo.ifaces hnd n).mpr ⟨d, hd, hcb⟩) hbus
  · intro n hn
    have hnot : n ∉ (w.pbo.ifaces.filter (fun kv => kv.2.HasCacheableProperties)).map
        Prod.fst := by
      intro hmem
      obtain ⟨d, hd, hc⟩ := (Sys.mem_ifcNames w.pbo.ifaces hnd n).mp hmem
      rw [hn d hd] at hc
      exact Bool.noConfusion hc
    exact ho2 n hnot

/-- Claim C30, on the scenario bus, for the fresh proxy after `AddInterface`
for `X`. -/
theorem C30_EnablePropertyCaching_idempotent_witness :
    Sys.bindOps busOk (Sys.fresh "/obj" "org.example" false)
        [BindOp.addInterface scenarioX] = some scenarioBound ∧
      scenarioBound.pbo.cacheProperties = false ∧
      ∃ w2, scenarioBound.EnablePropertyCaching busOk = some w2 ∧
        w2.pbo.cacheProperties = true ∧
        w2.pbo.caches.find "X" = some (CachedProps.ctor scenarioX) ∧
        w2.record "X" = some { adding := true, refCount := 1 } ∧
        w2.EnablePropertyCaching busOk = some w2 := by
  refine ⟨rfl, rfl, ?_⟩
  obtain ⟨w2, h1, h2, _, h4, _, h6, _, _, h8, _⟩ :=
    C30_EnablePropertyCaching_idempotent busOk scenarioBound (by decide) rfl (fun _ => rfl)
      (by unfold StrMap.Ordered; decide) (fun _ _ _ _ => rfl)
  exact ⟨w2, h1, h2, h4 "X", h6 (fun _ => rfl) "X" scenarioX rfl (by decide), h8⟩

/-- Claim C30 (counterexamples to the description of the first call): for the
fresh proxy after `AddInterface` for `X`, with caching off. On a bus whose
`AddMatchAsync` fails the first call of `EnablePropertyCaching` sets the flag
and creates the cache of `X`, but no reference is held for `X` and no callback
is outstanding. On the scenario bus, after a listener has been registered for
`X`, so that the registry holds a completed record of `X` with one reference,
the first call acquires the second reference and the cache of `X` it creates is
enabled at once. -/
theorem C30_first_call_counterexample :
    (∃ w w2, Sys.bindOps busFail (Sys.fresh "/obj" "org.example" false)
        [BindOp.addInterface scenarioX] = some w ∧
      w.pbo.cacheProperties = false ∧
      w.pbo.ifaces.find "X" = some scenarioX ∧ scenarioX.HasCacheableProperties = true ∧
      w.EnablePropertyCaching busFail = some w2 ∧
      w2.pbo.cacheProperties = true ∧
      w2.pbo.caches.find "X" = some (CachedProps.ctor scenarioX) ∧
      (w2.record "X").map (fun r => r.refCount) = some 0 ∧
      w2.pending = []) ∧
    (∃ wL w2, Sys.bindOps busOk (Sys.fresh "/obj" "org.example" false)
        [BindOp.addInterface scenarioX] = some scenarioBound ∧
      scenarioBound.RegisterPropertiesChangedListener busOk "X" [] 1 100 =
        some (QStatus.ER_OK, wL) ∧
      wL.pbo.cacheProperties = false ∧ wL.pbo.caches.find "X" = none ∧
      wL.pbo.ifaces.find "X" = some scenarioX ∧
      wL.record "X" = some { adding := false, refCount := 1 } ∧
      wL.EnablePropertyCaching busOk = some w2 ∧
      w2.pbo.cacheProperties = true ∧
      (w2.pbo.caches.find "X").map (fun c => c.enabled) = some true ∧
      w2.record "X" = some { adding := false, refCount := 2 }) :=
  ⟨⟨_, _, rfl, rfl, rfl, by decide, rfl, rfl, rfl, rfl, rfl⟩,
    ⟨_, _, rfl, rfl, rfl, rfl, rfl, rfl, rfl, rfl, rfl, rfl⟩⟩

end ajn
